import Mathlib

/-! # Stereo depth estimator: the image stages and their contracts

A shallow embedding of the image-processing stages of the depth estimator
(`src/simpleDepthEstimator.cpp`, and the OpenCL kernels embedded in
`src/CLDepthEstimator2.cpp`) together with theorems about them.

Conventions of the embedding.

* A buffer of `unsigned char` is a `List Nat`, byte `k` of the buffer being
  element `k` of the list; a `w × h` image is stored row-major, pixel `(x, y)`
  at index `x + y * w`.
* `uint32_t` arithmetic wraps modulo `2 ^ 32` (`u32`), a store into an
  `unsigned char` keeps the value modulo `256` (`u8`), and a cast
  `(int32_t) e` of an unsigned value is the two's complement reading (`i32`).
* Arithmetic on `int32_t` loop counters is done in `ℤ`: signed overflow is undefined in C,
  and an image (`IsImage`) has fewer than `2 ^ 31` pixels, so that its indices fit the counters.
  A window loop `for (m = i - (int32_t) radius; m <= i + (int32_t) radius; m++)` stays inside
  `int32_t` when `i + radius + 1 < 2 ^ 31`; the theorems about the values of a window of
  `occlusionFill` assume it.
* `float` arithmetic is a parameter of the stages (`FloatOps`). The arithmetic of the code is
  `f32Ops`, IEEE binary32 with every operation rounded to nearest, for the OpenCL kernels and
  for the CPU stages that use `float` only, and `cpuOps` for the CPU reference as a whole: it
  agrees with `f32Ops` on `float` operands and carries out in binary64 the `sqrt` calls of
  `calcDisparity` and what is computed from them. `realOps` is not the arithmetic of the code:
  it carries the operations out exactly over the reals, with NaN and the infinities as IEEE has
  them, and serves as the reference against which the rounded sums are compared.
* A stage that writes `out[j + i * w]` for `i < h`, `j < w` yields the list of
  the written bytes in index order (`raster`).
-/

set_option autoImplicit false

/-! ## Machine integers and buffers -/

/-- Value of a `uint32_t` expression: unsigned arithmetic wraps modulo `2 ^ 32`. -/
def u32 (n : Nat) : Nat := n % 2 ^ 32

/-- Value kept by a store into an `unsigned char`. -/
def u8 (n : Nat) : Nat := n % 256

/-- The cast `(int32_t) n` of a `uint32_t` value (two's complement). -/
def i32 (n : Nat) : Int :=
  if n % 2 ^ 32 < 2 ^ 31 then ((n % 2 ^ 32 : Nat) : Int) else ((n % 2 ^ 32 : Nat) : Int) - 2 ^ 32

/-- Conversion of a signed value to `uint32_t`, as done by the usual arithmetic
conversions when an `int` meets a `uint32_t` operand. -/
def toU32 (z : Int) : Nat := (z % 2 ^ 32).toNat

/-- The read `img[k]` of a byte buffer. -/
def rd (img : List Nat) (k : Nat) : Nat := img.getD k 0

/-- The counter values of `for (uint32_t m = lo; m < hi; m++)`. -/
def forLt (lo hi : Nat) : List Nat := List.range' lo (hi - lo)

/-- The counter values of `for (int32_t m = lo; m <= hi; m++)`. -/
def forIncl (lo hi : Int) : List Int :=
  (List.range (hi + 1 - lo).toNat).map (fun (k : Nat) => lo + (k : Int))

/-- The bytes written by `for i < h, for j < w : out[j + i * w] = f i j`, in index order. -/
def raster {α : Type} (h w : Nat) (f : Nat → Nat → α) : List α :=
  (List.range h).flatMap (fun i => (List.range w).map (fun j => f i j))

/-- A `w × h` single-channel image of the program: `w * h` bytes of type `unsigned char`.
The program sizes its buffers with the product `w * h` taken in `uint32_t` and walks them
with `int32_t` counters; an image is a buffer all of whose pixel indices fit these. -/
def IsImage (img : List Nat) (w h : Nat) : Prop :=
  img.length = w * h ∧ w * h < 2 ^ 31 ∧ ∀ p ∈ img, p < 256

instance (img : List Nat) (w h : Nat) : Decidable (IsImage img w h) := by
  unfold IsImage; infer_instance

namespace SimpleDepthEstimator

/-! ## `downsampleImg` -/

/-- Body of the two outer loops of `downsampleImg`: the byte stored at `out[j + i * w]`.
The division by `factor * factor` is undefined in C when that product wraps to `0` (here
the quotient is then `0`); the theorems assume a factor for which it does not. -/
def downsamplePixel (img : List Nat) (width factor i j : Nat) : Nat :=
  let I := u32 (i * factor)
  let J := u32 (j * factor)
  let val := (forLt I (u32 (I + factor))).foldl (fun val m =>
    (forLt J (u32 (J + factor))).foldl (fun val n =>
      u32 (val + rd img (u32 (n + u32 (m * width))))) val) 0
  u8 (val / u32 (factor * factor))

/-- Model of `SimpleDepthEstimator::downsampleImg` (for `factor ≥ 1`; `width / 0` is undefined
in C). -/
def downsampleImg (img : List Nat) (width height factor : Nat) : List Nat :=
  let w := width / factor
  let h := height / factor
  raster h w (fun i j => downsamplePixel img width factor i j)

/-- Specification side: the sum `S` of the `F × F` input block whose top-left corner is
`(j * F, i * F)`. -/
def blockSum (img : List Nat) (width F i j : Nat) : Nat :=
  ((List.range F).map (fun dm =>
    ((List.range F).map (fun dn => rd img ((j * F + dn) + (i * F + dm) * width))).sum)).sum

/-! ## `filterImg` -/

/-- Body of the two outer loops of `filterImg`: the byte stored at `out[j + i * width]`. -/
def filterPixel (img : List Nat) (width height radius : Nat) (i j : Int) : Nat :=
  let val := (forIncl (i - i32 radius) (i + i32 radius)).foldl (fun val m =>
    (forIncl (j - i32 radius) (j + i32 radius)).foldl (fun val n =>
      if 0 ≤ m ∧ m < i32 height ∧ 0 ≤ n ∧ n < i32 width then
        u32 (val + rd img (toU32 (n + m * (width : Int))))
      else val) val) 0
  let d := u32 (radius * 2 + 1)
  u8 (val / u32 (d * d))

/-- Model of `SimpleDepthEstimator::filterImg`. -/
def filterImg (img : List Nat) (width height radius : Nat) : List Nat :=
  raster (i32 height).toNat (i32 width).toNat
    (fun i j => filterPixel img width height radius (i : Int) (j : Int))

/-- Specification side: pixel `(x, y)` of a `w × h` image, `0` outside the image. -/
def pixelAt (img : List Nat) (w h : Nat) (x y : Int) : Nat :=
  if 0 ≤ x ∧ x < (w : Int) ∧ 0 ≤ y ∧ y < (h : Int) then rd img (x.toNat + y.toNat * w) else 0

/-- Specification side: the sum `S` of the `(2R+1) × (2R+1)` window centred on `(x, y)`, cells
outside the image adding `0`. -/
def windowSum (img : List Nat) (w h R : Nat) (x y : Nat) : Nat :=
  ((List.range (2 * R + 1)).map (fun (dy : Nat) =>
    ((List.range (2 * R + 1)).map (fun (dx : Nat) =>
      pixelAt img w h ((x : Int) + (dx : Int) - (R : Int)) ((y : Int) + (dy : Int) - (R : Int)))).sum)).sum

end SimpleDepthEstimator


/-! ## Floating point -/

/-- The operations on `float` values that the stages use. The stages are written over an
arbitrary implementation of them; `ofInt` is the conversion of an integer to `float` and
`toU8` the conversion of a `float` to `unsigned char`, `none` where C leaves it undefined. -/
structure FloatOps (F : Type) where
  ofInt : Int → F
  add : F → F → F
  mul : F → F → F
  div : F → F → F
  sqrt : F → F
  gt : F → F → Bool
  toU8 : F → Option Nat

/-- A `float` value in exact arithmetic: a real number, an infinity (`inf true` is `-∞`)
or NaN. Rounding and the sign of zero are not represented. -/
inductive FVal where
  | nan : FVal
  | fin (x : ℝ) : FVal
  | inf (neg : Bool) : FVal

namespace FVal

/-- IEEE addition in exact arithmetic. -/
noncomputable def add : FVal → FVal → FVal
  | fin x, fin y => fin (x + y)
  | fin _, inf s => inf s
  | inf s, fin _ => inf s
  | inf s, inf t => if s = t then inf s else nan
  | _, _ => nan

/-- IEEE multiplication in exact arithmetic. -/
noncomputable def mul : FVal → FVal → FVal
  | fin x, fin y => fin (x * y)
  | fin x, inf s => if x = 0 then nan else inf (xor (decide (x < 0)) s)
  | inf s, fin y => if y = 0 then nan else inf (xor s (decide (y < 0)))
  | inf s, inf t => inf (xor s t)
  | _, _ => nan

/-- IEEE division in exact arithmetic: `0 / 0` is NaN, `x / 0` an infinity. -/
noncomputable def div : FVal → FVal → FVal
  | fin x, fin y =>
    if y = 0 then (if x = 0 then nan else inf (decide (x < 0))) else fin (x / y)
  | fin _, inf _ => fin 0
  | inf s, fin y => inf (xor s (decide (y < 0)))
  | _, _ => nan

/-- IEEE square root in exact arithmetic. -/
noncomputable def sqrt : FVal → FVal
  | fin x => if x < 0 then nan else fin (Real.sqrt x)
  | inf false => inf false
  | _ => nan

/-- The comparison `a > b`: false as soon as one side is NaN. -/
noncomputable def gt : FVal → FVal → Bool
  | fin x, fin y => decide (y < x)
  | inf false, fin _ => true
  | inf false, inf true => true
  | fin _, inf true => true
  | _, _ => false

/-- The comparison `a >= b`: false as soon as one side is NaN. -/
noncomputable def ge : FVal → FVal → Bool
  | fin x, fin y => decide (y ≤ x)
  | inf false, fin _ => true
  | inf false, inf _ => true
  | fin _, inf true => true
  | inf true, inf true => true
  | _, _ => false

/-- Whether the value is NaN. -/
def isNaN : FVal → Bool
  | nan => true
  | _ => false

/-- The conversion to `unsigned char`: the value truncated toward zero when that fits the
type, undefined otherwise (also for NaN and the infinities). -/
noncomputable def toU8 : FVal → Option Nat
  | fin x => if -1 < x ∧ x < 256 then some ⌊x⌋₊ else none
  | _ => none

end FVal

/-- Float arithmetic carried out exactly over the reals, with the IEEE special values: the
reference that the rounded arithmetic of the code (`f32Ops`, `cpuOps`) is compared with, not
that arithmetic itself. -/
noncomputable def realOps : FloatOps FVal where
  ofInt z := FVal.fin (z : ℝ)
  add := FVal.add
  mul := FVal.mul
  div := FVal.div
  sqrt := FVal.sqrt
  gt := FVal.gt
  toU8 := FVal.toU8

/-- Integer square root, by search. -/
def isqrt (n : Nat) : Nat := ((List.range (n + 1)).filter (fun k => k * k ≤ n)).length - 1

/-- A computable stand-in for `float`: integers, with truncating division and square root. -/
def intOps : FloatOps Int where
  ofInt z := z
  add := (· + ·)
  mul := (· * ·)
  div := (· / ·)
  sqrt z := (isqrt z.toNat : Int)
  gt a b := decide (b < a)
  toU8 z := if 0 ≤ z ∧ z < 256 then some z.toNat else none

/-! ## The disparity stage -/

/-- The loop over the candidates `d` of the disparity stage, from candidate `d` with `k`
iterations left. The state is `(top_zncc, disparity)`; `stop d` is the test of the `break`,
`zncc d` the value `temp_zncc` computed for candidate `d`. -/
def disparityScan {F : Type} (ops : FloatOps F) (stop : Nat → Bool) (zncc : Nat → F) :
    Nat → Nat → F × Nat → F × Nat
  | 0, _, s => s
  | k + 1, d, s =>
    if stop d then s
    else if ops.gt (zncc d) s.1 then disparityScan ops stop zncc k (d + 1) (zncc d, u8 d)
    else disparityScan ops stop zncc k (d + 1) s

namespace SimpleDepthEstimator

/-- The two window loops of `calcDisparity` for candidate `d` at row `i`, column `j`:
the final `(numer, denom_0, denom_1)`. -/
def znccSums {F : Type} (ops : FloatOps F) (img_0 img_1 mean_0 mean_1 : List Nat)
    (width height radius : Nat) (direction : Int) (i j : Int) (d : Nat) : F × F × F :=
  (forIncl (i - i32 radius) (i + i32 radius)).foldl (fun acc m =>
    (forIncl (j - i32 radius) (j + i32 radius)).foldl (fun acc n =>
      if 0 ≤ m ∧ m < i32 height ∧ 0 ≤ n + direction * d ∧ n + direction * d < i32 width ∧
          0 ≤ n ∧ n < i32 width then
        let std_0 := ops.ofInt ((rd img_0 (toU32 (n + m * (width : Int))) : Int)
          - (rd mean_0 (toU32 (j + i * (width : Int))) : Int))
        let std_1 := ops.ofInt ((rd img_1 (toU32 (n + m * (width : Int) + direction * d)) : Int)
          - (rd mean_1 (toU32 (j + i * (width : Int) + direction * d)) : Int))
        (ops.add acc.1 (ops.mul std_0 std_1), ops.add acc.2.1 (ops.mul std_0 std_0),
          ops.add acc.2.2 (ops.mul std_1 std_1))
      else acc) acc) (ops.ofInt 0, ops.ofInt 0, ops.ofInt 0)

/-- The value `temp_zncc` of `calcDisparity` for candidate `d` at row `i`, column `j`. -/
def znccAt {F : Type} (ops : FloatOps F) (img_0 img_1 mean_0 mean_1 : List Nat)
    (width height radius : Nat) (direction : Int) (i j : Int) (d : Nat) : F :=
  let s := znccSums ops img_0 img_1 mean_0 mean_1 width height radius direction i j d
  ops.div s.1 (ops.mul (ops.sqrt s.2.1) (ops.sqrt s.2.2))

/-- The test of the `break` of `calcDisparity` for candidate `d` at column `j`. -/
def scanStop (width : Nat) (direction : Int) (j : Int) (d : Nat) : Bool :=
  decide (j + direction * d < 0 ∨ i32 width ≤ j + direction * d)

/-- Body of the two outer loops of `calcDisparity`: the final `(top_zncc, disparity)` at row
`i`, column `j`. -/
def calcDisparityState {F : Type} (ops : FloatOps F) (img_0 img_1 mean_0 mean_1 : List Nat)
    (width height radius maxDisparity : Nat) (direction : Int) (i j : Int) : F × Nat :=
  disparityScan ops (scanStop width direction j)
    (znccAt ops img_0 img_1 mean_0 mean_1 width height radius direction i j)
    (i32 maxDisparity).toNat 0 (ops.ofInt (-1), 0)

/-- The byte stored at `out[j + i * width]` by `calcDisparity`. -/
def calcDisparityPixel {F : Type} (ops : FloatOps F) (img_0 img_1 mean_0 mean_1 : List Nat)
    (width height radius maxDisparity : Nat) (direction : Int) (i j : Int) : Nat :=
  (calcDisparityState ops img_0 img_1 mean_0 mean_1 width height radius maxDisparity
    direction i j).2

/-- Model of `SimpleDepthEstimator::calcDisparity`. -/
def calcDisparity {F : Type} (ops : FloatOps F) (img_0 img_1 mean_0 mean_1 : List Nat)
    (width height radius maxDisparity : Nat) (direction : Int) : List Nat :=
  raster (i32 height).toNat (i32 width).toNat (fun i j =>
    calcDisparityPixel ops img_0 img_1 mean_0 mean_1 width height radius maxDisparity
      direction (i : Int) (j : Int))

end SimpleDepthEstimator

namespace CLDepthEstimator2

/-! ## The OpenCL kernels

A kernel is modelled by what one work-item does: the store of work-item `(m, n)`,
`m = get_global_id(0)` the column and `n = get_global_id(1)` the row. The dimensions and
the radius are `uint` arguments; an `int` operand that meets one is converted to `uint`
(`toU32`) before the operation. -/

/-- The counter values of `for (int i = lo; i <= hi; i++)` when `hi` is a `uint`
expression: the test compares `(uint) i` with `hi`, so a loop that starts at a negative `lo`
(a large `uint`) does not run for a small `hi`. The list is exact for `hi < 2 ^ 31`, where
the counter neither overflows nor wraps as a `uint`. -/
def forInclU (lo : Int) (hi : Nat) : List Int :=
  if toU32 lo ≤ hi then (List.range (hi + 1 - toU32 lo)).map (fun (k : Nat) => lo + (k : Int))
  else []

/-- The two window loops of the `disparity` kernel for candidate `d` in work-item `(m, n)`:
the final `(numer, denom_0, denom_1)`. -/
def znccSums {F : Type} (ops : FloatOps F) (img_0 img_1 mean_0 mean_1 : List Nat)
    (width height radius : Nat) (direction : Int) (m n : Int) (d : Nat) : F × F × F :=
  (forInclU (i32 (toU32 (n - (radius : Int)))) (toU32 (n + (radius : Int)))).foldl (fun acc i =>
    (forInclU (i32 (toU32 (m - (radius : Int)))) (toU32 (m + (radius : Int)))).foldl (fun acc j =>
      if 0 ≤ i ∧ toU32 i < height ∧ 0 ≤ j + direction * d ∧ toU32 (j + direction * d) < width ∧
          0 ≤ j ∧ toU32 j < width then
        let std_0 := ops.ofInt ((rd img_0 (toU32 (j + i * (width : Int))) : Int)
          - (rd mean_0 (toU32 (m + n * (width : Int))) : Int))
        let std_1 := ops.ofInt ((rd img_1 (toU32 (j + i * (width : Int) + direction * d)) : Int)
          - (rd mean_1 (toU32 (m + n * (width : Int) + direction * d)) : Int))
        (ops.add acc.1 (ops.mul std_0 std_1), ops.add acc.2.1 (ops.mul std_0 std_0),
          ops.add acc.2.2 (ops.mul std_1 std_1))
      else acc) acc) (ops.ofInt 0, ops.ofInt 0, ops.ofInt 0)

/-- The value `temp_zncc` of the `disparity` kernel for candidate `d` in work-item `(m, n)`. -/
def znccAt {F : Type} (ops : FloatOps F) (img_0 img_1 mean_0 mean_1 : List Nat)
    (width height radius : Nat) (direction : Int) (m n : Int) (d : Nat) : F :=
  let s := znccSums ops img_0 img_1 mean_0 mean_1 width height radius direction m n d
  ops.div s.1 (ops.mul (ops.sqrt s.2.1) (ops.sqrt s.2.2))

/-- The test of the `break` of the `disparity` kernel for candidate `d` in column `m`. -/
def scanStop (width : Nat) (direction : Int) (m : Int) (d : Nat) : Bool :=
  decide (m + direction * d < 0 ∨ width ≤ toU32 (m + direction * d))

/-- The final `(top_zncc, disparity)` of work-item `(m, n)` of the `disparity` kernel. -/
def disparityState {F : Type} (ops : FloatOps F) (img_0 img_1 mean_0 mean_1 : List Nat)
    (width height radius maxDisparity : Nat) (direction : Int) (m n : Int) : F × Nat :=
  disparityScan ops (scanStop width direction m)
    (znccAt ops img_0 img_1 mean_0 mean_1 width height radius direction m n)
    maxDisparity 0 (ops.ofInt (-1), 0)

/-- The byte stored at `out[m + n * width]` by work-item `(m, n)` of the `disparity` kernel. -/
def disparityPixel {F : Type} (ops : FloatOps F) (img_0 img_1 mean_0 mean_1 : List Nat)
    (width height radius maxDisparity : Nat) (direction : Int) (m n : Int) : Nat :=
  (disparityState ops img_0 img_1 mean_0 mean_1 width height radius maxDisparity
    direction m n).2

/-- The store of work-item `(m, n)` of the `disparity` kernel: the index and the byte, or
`none` for a work-item outside the image. -/
def disparityItem {F : Type} (ops : FloatOps F) (img_0 img_1 mean_0 mean_1 : List Nat)
    (width height radius maxDisparity : Nat) (direction : Int) (m n : Nat) :
    Option (Nat × Nat) :=
  if toU32 (m : Int) < width ∧ toU32 (n : Int) < height then
    some (toU32 ((m : Int) + (n : Int) * (width : Int)),
      disparityPixel ops img_0 img_1 mean_0 mean_1 width height radius maxDisparity
        direction (m : Int) (n : Int))
  else none

end CLDepthEstimator2

/-! ## The winner of the disparity scan -/

/-- The candidates the scan goes through: the `d < D` before the first `break`. -/
def Scanned (stop : Nat → Bool) (D : Nat) (d : Nat) : Prop :=
  d < D ∧ ∀ e, e ≤ d → stop e = false

/-- Specification side: what the winner of the scan needs of the comparison `>` of a
floating-point arithmetic, `isNaN` telling which of its values are NaN. A NaN compares false
on either side; on the other values `>` is a strict order, and a value that is not above `c`
is below every value that is above `c`. -/
structure IEEEOrder {F : Type} (ops : FloatOps F) (isNaN : F → Bool) : Prop where
  nan_left : ∀ a b, isNaN a = true → ops.gt a b = false
  nan_right : ∀ a b, isNaN b = true → ops.gt a b = false
  irrefl : ∀ a, ops.gt a a = false
  trans : ∀ a b c, ops.gt a b = true → ops.gt b c = true → ops.gt a c = true
  below : ∀ a b c, ops.gt a c = false → ops.gt b c = true →
    isNaN a = true ∨ ops.gt b a = true

/-- The winner as the scan computes it: `0` when no scanned candidate has a ZNCC greater
than `-1`; otherwise a scanned candidate with a ZNCC greater than `-1` that no scanned
candidate exceeds, every scanned candidate before it having a ZNCC that is NaN or strictly
smaller. The ZNCC of a candidate is the value `zncc d` that the arithmetic `ops` computes
for it. -/
def ScanWinner {F : Type} (ops : FloatOps F) (isNaN : F → Bool) (stop : Nat → Bool)
    (zncc : Nat → F) (D : Nat) (dstar : Nat) : Prop :=
  ((∀ e, Scanned stop D e → ops.gt (zncc e) (ops.ofInt (-1)) = false) → dstar = 0) ∧
  ((∃ e, Scanned stop D e ∧ ops.gt (zncc e) (ops.ofInt (-1)) = true) →
    Scanned stop D dstar ∧ ops.gt (zncc dstar) (ops.ofInt (-1)) = true ∧
    (∀ e, Scanned stop D e → ops.gt (zncc e) (zncc dstar) = false) ∧
    (∀ e, Scanned stop D e → e < dstar →
      isNaN (zncc e) = true ∨ ops.gt (zncc dstar) (zncc e) = true))

/-- State of the scan before candidate `d`: either nothing was accepted, or the accepted
candidate `c` is the first of the best candidates among those below `d`. -/
def ScanInv {F : Type} (ops : FloatOps F) (isNaN : F → Bool) (zncc : Nat → F) (d : Nat)
    (s : F × Nat) : Prop :=
  (s = (ops.ofInt (-1), 0) ∧ ∀ e, e < d → ops.gt (zncc e) (ops.ofInt (-1)) = false) ∨
  (∃ c, c < d ∧ s = (zncc c, u8 c) ∧ ops.gt (zncc c) (ops.ofInt (-1)) = true ∧
    (∀ e, e < d → ops.gt (zncc e) (zncc c) = false) ∧
    (∀ e, e < c → isNaN (zncc e) = true ∨ ops.gt (zncc c) (zncc e) = true))

/-! ## Crosscheck -/

namespace SimpleDepthEstimator

/-- Model of `SimpleDepthEstimator::crossCheck`: the buffers `(left, right)` after the call. -/
def crossCheck (left right : List Nat) (width height maxDifference : Nat) :
    List Nat × List Nat :=
  (forLt 0 (u32 (width * height))).foldl (fun (s : List Nat × List Nat) i =>
    if (maxDifference : Int) < |(rd s.1 i : Int) - (rd s.2 i : Int)| then (s.1.set i 0, s.2)
    else s) (left, right)

end SimpleDepthEstimator

namespace CLDepthEstimator2

/-- Work-item `m` of the `crosscheck` kernel: the buffers `(left, right)` after it ran. -/
def crosscheckItem (left right : List Nat) (width height maxDifference : Nat) (m : Nat) :
    List Nat × List Nat :=
  if toU32 (m : Int) < u32 (width * height) then
    if maxDifference < toU32 |(rd left (toU32 (m : Int)) : Int) - (rd right (toU32 (m : Int)) : Int)|
    then (left.set (toU32 (m : Int)) 0, right)
    else (left, right)
  else (left, right)

end CLDepthEstimator2

/-! ## Occlusion fill -/

namespace SimpleDepthEstimator

/-- The two window loops of `occlusionFill` at row `i`, column `j`: the final
`(numer, denom)`. The bounds `i - (int32_t) radius`, `i + (int32_t) radius` and the counters
are `int32_t` in the source and integers here: the two agree where `i + (int32_t) radius + 1`
and `j + (int32_t) radius + 1` are below `2 ^ 31`, and beyond that the source overflows a
signed integer, which C leaves undefined. -/
def occlusionSums {F : Type} (ops : FloatOps F) (img : List Nat) (width height radius : Nat)
    (i j : Int) : F × Nat :=
  (forIncl (i - i32 radius) (i + i32 radius)).foldl (fun acc m =>
    (forIncl (j - i32 radius) (j + i32 radius)).foldl (fun acc n =>
      if 0 ≤ m ∧ m < i32 height ∧ 0 ≤ n ∧ n < i32 width then
        if rd img (toU32 (n + m * (width : Int))) > 0 then
          (ops.add acc.1 (ops.ofInt (rd img (toU32 (n + m * (width : Int))) : Int)),
            u32 (acc.2 + 1))
        else acc
      else acc) acc) (ops.ofInt 0, 0)

/-- Body of the two outer loops of `occlusionFill`: the byte stored at `out[j + i * width]`,
`none` when the conversion of `numer / denom` to `unsigned char` is undefined. -/
def occlusionPixel {F : Type} (ops : FloatOps F) (img : List Nat) (width height radius : Nat)
    (i j : Int) : Option Nat :=
  if rd img (toU32 (j + i * (width : Int))) > 0 then
    some (rd img (toU32 (j + i * (width : Int))))
  else
    let s := occlusionSums ops img width height radius i j
    ops.toU8 (ops.div s.1 (ops.ofInt (s.2 : Int)))

/-- Model of `SimpleDepthEstimator::occlusionFill`. -/
def occlusionFill {F : Type} (ops : FloatOps F) (img : List Nat) (width height radius : Nat) :
    List (Option Nat) :=
  raster (i32 height).toNat (i32 width).toNat
    (fun i j => occlusionPixel ops img width height radius (i : Int) (j : Int))

/-- Specification side: the number `k` of pixels of value `> 0` in the `(2Ro+1) × (2Ro+1)`
window centred on `(x, y)`. -/
def validCount (img : List Nat) (w h Ro : Nat) (x y : Nat) : Nat :=
  ((List.range (2 * Ro + 1)).map (fun (dy : Nat) =>
    ((List.range (2 * Ro + 1)).map (fun (dx : Nat) =>
      if pixelAt img w h ((x : Int) + (dx : Int) - (Ro : Int)) ((y : Int) + (dy : Int) - (Ro : Int)) > 0
      then 1 else 0)).sum)).sum

/-- Specification side: the sum `S` of the pixels of value `> 0` in the `(2Ro+1) × (2Ro+1)`
window centred on `(x, y)`. -/
def validSum (img : List Nat) (w h Ro : Nat) (x y : Nat) : Nat :=
  ((List.range (2 * Ro + 1)).map (fun (dy : Nat) =>
    ((List.range (2 * Ro + 1)).map (fun (dx : Nat) =>
      if pixelAt img w h ((x : Int) + (dx : Int) - (Ro : Int)) ((y : Int) + (dy : Int) - (Ro : Int)) > 0
      then pixelAt img w h ((x : Int) + (dx : Int) - (Ro : Int)) ((y : Int) + (dy : Int) - (Ro : Int))
      else 0)).sum)).sum

end SimpleDepthEstimator

namespace CLDepthEstimator2

/-- The two window loops of the `occlusion` kernel in work-item `(m, n)`: the final
`(numer, denom)`, `denom` an `int`. -/
def occlusionSums {F : Type} (ops : FloatOps F) (img : List Nat) (width height radius : Nat)
    (m n : Int) : F × Int :=
  (forInclU (i32 (toU32 (n - (radius : Int)))) (toU32 (n + (radius : Int)))).foldl (fun acc i =>
    (forInclU (i32 (toU32 (m - (radius : Int)))) (toU32 (m + (radius : Int)))).foldl (fun acc j =>
      if 0 ≤ i ∧ toU32 i < height ∧ 0 ≤ j ∧ toU32 j < width then
        if rd img (toU32 (j + i * (width : Int))) > 0 then
          (ops.add acc.1 (ops.ofInt (rd img (toU32 (j + i * (width : Int))) : Int)), acc.2 + 1)
        else acc
      else acc) acc) (ops.ofInt 0, 0)

/-- The store of work-item `(m, n)` of the `occlusion` kernel: the index and the byte (`none`
when the conversion of `numer / denom` to `uchar` is undefined), or `none` for a work-item
outside the image. -/
def occlusionItem {F : Type} (ops : FloatOps F) (img : List Nat) (width height radius : Nat)
    (m n : Nat) : Option (Nat × Option Nat) :=
  if toU32 (m : Int) < width ∧ toU32 (n : Int) < height then
    if rd img (toU32 ((m : Int) + (n : Int) * (width : Int))) > 0 then
      some (toU32 ((m : Int) + (n : Int) * (width : Int)),
        some (rd img (toU32 ((m : Int) + (n : Int) * (width : Int)))))
    else
      let s := occlusionSums ops img width height radius (m : Int) (n : Int)
      some (toU32 ((m : Int) + (n : Int) * (width : Int)),
        ops.toU8 (ops.div s.1 (ops.ofInt s.2)))
  else none

end CLDepthEstimator2

namespace SimpleDepthEstimator

/-- Specification side: the value crosscheck leaves in a cell that held `l` next to `r` in the
right map. -/
def crossValue (T l r : Nat) : Nat := if (T : Int) < |(l : Int) - (r : Int)| then 0 else l

end SimpleDepthEstimator

/-! ## Invariants of the window sums in exact arithmetic -/

/-- The accumulators of a window hold real numbers bound by the Cauchy-Schwarz inequality. -/
def CauchySchwarz (acc : FVal × FVal × FVal) : Prop :=
  ∃ a b c : ℝ, acc = (FVal.fin a, FVal.fin b, FVal.fin c) ∧ 0 ≤ b ∧ 0 ≤ c ∧ a * a ≤ b * c

/-- The three accumulators of a window hold the same real number. -/
def SameSums (acc : FVal × FVal × FVal) : Prop :=
  ∃ a : ℝ, acc = (FVal.fin a, FVal.fin a, FVal.fin a) ∧ 0 ≤ a

/-- The `denom_0` of the first window is at most the `denom_0` of the second. -/
def Denom0Le (acc acc0 : FVal × FVal × FVal) : Prop :=
  ∃ b b0 : ℝ, acc.2.1 = FVal.fin b ∧ acc0.2.1 = FVal.fin b0 ∧ 0 ≤ b ∧ b ≤ b0

/-! ## Single precision

The `float` of the program is IEEE binary32. Every finite binary32 value is an integer multiple
of `2 ^ (-149)`; a finite value is represented by that integer. Each operation returns the
value nearest to the exact result, ties going to the even significand, and an infinity when
the rounded result does not fit. The sign of zero is not represented. -/

/-- Nearest integer to `n / d`, a tie going to the even one. -/
def roundNE (n d : Nat) : Nat :=
  if 2 * (n % d) < d then n / d
  else if d < 2 * (n % d) then n / d + 1
  else if n / d % 2 = 0 then n / d else n / d + 1

/-- The halving loop that counts the bits of `n` after the first: at most `fuel` halvings. -/
def log2Fuel : Nat → Nat → Nat
  | 0, _ => 0
  | fuel + 1, n => if n < 2 then 0 else log2Fuel fuel (n / 2) + 1

/-- The exponent `e` with `2 ^ e ≤ n < 2 ^ (e + 1)`, for `n ≥ 1`; `0` for `n = 0`. -/
def ilog2 (n : Nat) : Nat := log2Fuel n n

/-- Rounding to binary32 of the rational `n / d`, both the argument and the result counted in
units of `2 ^ (-149)`. A value below `2 ^ 24` units is rounded to an integer number of units
(the subnormals and the first binade); a value in `[2 ^ e, 2 ^ (e + 1))` units keeps 24
significant bits, which are `2 ^ (e - 23)` units apart. -/
def roundGrid (n d : Nat) : Nat :=
  roundNE n (d * 2 ^ (ilog2 (n / d) - 23)) * 2 ^ (ilog2 (n / d) - 23)

/-- Rounding to binary32 of the square root of a value of `a` units, in units. -/
def sqrtGrid (a : Nat) : Nat :=
  let N := a * 2 ^ 149
  let u := 2 ^ (ilog2 N / 2 - 23)
  let q := Nat.sqrt (N / (u * u))
  if 4 * N < (2 * q + 1) ^ 2 * (u * u) then q * u
  else if (2 * q + 1) ^ 2 * (u * u) < 4 * N then (q + 1) * u
  else if q % 2 = 0 then q * u else (q + 1) * u

/-- A binary32 value: NaN, an infinity (`inf true` is `-∞`), or the finite value
`k * 2 ^ (-149)`. -/
inductive F32 where
  | nan : F32
  | inf (neg : Bool) : F32
  | fin (k : Int) : F32
  deriving DecidableEq

namespace F32

/-- The binary32 value nearest to the rational `n / d` (in units of `2 ^ (-149)`); the
largest finite value is below
`2 ^ 128`, that is `2 ^ 128 * 2 ^ 149` units. -/
def rnd (n : Int) (d : Nat) : F32 :=
  if roundGrid n.natAbs d < 2 ^ 128 * 2 ^ 149 then fin (n.sign * (roundGrid n.natAbs d : Nat))
  else inf (decide (n < 0))

/-- Conversion of an integer to `float`. -/
def ofInt (z : Int) : F32 := rnd (z * (2 ^ 149 : Nat)) 1

/-- The `float` literal whose decimal value is `n / d`. -/
def lit (n d : Nat) : F32 := rnd ((n * 2 ^ 149 : Nat) : Int) d

/-- Addition in binary32. -/
def add : F32 → F32 → F32
  | fin a, fin b => rnd (a + b) 1
  | fin _, inf s => inf s
  | inf s, fin _ => inf s
  | inf s, inf t => if s = t then inf s else nan
  | _, _ => nan

/-- Multiplication in binary32. -/
def mul : F32 → F32 → F32
  | fin a, fin b => rnd (a * b) (2 ^ 149)
  | fin a, inf s => if a = 0 then nan else inf (xor (decide (a < 0)) s)
  | inf s, fin b => if b = 0 then nan else inf (xor s (decide (b < 0)))
  | inf s, inf t => inf (xor s t)
  | _, _ => nan

/-- Division in binary32: `0 / 0` is NaN, `x / 0` an infinity. -/
def div : F32 → F32 → F32
  | fin a, fin b =>
    if b = 0 then (if a = 0 then nan else inf (decide (a < 0)))
    else rnd (a * (2 ^ 149 : Nat) * b.sign) b.natAbs
  | fin _, inf _ => fin 0
  | inf s, fin b => inf (xor s (decide (b < 0)))
  | _, _ => nan

/-- Square root in binary32. -/
def sqrt : F32 → F32
  | fin a => if a < 0 then nan else fin (sqrtGrid a.toNat : Nat)
  | inf false => inf false
  | _ => nan

/-- The comparison `a > b`: false as soon as one side is NaN. -/
def gt : F32 → F32 → Bool
  | fin a, fin b => decide (b < a)
  | inf false, fin _ => true
  | inf false, inf true => true
  | fin _, inf true => true
  | _, _ => false

/-- The conversion to an unsigned integer type of `bits` bits: the value truncated toward
zero when that fits the type, undefined otherwise (also for NaN and the infinities). -/
def toUnsigned (bits : Nat) : F32 → Option Nat
  | fin k =>
    if -((2 ^ 149 : Nat) : Int) < k ∧ k < ((2 ^ bits * 2 ^ 149 : Nat) : Int) then some (k.toNat / 2 ^ 149)
    else none
  | _ => none

/-- Whether the value is NaN. -/
def isNaN : F32 → Bool
  | nan => true
  | _ => false

end F32

/-- IEEE binary32 arithmetic, every operation rounded to nearest, ties to even. -/
def f32Ops : FloatOps F32 where
  ofInt := F32.ofInt
  add := F32.add
  mul := F32.mul
  div := F32.div
  sqrt := F32.sqrt
  gt := F32.gt
  toU8 := F32.toUnsigned 8

/-- What the colour conversion needs next to `FloatOps`: the `float` literals (`lit n d` is the
literal whose decimal value is `n / d`, so `0.2126f` is `lit 2126 10000`) and the
conversion `(unsigned int) x`, `none` where C leaves it undefined. -/
structure FloatConv (F : Type) where
  lit : Nat → Nat → F
  toUInt : F → Option Nat

/-- The literals and the conversion of IEEE binary32. -/
def f32Conv : FloatConv F32 where
  lit := F32.lit
  toUInt := F32.toUnsigned 32

/-- The literals and the conversion in exact arithmetic. -/
noncomputable def realConv : FloatConv FVal where
  lit n d := FVal.fin ((n : ℝ) / (d : ℝ))
  toUInt
    | FVal.fin x => if -1 < x ∧ x < 2 ^ 32 then some ⌊x⌋₊ else none
    | _ => none

/-! ## Colour conversion -/

namespace SimpleDepthEstimator

/-- Body of the loop of `makeImgGrey`: the value of the cast `(unsigned int)(...)` for pixel
`i`, `none` when the conversion is undefined. The three products are summed from left to
right, each operation rounded on its own. -/
def greyValue {F : Type} (ops : FloatOps F) (conv : FloatConv F) (img : List Nat) (i : Nat) :
    Option Nat :=
  conv.toUInt (ops.add (ops.add
    (ops.mul (ops.ofInt (rd img (u32 (i * 4)) : Int)) (conv.lit 2126 10000))
    (ops.mul (ops.ofInt (rd img (u32 (u32 (i * 4) + 1)) : Int)) (conv.lit 7152 10000)))
    (ops.mul (ops.ofInt (rd img (u32 (u32 (i * 4) + 2)) : Int)) (conv.lit 722 10000)))

/-- Model of `SimpleDepthEstimator::makeImgGrey`: the bytes `out[0 .. N)`, each the value of
the cast kept modulo `256` by the store. -/
def makeImgGrey {F : Type} (ops : FloatOps F) (conv : FloatConv F) (img : List Nat)
    (width height : Nat) : List (Option Nat) :=
  (forLt 0 (u32 (width * height))).map (fun i => (greyValue ops conv img i).map u8)

/-- Model of `SimpleDepthEstimator::makeImgRGBA`: the buffer `out` after the call. A store
past the end of `out` (undefined in C) is dropped. -/
def makeImgRGBA (img : List Nat) (width height : Nat) (out : List Nat) : List Nat :=
  (forLt 0 (u32 (width * height))).foldl (fun out i =>
    (((out.set (u32 (i * 4)) (rd img i)).set (u32 (u32 (i * 4) + 1)) (rd img i)).set
      (u32 (u32 (i * 4) + 2)) (rd img i)).set (u32 (u32 (i * 4) + 3)) 255) out

/-- Specification side: the weighted sum `0.2126 R + 0.7152 G + 0.0722 B` in ten-thousandths. -/
def lumaNumer (R G B : Nat) : Nat := 2126 * R + 7152 * G + 722 * B

/-- Specification side: the weighted sum rounded to the nearest integer. -/
def roundedLuma (R G B : Nat) : Nat := (lumaNumer R G B + 5000) / 10000

end SimpleDepthEstimator

namespace CLDepthEstimator2

/-- The built-in `dot` of two `float4`, taken as the sum of the four products from left to
right, each operation rounded on its own. -/
def dot {F : Type} (ops : FloatOps F) (a b : F × F × F × F) : F :=
  ops.add (ops.add (ops.add (ops.mul a.1 b.1) (ops.mul a.2.1 b.2.1)) (ops.mul a.2.2.1 b.2.2.1))
    (ops.mul a.2.2.2 b.2.2.2)

/-- The value `convert_float4(img[k])` of a buffer read as `uchar4`. -/
def float4At {F : Type} (ops : FloatOps F) (img : List Nat) (k : Nat) : F × F × F × F :=
  (ops.ofInt (rd img (4 * k) : Int), ops.ofInt (rd img (4 * k + 1) : Int),
    ops.ofInt (rd img (4 * k + 2) : Int), ops.ofInt (rd img (4 * k + 3) : Int))

/-- The store of work-item `m` of the `greyscale` kernel: the index and the byte (`none` when
`convert_uchar` is undefined), or `none` for a work-item outside the image. -/
def greyscaleItem {F : Type} (ops : FloatOps F) (conv : FloatConv F) (img : List Nat)
    (width height : Nat) (m : Nat) : Option (Nat × Option Nat) :=
  if toU32 (m : Int) < u32 (width * height) then
    some (m, ops.toU8 (dot ops (float4At ops img m)
      (conv.lit 2126 10000, conv.lit 7152 10000, conv.lit 722 10000, ops.ofInt 0)))
  else none

/-- Work-item `m` of the `rgba` kernel: the buffer `out` after it ran. A store past the end
of `out` is dropped. -/
def rgbaItem (img : List Nat) (width height : Nat) (out : List Nat) (m : Nat) : List Nat :=
  if toU32 (m : Int) < u32 (width * height) then
    (((out.set (toU32 ((m : Int) * 4)) (rd img m)).set (u32 (toU32 ((m : Int) * 4) + 1))
      (rd img m)).set (u32 (toU32 ((m : Int) * 4) + 2)) (rd img m)).set
      (u32 (toU32 ((m : Int) * 4) + 3)) 255
  else out

end CLDepthEstimator2

/-- A `w × h` RGBA image of the program: `4 * w * h` bytes of type `unsigned char`, pixel `i`
in the bytes `4 i .. 4 i + 3`, all of whose byte indices fit the `int` counters. -/
def IsRGBA (img : List Nat) (w h : Nat) : Prop :=
  img.length = 4 * (w * h) ∧ 4 * (w * h) < 2 ^ 31 ∧ ∀ p ∈ img, p < 256

instance (img : List Nat) (w h : Nat) : Decidable (IsRGBA img w h) := by
  unfold IsRGBA; infer_instance

namespace CLDepthEstimator2

/-! ## Work sizes and the `downsample` and `filter` kernels -/

/-- The work-group size of the one-dimensional stages. -/
def LOCAL_SIZE : Nat := 64

/-- The work-group width of the two-dimensional stages. -/
def LOCAL_SIZE_X : Nat := 8

/-- The work-group height of the two-dimensional stages. -/
def LOCAL_SIZE_Y : Nat := 8

/-- The global work size `(size_t)ceil((width*height)/local[0])*local[0]` that
`CLDepthEstimator2::makeImgGrey` computes (`makeImgRGBA` and `crossCheck` compute the same
expression). The product is a `uint32_t`, the quotient by the `size_t` `local[0]` an integer
division, so `ceil` receives an integer and returns it. -/
def makeImgGreyGlobal (width height : Nat) : Nat :=
  u32 (width * height) / LOCAL_SIZE * LOCAL_SIZE

/-- The global work sizes `(size_t)(ceil(width/local[0])*local[0])` and
`(size_t)(ceil(height/local[1])*local[1])` that `CLDepthEstimator2::filterImg` computes
(`calcDisparity` and `occlusionFill` compute the same expressions). -/
def filterImgGlobal (width height : Nat) : Nat × Nat :=
  (width / LOCAL_SIZE_X * LOCAL_SIZE_X, height / LOCAL_SIZE_Y * LOCAL_SIZE_Y)

/-- The global work sizes `(size_t)(ceil((width/factor)/local[0])*local[0])` and
`(size_t)(ceil((height/factor)/local[1])*local[1])` that `CLDepthEstimator2::downsampleImg`
computes (for `factor ≥ 1`). -/
def downsampleImgGlobal (width height factor : Nat) : Nat × Nat :=
  (width / factor / LOCAL_SIZE_X * LOCAL_SIZE_X, height / factor / LOCAL_SIZE_Y * LOCAL_SIZE_Y)

/-- Specification side: the least multiple of `k` that is `≥ n`. -/
def roundUp (k n : Nat) : Nat := (n + k - 1) / k * k

/-- The part of the `filter` kernel after the barrier, for the work-item with local id
`(lm, ln)` in work-group `(gm, gn)`: the index and the byte it stores (`none` when
`convert_uchar` is undefined), or `none` for a work-item outside the image. `temp` is the
local tile of `16 * 16` floats as the barrier leaves it. The kernel does not read its
argument `radius`: the window is `9 × 9` and the divisor `(4*2+1) * (4*2+1)`. -/
def filterItem {F : Type} (ops : FloatOps F) (temp : Nat → F) (width height _radius : Nat)
    (gm gn lm ln : Nat) : Option (Nat × Option Nat) :=
  if toU32 ((LOCAL_SIZE_X * gm + lm : Nat) : Int) < width ∧
      toU32 ((LOCAL_SIZE_Y * gn + ln : Nat) : Int) < height then
    some (toU32 (((LOCAL_SIZE_X * gm + lm : Nat) : Int)
        + ((LOCAL_SIZE_Y * gn + ln : Nat) : Int) * (width : Int)),
      ops.toU8 (ops.div
        ((forIncl (-4) 4).foldl (fun val i =>
          (forIncl (-4) 4).foldl (fun val j =>
            ops.add val (temp (((lm : Int) + 4 + j) + ((ln : Int) + 4 + i) * 16).toNat)) val)
          (ops.ofInt 0))
        (ops.mul (ops.ofInt (4 * 2 + 1)) (ops.ofInt (4 * 2 + 1)))))
  else none

/-- Specification side: the local tile of work-group `(gm, gn)` holds the zero-padded source
pixels, cell `lx + 16 * ly` the pixel `(8 gm + lx - 4, 8 gn + ly - 4)`. -/
def TileHolds {F : Type} (ops : FloatOps F) (temp : Nat → F) (img : List Nat)
    (width height gm gn : Nat) : Prop :=
  ∀ lx, lx < 16 → ∀ ly, ly < 16 →
    temp (lx + ly * 16) = ops.ofInt (SimpleDepthEstimator.pixelAt img width height
      ((8 * gm + lx : Nat) - 4 : Int) ((8 * gn + ly : Nat) - 4 : Int) : Int)

end CLDepthEstimator2

namespace CLDepthEstimator2

/-- Specification side: the tile of work-group `(gm, gn)` filled with the zero-padded source
pixels. -/
def tileOf {F : Type} (ops : FloatOps F) (img : List Nat) (width height gm gn : Nat)
    (k : Nat) : F :=
  ops.ofInt (SimpleDepthEstimator.pixelAt img width height
    ((8 * gm + k % 16 : Nat) - 4 : Int) ((8 * gn + k / 16 : Nat) - 4 : Int) : Int)

end CLDepthEstimator2

/-! ## The whole pipeline -/

namespace SimpleDepthEstimator

/-- The contents of a buffer all of whose bytes are defined; `none` as soon as one byte is
the result of an undefined conversion. -/
def defined : List (Option Nat) → Option (List Nat)
  | [] => some []
  | none :: _ => none
  | some b :: l => (defined l).map (fun t => b :: t)

/-- The part of `SimpleDepthEstimator::createDepthMap` between the greyscale conversion and
the occlusion fill: the buffers `(grey[0], grey[1])` after `crossCheck`, which hold the
crosschecked left disparity map and the right disparity map. -/
def checkedMaps {F : Type} (ops : FloatOps F) (grey0 grey1 : List Nat)
    (w h downsampleFactor windowRadius maxDisparity maxCrossDifference : Nat) :
    List Nat × List Nat :=
  let W := w / downsampleFactor
  let H := h / downsampleFactor
  let down0 := downsampleImg grey0 w h downsampleFactor
  let down1 := downsampleImg grey1 w h downsampleFactor
  let mean0 := filterImg down0 W H windowRadius
  let mean1 := filterImg down1 W H windowRadius
  crossCheck
    (calcDisparity ops down0 down1 mean0 mean1 W H windowRadius maxDisparity (-1))
    (calcDisparity ops down1 down0 mean1 mean0 W H windowRadius maxDisparity 1)
    W H maxCrossDifference

/-- Model of `SimpleDepthEstimator::createDepthMap`, from the two decoded RGBA images (both
`w × h`) to the `4 * W * H` bytes handed to `imgWrite`; `none` when a stage leaves a byte
undefined. The buffers are reused as in the source: each disparity map is written over the
greyscale image of its side, and the RGBA result is written into the buffer that holds the
right map. -/
def createDepthMap {F : Type} (ops : FloatOps F) (conv : FloatConv F) (left right : List Nat)
    (w h downsampleFactor windowRadius maxDisparity maxCrossDifference occlusionRadius : Nat) :
    Option (List Nat) :=
  (defined (makeImgGrey ops conv left w h)).bind (fun grey0 =>
  (defined (makeImgGrey ops conv right w h)).bind (fun grey1 =>
    (defined (occlusionFill ops
      (checkedMaps ops grey0 grey1 w h downsampleFactor windowRadius maxDisparity
        maxCrossDifference).1
      (w / downsampleFactor) (h / downsampleFactor) occlusionRadius)).map (fun filled =>
        (makeImgRGBA filled (w / downsampleFactor) (h / downsampleFactor)
          ((checkedMaps ops grey0 grey1 w h downsampleFactor windowRadius maxDisparity
              maxCrossDifference).2
            ++ grey1.drop (checkedMaps ops grey0 grey1 w h downsampleFactor windowRadius
              maxDisparity maxCrossDifference).2.length)).take
          (4 * ((w / downsampleFactor) * (h / downsampleFactor))))))

end SimpleDepthEstimator

/-! ## The reads of the disparity stage -/

namespace SimpleDepthEstimator

/-- The reads of the second image in the window loops of `calcDisparity` for candidate `d`
at row `i`, column `j`: for every cell that passes the guard, the index at which `img_1` is
read and the index at which `mean_1` is read. -/
def znccReads (width height radius : Nat) (direction : Int) (i j : Int) (d : Nat) :
    List (Nat × Nat) :=
  (forIncl (i - i32 radius) (i + i32 radius)).flatMap (fun m =>
    (forIncl (j - i32 radius) (j + i32 radius)).filterMap (fun n =>
      if 0 ≤ m ∧ m < i32 height ∧ 0 ≤ n + direction * d ∧ n + direction * d < i32 width ∧
          0 ≤ n ∧ n < i32 width then
        some (toU32 (n + m * (width : Int) + direction * d),
          toU32 (j + i * (width : Int) + direction * d))
      else none))

end SimpleDepthEstimator

namespace CLDepthEstimator2

/-- The reads of the second image in the window loops of the `disparity` kernel for
candidate `d` in work-item `(m, n)`: for every cell that passes the guard, the index at which
`img_1` is read and the index at which `mean_1` is read. -/
def znccReads (width height radius : Nat) (direction : Int) (m n : Int) (d : Nat) :
    List (Nat × Nat) :=
  (forInclU (i32 (toU32 (n - (radius : Int)))) (toU32 (n + (radius : Int)))).flatMap (fun i =>
    (forInclU (i32 (toU32 (m - (radius : Int)))) (toU32 (m + (radius : Int)))).filterMap (fun j =>
      if 0 ≤ i ∧ toU32 i < height ∧ 0 ≤ j + direction * d ∧ toU32 (j + direction * d) < width ∧
          0 ≤ j ∧ toU32 j < width then
        some (toU32 (j + i * (width : Int) + direction * d),
          toU32 (m + n * (width : Int) + direction * d))
      else none))

end CLDepthEstimator2

namespace CLDepthEstimator2

/-! ## Local memory of the `filter` and `downsample` kernels -/

/-- The number of floats of the local tile that `CLDepthEstimator2::filterImg` allocates for
the `filter` kernel (`16*16*sizeof(float)` bytes). -/
def filterTileFloats : Nat := 16 * 16

/-- The part of the `filter` kernel before the barrier, for the work-item with local id
`(lm, ln)` in work-group `(gm, gn)`: its stores into the local tile `temp`, as pairs of the
index `lx + ly * 16` and the value stored, in program order; nothing for a work-item outside
the image. -/
def filterStage {F : Type} (ops : FloatOps F) (img : List Nat) (width height : Nat)
    (gm gn lm ln : Nat) : List (Nat × F) :=
  if toU32 ((LOCAL_SIZE_X * gm + lm : Nat) : Int) < width ∧
      toU32 ((LOCAL_SIZE_Y * gn + ln : Nat) : Int) < height then
    (forIncl 0 2).flatMap (fun i =>
      (forIncl 0 2).map (fun j =>
        (((lm : Int) * 2 + j + ((ln : Int) * 2 + i) * 16).toNat,
          if 0 ≤ (lm : Int) * 2 + j - 4 + (gm : Int) * 8 ∧
              toU32 ((lm : Int) * 2 + j - 4 + (gm : Int) * 8) < width ∧
              0 ≤ (ln : Int) * 2 + i - 4 + (gn : Int) * 8 ∧
              toU32 ((ln : Int) * 2 + i - 4 + (gn : Int) * 8) < height then
            ops.ofInt (rd img (toU32 (((lm : Int) * 2 + j - 4 + (gm : Int) * 8)
              + ((ln : Int) * 2 + i - 4 + (gn : Int) * 8) * (width : Int))) : Int)
          else ops.ofInt 0)))
  else []

/-- The number of `float4` cells of the local scratch that `CLDepthEstimator2::downsampleImg`
allocates for the `downsample` kernel (`LOCAL_SIZE*4*4*sizeof(float)` bytes, `16` bytes a
cell). -/
def downsampleScratchCells : Nat := LOCAL_SIZE * 4 * 4 * 4 / 16

/-- The index `(lm*4+i)+ln*8` of the scratch cell that the work-item with local id `(lm, ln)`
of the `downsample` kernel uses for its row `i`. -/
def downsampleScratch (lm ln i : Nat) : Nat := (lm * 4 + i) + ln * 8

/-- The first loop of the `downsample` kernel in work-item `(m, n)` with local id `(lm, ln)`:
its stores into the local scratch `temp`, as pairs of the cell index and the `float4` stored,
in program order; nothing for a work-item outside the output. -/
def downsampleStage {F : Type} (ops : FloatOps F) (img : List Nat) (width height : Nat)
    (m n lm ln : Nat) : List (Nat × (F × F × F × F)) :=
  if toU32 (m : Int) < width / 4 ∧ toU32 (n : Int) < height / 4 then
    (forLt 0 4).map (fun (i : Nat) =>
      (downsampleScratch lm ln i,
        float4At ops img
          (toU32 ((m : Int) + ((n : Int) * 4 + (i : Int)) * ((width / 4 : Nat) : Int)))))
  else []

/-- The second loop and the store of work-item `(m, n)` with local id `(lm, ln)` of the
`downsample` kernel: the index and the byte (`none` when `convert_uchar` is undefined), or
`none` for a work-item outside the output. `temp` is the local scratch as the work-item reads
it back: the kernel has no barrier between the two loops, and the cells are shared by the
work-group, so `temp` holds the stores of `downsampleStage` of this work-item only where no
other work-item stored after it. The kernel reads the image as `uchar4` and does not read its
argument `factor`: the block is `4 × 4`. -/
def downsampleItem {F : Type} (ops : FloatOps F) (conv : FloatConv F)
    (temp : Nat → F × F × F × F) (width height _factor : Nat) (m n lm ln : Nat) :
    Option (Nat × Option Nat) :=
  if toU32 (m : Int) < width / 4 ∧ toU32 (n : Int) < height / 4 then
    some (toU32 ((m : Int) + (n : Int) * ((width / 4 : Nat) : Int)),
      ops.toU8 ((forLt 0 4).foldl (fun val (i : Nat) =>
        ops.add val (dot ops (temp (downsampleScratch lm ln i))
          (conv.lit 625 10000, conv.lit 625 10000, conv.lit 625 10000, conv.lit 625 10000)))
        (ops.ofInt 0)))
  else none

/-- The local scratch after the given stores, carried out in order on the scratch `temp`. -/
def storeAll {α : Type} (temp : Nat → α) (stores : List (Nat × α)) : Nat → α :=
  stores.foldl (fun t s k => if k = s.1 then s.2 else t k) temp

end CLDepthEstimator2

namespace SimpleDepthEstimator

/-- The size in bytes of the buffer `grey[1]` of `createDepthMap`:
`malloc(w*h*sizeof(unsigned char))`, the product taken in `uint32_t`. -/
def greyBytes (w h : Nat) : Nat := u32 (w * h)

/-- The indices of `out` that `makeImgRGBA` stores to, in program order: `I`, `I+1`, `I+2`
and `I+3` with `I = i * 4` for every `i < N`. -/
def makeImgRGBAStores (width height : Nat) : List Nat :=
  (forLt 0 (u32 (width * height))).flatMap (fun i =>
    [u32 (i * 4), u32 (u32 (i * 4) + 1), u32 (u32 (i * 4) + 2), u32 (u32 (i * 4) + 3)])

/-- The stores of `makeImgRGBA(mean[0], W, H, grey[1])` as `createDepthMap` calls it on
`w × h` inputs: `W = w / downsampleFactor`, `H = h / downsampleFactor`. -/
def outputStores (downsampleFactor w h : Nat) : List Nat :=
  makeImgRGBAStores (u32 w / u32 downsampleFactor) (u32 h / u32 downsampleFactor)

end SimpleDepthEstimator

namespace CLDepthEstimator2

/-- The size in bytes of the device buffer `grey[1]` of `createDepthMap`:
`createBuffer(CL_MEM_READ_WRITE, w*h*sizeof(unsigned char))`, whose size parameter is a
`uint32_t`. -/
def greyBytes (w h : Nat) : Nat := u32 (w * h)

/-- The indices of `out` that work-item `m` of the `rgba` kernel stores to. -/
def rgbaItemStores (width height : Nat) (m : Nat) : List Nat :=
  if toU32 (m : Int) < u32 (width * height) then
    [toU32 ((m : Int) * 4), u32 (toU32 ((m : Int) * 4) + 1), u32 (toU32 ((m : Int) * 4) + 2),
      u32 (toU32 ((m : Int) * 4) + 3)]
  else []

/-- The number of bytes `writeImage` copies out of the image buffer and reads back:
`len = width*height*4*sizeof(unsigned char)`, a `uint32_t`. -/
def writeImageLen (width height : Nat) : Nat := u32 (width * height * 4)

end CLDepthEstimator2

namespace CLDepthEstimator2.Host

/-- The device buffers of one `createDepthMap` invocation: the arrays `img`, `grey`, `down`
and `mean`, and the local `d_staging` of the calls of `loadImage` and `writeImage`, numbered
by call. -/
inductive Mem
  | img (i : Nat)
  | grey (i : Nat)
  | down (i : Nat)
  | mean (i : Nat)
  | staging (call : Nat)
  deriving DecidableEq

/-- The kernels of the program. -/
inductive Kernel
  | greyscale | rgba | downsample | filter | disparity | crosscheck | occlusion
  deriving DecidableEq

/-- The OpenCL host calls of `createDepthMap` on buffers, queues and events. A kernel
submission carries the buffers bound to `const` pointers (`reads`), those bound to writable
pointers (`writes`) and the index in `events` of the event it creates. -/
inductive Call
  | createBuffer (m : Mem)
  | releaseMemObject (m : Mem)
  | releaseEvent (event : Nat)
  | enqueueCopyBuffer (queue : Nat) (src dst : Mem)
  | enqueueReadBuffer (queue : Nat) (src : Mem)
  | enqueueNDRangeKernel (queue : Nat) (k : Kernel) (reads writes : List Mem) (event : Nat)
  | finish (queue : Nat)
  | waitForEvents (num : Nat)
  | getEventProfilingInfo (event : Nat)
  deriving DecidableEq

/-- Host calls of `loadImage(queue, ..., image)`; `call` numbers its `d_staging`. -/
def loadImage (queue : Nat) (image : Mem) (call : Nat) : List Call :=
  [Call.createBuffer (Mem.staging call), Call.createBuffer image,
    Call.enqueueCopyBuffer queue (Mem.staging call) image,
    Call.releaseMemObject (Mem.staging call)]

/-- Host calls of `writeImage(queue, ..., image)`; `call` numbers its `d_staging`. -/
def writeImage (queue : Nat) (image : Mem) (call : Nat) : List Call :=
  [Call.createBuffer (Mem.staging call), Call.enqueueCopyBuffer queue image (Mem.staging call),
    Call.enqueueReadBuffer queue (Mem.staging call), Call.releaseMemObject (Mem.staging call)]

/-- Host call of `makeImgGrey`. -/
def makeImgGrey (queue : Nat) (img out : Mem) (event : Nat) : List Call :=
  [Call.enqueueNDRangeKernel queue Kernel.greyscale [img] [out] event]

/-- Host call of `makeImgRGBA`. -/
def makeImgRGBA (queue : Nat) (img out : Mem) (event : Nat) : List Call :=
  [Call.enqueueNDRangeKernel queue Kernel.rgba [img] [out] event]

/-- Host call of `downsampleImg`. -/
def downsampleImg (queue : Nat) (img out : Mem) (event : Nat) : List Call :=
  [Call.enqueueNDRangeKernel queue Kernel.downsample [img] [out] event]

/-- Host call of `filterImg`. -/
def filterImg (queue : Nat) (img out : Mem) (event : Nat) : List Call :=
  [Call.enqueueNDRangeKernel queue Kernel.filter [img] [out] event]

/-- Host call of `calcDisparity`. -/
def calcDisparity (queue : Nat) (img_0 img_1 mean_0 mean_1 out : Mem) (event : Nat) :
    List Call :=
  [Call.enqueueNDRangeKernel queue Kernel.disparity [img_0, img_1, mean_0, mean_1] [out] event]

/-- Host call of `crossCheck`: the kernel reads both maps and writes `left`. -/
def crossCheck (queue : Nat) (left right : Mem) (event : Nat) : List Call :=
  [Call.enqueueNDRangeKernel queue Kernel.crosscheck [left, right] [left] event]

/-- Host call of `occlusionFill`. -/
def occlusionFill (queue : Nat) (img out : Mem) (event : Nat) : List Call :=
  [Call.enqueueNDRangeKernel queue Kernel.occlusion [img] [out] event]

/-- Host calls of `profileEvent`. -/
def profileEvent (event : Nat) : List Call :=
  [Call.getEventProfilingInfo event, Call.getEventProfilingInfo event]

/-- The host calls of `CLDepthEstimator2::createDepthMap`, in program order. -/
def createDepthMap : List Call :=
  loadImage 0 (Mem.img 0) 0 ++ loadImage 1 (Mem.img 1) 1 ++
  [Call.createBuffer (Mem.grey 0), Call.createBuffer (Mem.grey 1),
    Call.createBuffer (Mem.down 0), Call.createBuffer (Mem.down 1),
    Call.createBuffer (Mem.mean 0), Call.createBuffer (Mem.mean 1)] ++
  [Call.finish 0, Call.finish 1] ++
  (forLt 0 2).flatMap (fun i =>
    makeImgGrey i (Mem.img i) (Mem.grey i) (0 + i * 3) ++
    downsampleImg i (Mem.grey i) (Mem.down i) (1 + i * 3) ++
    filterImg i (Mem.down i) (Mem.mean i) (2 + i * 3)) ++
  [Call.finish 0, Call.finish 1] ++
  (forLt 0 2).flatMap (fun i =>
    calcDisparity i (Mem.down i) (Mem.down (1 - i)) (Mem.mean i) (Mem.mean (1 - i))
      (Mem.grey i) (6 + i)) ++
  [Call.finish 0, Call.finish 1] ++
  crossCheck 0 (Mem.grey 0) (Mem.grey 1) 8 ++
  occlusionFill 0 (Mem.grey 0) (Mem.mean 0) 9 ++
  [Call.finish 0] ++
  makeImgRGBA 0 (Mem.mean 0) (Mem.grey 1) 10 ++
  writeImage 0 (Mem.grey 1) 2 ++
  [Call.releaseMemObject (Mem.img 0), Call.releaseMemObject (Mem.img 1),
    Call.releaseMemObject (Mem.grey 0), Call.releaseMemObject (Mem.grey 1),
    Call.releaseMemObject (Mem.down 0), Call.releaseMemObject (Mem.down 1),
    Call.releaseMemObject (Mem.mean 0), Call.releaseMemObject (Mem.mean 1)] ++
  [Call.finish 0, Call.waitForEvents 11] ++
  (forLt 0 11).flatMap profileEvent

/-- The queue a call submits a command to. -/
def Call.queue : Call → Option Nat
  | Call.enqueueCopyBuffer q _ _ => some q
  | Call.enqueueReadBuffer q _ => some q
  | Call.enqueueNDRangeKernel q _ _ _ _ => some q
  | _ => none

/-- The buffers the command of a call reads. -/
def Call.reads : Call → List Mem
  | Call.enqueueCopyBuffer _ src _ => [src]
  | Call.enqueueReadBuffer _ src => [src]
  | Call.enqueueNDRangeKernel _ _ r _ _ => r
  | _ => []

/-- The buffers the command of a call writes. -/
def Call.writes : Call → List Mem
  | Call.enqueueCopyBuffer _ _ dst => [dst]
  | Call.enqueueNDRangeKernel _ _ _ w _ => w
  | _ => []

/-- The call at position `p` of a sequence (a call without effect past its end). -/
def callAt (s : List Call) (p : Nat) : Call := s.getD p (Call.waitForEvents 0)

/-- Between the positions `p` and `q` of the sequence the host calls `clFinish` on queue
`k`. -/
def FinishedBetween (s : List Call) (p q k : Nat) : Prop :=
  ∃ r, r < q ∧ (p < r ∧ callAt s r = Call.finish k)

instance (s : List Call) (p q k : Nat) : Decidable (FinishedBetween s p q k) := by
  unfold FinishedBetween; infer_instance

/-- Every command that reads a buffer written by an earlier command of the other queue is
submitted after a `clFinish` of both queues that follows the submission of the writer. -/
def CrossQueueOrdered (s : List Call) : Prop :=
  ∀ q, q < s.length → ∀ p, p < q → ∀ m ∈ (callAt s p).writes, m ∈ (callAt s q).reads →
    ∀ a ∈ (callAt s p).queue, ∀ b ∈ (callAt s q).queue, a ≠ b →
      FinishedBetween s p q a ∧ FinishedBetween s p q b

instance (s : List Call) : Decidable (CrossQueueOrdered s) := by
  unfold CrossQueueOrdered; infer_instance

/-- The buffers a sequence creates, in order. -/
def created (s : List Call) : List Mem :=
  s.filterMap (fun c => match c with
    | Call.createBuffer m => some m
    | _ => none)

/-- The events a sequence creates, in order: one per kernel submission. -/
def eventsCreated (s : List Call) : List Nat :=
  s.filterMap (fun c => match c with
    | Call.enqueueNDRangeKernel _ _ _ _ e => some e
    | _ => none)

/-- The positions of the calls that name buffer `m`: its creation, the commands that read or
write it, and its release. -/
def usesOf (s : List Call) (m : Mem) : List Nat :=
  (List.range s.length).filter (fun p =>
    decide (callAt s p = Call.createBuffer m ∨ m ∈ (callAt s p).reads ∨
      m ∈ (callAt s p).writes ∨ callAt s p = Call.releaseMemObject m))

end CLDepthEstimator2.Host


/-! ## Double precision and the arithmetic of the CPU reference

`SimpleDepthEstimator::calcDisparity` calls `sqrt` on a `float`. The file includes `<cmath>`
and has no `using` of `std::sqrt`, so that the unqualified call is the C function
`double sqrt(double)`: the two roots, their product and the quotient are computed in
binary64, and the quotient is rounded to binary32 when it is stored in `temp_zncc`. (The
kernel's `sqrt` is the OpenCL built-in, which returns a `float`.) A finite binary64 value is
an integer multiple of `2 ^ (-1074)` and is represented by that integer. -/

/-- The binary digits of the integer square root, from bit `b - 1` down: the greatest `r'`
with `r' * r' ≤ n` among `r + t`, `t < 2 ^ b`. -/
def isqrtBits : Nat → Nat → Nat → Nat
  | 0, _, r => r
  | b + 1, n, r => if (r + 2 ^ b) * (r + 2 ^ b) ≤ n then isqrtBits b n (r + 2 ^ b)
      else isqrtBits b n r

/-- Rounding to binary64 of the rational `n / d`, in units of `2 ^ (-1074)`: 53 significant
bits. -/
def roundGrid64 (n d : Nat) : Nat :=
  roundNE n (d * 2 ^ (ilog2 (n / d) - 52)) * 2 ^ (ilog2 (n / d) - 52)

/-- Rounding to binary64 of the square root of a value of `a` units, in units. -/
def sqrtGrid64 (a : Nat) : Nat :=
  let N := a * 2 ^ 1074
  let u := 2 ^ (ilog2 N / 2 - 52)
  let q := isqrtBits (ilog2 (N / (u * u)) / 2 + 1) (N / (u * u)) 0
  if 4 * N < (2 * q + 1) ^ 2 * (u * u) then q * u
  else if (2 * q + 1) ^ 2 * (u * u) < 4 * N then (q + 1) * u
  else if q % 2 = 0 then q * u else (q + 1) * u

/-- A binary64 value: NaN, an infinity (`inf true` is `-∞`), or the finite value
`k * 2 ^ (-1074)`. -/
inductive F64 where
  | nan : F64
  | inf (neg : Bool) : F64
  | fin (k : Int) : F64
  deriving DecidableEq

namespace F64

/-- The binary64 value nearest to the rational `n / d` (in units of `2 ^ (-1074)`); the
largest finite value is below `2 ^ 1024`. -/
def rnd (n : Int) (d : Nat) : F64 :=
  if roundGrid64 n.natAbs d < 2 ^ 1024 * 2 ^ 1074 then fin (n.sign * (roundGrid64 n.natAbs d : Nat))
  else inf (decide (n < 0))

/-- The conversion of a `float` to `double`, which is exact. -/
def ofF32 : F32 → F64
  | F32.nan => nan
  | F32.inf s => inf s
  | F32.fin k => fin (k * (2 ^ 925 : Nat))

/-- The conversion of a `double` to `float`: rounding to binary32. -/
def toF32 : F64 → F32
  | nan => F32.nan
  | inf s => F32.inf s
  | fin k => F32.rnd k (2 ^ 925)

/-- Addition in binary64. -/
def add : F64 → F64 → F64
  | fin a, fin b => rnd (a + b) 1
  | fin _, inf s => inf s
  | inf s, fin _ => inf s
  | inf s, inf t => if s = t then inf s else nan
  | _, _ => nan

/-- Multiplication in binary64. -/
def mul : F64 → F64 → F64
  | fin a, fin b => rnd (a * b) (2 ^ 1074)
  | fin a, inf s => if a = 0 then nan else inf (xor (decide (a < 0)) s)
  | inf s, fin b => if b = 0 then nan else inf (xor s (decide (b < 0)))
  | inf s, inf t => inf (xor s t)
  | _, _ => nan

/-- Division in binary64: `0 / 0` is NaN, `x / 0` an infinity. -/
def div : F64 → F64 → F64
  | fin a, fin b =>
    if b = 0 then (if a = 0 then nan else inf (decide (a < 0)))
    else rnd (a * (2 ^ 1074 : Nat) * b.sign) b.natAbs
  | fin _, inf _ => fin 0
  | inf s, fin b => inf (xor s (decide (b < 0)))
  | _, _ => nan

/-- Square root in binary64. -/
def sqrt : F64 → F64
  | fin a => if a < 0 then nan else fin (sqrtGrid64 a.toNat : Nat)
  | inf false => inf false
  | _ => nan

/-- The comparison `a > b`: false as soon as one side is NaN. -/
def gt : F64 → F64 → Bool
  | fin a, fin b => decide (b < a)
  | inf false, fin _ => true
  | inf false, inf true => true
  | fin _, inf true => true
  | _, _ => false

end F64

/-- The value of a floating-point expression of the CPU reference: a `float` or a
`double`. -/
inductive CVal where
  | f (x : F32) : CVal
  | d (x : F64) : CVal
  deriving DecidableEq

/-- The value converted to `double`. -/
def CVal.toD : CVal → F64
  | CVal.f x => F64.ofF32 x
  | CVal.d x => x

/-- The value converted to `float`. -/
def CVal.toF : CVal → F32
  | CVal.f x => x
  | CVal.d x => F64.toF32 x

/-- The arithmetic of the CPU reference. An operation on two `float` operands is carried out in
binary32; `sqrt` converts its `float` argument and returns a `double`; an operation with a
`double` operand is carried out in binary64. The only quotient with a `double` operand is
`numer / (sqrt(denom_0) * sqrt(denom_1))`, which is stored in the `float` `temp_zncc`: `div`
returns it rounded to binary32. The conversion of a NaN to `unsigned char`, undefined in C,
gives `nanByte` (`none`: undefined). -/
def cpuOps (nanByte : Option Nat) : FloatOps CVal where
  ofInt z := CVal.f (F32.ofInt z)
  add a b := match a, b with
    | CVal.f x, CVal.f y => CVal.f (F32.add x y)
    | a, b => CVal.d (F64.add a.toD b.toD)
  mul a b := match a, b with
    | CVal.f x, CVal.f y => CVal.f (F32.mul x y)
    | a, b => CVal.d (F64.mul a.toD b.toD)
  div a b := match a, b with
    | CVal.f x, CVal.f y => CVal.f (F32.div x y)
    | a, b => CVal.f (F64.toF32 (F64.div a.toD b.toD))
  sqrt a := CVal.d (F64.sqrt a.toD)
  gt a b := F32.gt a.toF b.toF
  toU8 a := match a.toF with
    | F32.nan => nanByte
    | x => F32.toUnsigned 8 x


/-- The three accumulators of a window hold, in the arithmetic of the CPU reference, the
integers that they hold in exact arithmetic, each of magnitude at most `k`. -/
def ExactSums (k : Nat) (acc : CVal × CVal × CVal) (r : FVal × FVal × FVal) : Prop :=
  ∃ a b c : Int, acc = (CVal.f (F32.ofInt a), CVal.f (F32.ofInt b), CVal.f (F32.ofInt c)) ∧
    r = (FVal.fin (a : ℝ), FVal.fin (b : ℝ), FVal.fin (c : ℝ)) ∧
    a.natAbs ≤ k ∧ b.natAbs ≤ k ∧ c.natAbs ≤ k

/-! # Theorems -/

/-! ## Machine integers, loops and rasters -/

theorem u32_of_lt {n : Nat} (h : n < 2 ^ 32) : u32 n = n := Nat.mod_eq_of_lt h

theorem u32_lt (n : Nat) : u32 n < 2 ^ 32 := Nat.mod_lt _ (by norm_num)

theorem u8_of_lt {n : Nat} (h : n < 256) : u8 n = n := Nat.mod_eq_of_lt h

theorem u8_lt (n : Nat) : u8 n < 256 := Nat.mod_lt _ (by norm_num)

theorem u32_add_u32 (a b : Nat) : u32 (u32 a + b) = u32 (a + b) := by
  unfold u32; omega

theorem i32_of_lt {n : Nat} (h : n < 2 ^ 31) : i32 n = (n : Int) := by
  unfold i32
  have h1 : n % 2 ^ 32 = n := Nat.mod_eq_of_lt (by omega)
  rw [h1, if_pos h]

theorem toU32_natCast {n : Nat} (h : n < 2 ^ 32) : toU32 (n : Int) = n := by
  unfold toU32
  have : ((n : Int) % 2 ^ 32) = (n : Int) := Int.emod_eq_of_lt (by omega) (by omega)
  rw [this]; simp

theorem rd_lt {img : List Nat} (h : ∀ p ∈ img, p < 256) (k : Nat) : rd img k < 256 := by
  unfold rd
  by_cases hk : k < img.length
  · rw [List.getD_eq_getElem _ _ hk]
    exact h _ (List.getElem_mem hk)
  · rw [List.getD_eq_default _ _ (by omega)]
    norm_num

theorem rd_replicate {N k : Nat} (v : Nat) (h : k < N) : rd (List.replicate N v) k = v := by
  unfold rd
  rw [List.getD_eq_getElem _ _ (by simpa using h)]
  simp

theorem forLt_eq_map (lo n : Nat) : forLt lo (lo + n) = (List.range n).map (fun k => lo + k) := by
  unfold forLt
  rw [Nat.add_sub_cancel_left, List.range'_eq_map_range]

theorem forIncl_window (c : Int) (R : Nat) :
    forIncl (c - R) (c + R) = (List.range (2 * R + 1)).map (fun (k : Nat) => c - R + (k : Int)) := by
  unfold forIncl
  have : (c + R + 1 - (c - R)).toNat = 2 * R + 1 := by omega
  rw [this]

/-- A loop that adds `g a` to a `uint32_t` accumulator for every `a` of `l` leaves the
wrapped total. -/
theorem foldl_u32 {α : Type} (step : Nat → α → Nat) (g : α → Nat)
    (hstep : ∀ v a, v < 2 ^ 32 → step v a = u32 (v + g a)) (l : List α) (v : Nat)
    (hv : v < 2 ^ 32) : l.foldl step v = u32 (v + (l.map g).sum) := by
  induction l generalizing v with
  | nil => simp [u32_of_lt hv]
  | cons a l ih =>
    rw [List.foldl_cons, hstep v a hv, ih _ (u32_lt _), u32_add_u32]
    simp [Nat.add_assoc]

theorem sum_map_le {α : Type} (l : List α) (g : α → Nat) (b : Nat) (h : ∀ a ∈ l, g a ≤ b) :
    (l.map g).sum ≤ l.length * b := by
  induction l with
  | nil => simp
  | cons a l ih =>
    have h1 := h a (List.mem_cons_self _ _)
    have h2 := ih (fun x hx => h x (List.mem_cons_of_mem _ hx))
    simp only [List.map_cons, List.sum_cons, List.length_cons]
    nlinarith

theorem sum_map_congr {α : Type} (l : List α) (f g : α → Nat) (h : ∀ a ∈ l, f a = g a) :
    (l.map f).sum = (l.map g).sum := by
  rw [List.map_congr_left h]

theorem length_raster {α : Type} (h w : Nat) (f : Nat → Nat → α) :
    (raster h w f).length = h * w := by
  unfold raster
  induction h with
  | zero => simp
  | succ n ih =>
    rw [List.range_succ, List.flatMap_append, List.length_append, ih]
    simp [Nat.succ_mul]

theorem getElem?_raster {α : Type} (h w : Nat) (f : Nat → Nat → α) (i j : Nat)
    (hi : i < h) (hj : j < w) : (raster h w f)[j + i * w]? = some (f i j) := by
  induction h with
  | zero => omega
  | succ n ih =>
    have hsplit : raster (n + 1) w f = raster n w f ++ (List.range w).map (fun j => f n j) := by
      unfold raster
      rw [List.range_succ, List.flatMap_append]
      simp
    rw [hsplit]
    by_cases hin : i < n
    · have hlt : j + i * w < (raster n w f).length := by
        rw [length_raster]
        calc j + i * w < w + i * w := by omega
          _ = (i + 1) * w := by ring
          _ ≤ n * w := Nat.mul_le_mul_right _ hin
      rw [List.getElem?_append_left hlt]
      exact ih hin
    · have hie : i = n := by omega
      subst hie
      have hge : (raster i w f).length ≤ j + i * w := by rw [length_raster]; omega
      rw [List.getElem?_append_right hge, length_raster]
      simp [hj]

theorem mem_raster {α : Type} (h w : Nat) (f : Nat → Nat → α) (v : α) :
    v ∈ raster h w f ↔ ∃ i, i < h ∧ ∃ j, j < w ∧ f i j = v := by
  unfold raster
  simp [List.mem_flatMap, List.mem_map]

/-! ## `downsampleImg` -/

namespace SimpleDepthEstimator

/-- The accumulator of `downsampleImg` at an output pixel is the wrapped block sum,
and the stored byte its quotient by the wrapped `factor * factor`. -/
theorem downsamplePixel_eq (img : List Nat) (w h F i j : Nat) (hwh : w * h < 2 ^ 32)
    (hi : i < h / F) (hj : j < w / F) :
    downsamplePixel img w F i j = u8 (u32 (blockSum img w F i j) / u32 (F * F)) := by
  have hF : 0 < F := by
    rcases Nat.eq_zero_or_pos F with h0 | h0
    · subst h0; simp at hi
    · exact h0
  have hiF : i * F + F ≤ h := by
    have h1 : (i + 1) * F ≤ h / F * F := Nat.mul_le_mul_right _ hi
    have h2 : h / F * F ≤ h := Nat.div_mul_le_self h F
    calc i * F + F = (i + 1) * F := by ring
      _ ≤ h := le_trans h1 h2
  have hjF : j * F + F ≤ w := by
    have h1 : (j + 1) * F ≤ w / F * F := Nat.mul_le_mul_right _ hj
    have h2 : w / F * F ≤ w := Nat.div_mul_le_self w F
    calc j * F + F = (j + 1) * F := by ring
      _ ≤ w := le_trans h1 h2
  have hw0 : 0 < w := by omega
  have hh0 : 0 < h := by omega
  have hwlt : w < 2 ^ 32 := lt_of_le_of_lt (Nat.le_mul_of_pos_right w hh0) hwh
  have hhlt : h < 2 ^ 32 := lt_of_le_of_lt (Nat.le_mul_of_pos_left h hw0) hwh
  have hI : u32 (i * F) = i * F := u32_of_lt (by omega)
  have hJ : u32 (j * F) = j * F := u32_of_lt (by omega)
  have hI2 : u32 (i * F + F) = i * F + F := u32_of_lt (by omega)
  have hJ2 : u32 (j * F + F) = j * F + F := u32_of_lt (by omega)
  unfold downsamplePixel
  simp only [hI, hJ, hI2, hJ2, forLt_eq_map]
  have hidx : ∀ dm, dm < F → ∀ dn, dn < F →
      u32 (j * F + dn + u32 ((i * F + dm) * w)) = (j * F + dn) + (i * F + dm) * w := by
    intro dm hdm dn hdn
    have hrow : (i * F + dm + 1) * w ≤ h * w := Nat.mul_le_mul_right _ (by omega)
    have hlt : j * F + dn + (i * F + dm) * w < 2 ^ 32 := by
      have : (i * F + dm + 1) * w = (i * F + dm) * w + w := by ring
      have : h * w = w * h := Nat.mul_comm _ _
      omega
    rw [u32_of_lt (n := (i * F + dm) * w) (by omega), u32_of_lt hlt]
  have hinner : ∀ v m, v < 2 ^ 32 →
      List.foldl (fun val n => u32 (val + rd img (u32 (n + u32 (m * w))))) v
        ((List.range F).map (fun k => j * F + k))
      = u32 (v + (((List.range F).map (fun k => j * F + k)).map
          (fun n => rd img (u32 (n + u32 (m * w))))).sum) := by
    intro v m hv
    exact foldl_u32 _ _ (fun _ _ _ => rfl) _ v hv
  rw [foldl_u32 _ (fun m => (((List.range F).map (fun k => j * F + k)).map
          (fun n => rd img (u32 (n + u32 (m * w))))).sum) (fun v m hv => hinner v m hv) _ 0
          (by norm_num)]
  congr 3
  unfold blockSum
  rw [Nat.zero_add, List.map_map]
  apply sum_map_congr
  intro dm hdm
  rw [Function.comp_apply, List.map_map]
  apply sum_map_congr
  intro dn hdn
  rw [Function.comp_apply, hidx dm (List.mem_range.mp hdm) dn (List.mem_range.mp hdn)]

theorem blockSum_le (img : List Nat) (w F i j : Nat) (hpx : ∀ p ∈ img, p < 256) :
    blockSum img w F i j ≤ 255 * (F * F) := by
  unfold blockSum
  have h1 : ∀ dm ∈ List.range F,
      ((List.range F).map (fun dn => rd img ((j * F + dn) + (i * F + dm) * w))).sum ≤ F * 255 := by
    intro dm _
    have := sum_map_le (List.range F) (fun dn => rd img ((j * F + dn) + (i * F + dm) * w)) 255
      (fun a _ => Nat.le_of_lt_succ (rd_lt hpx _))
    simpa using this
  have h2 := sum_map_le (List.range F) (fun dm =>
      ((List.range F).map (fun dn => rd img ((j * F + dn) + (i * F + dm) * w))).sum) (F * 255) h1
  rw [List.length_range] at h2
  calc _ ≤ F * (F * 255) := h2
    _ = 255 * (F * F) := by ring

theorem blockSum_replicate (w h F i j v : Nat) (hi : i < h / F) (hj : j < w / F) :
    blockSum (List.replicate (w * h) v) w F i j = F * F * v := by
  have hiF : (i + 1) * F ≤ h :=
    le_trans (Nat.mul_le_mul_right _ hi) (Nat.div_mul_le_self h F)
  have hjF : (j + 1) * F ≤ w :=
    le_trans (Nat.mul_le_mul_right _ hj) (Nat.div_mul_le_self w F)
  unfold blockSum
  have hcell : ∀ dm ∈ List.range F, ∀ dn ∈ List.range F,
      rd (List.replicate (w * h) v) ((j * F + dn) + (i * F + dm) * w) = v := by
    intro dm hdm dn hdn
    apply rd_replicate
    have hdm1 := List.mem_range.mp hdm
    have hdn1 := List.mem_range.mp hdn
    have hrow : (i * F + dm + 1) * w ≤ h * w := Nat.mul_le_mul_right _ (by
      have : (i + 1) * F = i * F + F := by ring
      omega)
    have e1 : (i * F + dm + 1) * w = (i * F + dm) * w + w := by ring
    have e2 : (j + 1) * F = j * F + F := by ring
    have e3 : h * w = w * h := Nat.mul_comm _ _
    omega
  have hrow : ∀ dm ∈ List.range F,
      ((List.range F).map
        (fun dn => rd (List.replicate (w * h) v) ((j * F + dn) + (i * F + dm) * w))).sum
        = F * v := by
    intro dm hdm
    rw [sum_map_congr _ _ (fun _ => v) (fun dn hdn => hcell dm hdm dn hdn)]
    simp
  rw [sum_map_congr _ _ (fun _ => F * v) hrow]
  simp [Nat.mul_assoc]

end SimpleDepthEstimator

namespace SimpleDepthEstimator

theorem raster_one_one {α : Type} (f : Nat → Nat → α) : raster 1 1 f = [f 0 0] := rfl

theorem isImage_replicate (w h v : Nat) (hwh : w * h < 2 ^ 31) (hv : v < 256) :
    IsImage (List.replicate (w * h) v) w h := by
  refine ⟨List.length_replicate _ _, hwh, ?_⟩
  intro p hp
  rw [List.eq_of_mem_replicate hp]
  exact hv

/-- C1 (as amended): for every factor `F ≥ 1` with `255 * F * F < 2 ^ 32` and every `w × h`
greyscale image, `downsampleImg` writes exactly `(w / F) * (h / F)` pixels and the output
pixel `(j, i)` is `floor (S / F ^ 2)`, `S` the sum of the `F × F` input block whose top-left
corner is `(j * F, i * F)`. -/
theorem downsampleImg_block_mean (img : List Nat) (w h F i j : Nat) (himg : IsImage img w h)
    (hF : 1 ≤ F) (hFb : 255 * (F * F) < 2 ^ 32) (hi : i < h / F) (hj : j < w / F) :
    (downsampleImg img w h F).length = (w / F) * (h / F) ∧
    (downsampleImg img w h F)[j + i * (w / F)]? = some (blockSum img w F i j / (F * F)) := by
  obtain ⟨_, hwh, hpx⟩ := himg
  have hFF : 0 < F * F := Nat.mul_pos hF hF
  have hS := blockSum_le img w F i j hpx
  refine ⟨?_, ?_⟩
  · unfold downsampleImg
    rw [length_raster, Nat.mul_comm]
  · unfold downsampleImg
    rw [getElem?_raster _ _ _ i j hi hj, downsamplePixel_eq img w h F i j (by omega) hi hj,
      u32_of_lt (n := blockSum img w F i j) (by omega), u32_of_lt (n := F * F) (by omega)]
    have hq : blockSum img w F i j / (F * F) < 256 := by
      apply Nat.div_lt_of_lt_mul
      omega
    rw [u8_of_lt hq]

theorem downsampleImg_block_mean_witness :
    (downsampleImg [1, 2, 3, 4, 5, 6, 7, 8, 9, 10, 11, 12, 13, 14, 15, 16] 4 4 2).length
        = (4 / 2) * (4 / 2) ∧
    (downsampleImg [1, 2, 3, 4, 5, 6, 7, 8, 9, 10, 11, 12, 13, 14, 15, 16] 4 4 2)[1 + 1 * (4 / 2)]?
        = some (blockSum [1, 2, 3, 4, 5, 6, 7, 8, 9, 10, 11, 12, 13, 14, 15, 16] 4 2 1 1 / (2 * 2)) :=
  downsampleImg_block_mean [1, 2, 3, 4, 5, 6, 7, 8, 9, 10, 11, 12, 13, 14, 15, 16] 4 4 2 1 1
    (by decide) (by decide) (by decide) (by decide) (by decide)

/-- C1 fails as stated: with `F = 4105` on the `4105 × 4105` image whose every pixel is `255`
the `uint32_t` accumulator `val` wraps (`255 * 4105 ^ 2 > 2 ^ 32`) and the single output pixel
is `0`, while the truncated mean of its block is `255`. -/
theorem downsampleImg_wraps_at_4105 :
    IsImage (List.replicate (4105 * 4105) 255) 4105 4105 ∧
    downsampleImg (List.replicate (4105 * 4105) 255) 4105 4105 4105 = [0] ∧
    blockSum (List.replicate (4105 * 4105) 255) 4105 4105 0 0 / (4105 * 4105) = 255 := by
  have hb := blockSum_replicate 4105 4105 4105 0 0 255 (by decide) (by decide)
  refine ⟨isImage_replicate 4105 4105 255 (by norm_num) (by norm_num), ?_, ?_⟩
  · unfold downsampleImg
    rw [show 4105 / 4105 = 1 from rfl, raster_one_one,
      downsamplePixel_eq _ 4105 4105 4105 0 0 (by norm_num) (by decide) (by decide), hb]
    rfl
  · rw [hb]

end SimpleDepthEstimator

/-! ## `filterImg` -/

namespace SimpleDepthEstimator

theorem dims_lt_of_pixel {w h x y : Nat} (hwh : w * h < 2 ^ 31) (hx : x < w) (hy : y < h) :
    w < 2 ^ 31 ∧ h < 2 ^ 31 := by
  have hw0 : 0 < w := by omega
  have hh0 : 0 < h := by omega
  exact ⟨lt_of_le_of_lt (Nat.le_mul_of_pos_right w hh0) hwh,
    lt_of_le_of_lt (Nat.le_mul_of_pos_left h hw0) hwh⟩

theorem index_lt_of_pixel {w h x y : Nat} (hx : x < w) (hy : y < h) : x + y * w < w * h := by
  have h1 : (y + 1) * w ≤ h * w := Nat.mul_le_mul_right _ hy
  have e1 : (y + 1) * w = y * w + w := by ring
  have e2 : h * w = w * h := Nat.mul_comm _ _
  omega

/-- Inside the image the index expression `n + m * width` (evaluated in `uint32_t`) is the
row-major index of pixel `(n, m)`. -/
theorem toU32_index {w h : Nat} (hwh : w * h < 2 ^ 31) {n m : Int} (hn0 : 0 ≤ n)
    (hn : n < (w : Int)) (hm0 : 0 ≤ m) (hm : m < (h : Int)) :
    toU32 (n + m * (w : Int)) = n.toNat + m.toNat * w := by
  obtain ⟨a, rfl⟩ := Int.eq_ofNat_of_zero_le hn0
  obtain ⟨b, rfl⟩ := Int.eq_ofNat_of_zero_le hm0
  have ha : a < w := by exact_mod_cast hn
  have hb : b < h := by exact_mod_cast hm
  have hlt := index_lt_of_pixel ha hb
  have : ((a : Int) + (b : Int) * (w : Int)) = ((a + b * w : Nat) : Int) := by push_cast; ring
  rw [this, toU32_natCast (by omega)]
  simp

/-- The accumulator of `filterImg` at pixel `(x, y)` is the wrapped window sum, and the
stored byte its quotient by the wrapped `d * d`. -/
theorem filterPixel_eq (img : List Nat) (w h R x y : Nat) (hwh : w * h < 2 ^ 31)
    (hR : R < 2 ^ 31) (hx : x < w) (hy : y < h) :
    filterPixel img w h R (y : Int) (x : Int)
      = u8 (u32 (windowSum img w h R x y) / u32 (u32 (R * 2 + 1) * u32 (R * 2 + 1))) := by
  obtain ⟨hw31, hh31⟩ := dims_lt_of_pixel hwh hx hy
  unfold filterPixel
  simp only [i32_of_lt hR, i32_of_lt hw31, i32_of_lt hh31, forIncl_window]
  have hinner : ∀ (v : Nat) (m : Int), v < 2 ^ 32 →
      List.foldl (fun val n =>
          if 0 ≤ m ∧ m < (h : Int) ∧ 0 ≤ n ∧ n < (w : Int) then
            u32 (val + rd img (toU32 (n + m * (w : Int))))
          else val) v
        ((List.range (2 * R + 1)).map (fun (k : Nat) => (x : Int) - R + (k : Int)))
      = u32 (v + (((List.range (2 * R + 1)).map (fun (k : Nat) => (x : Int) - R + (k : Int))).map
          (fun n => if 0 ≤ m ∧ m < (h : Int) ∧ 0 ≤ n ∧ n < (w : Int) then
            rd img (toU32 (n + m * (w : Int))) else 0)).sum) := by
    intro v m hv
    apply foldl_u32 _ _ _ _ v hv
    intro v n hv
    split
    · rfl
    · rw [Nat.add_zero, u32_of_lt hv]
  rw [foldl_u32 _ (fun m => (((List.range (2 * R + 1)).map
          (fun (k : Nat) => (x : Int) - R + (k : Int))).map
          (fun n => if 0 ≤ m ∧ m < (h : Int) ∧ 0 ≤ n ∧ n < (w : Int) then
            rd img (toU32 (n + m * (w : Int))) else 0)).sum) (fun v m hv => hinner v m hv) _ 0
          (by norm_num)]
  congr 3
  unfold windowSum
  rw [Nat.zero_add, List.map_map]
  apply sum_map_congr
  intro dy _
  rw [Function.comp_apply, List.map_map]
  apply sum_map_congr
  intro dx _
  rw [Function.comp_apply]
  unfold pixelAt
  by_cases hc : 0 ≤ (y : Int) - R + dy ∧ (y : Int) - R + dy < h ∧
      0 ≤ (x : Int) - R + dx ∧ (x : Int) - R + dx < w
  · rw [if_pos hc, if_pos (by omega), toU32_index hwh hc.2.2.1 hc.2.2.2 hc.1 hc.2.1]
    congr 3 <;> omega
  · rw [if_neg hc, if_neg (by omega)]

theorem pixelAt_lt (img : List Nat) (w h : Nat) (x y : Int) (hpx : ∀ p ∈ img, p < 256) :
    pixelAt img w h x y < 256 := by
  unfold pixelAt
  split
  · exact rd_lt hpx _
  · norm_num

theorem windowSum_le (img : List Nat) (w h R x y : Nat) (hpx : ∀ p ∈ img, p < 256) :
    windowSum img w h R x y ≤ 255 * ((2 * R + 1) * (2 * R + 1)) := by
  unfold windowSum
  have h1 : ∀ dy ∈ List.range (2 * R + 1),
      ((List.range (2 * R + 1)).map (fun (dx : Nat) =>
        pixelAt img w h ((x : Int) + dx - R) ((y : Int) + dy - R))).sum ≤ (2 * R + 1) * 255 := by
    intro dy _
    have := sum_map_le (List.range (2 * R + 1))
      (fun (dx : Nat) => pixelAt img w h ((x : Int) + dx - R) ((y : Int) + dy - R)) 255
      (fun a _ => Nat.le_of_lt_succ (pixelAt_lt img w h _ _ hpx))
    simpa using this
  have h2 := sum_map_le (List.range (2 * R + 1)) (fun (dy : Nat) =>
      ((List.range (2 * R + 1)).map (fun (dx : Nat) =>
        pixelAt img w h ((x : Int) + dx - R) ((y : Int) + dy - R))).sum) ((2 * R + 1) * 255) h1
  rw [List.length_range] at h2
  calc _ ≤ (2 * R + 1) * ((2 * R + 1) * 255) := h2
    _ = 255 * ((2 * R + 1) * (2 * R + 1)) := by ring

/-- On a constant image the window of a pixel at distance at least `R` from the four edges
sums `(2R+1)^2` copies of the value. -/
theorem windowSum_replicate_interior (w h R x y v : Nat) (hx0 : R ≤ x) (hx1 : x + R < w)
    (hy0 : R ≤ y) (hy1 : y + R < h) :
    windowSum (List.replicate (w * h) v) w h R x y = (2 * R + 1) * (2 * R + 1) * v := by
  unfold windowSum
  have hcell : ∀ dy ∈ List.range (2 * R + 1), ∀ dx ∈ List.range (2 * R + 1),
      pixelAt (List.replicate (w * h) v) w h ((x : Int) + dx - R) ((y : Int) + dy - R) = v := by
    intro dy hdy dx hdx
    have hdy1 := List.mem_range.mp hdy
    have hdx1 := List.mem_range.mp hdx
    unfold pixelAt
    rw [if_pos (by omega)]
    apply rd_replicate
    have hxn : ((x : Int) + dx - R).toNat < w := by omega
    have hyn : ((y : Int) + dy - R).toNat < h := by omega
    exact index_lt_of_pixel hxn hyn
  have hrow : ∀ dy ∈ List.range (2 * R + 1),
      ((List.range (2 * R + 1)).map (fun (dx : Nat) =>
        pixelAt (List.replicate (w * h) v) w h ((x : Int) + dx - R) ((y : Int) + dy - R))).sum
        = (2 * R + 1) * v := by
    intro dy hdy
    rw [sum_map_congr _ _ (fun _ => v) (fun dx hdx => hcell dy hdy dx hdx)]
    simp
  rw [sum_map_congr _ _ (fun _ => (2 * R + 1) * v) hrow]
  simp [Nat.mul_assoc]

end SimpleDepthEstimator

namespace SimpleDepthEstimator

/-- C2 (as amended): for every radius `R` with `255 * (2R+1)^2 < 2 ^ 32` and every `w × h`
image, the output pixel `(x, y)` of `filterImg` is `floor (S / (2R+1)^2)`, `S` the sum of
the window cells that lie inside the image (cells outside add `0`); the divisor is
`(2R+1)^2` whatever the number of cells inside. -/
theorem filterImg_window_mean (img : List Nat) (w h R x y : Nat) (himg : IsImage img w h)
    (hR : 255 * ((2 * R + 1) * (2 * R + 1)) < 2 ^ 32) (hx : x < w) (hy : y < h) :
    (filterImg img w h R).length = w * h ∧
    (filterImg img w h R)[x + y * w]?
      = some (windowSum img w h R x y / ((2 * R + 1) * (2 * R + 1))) := by
  obtain ⟨_, hwh, hpx⟩ := himg
  obtain ⟨hw31, hh31⟩ := dims_lt_of_pixel hwh hx hy
  have hS := windowSum_le img w h R x y hpx
  have hR31 : R < 2 ^ 31 := by nlinarith
  have hd : u32 (R * 2 + 1) = 2 * R + 1 := by rw [u32_of_lt (by omega)]; ring
  have hdd : u32 ((2 * R + 1) * (2 * R + 1)) = (2 * R + 1) * (2 * R + 1) :=
    u32_of_lt (by omega)
  have hpos : 0 < (2 * R + 1) * (2 * R + 1) := Nat.mul_pos (by omega) (by omega)
  unfold filterImg
  rw [i32_of_lt hw31, i32_of_lt hh31, Int.toNat_ofNat, Int.toNat_ofNat]
  refine ⟨?_, ?_⟩
  · rw [length_raster, Nat.mul_comm]
  · rw [getElem?_raster _ _ _ y x hy hx, filterPixel_eq img w h R x y hwh hR31 hx hy, hd, hdd,
      u32_of_lt (n := windowSum img w h R x y) (by omega)]
    have hq : windowSum img w h R x y / ((2 * R + 1) * (2 * R + 1)) < 256 := by
      apply Nat.div_lt_of_lt_mul
      omega
    rw [u8_of_lt hq]

theorem filterImg_window_mean_witness :
    (filterImg [9, 9, 9, 9, 9, 9, 9, 9, 9] 3 3 1).length = 3 * 3 ∧
    (filterImg [9, 9, 9, 9, 9, 9, 9, 9, 9] 3 3 1)[0 + 1 * 3]?
      = some (windowSum [9, 9, 9, 9, 9, 9, 9, 9, 9] 3 3 1 0 1 / ((2 * 1 + 1) * (2 * 1 + 1))) :=
  filterImg_window_mean [9, 9, 9, 9, 9, 9, 9, 9, 9] 3 3 1 0 1 (by decide) (by decide)
    (by decide) (by decide)

/-- C2 fails as stated: with `R = 2052` on the `4105 × 4105` image whose every pixel is `255`
the window of the centre pixel `(2052, 2052)` is the whole image, the `uint32_t` accumulator
`val` wraps (`255 * 4105 ^ 2 > 2 ^ 32`) and the stored byte is `0`, while
`floor (S / (2R+1)^2)` is `255`. -/
theorem filterImg_wraps_at_2052 :
    IsImage (List.replicate (4105 * 4105) 255) 4105 4105 ∧
    (filterImg (List.replicate (4105 * 4105) 255) 4105 4105 2052)[2052 + 2052 * 4105]? = some 0 ∧
    windowSum (List.replicate (4105 * 4105) 255) 4105 4105 2052 2052 2052
      / ((2 * 2052 + 1) * (2 * 2052 + 1)) = 255 := by
  have hs := windowSum_replicate_interior 4105 4105 2052 2052 2052 255 (by decide) (by decide)
    (by decide) (by decide)
  refine ⟨isImage_replicate 4105 4105 255 (by norm_num) (by norm_num), ?_, ?_⟩
  · unfold filterImg
    rw [i32_of_lt (n := 4105) (by norm_num), Int.toNat_ofNat,
      getElem?_raster _ _ _ 2052 2052 (by norm_num) (by norm_num),
      filterPixel_eq _ 4105 4105 2052 2052 2052 (by norm_num) (by norm_num) (by norm_num)
        (by norm_num), hs]
    rfl
  · rw [hs]

end SimpleDepthEstimator

/-! ## The disparity stage: range of the output -/

/-- The scan leaves either the disparity it started with or a candidate it went through. -/
theorem disparityScan_snd {F : Type} (ops : FloatOps F) (stop : Nat → Bool) (zncc : Nat → F)
    (k d : Nat) (s : F × Nat) :
    (disparityScan ops stop zncc k d s).2 = s.2 ∨
      ∃ e, d ≤ e ∧ e < d + k ∧ (disparityScan ops stop zncc k d s).2 = u8 e := by
  induction k generalizing d s with
  | zero => left; rfl
  | succ k ih =>
    unfold disparityScan
    split
    · left; rfl
    · split
      · rcases ih (d + 1) (zncc d, u8 d) with h | ⟨e, h1, h2, h3⟩
        · right; exact ⟨d, le_refl _, by omega, h⟩
        · right; exact ⟨e, by omega, by omega, h3⟩
      · rcases ih (d + 1) s with h | ⟨e, h1, h2, h3⟩
        · left; exact h
        · right; exact ⟨e, by omega, by omega, h3⟩

theorem disparityScan_snd_lt {F : Type} (ops : FloatOps F) (stop : Nat → Bool) (zncc : Nat → F)
    (D : Nat) (top : F) (hD0 : 0 < D) (hD : D ≤ 255) :
    (disparityScan ops stop zncc D 0 (top, 0)).2 < D := by
  rcases disparityScan_snd ops stop zncc D 0 (top, 0) with h | ⟨e, _, h2, h3⟩
  · rw [h]; exact hD0
  · rw [h3, u8_of_lt (by omega)]; omega

/-- C3: for every pair of input images and mean images, every `w`, `h`, `R`, every
direction and every max disparity `D` with `0 < D ≤ 255`, every byte written by the
disparity stage (by the CPU reference `calcDisparity` and by every work-item of the OpenCL
kernel `disparity`) is in `[0, D)`, whatever the floating-point arithmetic. -/
theorem disparity_lt_maxDisparity {F : Type} (ops : FloatOps F)
    (img_0 img_1 mean_0 mean_1 : List Nat) (w h R D : Nat) (direction : Int)
    (hD0 : 0 < D) (hD : D ≤ 255) :
    (∀ v ∈ SimpleDepthEstimator.calcDisparity ops img_0 img_1 mean_0 mean_1 w h R D direction,
      v < D) ∧
    (∀ m n idx v, CLDepthEstimator2.disparityItem ops img_0 img_1 mean_0 mean_1 w h R D
      direction m n = some (idx, v) → v < D) := by
  constructor
  · intro v hv
    unfold SimpleDepthEstimator.calcDisparity at hv
    rw [mem_raster] at hv
    obtain ⟨i, _, j, _, rfl⟩ := hv
    unfold SimpleDepthEstimator.calcDisparityPixel SimpleDepthEstimator.calcDisparityState
    rw [i32_of_lt (n := D) (by omega), Int.toNat_ofNat]
    exact disparityScan_snd_lt ops _ _ D _ hD0 hD
  · intro m n idx v hv
    unfold CLDepthEstimator2.disparityItem at hv
    split at hv
    · obtain ⟨_, rfl⟩ := Prod.mk.inj (Option.some.inj hv)
      unfold CLDepthEstimator2.disparityPixel CLDepthEstimator2.disparityState
      exact disparityScan_snd_lt ops _ _ D _ hD0 hD
    · exact Option.noConfusion hv

theorem disparity_lt_maxDisparity_witness :
    (∀ v ∈ SimpleDepthEstimator.calcDisparity intOps [1, 2, 3, 4, 5, 6] [2, 3, 4, 5, 6, 7]
        [3, 3, 3, 3, 3, 3] [4, 4, 4, 4, 4, 4] 3 2 1 3 (-1), v < 3) ∧
    (∀ m n idx v, CLDepthEstimator2.disparityItem intOps [1, 2, 3, 4, 5, 6] [2, 3, 4, 5, 6, 7]
        [3, 3, 3, 3, 3, 3] [4, 4, 4, 4, 4, 4] 3 2 1 3 (-1) m n = some (idx, v) → v < 3) :=
  disparity_lt_maxDisparity intOps [1, 2, 3, 4, 5, 6] [2, 3, 4, 5, 6, 7]
    [3, 3, 3, 3, 3, 3] [4, 4, 4, 4, 4, 4] 3 2 1 3 (-1) (by decide) (by decide)

/-! ## Exact float arithmetic -/

theorem foldl_invariant {α β : Type} (P : β → Prop) (step : β → α → β) (l : List α) (init : β)
    (h0 : P init) (hs : ∀ b a, P b → P (step b a)) : P (l.foldl step init) := by
  induction l generalizing init with
  | nil => exact h0
  | cons a l ih => exact ih _ (hs _ _ h0)

theorem foldl_rel {α β γ : Type} (R : β → γ → Prop) (f : β → α → β) (g : γ → α → γ)
    (l : List α) (b : β) (c : γ) (h0 : R b c) (hs : ∀ b c a, R b c → R (f b a) (g c a)) :
    R (l.foldl f b) (l.foldl g c) := by
  induction l generalizing b c with
  | nil => exact h0
  | cons a l ih => exact ih _ _ (hs _ _ _ h0)

namespace FVal

theorem gt_nan_left (b : FVal) : gt nan b = false := by
  cases b <;> rfl

theorem gt_fin_fin (x y : ℝ) : gt (fin x) (fin y) = decide (y < x) := rfl

theorem sqrt_fin {x : ℝ} (h : 0 ≤ x) : sqrt (fin x) = fin (Real.sqrt x) := by
  show (if x < 0 then nan else fin (Real.sqrt x)) = _
  rw [if_neg (not_lt.mpr h)]

/-- The value `numer / (sqrt denom_0 * sqrt denom_1)` in exact arithmetic. -/
theorem zncc_value (a b c : ℝ) (hb : 0 ≤ b) (hc : 0 ≤ c) :
    div (fin a) (mul (sqrt (fin b)) (sqrt (fin c)))
      = if Real.sqrt b * Real.sqrt c = 0 then (if a = 0 then nan else inf (decide (a < 0)))
        else fin (a / (Real.sqrt b * Real.sqrt c)) := by
  rw [sqrt_fin hb, sqrt_fin hc]
  rfl

/-- By the Cauchy-Schwarz inequality the correlation is NaN (a window without variance) or
a number that is at most `1`. -/
theorem zncc_le_one (a b c : ℝ) (hb : 0 ≤ b) (hc : 0 ≤ c) (h : a * a ≤ b * c) :
    (b * c = 0 ∧ div (fin a) (mul (sqrt (fin b)) (sqrt (fin c))) = nan) ∨
    (b * c ≠ 0 ∧ ∃ y : ℝ, y ≤ 1 ∧ div (fin a) (mul (sqrt (fin b)) (sqrt (fin c))) = fin y) := by
  rw [zncc_value a b c hb hc]
  by_cases hz : Real.sqrt b * Real.sqrt c = 0
  · left
    have hbc : b * c = 0 := by
      rcases mul_eq_zero.mp hz with h1 | h1
      · rw [(Real.sqrt_eq_zero hb).mp h1, zero_mul]
      · rw [(Real.sqrt_eq_zero hc).mp h1, mul_zero]
    have ha : a = 0 := by
      have : a * a ≤ 0 := by rw [hbc] at h; exact h
      nlinarith [mul_self_nonneg a]
    exact ⟨hbc, by rw [if_pos hz, if_pos ha]⟩
  · right
    have hne : b * c ≠ 0 := by
      intro h0
      apply hz
      rcases mul_eq_zero.mp h0 with h1 | h1
      · rw [h1, Real.sqrt_zero, zero_mul]
      · rw [h1, Real.sqrt_zero, mul_zero]
    refine ⟨hne, a / (Real.sqrt b * Real.sqrt c), ?_, by rw [if_neg hz]⟩
    have hpos : 0 < Real.sqrt b * Real.sqrt c :=
      lt_of_le_of_ne (mul_nonneg (Real.sqrt_nonneg b) (Real.sqrt_nonneg c)) (Ne.symm hz)
    rw [div_le_one hpos, ← Real.sqrt_mul hb c]
    apply Real.le_sqrt_of_sq_le
    rw [sq]; exact h

/-- A window correlated with itself gives NaN (no variance) or exactly `1`. -/
theorem zncc_self (a : ℝ) (ha : 0 ≤ a) :
    (a = 0 ∧ div (fin a) (mul (sqrt (fin a)) (sqrt (fin a))) = nan) ∨
    div (fin a) (mul (sqrt (fin a)) (sqrt (fin a))) = fin 1 := by
  rw [zncc_value a a a ha ha, Real.mul_self_sqrt ha]
  by_cases hz : a = 0
  · left; exact ⟨hz, by rw [if_pos hz, if_pos hz]⟩
  · right; rw [if_neg hz, div_self hz]

end FVal

theorem cauchySchwarz_init : CauchySchwarz (realOps.ofInt 0, realOps.ofInt 0, realOps.ofInt 0) :=
  ⟨0, 0, 0, by simp [realOps], le_refl _, le_refl _, by norm_num⟩

theorem cauchySchwarz_step (acc : FVal × FVal × FVal) (s t : Int) (h : CauchySchwarz acc) :
    CauchySchwarz (realOps.add acc.1 (realOps.mul (realOps.ofInt s) (realOps.ofInt t)),
      realOps.add acc.2.1 (realOps.mul (realOps.ofInt s) (realOps.ofInt s)),
      realOps.add acc.2.2 (realOps.mul (realOps.ofInt t) (realOps.ofInt t))) := by
  obtain ⟨a, b, c, rfl, hb, hc, habc⟩ := h
  refine ⟨a + s * t, b + s * s, c + t * t, rfl, add_nonneg hb (mul_self_nonneg _),
    add_nonneg hc (mul_self_nonneg _), ?_⟩
  have key : 2 * a * ((s : ℝ) * t) ≤ b * ((t : ℝ) * t) + c * ((s : ℝ) * s) := by
    rcases eq_or_lt_of_le hb with hb0 | hbpos
    · have ha : a = 0 := by
        have : a * a ≤ 0 := by rw [← hb0, zero_mul] at habc; exact habc
        nlinarith [mul_self_nonneg a]
      rw [ha, ← hb0]
      nlinarith [mul_nonneg hc (mul_self_nonneg (s : ℝ))]
    · have h1 : 0 ≤ (b * t - a * s) * (b * t - a * s) + (b * c - a * a) * ((s : ℝ) * s) :=
        add_nonneg (mul_self_nonneg _) (mul_nonneg (by linarith) (mul_self_nonneg _))
      have h2 : b * (b * ((t : ℝ) * t) + c * ((s : ℝ) * s) - 2 * a * ((s : ℝ) * t))
          = (b * t - a * s) * (b * t - a * s) + (b * c - a * a) * ((s : ℝ) * s) := by ring
      have h3 : 0 ≤ b * ((t : ℝ) * t) + c * ((s : ℝ) * s) - 2 * a * ((s : ℝ) * t) := by
        rw [← h2] at h1
        exact nonneg_of_mul_nonneg_right h1 hbpos
      linarith
  nlinarith

theorem sameSums_init : SameSums (realOps.ofInt 0, realOps.ofInt 0, realOps.ofInt 0) :=
  ⟨0, by simp [realOps], le_refl _⟩

theorem sameSums_step (acc : FVal × FVal × FVal) (s : Int) (h : SameSums acc) :
    SameSums (realOps.add acc.1 (realOps.mul (realOps.ofInt s) (realOps.ofInt s)),
      realOps.add acc.2.1 (realOps.mul (realOps.ofInt s) (realOps.ofInt s)),
      realOps.add acc.2.2 (realOps.mul (realOps.ofInt s) (realOps.ofInt s))) := by
  obtain ⟨a, rfl, ha⟩ := h
  exact ⟨a + s * s, rfl, add_nonneg ha (mul_self_nonneg _)⟩

theorem denom0Le_init :
    Denom0Le (realOps.ofInt 0, realOps.ofInt 0, realOps.ofInt 0)
      (realOps.ofInt 0, realOps.ofInt 0, realOps.ofInt 0) :=
  ⟨0, 0, by simp [realOps], by simp [realOps], le_refl _, le_refl _⟩

theorem denom0Le_step_both (acc acc0 : FVal × FVal × FVal) (x y z x0 z0 : FVal) (s : Int)
    (h : Denom0Le acc acc0) (hy : y = realOps.add acc.2.1 (realOps.mul (realOps.ofInt s) (realOps.ofInt s))) :
    Denom0Le (x, y, z)
      (x0, realOps.add acc0.2.1 (realOps.mul (realOps.ofInt s) (realOps.ofInt s)), z0) := by
  obtain ⟨b, b0, hb, hb0, h0, hle⟩ := h
  refine ⟨b + s * s, b0 + s * s, ?_, ?_, add_nonneg h0 (mul_self_nonneg _), by linarith⟩
  · rw [hy, hb]; rfl
  · show realOps.add acc0.2.1 _ = _
    rw [hb0]; rfl

theorem denom0Le_step_right (acc acc0 : FVal × FVal × FVal) (x0 z0 : FVal) (s : Int)
    (h : Denom0Le acc acc0) :
    Denom0Le acc
      (x0, realOps.add acc0.2.1 (realOps.mul (realOps.ofInt s) (realOps.ofInt s)), z0) := by
  obtain ⟨b, b0, hb, hb0, h0, hle⟩ := h
  refine ⟨b, b0 + s * s, hb, ?_, h0, by nlinarith [mul_self_nonneg (s : ℝ)]⟩
  show realOps.add acc0.2.1 _ = _
  rw [hb0]; rfl

/-! ## The disparity stage on two identical images -/

theorem disparityScan_stable {F : Type} (ops : FloatOps F) (stop : Nat → Bool) (zncc : Nat → F)
    (k d : Nat) (s : F × Nat) (h : ∀ e, d ≤ e → ops.gt (zncc e) s.1 = false) :
    disparityScan ops stop zncc k d s = s := by
  induction k generalizing d with
  | zero => rfl
  | succ k ih =>
    unfold disparityScan
    split
    · rfl
    · rw [h d (le_refl _)]
      simp only [Bool.false_eq_true, if_false]
      exact ih (d + 1) (fun e he => h e (by omega))

/-- When candidate `0` gives NaN or `1` and no candidate gives more than `1`, and all give
NaN once candidate `0` does, the scan ends with disparity `0`. -/
theorem disparityScan_identical (stop : Nat → Bool) (zncc : Nat → FVal) (D : Nat)
    (hall : ∀ d, zncc d = FVal.nan ∨ ∃ y : ℝ, y ≤ 1 ∧ zncc d = FVal.fin y)
    (h0 : zncc 0 = FVal.fin 1 ∨ ∀ d, zncc d = FVal.nan) :
    (disparityScan realOps stop zncc D 0 (realOps.ofInt (-1), 0)).2 = 0 := by
  cases D with
  | zero => rfl
  | succ k =>
    unfold disparityScan
    split
    · rfl
    · rcases h0 with h1 | hnan
      · have hgt : realOps.gt (zncc 0) (realOps.ofInt (-1), 0).1 = true := by
          rw [h1]
          show FVal.gt (FVal.fin 1) (FVal.fin ((-1 : Int) : ℝ)) = true
          rw [FVal.gt_fin_fin]
          simp
        rw [if_pos hgt, disparityScan_stable]
        · rfl
        · intro e _
          show FVal.gt (zncc e) (zncc 0) = false
          rw [h1]
          rcases hall e with hn | ⟨y, hy, hv⟩
          · rw [hn, FVal.gt_nan_left]
          · rw [hv, FVal.gt_fin_fin]
            simpa using hy
      · have hgt : realOps.gt (zncc 0) (realOps.ofInt (-1), 0).1 = false := by
          show FVal.gt (zncc 0) _ = false
          rw [hnan 0, FVal.gt_nan_left]
        rw [hgt]
        simp only [Bool.false_eq_true, if_false]
        rw [disparityScan_stable]
        intro e _
        show FVal.gt (zncc e) _ = false
        rw [hnan e, FVal.gt_nan_left]

/-- What the three accumulators of the windows give for two identical images. -/
theorem zncc_identical (sums : Nat → FVal × FVal × FVal)
    (hcs : ∀ d, CauchySchwarz (sums d)) (hsame : SameSums (sums 0))
    (hle : ∀ d, Denom0Le (sums d) (sums 0)) :
    (∀ d, realOps.div (sums d).1 (realOps.mul (realOps.sqrt (sums d).2.1)
        (realOps.sqrt (sums d).2.2)) = FVal.nan ∨
      ∃ y : ℝ, y ≤ 1 ∧ realOps.div (sums d).1 (realOps.mul (realOps.sqrt (sums d).2.1)
        (realOps.sqrt (sums d).2.2)) = FVal.fin y) ∧
    (realOps.div (sums 0).1 (realOps.mul (realOps.sqrt (sums 0).2.1)
        (realOps.sqrt (sums 0).2.2)) = FVal.fin 1 ∨
      ∀ d, realOps.div (sums d).1 (realOps.mul (realOps.sqrt (sums d).2.1)
        (realOps.sqrt (sums d).2.2)) = FVal.nan) := by
  constructor
  · intro d
    obtain ⟨a, b, c, hs, hb, hc, habc⟩ := hcs d
    rw [hs]
    rcases FVal.zncc_le_one a b c hb hc habc with ⟨_, h⟩ | ⟨_, h⟩
    · left; exact h
    · right; exact h
  · obtain ⟨a0, hs0, ha0⟩ := hsame
    rcases FVal.zncc_self a0 ha0 with ⟨hz, _⟩ | h1
    · right
      intro d
      obtain ⟨a, b, c, hs, hb, hc, habc⟩ := hcs d
      obtain ⟨b', b0, hb', hb0, hb'0, hle'⟩ := hle d
      rw [hs0] at hb0
      rw [hs] at hb'
      have e1 : b0 = a0 := by
        have := FVal.fin.inj hb0
        exact this.symm
      have e2 : b' = b := by
        have := FVal.fin.inj hb'
        exact this.symm
      have hbz : b = 0 := by
        rw [e1, hz] at hle'
        rw [e2] at hle' hb'0
        exact le_antisymm hle' hb'0
      rw [hs]
      rcases FVal.zncc_le_one a b c hb hc habc with ⟨_, h⟩ | ⟨hne, _⟩
      · exact h
      · exact absurd (by rw [hbz, zero_mul]) hne
    · left
      rw [hs0]
      exact h1

theorem cpu_cauchySchwarz (img_0 img_1 mean_0 mean_1 : List Nat) (w h R : Nat)
    (direction i j : Int) (d : Nat) :
    CauchySchwarz (SimpleDepthEstimator.znccSums realOps img_0 img_1 mean_0 mean_1 w h R
      direction i j d) := by
  unfold SimpleDepthEstimator.znccSums
  apply foldl_invariant
  · exact cauchySchwarz_init
  · intro acc m hacc
    apply foldl_invariant
    · exact hacc
    · intro acc n hacc
      split
      · exact cauchySchwarz_step acc _ _ hacc
      · exact hacc

theorem kernel_cauchySchwarz (img_0 img_1 mean_0 mean_1 : List Nat) (w h R : Nat)
    (direction m n : Int) (d : Nat) :
    CauchySchwarz (CLDepthEstimator2.znccSums realOps img_0 img_1 mean_0 mean_1 w h R
      direction m n d) := by
  unfold CLDepthEstimator2.znccSums
  apply foldl_invariant
  · exact cauchySchwarz_init
  · intro acc i hacc
    apply foldl_invariant
    · exact hacc
    · intro acc j hacc
      split
      · exact cauchySchwarz_step acc _ _ hacc
      · exact hacc

theorem cpu_sameSums (img mean : List Nat) (w h R : Nat) (direction i j : Int) :
    SameSums (SimpleDepthEstimator.znccSums realOps img img mean mean w h R direction i j 0) := by
  unfold SimpleDepthEstimator.znccSums
  simp only [Nat.cast_zero, mul_zero, add_zero]
  apply foldl_invariant
  · exact sameSums_init
  · intro acc m hacc
    apply foldl_invariant
    · exact hacc
    · intro acc n hacc
      split
      · exact sameSums_step acc _ hacc
      · exact hacc

theorem kernel_sameSums (img mean : List Nat) (w h R : Nat) (direction m n : Int) :
    SameSums (CLDepthEstimator2.znccSums realOps img img mean mean w h R direction m n 0) := by
  unfold CLDepthEstimator2.znccSums
  simp only [Nat.cast_zero, mul_zero, add_zero]
  apply foldl_invariant
  · exact sameSums_init
  · intro acc i hacc
    apply foldl_invariant
    · exact hacc
    · intro acc j hacc
      split
      · exact sameSums_step acc _ hacc
      · exact hacc

theorem cpu_denom0Le (img_0 img_1 mean_0 mean_1 : List Nat) (w h R : Nat)
    (direction i j : Int) (d : Nat) :
    Denom0Le
      (SimpleDepthEstimator.znccSums realOps img_0 img_1 mean_0 mean_1 w h R direction i j d)
      (SimpleDepthEstimator.znccSums realOps img_0 img_1 mean_0 mean_1 w h R direction i j 0) := by
  unfold SimpleDepthEstimator.znccSums
  simp only [Nat.cast_zero, mul_zero, add_zero]
  apply foldl_rel
  · exact denom0Le_init
  · intro acc acc0 m hacc
    apply foldl_rel
    · exact hacc
    · intro acc acc0 n hacc
      split <;> split
      · exact denom0Le_step_both acc acc0 _ _ _ _ _ _ hacc rfl
      · rename_i h1 h2
        exact absurd ⟨h1.1, h1.2.1, h1.2.2.2.2.1, h1.2.2.2.2.2, h1.2.2.2.2.1, h1.2.2.2.2.2⟩ h2
      · exact denom0Le_step_right acc acc0 _ _ _ hacc
      · exact hacc

theorem kernel_denom0Le (img_0 img_1 mean_0 mean_1 : List Nat) (w h R : Nat)
    (direction m n : Int) (d : Nat) :
    Denom0Le
      (CLDepthEstimator2.znccSums realOps img_0 img_1 mean_0 mean_1 w h R direction m n d)
      (CLDepthEstimator2.znccSums realOps img_0 img_1 mean_0 mean_1 w h R direction m n 0) := by
  unfold CLDepthEstimator2.znccSums
  simp only [Nat.cast_zero, mul_zero, add_zero]
  apply foldl_rel
  · exact denom0Le_init
  · intro acc acc0 i hacc
    apply foldl_rel
    · exact hacc
    · intro acc acc0 j hacc
      split <;> split
      · exact denom0Le_step_both acc acc0 _ _ _ _ _ _ hacc rfl
      · rename_i h1 h2
        exact absurd ⟨h1.1, h1.2.1, h1.2.2.2.2.1, h1.2.2.2.2.2, h1.2.2.2.2.1, h1.2.2.2.2.2⟩ h2
      · exact denom0Le_step_right acc acc0 _ _ _ hacc
      · exact hacc

/-- On two identical images the CPU reference leaves disparity `0` at every pixel. -/
theorem cpu_identical_zero (img mean : List Nat) (w h R D : Nat) (direction i j : Int) :
    SimpleDepthEstimator.calcDisparityPixel realOps img img mean mean w h R D direction i j
      = 0 := by
  obtain ⟨hall, h0⟩ := zncc_identical
    (SimpleDepthEstimator.znccSums realOps img img mean mean w h R direction i j)
    (cpu_cauchySchwarz img img mean mean w h R direction i j)
    (cpu_sameSums img mean w h R direction i j)
    (cpu_denom0Le img img mean mean w h R direction i j)
  exact disparityScan_identical _ _ _ hall h0

/-- On two identical images every work-item of the kernel leaves disparity `0`. -/
theorem kernel_identical_zero (img mean : List Nat) (w h R D : Nat) (direction m n : Int) :
    CLDepthEstimator2.disparityPixel realOps img img mean mean w h R D direction m n = 0 := by
  obtain ⟨hall, h0⟩ := zncc_identical
    (CLDepthEstimator2.znccSums realOps img img mean mean w h R direction m n)
    (kernel_cauchySchwarz img img mean mean w h R direction m n)
    (kernel_sameSums img mean w h R direction m n)
    (kernel_denom0Le img img mean mean w h R direction m n)
  exact disparityScan_identical _ _ _ hall h0

theorem gt_first_false (zncc : Nat → FVal)
    (hall : ∀ d, zncc d = FVal.nan ∨ ∃ y : ℝ, y ≤ 1 ∧ zncc d = FVal.fin y)
    (h0 : zncc 0 = FVal.fin 1 ∨ ∀ d, zncc d = FVal.nan) (d : Nat) :
    FVal.gt (zncc d) (zncc 0) = false := by
  rcases h0 with h1 | hnan
  · rw [h1]
    rcases hall d with hn | ⟨y, hy, hv⟩
    · rw [hn, FVal.gt_nan_left]
    · rw [hv, FVal.gt_fin_fin]
      simpa using hy
  · rw [hnan d, FVal.gt_nan_left]

/-- Were the sums, roots and quotients exact, the disparity stage would write `0` at every
pixel of two identical images: candidate `0` would have ZNCC `1`, the greatest possible
value, unless its window has no variance, in which case every candidate has the ZNCC
`0 / 0`, a NaN. -/
theorem identical_images_exact (img mean : List Nat) (w h R D x y : Nat) (direction : Int)
    (himg : IsImage img w h) (hx : x < w) (hy : y < h) :
    ((SimpleDepthEstimator.calcDisparity realOps img img mean mean w h R D direction)[x + y * w]?
        = some 0 ∧
      (SimpleDepthEstimator.znccAt realOps img img mean mean w h R direction (y : Int) (x : Int) 0
          = FVal.fin 1 ∨
        ∀ d, SimpleDepthEstimator.znccAt realOps img img mean mean w h R direction (y : Int)
          (x : Int) d = FVal.nan) ∧
      (∀ d, FVal.gt
        (SimpleDepthEstimator.znccAt realOps img img mean mean w h R direction (y : Int) (x : Int) d)
        (SimpleDepthEstimator.znccAt realOps img img mean mean w h R direction (y : Int) (x : Int) 0)
          = false)) ∧
    (CLDepthEstimator2.disparityItem realOps img img mean mean w h R D direction x y
        = some (x + y * w, 0) ∧
      (CLDepthEstimator2.znccAt realOps img img mean mean w h R direction (x : Int) (y : Int) 0
          = FVal.fin 1 ∨
        ∀ d, CLDepthEstimator2.znccAt realOps img img mean mean w h R direction (x : Int)
          (y : Int) d = FVal.nan) ∧
      (∀ d, FVal.gt
        (CLDepthEstimator2.znccAt realOps img img mean mean w h R direction (x : Int) (y : Int) d)
        (CLDepthEstimator2.znccAt realOps img img mean mean w h R direction (x : Int) (y : Int) 0)
          = false)) := by
  obtain ⟨hw31, hh31⟩ := SimpleDepthEstimator.dims_lt_of_pixel himg.2.1 hx hy
  obtain ⟨hall, h0⟩ := zncc_identical
    (SimpleDepthEstimator.znccSums realOps img img mean mean w h R direction y x)
    (cpu_cauchySchwarz img img mean mean w h R direction y x)
    (cpu_sameSums img mean w h R direction y x)
    (cpu_denom0Le img img mean mean w h R direction y x)
  obtain ⟨kall, k0⟩ := zncc_identical
    (CLDepthEstimator2.znccSums realOps img img mean mean w h R direction x y)
    (kernel_cauchySchwarz img img mean mean w h R direction x y)
    (kernel_sameSums img mean w h R direction x y)
    (kernel_denom0Le img img mean mean w h R direction x y)
  refine ⟨⟨?_, h0, gt_first_false _ hall h0⟩, ⟨?_, k0, gt_first_false _ kall k0⟩⟩
  · unfold SimpleDepthEstimator.calcDisparity
    rw [i32_of_lt hw31, i32_of_lt hh31, Int.toNat_ofNat, Int.toNat_ofNat,
      getElem?_raster _ _ _ y x hy hx, cpu_identical_zero]
  · unfold CLDepthEstimator2.disparityItem
    have hidx := SimpleDepthEstimator.index_lt_of_pixel hx hy
    have e1 : ((x : Int) + (y : Int) * (w : Int)) = ((x + y * w : Nat) : Int) := by
      push_cast; ring
    rw [toU32_natCast (n := x) (by omega), toU32_natCast (n := y) (by omega), if_pos ⟨hx, hy⟩,
      kernel_identical_zero, e1, toU32_natCast (by have := himg.2.1; omega)]

/-! ## The winner of the disparity scan -/

namespace FVal

theorem gt_irrefl (a : FVal) : gt a a = false := by
  rcases a with _ | x | (_ | _) <;> simp [gt]

theorem gt_trans {a b c : FVal} (h1 : gt a b = true) (h2 : gt b c = true) : gt a c = true := by
  rcases a with _ | x | (_ | _) <;> rcases b with _ | y | (_ | _) <;>
    rcases c with _ | z | (_ | _) <;> simp_all [gt]
  linarith

/-- If `a > c` fails and `b > c` holds then `a > b` fails. -/
theorem gt_false_of_gt {a b c : FVal} (h1 : gt a c = false) (h2 : gt b c = true) :
    gt a b = false := by
  rcases a with _ | x | (_ | _) <;> rcases b with _ | y | (_ | _) <;>
    rcases c with _ | z | (_ | _) <;> simp_all [gt]
  linarith

/-- If `a > c` fails and `b > c` holds then `a` is NaN or `b > a`. -/
theorem nan_or_gt {a b c : FVal} (h1 : gt a c = false) (h2 : gt b c = true) :
    isNaN a = true ∨ gt b a = true := by
  rcases a with _ | x | (_ | _) <;> rcases b with _ | y | (_ | _) <;>
    rcases c with _ | z | (_ | _) <;> simp_all [gt, isNaN]
  linarith

end FVal

theorem real_order : IEEEOrder realOps FVal.isNaN where
  nan_left a b h := by
    cases a <;> first | exact FVal.gt_nan_left b | exact Bool.noConfusion h
  nan_right a b h := by
    cases b <;> first | (rcases a with _ | x | (_ | _) <;> rfl) | exact Bool.noConfusion h
  irrefl := FVal.gt_irrefl
  trans _ _ _ h1 h2 := FVal.gt_trans h1 h2
  below _ _ _ h1 h2 := FVal.nan_or_gt h1 h2

namespace F32

theorem gt_self (a : F32) : gt a a = false := by
  rcases a with _ | (_ | _) | x <;> simp [gt]

theorem gt_chain {a b c : F32} (h1 : gt a b = true) (h2 : gt b c = true) : gt a c = true := by
  rcases a with _ | (_ | _) | x <;> rcases b with _ | (_ | _) | y <;>
    rcases c with _ | (_ | _) | z <;> simp_all [gt]
  omega

/-- If `a > c` fails and `b > c` holds then `a` is NaN or `b > a`. -/
theorem isNaN_or_gt {a b c : F32} (h1 : gt a c = false) (h2 : gt b c = true) :
    isNaN a = true ∨ gt b a = true := by
  rcases a with _ | (_ | _) | x <;> rcases b with _ | (_ | _) | y <;>
    rcases c with _ | (_ | _) | z <;> simp_all [gt, isNaN]
  omega

theorem gt_of_nan_left (b : F32) : gt nan b = false := by
  cases b <;> rfl

theorem gt_of_nan_right (a : F32) : gt a nan = false := by
  rcases a with _ | (_ | _) | x <;> rfl

end F32

theorem f32_order : IEEEOrder f32Ops F32.isNaN where
  nan_left a b h := by
    cases a <;> first | exact F32.gt_of_nan_left b | exact Bool.noConfusion h
  nan_right a b h := by
    cases b <;> first | exact F32.gt_of_nan_right a | exact Bool.noConfusion h
  irrefl := F32.gt_self
  trans _ _ _ h1 h2 := F32.gt_chain h1 h2
  below _ _ _ h1 h2 := F32.isNaN_or_gt h1 h2

/-- The comparisons of the CPU reference are those of binary32: it compares `float`
variables. -/
theorem cpu_order (nanByte : Option Nat) :
    IEEEOrder (cpuOps nanByte) (fun a => F32.isNaN a.toF) where
  nan_left a b h := f32_order.nan_left a.toF b.toF h
  nan_right a b h := f32_order.nan_right a.toF b.toF h
  irrefl a := f32_order.irrefl a.toF
  trans a b c h1 h2 := f32_order.trans a.toF b.toF c.toF h1 h2
  below a b c h1 h2 := f32_order.below a.toF b.toF c.toF h1 h2

theorem scanInv_step {F : Type} (ops : FloatOps F) (isNaN : F → Bool)
    (hord : IEEEOrder ops isNaN) (zncc : Nat → F) (d : Nat) (s : F × Nat)
    (h : ScanInv ops isNaN zncc d s) :
    ScanInv ops isNaN zncc (d + 1) (if ops.gt (zncc d) s.1 then (zncc d, u8 d) else s) := by
  have hfalse : ∀ a b c, ops.gt a c = false → ops.gt b c = true → ops.gt a b = false := by
    intro a b c h1 h2
    by_contra hc
    have hab : ops.gt a b = true := by simpa using hc
    rw [hord.trans a b c hab h2] at h1
    exact Bool.noConfusion h1
  rcases h with ⟨hs, hno⟩ | ⟨c, hc, hs, hgt, hmax, hfirst⟩
  · subst hs
    by_cases hacc : ops.gt (zncc d) (ops.ofInt (-1), 0).1 = true
    · rw [if_pos hacc]
      have hacc1 : ops.gt (zncc d) (ops.ofInt (-1)) = true := hacc
      right
      refine ⟨d, Nat.lt_succ_self d, rfl, hacc1, ?_, ?_⟩
      · intro e he
        rcases Nat.lt_succ_iff_lt_or_eq.mp he with h1 | h1
        · exact hfalse _ _ _ (hno e h1) hacc1
        · rw [h1]; exact hord.irrefl _
      · intro e he
        exact hord.below _ _ _ (hno e he) hacc1
    · rw [if_neg hacc]
      have hacc1 : ops.gt (zncc d) (ops.ofInt (-1)) = false := by
        simpa using hacc
      left
      refine ⟨rfl, ?_⟩
      intro e he
      rcases Nat.lt_succ_iff_lt_or_eq.mp he with h1 | h1
      · exact hno e h1
      · rw [h1]; exact hacc1
  · subst hs
    by_cases hacc : ops.gt (zncc d) (zncc c, u8 c).1 = true
    · rw [if_pos hacc]
      have hacc1 : ops.gt (zncc d) (zncc c) = true := hacc
      right
      refine ⟨d, Nat.lt_succ_self d, rfl, hord.trans _ _ _ hacc1 hgt, ?_, ?_⟩
      · intro e he
        rcases Nat.lt_succ_iff_lt_or_eq.mp he with h1 | h1
        · exact hfalse _ _ _ (hmax e h1) hacc1
        · rw [h1]; exact hord.irrefl _
      · intro e he
        exact hord.below _ _ _ (hmax e he) hacc1
    · rw [if_neg hacc]
      have hacc1 : ops.gt (zncc d) (zncc c) = false := by
        simpa using hacc
      right
      refine ⟨c, Nat.lt_succ_of_lt hc, rfl, hgt, ?_, hfirst⟩
      intro e he
      rcases Nat.lt_succ_iff_lt_or_eq.mp he with h1 | h1
      · exact hmax e h1
      · rw [h1]; exact hacc1

theorem disparityScan_inv {F : Type} (ops : FloatOps F) (isNaN : F → Bool)
    (hord : IEEEOrder ops isNaN) (stop : Nat → Bool) (zncc : Nat → F) (k d : Nat) (s : F × Nat)
    (hns : ∀ e, e < d → stop e = false) (h : ScanInv ops isNaN zncc d s) :
    ∃ n, d ≤ n ∧ n ≤ d + k ∧ (∀ e, e < n → stop e = false) ∧ (n = d + k ∨ stop n = true) ∧
      ScanInv ops isNaN zncc n (disparityScan ops stop zncc k d s) := by
  induction k generalizing d s with
  | zero => exact ⟨d, le_refl _, le_refl _, hns, Or.inl rfl, h⟩
  | succ k ih =>
    unfold disparityScan
    by_cases hstop : stop d = true
    · rw [if_pos hstop]
      exact ⟨d, le_refl _, by omega, hns, Or.inr hstop, h⟩
    · rw [if_neg hstop]
      have hns1 : ∀ e, e < d + 1 → stop e = false := by
        intro e he
        rcases Nat.lt_succ_iff_lt_or_eq.mp he with h1 | h1
        · exact hns e h1
        · rw [h1]; simpa using hstop
      have hstep := scanInv_step ops isNaN hord zncc d s h
      by_cases hacc : ops.gt (zncc d) s.1 = true
      · rw [if_pos hacc] at hstep ⊢
        obtain ⟨n, h1, h2, h3, h4, h5⟩ := ih (d + 1) _ hns1 hstep
        exact ⟨n, by omega, by omega, h3, h4.imp (fun e => by omega) id, h5⟩
      · rw [if_neg hacc] at hstep ⊢
        obtain ⟨n, h1, h2, h3, h4, h5⟩ := ih (d + 1) _ hns1 hstep
        exact ⟨n, by omega, by omega, h3, h4.imp (fun e => by omega) id, h5⟩

/-- The scan of `D ≤ 256` candidates from the initial state `(-1, 0)` ends on the winner,
whatever the arithmetic that computes the ZNCC values. -/
theorem disparityScan_ends_on_winner {F : Type} (ops : FloatOps F) (isNaN : F → Bool)
    (hord : IEEEOrder ops isNaN) (stop : Nat → Bool) (zncc : Nat → F) (D : Nat) (hD : D ≤ 256) :
    ScanWinner ops isNaN stop zncc D
      (disparityScan ops stop zncc D 0 (ops.ofInt (-1), 0)).2 := by
  obtain ⟨n, _, hnD, hns, hend, hinv⟩ := disparityScan_inv ops isNaN hord stop zncc D 0
    (ops.ofInt (-1), 0) (fun e he => absurd he (Nat.not_lt_zero e))
    (Or.inl ⟨rfl, fun e he => absurd he (Nat.not_lt_zero e)⟩)
  have hsc : ∀ e, Scanned stop D e ↔ e < n := by
    intro e
    constructor
    · rintro ⟨h1, h2⟩
      rcases hend with h | h
      · omega
      · by_contra hlt
        have := h2 n (by omega)
        rw [h] at this
        exact Bool.noConfusion this
    · intro he
      exact ⟨by omega, fun e' he' => hns e' (by omega)⟩
  rcases hinv with ⟨hs, hno⟩ | ⟨c, hc, hs, hgt, hmax, hfirst⟩
  · rw [hs]
    refine ⟨fun _ => rfl, ?_⟩
    rintro ⟨e, he, hge⟩
    rw [hno e ((hsc e).mp he)] at hge
    exact Bool.noConfusion hge
  · rw [hs]
    have hcc : u8 c = c := u8_of_lt (by omega)
    show ScanWinner ops isNaN stop zncc D (u8 c)
    rw [hcc]
    refine ⟨?_, ?_⟩
    · intro hall
      rw [hall c ((hsc c).mpr hc)] at hgt
      exact Bool.noConfusion hgt
    · intro _
      exact ⟨(hsc c).mpr hc, hgt, fun e he => hmax e ((hsc e).mp he),
        fun e _ hec => hfirst e hec⟩

theorem toU32_of_nonneg_lt {z : Int} (h0 : 0 ≤ z) (h1 : z < 2 ^ 32) : (toU32 z : Int) = z := by
  unfold toU32
  rw [Int.emod_eq_of_lt h0 h1]
  exact Int.toNat_of_nonneg h0

/-- The candidates the CPU scan goes through are the `d < D` with `x + direction * d` inside
`[0, w)`. -/
theorem cpu_scanned_iff (w D x : Nat) (direction : Int) (hdir : direction = 1 ∨ direction = -1)
    (hw : w < 2 ^ 31) (hx : x < w) (d : Nat) :
    Scanned (SimpleDepthEstimator.scanStop w direction (x : Int)) D d ↔
      d < D ∧ 0 ≤ (x : Int) + direction * d ∧ (x : Int) + direction * d < w := by
  unfold Scanned SimpleDepthEstimator.scanStop
  rw [i32_of_lt hw]
  constructor
  · rintro ⟨h1, h2⟩
    have := h2 d (le_refl _)
    simp only [decide_eq_false_iff_not, not_or, not_lt, not_le] at this
    exact ⟨h1, this.1, this.2⟩
  · rintro ⟨h1, h2, h3⟩
    refine ⟨h1, ?_⟩
    intro e he
    simp only [decide_eq_false_iff_not, not_or, not_lt, not_le]
    rcases hdir with hd | hd <;> subst hd <;> constructor <;> omega

/-- The candidates the kernel scan goes through are the `d < D` with `x + direction * d`
inside `[0, w)`. -/
theorem kernel_scanned_iff (w D x : Nat) (direction : Int)
    (hdir : direction = 1 ∨ direction = -1) (hw : w < 2 ^ 31) (hx : x < w) (d : Nat) :
    Scanned (CLDepthEstimator2.scanStop w direction (x : Int)) D d ↔
      d < D ∧ 0 ≤ (x : Int) + direction * d ∧ (x : Int) + direction * d < w := by
  unfold Scanned CLDepthEstimator2.scanStop
  constructor
  · rintro ⟨h1, h2⟩
    have := h2 d (le_refl _)
    simp only [decide_eq_false_iff_not, not_or, not_lt, not_le] at this
    obtain ⟨h3, h4⟩ := this
    have h5 : (x : Int) + direction * d < 2 ^ 32 := by
      rcases hdir with hd | hd <;> subst hd
      · by_contra hge
        have hd1 := h2 (2 ^ 32 - 1 - x) (by omega)
        simp only [decide_eq_false_iff_not, not_or, not_lt, not_le] at hd1
        have h6 := toU32_of_nonneg_lt (z := (x : Int) + 1 * ((2 ^ 32 - 1 - x : Nat) : Int))
          (by omega) (by omega)
        omega
      · omega
    have h6 := toU32_of_nonneg_lt h3 h5
    exact ⟨h1, h3, by omega⟩
  · rintro ⟨h1, h2, h3⟩
    refine ⟨h1, ?_⟩
    intro e he
    simp only [decide_eq_false_iff_not, not_or, not_lt, not_le]
    have h0 : 0 ≤ (x : Int) + direction * e := by
      rcases hdir with hd | hd <;> subst hd <;> omega
    have hlt : (x : Int) + direction * e < w := by
      rcases hdir with hd | hd <;> subst hd <;> omega
    have h6 := toU32_of_nonneg_lt h0 (by omega)
    exact ⟨h0, by omega⟩

/-- At every pixel the scan of the disparity stage ends on its winner, for `D ≤ 255` and
whatever arithmetic computes the ZNCC values, its comparison `>` being the IEEE one. -/
theorem scan_winner_of_order {F : Type} (ops : FloatOps F) (isNaN : F → Bool)
    (hord : IEEEOrder ops isNaN) (img_0 img_1 mean_0 mean_1 : List Nat) (w h R D x y : Nat)
    (direction : Int) (hD : D ≤ 255) :
    ScanWinner ops isNaN (SimpleDepthEstimator.scanStop w direction (x : Int))
        (SimpleDepthEstimator.znccAt ops img_0 img_1 mean_0 mean_1 w h R direction
          (y : Int) (x : Int)) D
        (SimpleDepthEstimator.calcDisparityPixel ops img_0 img_1 mean_0 mean_1 w h R D
          direction (y : Int) (x : Int)) ∧
    ScanWinner ops isNaN (CLDepthEstimator2.scanStop w direction (x : Int))
        (CLDepthEstimator2.znccAt ops img_0 img_1 mean_0 mean_1 w h R direction
          (x : Int) (y : Int)) D
        (CLDepthEstimator2.disparityPixel ops img_0 img_1 mean_0 mean_1 w h R D
          direction (x : Int) (y : Int)) := by
  constructor
  · unfold SimpleDepthEstimator.calcDisparityPixel SimpleDepthEstimator.calcDisparityState
    rw [i32_of_lt (n := D) (by omega), Int.toNat_ofNat]
    exact disparityScan_ends_on_winner ops isNaN hord _ _ D (by omega)
  · unfold CLDepthEstimator2.disparityPixel CLDepthEstimator2.disparityState
    exact disparityScan_ends_on_winner ops isNaN hord _ _ D (by omega)

/-- C5 (as amended): at every pixel `(x, y)`, for `D ≤ 255`, with the ZNCC values as the
arithmetic of the code computes them (the CPU reference: `float` sums, the roots, their product
and the quotient in `double`, the quotient rounded to `float`; the OpenCL kernel: binary32),
the disparity stage scans the candidates `d` in `[0, D)` with `x + direction * d` inside
`[0, w)` and outputs `0` when none of them has a computed ZNCC greater than `-1` (the ZNCC of a
window without variance is `0 / 0`, a NaN, and compares false); otherwise it outputs a scanned
candidate whose computed ZNCC is greater than `-1` and is exceeded by no scanned candidate,
every scanned candidate before it having a computed ZNCC that is NaN or strictly smaller (ties
keep the smallest `d`). -/
theorem disparity_scan_winner (nanByte : Option Nat) (img_0 img_1 mean_0 mean_1 : List Nat)
    (w h R D x y : Nat) (direction : Int) (hdir : direction = 1 ∨ direction = -1)
    (hD : D ≤ 255) (himg : IsImage img_0 w h) (hx : x < w) (hy : y < h) :
    (ScanWinner (cpuOps nanByte) (fun a => F32.isNaN a.toF)
        (SimpleDepthEstimator.scanStop w direction (x : Int))
        (SimpleDepthEstimator.znccAt (cpuOps nanByte) img_0 img_1 mean_0 mean_1 w h R direction
          (y : Int) (x : Int)) D
        (SimpleDepthEstimator.calcDisparityPixel (cpuOps nanByte) img_0 img_1 mean_0 mean_1 w h
          R D direction (y : Int) (x : Int)) ∧
      ∀ d, Scanned (SimpleDepthEstimator.scanStop w direction (x : Int)) D d ↔
        d < D ∧ 0 ≤ (x : Int) + direction * d ∧ (x : Int) + direction * d < w) ∧
    (ScanWinner f32Ops F32.isNaN (CLDepthEstimator2.scanStop w direction (x : Int))
        (CLDepthEstimator2.znccAt f32Ops img_0 img_1 mean_0 mean_1 w h R direction
          (x : Int) (y : Int)) D
        (CLDepthEstimator2.disparityPixel f32Ops img_0 img_1 mean_0 mean_1 w h R D
          direction (x : Int) (y : Int)) ∧
      ∀ d, Scanned (CLDepthEstimator2.scanStop w direction (x : Int)) D d ↔
        d < D ∧ 0 ≤ (x : Int) + direction * d ∧ (x : Int) + direction * d < w) := by
  obtain ⟨hw31, _⟩ := SimpleDepthEstimator.dims_lt_of_pixel himg.2.1 hx hy
  exact ⟨⟨(scan_winner_of_order (cpuOps nanByte) (fun a => F32.isNaN a.toF) (cpu_order nanByte)
      img_0 img_1 mean_0 mean_1 w h R D x y direction hD).1,
      cpu_scanned_iff w D x direction hdir hw31 hx⟩,
    ⟨(scan_winner_of_order f32Ops F32.isNaN f32_order img_0 img_1 mean_0 mean_1 w h R D x y
      direction hD).2, kernel_scanned_iff w D x direction hdir hw31 hx⟩⟩

theorem disparity_scan_winner_witness :
    ScanWinner (cpuOps none) (fun a => F32.isNaN a.toF)
      (SimpleDepthEstimator.scanStop 4 (-1) ((3 : Nat) : Int))
      (SimpleDepthEstimator.znccAt (cpuOps none) [0, 0, 9, 0] [9, 0, 0, 0] [0, 1, 1, 1]
        [1, 1, 0, 0] 4 1 1 (-1) ((0 : Nat) : Int) ((3 : Nat) : Int)) 3
      (SimpleDepthEstimator.calcDisparityPixel (cpuOps none) [0, 0, 9, 0] [9, 0, 0, 0]
        [0, 1, 1, 1] [1, 1, 0, 0] 4 1 1 3 (-1) ((0 : Nat) : Int) ((3 : Nat) : Int)) :=
  (disparity_scan_winner none [0, 0, 9, 0] [9, 0, 0, 0] [0, 1, 1, 1] [1, 1, 0, 0] 4 1 1 3 3 0
    (-1) (by decide) (by decide) (by decide) (by decide) (by decide)).1.1

/-! ### A candidate without variance -/

/-- The accumulators of the CPU window in exact arithmetic are the integer sums. -/
theorem cpu_sums_exact (img_0 img_1 mean_0 mean_1 : List Nat) (w h R : Nat)
    (direction i j : Int) (d : Nat) :
    SimpleDepthEstimator.znccSums realOps img_0 img_1 mean_0 mean_1 w h R direction i j d
      = (FVal.fin ((SimpleDepthEstimator.znccSums intOps img_0 img_1 mean_0 mean_1 w h R
            direction i j d).1 : ℝ),
         FVal.fin ((SimpleDepthEstimator.znccSums intOps img_0 img_1 mean_0 mean_1 w h R
            direction i j d).2.1 : ℝ),
         FVal.fin ((SimpleDepthEstimator.znccSums intOps img_0 img_1 mean_0 mean_1 w h R
            direction i j d).2.2 : ℝ)) := by
  unfold SimpleDepthEstimator.znccSums
  apply foldl_rel (fun (acc : FVal × FVal × FVal) (t : Int × Int × Int) =>
    acc = (FVal.fin (t.1 : ℝ), FVal.fin (t.2.1 : ℝ), FVal.fin (t.2.2 : ℝ)))
  · simp [realOps, intOps]
  · intro acc t m hacc
    apply foldl_rel (fun (acc : FVal × FVal × FVal) (t : Int × Int × Int) =>
      acc = (FVal.fin (t.1 : ℝ), FVal.fin (t.2.1 : ℝ), FVal.fin (t.2.2 : ℝ)))
    · exact hacc
    · intro acc t n hacc
      split
      · subst hacc
        simp [realOps, intOps, FVal.add, FVal.mul]
      · exact hacc

theorem cpu_zncc_of_sums (img_0 img_1 mean_0 mean_1 : List Nat) (w h R : Nat)
    (direction i j : Int) (d : Nat) (a b c : Int)
    (hs : SimpleDepthEstimator.znccSums intOps img_0 img_1 mean_0 mean_1 w h R direction i j d
      = (a, b, c)) :
    SimpleDepthEstimator.znccAt realOps img_0 img_1 mean_0 mean_1 w h R direction i j d
      = FVal.div (FVal.fin (a : ℝ))
          (FVal.mul (FVal.sqrt (FVal.fin (b : ℝ))) (FVal.sqrt (FVal.fin (c : ℝ)))) := by
  unfold SimpleDepthEstimator.znccAt
  rw [cpu_sums_exact, hs]
  rfl

theorem zncc_example_0 :
    SimpleDepthEstimator.znccAt realOps [0, 0, 9, 0] [9, 0, 0, 0] [0, 1, 1, 1] [1, 1, 0, 0]
      4 1 1 (-1) 0 3 0 = FVal.nan := by
  rw [cpu_zncc_of_sums _ _ _ _ _ _ _ _ _ _ _ 0 65 0 (by decide)]
  rcases FVal.zncc_le_one ((0 : Int) : ℝ) ((65 : Int) : ℝ) ((0 : Int) : ℝ) (by norm_num)
    (by norm_num) (by norm_num) with ⟨_, h⟩ | ⟨hne, _⟩
  · exact h
  · exact absurd (by norm_num) hne

theorem zncc_example_1 :
    SimpleDepthEstimator.znccAt realOps [0, 0, 9, 0] [9, 0, 0, 0] [0, 1, 1, 1] [1, 1, 0, 0]
      4 1 1 (-1) 0 3 1 = FVal.nan := by
  rw [cpu_zncc_of_sums _ _ _ _ _ _ _ _ _ _ _ 0 65 0 (by decide)]
  rcases FVal.zncc_le_one ((0 : Int) : ℝ) ((65 : Int) : ℝ) ((0 : Int) : ℝ) (by norm_num)
    (by norm_num) (by norm_num) with ⟨_, h⟩ | ⟨hne, _⟩
  · exact h
  · exact absurd (by norm_num) hne

theorem zncc_example_2 :
    SimpleDepthEstimator.znccAt realOps [0, 0, 9, 0] [9, 0, 0, 0] [0, 1, 1, 1] [1, 1, 0, 0]
      4 1 1 (-1) 0 3 2 = FVal.fin 1 := by
  rw [cpu_zncc_of_sums _ _ _ _ _ _ _ _ _ _ _ 65 65 65 (by decide)]
  rcases FVal.zncc_self ((65 : Int) : ℝ) (by norm_num) with ⟨h0, _⟩ | h
  · norm_num at h0
  · exact h

/-- C5 fails as stated. Left row `[0, 0, 9, 0]`, right row `[9, 0, 0, 0]` (the same feature
two pixels to the left), their box means for `R = 1`, `D = 3`, `direction = -1`, pixel
`(3, 0)`, in the arithmetic of the CPU reference: the right window of candidate `0` has no
variance, so its ZNCC is `0 / 0`, a NaN; candidate `0` is scanned but not accepted
(`NaN > -1` is false), the output is `2`, and the ZNCC of candidate `0` is not smaller than
that of the output. -/
theorem disparity_skips_nan_candidates :
    SimpleDepthEstimator.filterImg [0, 0, 9, 0] 4 1 1 = [0, 1, 1, 1] ∧
    SimpleDepthEstimator.filterImg [9, 0, 0, 0] 4 1 1 = [1, 1, 0, 0] ∧
    Scanned (SimpleDepthEstimator.scanStop 4 (-1) 3) 3 0 ∧
    SimpleDepthEstimator.znccAt (cpuOps none) [0, 0, 9, 0] [9, 0, 0, 0] [0, 1, 1, 1]
      [1, 1, 0, 0] 4 1 1 (-1) 0 3 0 = CVal.f F32.nan ∧
    (cpuOps none).gt (SimpleDepthEstimator.znccAt (cpuOps none) [0, 0, 9, 0] [9, 0, 0, 0]
      [0, 1, 1, 1] [1, 1, 0, 0] 4 1 1 (-1) 0 3 0) ((cpuOps none).ofInt (-1)) = false ∧
    SimpleDepthEstimator.calcDisparityPixel (cpuOps none) [0, 0, 9, 0] [9, 0, 0, 0]
      [0, 1, 1, 1] [1, 1, 0, 0] 4 1 1 3 (-1) 0 3 = 2 ∧
    (cpuOps none).gt (SimpleDepthEstimator.znccAt (cpuOps none) [0, 0, 9, 0] [9, 0, 0, 0]
        [0, 1, 1, 1] [1, 1, 0, 0] 4 1 1 (-1) 0 3 2)
      (SimpleDepthEstimator.znccAt (cpuOps none) [0, 0, 9, 0] [9, 0, 0, 0] [0, 1, 1, 1]
        [1, 1, 0, 0] 4 1 1 (-1) 0 3 0) = false := by
  refine ⟨by decide, by decide, ⟨by decide, ?_⟩, by decide!, by decide!, by decide!, by decide!⟩
  intro e he
  have h0 : e = 0 := by omega
  subst h0
  decide

/-! ## Crosscheck -/

theorem rd_set (l : List Nat) (i v p : Nat) :
    rd (l.set i v) p = if p = i ∧ i < l.length then v else rd l p := by
  unfold rd
  simp only [List.getD_eq_getElem?_getD, List.getElem?_set]
  by_cases h : i = p
  · subst h
    by_cases hl : i < l.length
    · simp [hl]
    · simp [hl, List.getElem?_eq_none (Nat.le_of_not_lt hl)]
  · have h2 : ¬ p = i := fun e => h e.symm
    simp [h, h2]

theorem rd_of_length_le (l : List Nat) (p : Nat) (h : l.length ≤ p) : rd l p = 0 := by
  unfold rd
  exact List.getD_eq_default _ _ h

theorem ext_rd (l1 l2 : List Nat) (hlen : l1.length = l2.length)
    (h : ∀ p, rd l1 p = rd l2 p) : l1 = l2 := by
  apply List.ext_getElem hlen
  intro n h1 h2
  have := h n
  unfold rd at this
  rw [List.getD_eq_getElem _ _ h1, List.getD_eq_getElem _ _ h2] at this
  exact this

namespace SimpleDepthEstimator

theorem crossValue_zero (T r : Nat) : crossValue T 0 r = 0 := by
  unfold crossValue
  split <;> rfl

theorem crossValue_idem (T l r : Nat) : crossValue T (crossValue T l r) r = crossValue T l r := by
  unfold crossValue
  by_cases h : (T : Int) < |(l : Int) - (r : Int)|
  · rw [if_pos h]
    split <;> rfl
  · rw [if_neg h, if_neg h]

/-- The state of `crossCheck` after the first `N` iterations of its loop. -/
theorem crossCheck_loop (left right : List Nat) (T N : Nat) :
    ((List.range N).foldl (fun (s : List Nat × List Nat) i =>
        if (T : Int) < |(rd s.1 i : Int) - (rd s.2 i : Int)| then (s.1.set i 0, s.2) else s)
      (left, right)).2 = right ∧
    ((List.range N).foldl (fun (s : List Nat × List Nat) i =>
        if (T : Int) < |(rd s.1 i : Int) - (rd s.2 i : Int)| then (s.1.set i 0, s.2) else s)
      (left, right)).1.length = left.length ∧
    ∀ p, rd ((List.range N).foldl (fun (s : List Nat × List Nat) i =>
        if (T : Int) < |(rd s.1 i : Int) - (rd s.2 i : Int)| then (s.1.set i 0, s.2) else s)
      (left, right)).1 p = if p < N then crossValue T (rd left p) (rd right p) else rd left p := by
  induction N with
  | zero => simp
  | succ N ih =>
    rw [List.range_succ, List.foldl_append]
    obtain ⟨h2, hlen, hrd⟩ := ih
    generalize (List.range N).foldl (fun (s : List Nat × List Nat) i =>
        if (T : Int) < |(rd s.1 i : Int) - (rd s.2 i : Int)| then (s.1.set i 0, s.2) else s)
      (left, right) = S at h2 hlen hrd
    simp only [List.foldl_cons, List.foldl_nil]
    have hN : rd S.1 N = rd left N := by rw [hrd N, if_neg (Nat.lt_irrefl N)]
    rw [hN, h2]
    by_cases hc : (T : Int) < |(rd left N : Int) - (rd right N : Int)|
    · rw [if_pos hc]
      refine ⟨rfl, by rw [List.length_set, hlen], ?_⟩
      intro p
      show rd (S.1.set N 0) p = _
      rw [rd_set, hrd p]
      by_cases hp : p = N
      · subst hp
        rw [if_pos (Nat.lt_succ_self p), if_neg (Nat.lt_irrefl p)]
        unfold crossValue
        rw [if_pos hc]
        by_cases hl : p < S.1.length
        · rw [if_pos ⟨rfl, hl⟩]
        · rw [if_neg (fun h => hl h.2)]
          exact rd_of_length_le _ _ (by omega)
      · rw [if_neg (fun h => hp h.1)]
        by_cases hlt : p < N
        · rw [if_pos hlt, if_pos (by omega)]
        · rw [if_neg hlt, if_neg (by omega)]
    · rw [if_neg hc]
      refine ⟨h2, hlen, ?_⟩
      intro p
      rw [hrd p]
      by_cases hp : p = N
      · subst hp
        rw [if_neg (Nat.lt_irrefl p), if_pos (Nat.lt_succ_self p)]
        unfold crossValue
        rw [if_neg hc]
      · by_cases hlt : p < N
        · rw [if_pos hlt, if_pos (by omega)]
        · rw [if_neg hlt, if_neg (by omega)]

theorem crossCheck_spec (left right : List Nat) (w h T : Nat) :
    (crossCheck left right w h T).2 = right ∧
    (crossCheck left right w h T).1.length = left.length ∧
    ∀ p, rd (crossCheck left right w h T).1 p
      = if p < u32 (w * h) then crossValue T (rd left p) (rd right p) else rd left p := by
  unfold crossCheck forLt
  rw [Nat.sub_zero, ← List.range_eq_range']
  exact crossCheck_loop left right T (u32 (w * h))

end SimpleDepthEstimator

namespace CLDepthEstimator2

theorem crosscheckItem_spec (left right : List Nat) (w h T m : Nat)
    (hl : ∀ v ∈ left, v < 256) (hr : ∀ v ∈ right, v < 256) (hm : m < u32 (w * h)) :
    crosscheckItem left right w h T m
      = (if (T : Int) < |(rd left m : Int) - (rd right m : Int)| then left.set m 0 else left,
          right) := by
  have hm32 : m < 2 ^ 32 := lt_trans hm (u32_lt _)
  have h1 := rd_lt hl m
  have h2 := rd_lt hr m
  have habs : (toU32 |(rd left m : Int) - (rd right m : Int)| : Int)
      = |(rd left m : Int) - (rd right m : Int)| :=
    toU32_of_nonneg_lt (abs_nonneg _) (by rw [abs_lt]; constructor <;> omega)
  unfold crosscheckItem
  rw [toU32_natCast hm32, if_pos hm]
  by_cases hc : (T : Int) < |(rd left m : Int) - (rd right m : Int)|
  · rw [if_pos hc, if_pos (by omega)]
  · rw [if_neg hc, if_neg (by omega)]

end CLDepthEstimator2

/-- C6: crosscheck with threshold `T` on left and right disparity maps of equal size: after
the call (of the CPU reference, and after the work-item of the OpenCL kernel for pixel `p`)
pixel `p` of the left map is `0` if `|left[p] - right[p]| > T` and `left[p]` otherwise; the
left map keeps its size, the right map is not modified, and a work-item leaves the other
pixels of the left map as they are. -/
theorem crossCheck_zeroes_exactly (left right : List Nat) (w h T p : Nat)
    (hl : IsImage left w h) (hr : IsImage right w h) (hp : p < w * h) :
    (rd (SimpleDepthEstimator.crossCheck left right w h T).1 p
        = (if (T : Int) < |(rd left p : Int) - (rd right p : Int)| then 0 else rd left p) ∧
      (SimpleDepthEstimator.crossCheck left right w h T).1.length = left.length ∧
      (SimpleDepthEstimator.crossCheck left right w h T).2 = right) ∧
    (rd (CLDepthEstimator2.crosscheckItem left right w h T p).1 p
        = (if (T : Int) < |(rd left p : Int) - (rd right p : Int)| then 0 else rd left p) ∧
      (∀ q, q ≠ p → rd (CLDepthEstimator2.crosscheckItem left right w h T p).1 q = rd left q) ∧
      (CLDepthEstimator2.crosscheckItem left right w h T p).1.length = left.length ∧
      (CLDepthEstimator2.crosscheckItem left right w h T p).2 = right) := by
  have hN : u32 (w * h) = w * h := u32_of_lt (by have := hl.2.1; omega)
  constructor
  · obtain ⟨h2, hlen, hrd⟩ := SimpleDepthEstimator.crossCheck_spec left right w h T
    refine ⟨?_, hlen, h2⟩
    rw [hrd p, hN, if_pos hp]
    rfl
  · rw [CLDepthEstimator2.crosscheckItem_spec left right w h T p hl.2.2 hr.2.2 (by omega)]
    have hlen : p < left.length := by rw [hl.1]; exact hp
    by_cases hc : (T : Int) < |(rd left p : Int) - (rd right p : Int)|
    · simp only [if_pos hc]
      refine ⟨?_, ?_, List.length_set _ _ _, trivial⟩
      · rw [rd_set, if_pos ⟨rfl, hlen⟩]
      · intro q hq
        rw [rd_set, if_neg (fun e => hq e.1)]
    · simp only [if_neg hc]
      exact ⟨trivial, fun _ _ => trivial, trivial, trivial⟩

theorem crossCheck_zeroes_exactly_witness :
    rd (SimpleDepthEstimator.crossCheck [1, 5, 9, 0] [2, 2, 2, 9] 2 2 3).1 2
      = (if ((3 : Nat) : Int) < |(rd [1, 5, 9, 0] 2 : Int) - (rd [2, 2, 2, 9] 2 : Int)|
          then 0 else rd [1, 5, 9, 0] 2) :=
  (crossCheck_zeroes_exactly [1, 5, 9, 0] [2, 2, 2, 9] 2 2 3 2 (by decide) (by decide)
    (by decide)).1.1

/-- C7: crosscheck is idempotent: for every left map, right map and threshold `T`, applying
it (the CPU reference, or a work-item of the OpenCL kernel) to its own result with the same
right map and threshold changes nothing. -/
theorem crossCheck_idempotent (left right : List Nat) (w h T : Nat) :
    SimpleDepthEstimator.crossCheck (SimpleDepthEstimator.crossCheck left right w h T).1
        right w h T
      = SimpleDepthEstimator.crossCheck left right w h T ∧
    ∀ m, CLDepthEstimator2.crosscheckItem
        (CLDepthEstimator2.crosscheckItem left right w h T m).1 right w h T m
      = CLDepthEstimator2.crosscheckItem left right w h T m := by
  constructor
  · obtain ⟨h2, hlen, hrd⟩ := SimpleDepthEstimator.crossCheck_spec left right w h T
    obtain ⟨h2', hlen', hrd'⟩ := SimpleDepthEstimator.crossCheck_spec
      (SimpleDepthEstimator.crossCheck left right w h T).1 right w h T
    apply Prod.ext
    · apply ext_rd _ _ hlen'
      intro p
      rw [hrd' p, hrd p]
      by_cases hp : p < u32 (w * h)
      · simp only [if_pos hp]
        exact SimpleDepthEstimator.crossValue_idem _ _ _
      · simp only [if_neg hp]
    · rw [h2', h2]
  · intro m
    unfold CLDepthEstimator2.crosscheckItem
    by_cases hm : toU32 (m : Int) < u32 (w * h)
    · simp only [if_pos hm]
      by_cases hc : T < toU32 |(rd left (toU32 (m : Int)) : Int) - (rd right (toU32 (m : Int)) : Int)|
      · simp only [if_pos hc]
        split
        · rw [List.set_set]
        · rfl
      · simp only [if_neg hc]
    · simp only [if_neg hm]

/-! ## Occlusion fill -/

/-- C8: occlusion fill is the identity on valid pixels: for every image, radius `Ro` and
pixel `p = (x, y)` with `img[p] > 0`, the CPU reference and the work-item of the OpenCL
kernel for `p` store `img[p]` at `out[p]`, whatever the floating-point arithmetic. -/
theorem occlusionFill_identity_on_valid {F : Type} (ops : FloatOps F) (img : List Nat)
    (w h Ro x y : Nat) (himg : IsImage img w h) (hx : x < w) (hy : y < h)
    (hv : rd img (x + y * w) > 0) :
    (SimpleDepthEstimator.occlusionFill ops img w h Ro)[x + y * w]?
      = some (some (rd img (x + y * w))) ∧
    CLDepthEstimator2.occlusionItem ops img w h Ro x y
      = some (x + y * w, some (rd img (x + y * w))) := by
  obtain ⟨hw31, hh31⟩ := SimpleDepthEstimator.dims_lt_of_pixel himg.2.1 hx hy
  have hidx := SimpleDepthEstimator.index_lt_of_pixel hx hy
  have e1 : ((x : Int) + (y : Int) * (w : Int)) = ((x + y * w : Nat) : Int) := by
    push_cast; ring
  have e2 : toU32 ((x : Int) + (y : Int) * (w : Int)) = x + y * w := by
    rw [e1, toU32_natCast (by have := himg.2.1; omega)]
  constructor
  · unfold SimpleDepthEstimator.occlusionFill
    rw [i32_of_lt hw31, i32_of_lt hh31, Int.toNat_ofNat, Int.toNat_ofNat,
      getElem?_raster _ _ _ y x hy hx]
    unfold SimpleDepthEstimator.occlusionPixel
    rw [e2, if_pos hv]
  · unfold CLDepthEstimator2.occlusionItem
    rw [toU32_natCast (n := x) (by omega), toU32_natCast (n := y) (by omega), if_pos ⟨hx, hy⟩,
      e2, if_pos hv]

theorem occlusionFill_identity_on_valid_witness :
    (SimpleDepthEstimator.occlusionFill intOps [0, 5, 9, 0] 2 2 1)[1 + 0 * 2]?
      = some (some (rd [0, 5, 9, 0] (1 + 0 * 2))) ∧
    CLDepthEstimator2.occlusionItem intOps [0, 5, 9, 0] 2 2 1 1 0
      = some (1 + 0 * 2, some (rd [0, 5, 9, 0] (1 + 0 * 2))) :=
  occlusionFill_identity_on_valid intOps [0, 5, 9, 0] 2 2 1 1 0 (by decide) (by decide)
    (by decide) (by decide)

theorem foldl_snd_count {α F : Type} (step : F × Nat → α → F × Nat) (c : α → Nat)
    (hstep : ∀ acc a, acc.2 < 2 ^ 32 → (step acc a).2 = u32 (acc.2 + c a))
    (l : List α) (acc : F × Nat) (h : acc.2 < 2 ^ 32) :
    (l.foldl step acc).2 = u32 (acc.2 + (l.map c).sum) := by
  induction l generalizing acc with
  | nil => simp [u32_of_lt h]
  | cons a l ih =>
    rw [List.foldl_cons, ih _ (by rw [hstep acc a h]; exact u32_lt _), hstep acc a h,
      u32_add_u32]
    simp [Nat.add_assoc]

theorem foldl_fst_sum {α β : Type} (step : FVal × β → α → FVal × β) (g : α → Nat)
    (hstep : ∀ acc a (s : ℝ), acc.1 = FVal.fin s → (step acc a).1 = FVal.fin (s + (g a : ℝ)))
    (l : List α) (acc : FVal × β) (s : ℝ) (h : acc.1 = FVal.fin s) :
    (l.foldl step acc).1 = FVal.fin (s + (((l.map g).sum : Nat) : ℝ)) := by
  induction l generalizing acc s with
  | nil => simp [h]
  | cons a l ih =>
    rw [List.foldl_cons, ih _ _ (hstep acc a s h)]
    simp [add_assoc]

theorem sum_map_le_sum_map {α : Type} (l : List α) (f g : α → Nat) (h : ∀ a ∈ l, f a ≤ g a) :
    (l.map f).sum ≤ (l.map g).sum := by
  induction l with
  | nil => simp
  | cons a l ih =>
    have h1 := h a (List.mem_cons_self _ _)
    have h2 := ih (fun x hx => h x (List.mem_cons_of_mem _ hx))
    simp only [List.map_cons, List.sum_cons]
    omega

theorem sum_map_mul_left {α : Type} (l : List α) (f : α → Nat) (k : Nat) :
    (l.map (fun a => k * f a)).sum = k * (l.map f).sum := by
  induction l with
  | nil => simp
  | cons a l ih => simp only [List.map_cons, List.sum_cons, ih, Nat.mul_add]

/-- A window of `N` consecutive columns holds at most `w` columns of the image. -/
theorem count_in_range_le (c : Int) (w N : Nat) :
    ((List.range N).map (fun (k : Nat) => if 0 ≤ c + (k : Int) ∧ c + (k : Int) < (w : Int)
      then 1 else 0)).sum ≤ w ∧
    ((((List.range N).map (fun (k : Nat) => if 0 ≤ c + (k : Int) ∧ c + (k : Int) < (w : Int)
      then 1 else 0)).sum : Nat) : Int) ≤ max 0 (c + N) := by
  induction N with
  | zero => simp
  | succ N ih =>
    rw [List.range_succ, List.map_append, List.sum_append]
    obtain ⟨h1, h2⟩ := ih
    simp only [List.map_cons, List.map_nil, List.sum_cons, List.sum_nil, Nat.add_zero]
    by_cases hc : 0 ≤ c + (N : Int) ∧ c + (N : Int) < (w : Int)
    · rw [if_pos hc]
      have : max 0 (c + (N : Int)) = c + N := max_eq_right hc.1
      have : max 0 (c + ((N + 1 : Nat) : Int)) = c + ((N + 1 : Nat) : Int) :=
        max_eq_right (by push_cast; omega)
      constructor
      · omega
      · push_cast at *; omega
    · rw [if_neg hc]
      have : max 0 (c + (N : Int)) ≤ max 0 (c + ((N + 1 : Nat) : Int)) :=
        max_le_max (le_refl _) (by push_cast; omega)
      constructor
      · omega
      · omega

namespace SimpleDepthEstimator

theorem pixelAt_pos_inside {img : List Nat} {w h : Nat} {x y : Int}
    (hp : pixelAt img w h x y > 0) : 0 ≤ x ∧ x < (w : Int) ∧ 0 ≤ y ∧ y < (h : Int) := by
  unfold pixelAt at hp
  by_contra hc
  rw [if_neg hc] at hp
  exact absurd hp (Nat.lt_irrefl 0)

/-- The window holds at most as many valid pixels as the image has pixels. -/
theorem validCount_le (img : List Nat) (w h Ro x y : Nat) :
    validCount img w h Ro x y ≤ w * h := by
  unfold validCount
  have hrow : ∀ dy ∈ List.range (2 * Ro + 1),
      ((List.range (2 * Ro + 1)).map (fun (dx : Nat) =>
        if pixelAt img w h ((x : Int) + (dx : Int) - (Ro : Int))
            ((y : Int) + (dy : Int) - (Ro : Int)) > 0 then 1 else 0)).sum
      ≤ w * (if 0 ≤ ((y : Int) - Ro) + (dy : Int) ∧ ((y : Int) - Ro) + (dy : Int) < (h : Int)
          then 1 else 0) := by
    intro dy _
    by_cases hy : 0 ≤ ((y : Int) - Ro) + (dy : Int) ∧ ((y : Int) - Ro) + (dy : Int) < (h : Int)
    · rw [if_pos hy, Nat.mul_one]
      refine le_trans (sum_map_le_sum_map _ _ (fun (k : Nat) =>
        if 0 ≤ ((x : Int) - Ro) + (k : Int) ∧ ((x : Int) - Ro) + (k : Int) < (w : Int)
          then 1 else 0) ?_) (count_in_range_le ((x : Int) - Ro) w (2 * Ro + 1)).1
      intro dx _
      by_cases hp : pixelAt img w h ((x : Int) + (dx : Int) - (Ro : Int))
          ((y : Int) + (dy : Int) - (Ro : Int)) > 0
      · have hin := pixelAt_pos_inside hp
        rw [if_pos hp]
        show 1 ≤ (if 0 ≤ ((x : Int) - Ro) + (dx : Int) ∧ ((x : Int) - Ro) + (dx : Int) < (w : Int)
          then 1 else 0)
        rw [if_pos (by omega)]
      · rw [if_neg hp]
        exact Nat.zero_le _
    · rw [if_neg hy, Nat.mul_zero]
      apply Nat.le_of_eq
      apply List.sum_eq_zero
      intro v hv
      rw [List.mem_map] at hv
      obtain ⟨dx, _, rfl⟩ := hv
      by_cases hp : pixelAt img w h ((x : Int) + (dx : Int) - (Ro : Int))
          ((y : Int) + (dy : Int) - (Ro : Int)) > 0
      · have hin := pixelAt_pos_inside hp
        exact absurd (by omega) hy
      · rw [if_neg hp]
  refine le_trans (sum_map_le_sum_map _ _ _ hrow) ?_
  rw [sum_map_mul_left]
  exact Nat.mul_le_mul_left _ (count_in_range_le ((y : Int) - Ro) h (2 * Ro + 1)).1

/-- The valid pixels of the window sum to at most `255` times their number. -/
theorem validSum_le (img : List Nat) (w h Ro x y : Nat) (hpx : ∀ p ∈ img, p < 256) :
    validSum img w h Ro x y ≤ 255 * validCount img w h Ro x y := by
  unfold validSum validCount
  rw [← sum_map_mul_left]
  apply sum_map_le_sum_map
  intro dy _
  rw [← sum_map_mul_left]
  apply sum_map_le_sum_map
  intro dx _
  split
  · have := pixelAt_lt img w h ((x : Int) + (dx : Int) - (Ro : Int))
      ((y : Int) + (dy : Int) - (Ro : Int)) hpx
    omega
  · exact Nat.zero_le _

/-- No valid pixel in the window, said cell by cell. -/
theorem validCount_eq_zero_iff (img : List Nat) (w h Ro x y : Nat) :
    validCount img w h Ro x y = 0 ↔
      ∀ dx dy : Nat, dx < 2 * Ro + 1 → dy < 2 * Ro + 1 →
        pixelAt img w h ((x : Int) + (dx : Int) - (Ro : Int))
          ((y : Int) + (dy : Int) - (Ro : Int)) = 0 := by
  unfold validCount
  rw [List.sum_eq_zero_iff]
  constructor
  · intro hall dx dy hdx hdy
    have h1 := hall _ (List.mem_map.mpr ⟨dy, List.mem_range.mpr hdy, rfl⟩)
    rw [List.sum_eq_zero_iff] at h1
    have h2 := h1 _ (List.mem_map.mpr ⟨dx, List.mem_range.mpr hdx, rfl⟩)
    by_contra hne
    rw [if_pos (Nat.pos_of_ne_zero hne)] at h2
    exact absurd h2 (by norm_num)
  · intro hall v hv
    rw [List.mem_map] at hv
    obtain ⟨dy, hdy, rfl⟩ := hv
    rw [List.sum_eq_zero_iff]
    intro u hu
    rw [List.mem_map] at hu
    obtain ⟨dx, hdx, rfl⟩ := hu
    rw [hall dx dy (List.mem_range.mp hdx) (List.mem_range.mp hdy)]
    rfl

end SimpleDepthEstimator

namespace SimpleDepthEstimator

/-- The cell of the window loops, as the pixel the specification names. -/
theorem window_cell (img : List Nat) (w h Ro x y : Nat) (hwh : w * h < 2 ^ 31) (dx dy : Nat) :
    (if 0 ≤ (y : Int) - Ro + (dy : Int) ∧ (y : Int) - Ro + (dy : Int) < (h : Int) ∧
        0 ≤ (x : Int) - Ro + (dx : Int) ∧ (x : Int) - Ro + (dx : Int) < (w : Int)
      then rd img (toU32 ((x : Int) - Ro + (dx : Int) + ((y : Int) - Ro + (dy : Int)) * (w : Int)))
      else 0)
    = pixelAt img w h ((x : Int) + (dx : Int) - (Ro : Int)) ((y : Int) + (dy : Int) - (Ro : Int)) := by
  unfold pixelAt
  by_cases hc : 0 ≤ (y : Int) - Ro + (dy : Int) ∧ (y : Int) - Ro + (dy : Int) < (h : Int) ∧
      0 ≤ (x : Int) - Ro + (dx : Int) ∧ (x : Int) - Ro + (dx : Int) < (w : Int)
  · rw [if_pos hc, if_pos (by omega), toU32_index hwh hc.2.2.1 hc.2.2.2 hc.1 hc.2.1]
    congr 3 <;> omega
  · rw [if_neg hc, if_neg (by omega)]

/-- The counter `denom` of `occlusionFill` ends on the number of valid pixels of the window,
whatever the floating-point arithmetic. -/
theorem occlusionSums_snd {F : Type} (ops : FloatOps F) (img : List Nat) (w h Ro x y : Nat)
    (hwh : w * h < 2 ^ 31) (hR : Ro < 2 ^ 31) (hx : x < w) (hy : y < h) :
    (occlusionSums ops img w h Ro (y : Int) (x : Int)).2 = validCount img w h Ro x y := by
  obtain ⟨hw31, hh31⟩ := dims_lt_of_pixel hwh hx hy
  unfold occlusionSums
  simp only [i32_of_lt hR, i32_of_lt hw31, i32_of_lt hh31, forIncl_window]
  have hinner : ∀ (acc : F × Nat) (m : Int), acc.2 < 2 ^ 32 →
      (List.foldl (fun (acc : F × Nat) (n : Int) =>
          if 0 ≤ m ∧ m < (h : Int) ∧ 0 ≤ n ∧ n < (w : Int) then
            if rd img (toU32 (n + m * (w : Int))) > 0 then
              (ops.add acc.1 (ops.ofInt (rd img (toU32 (n + m * (w : Int))) : Int)),
                u32 (acc.2 + 1))
            else acc
          else acc) acc
        ((List.range (2 * Ro + 1)).map (fun (k : Nat) => (x : Int) - Ro + (k : Int)))).2
      = u32 (acc.2 + (((List.range (2 * Ro + 1)).map
          (fun (k : Nat) => (x : Int) - Ro + (k : Int))).map
          (fun n => if (if 0 ≤ m ∧ m < (h : Int) ∧ 0 ≤ n ∧ n < (w : Int) then
            rd img (toU32 (n + m * (w : Int))) else 0) > 0 then 1 else 0)).sum) := by
    intro acc m hacc
    apply foldl_snd_count _ _ _ _ acc hacc
    intro acc n hacc
    by_cases hg : 0 ≤ m ∧ m < (h : Int) ∧ 0 ≤ n ∧ n < (w : Int)
    · simp only [if_pos hg]
      by_cases hp : rd img (toU32 (n + m * (w : Int))) > 0
      · simp only [if_pos hp]
      · simp only [if_neg hp, Nat.add_zero, u32_of_lt hacc]
    · simp only [if_neg hg, Nat.lt_irrefl, if_false, Nat.add_zero, u32_of_lt hacc]
  rw [foldl_snd_count _ (fun m => (((List.range (2 * Ro + 1)).map
          (fun (k : Nat) => (x : Int) - Ro + (k : Int))).map
          (fun n => if (if 0 ≤ m ∧ m < (h : Int) ∧ 0 ≤ n ∧ n < (w : Int) then
            rd img (toU32 (n + m * (w : Int))) else 0) > 0 then 1 else 0)).sum)
          (fun acc m hacc => hinner acc m hacc) _ _ (by norm_num)]
  have hsum : (((List.range (2 * Ro + 1)).map (fun (k : Nat) => (y : Int) - Ro + (k : Int))).map
      (fun m => (((List.range (2 * Ro + 1)).map
          (fun (k : Nat) => (x : Int) - Ro + (k : Int))).map
          (fun n => if (if 0 ≤ m ∧ m < (h : Int) ∧ 0 ≤ n ∧ n < (w : Int) then
            rd img (toU32 (n + m * (w : Int))) else 0) > 0 then 1 else 0)).sum)).sum
      = validCount img w h Ro x y := by
    unfold validCount
    rw [List.map_map]
    apply sum_map_congr
    intro dy _
    rw [Function.comp_apply, List.map_map]
    apply sum_map_congr
    intro dx _
    rw [Function.comp_apply, window_cell img w h Ro x y hwh dx dy]
  rw [hsum, Nat.zero_add]
  exact u32_of_lt (by have := validCount_le img w h Ro x y; omega)

/-- The accumulator `numer` of `occlusionFill` ends, in exact arithmetic, on the sum of the
valid pixels of the window. -/
theorem occlusionSums_fst (img : List Nat) (w h Ro x y : Nat)
    (hwh : w * h < 2 ^ 31) (hR : Ro < 2 ^ 31) (hx : x < w) (hy : y < h) :
    (occlusionSums realOps img w h Ro (y : Int) (x : Int)).1
      = FVal.fin ((validSum img w h Ro x y : Nat) : ℝ) := by
  obtain ⟨hw31, hh31⟩ := dims_lt_of_pixel hwh hx hy
  unfold occlusionSums
  simp only [i32_of_lt hR, i32_of_lt hw31, i32_of_lt hh31, forIncl_window]
  have hinner : ∀ (acc : FVal × Nat) (m : Int) (s : ℝ), acc.1 = FVal.fin s →
      (List.foldl (fun (acc : FVal × Nat) (n : Int) =>
          if 0 ≤ m ∧ m < (h : Int) ∧ 0 ≤ n ∧ n < (w : Int) then
            if rd img (toU32 (n + m * (w : Int))) > 0 then
              (realOps.add acc.1 (realOps.ofInt (rd img (toU32 (n + m * (w : Int))) : Int)),
                u32 (acc.2 + 1))
            else acc
          else acc) acc
        ((List.range (2 * Ro + 1)).map (fun (k : Nat) => (x : Int) - Ro + (k : Int)))).1
      = FVal.fin (s + (((((List.range (2 * Ro + 1)).map
          (fun (k : Nat) => (x : Int) - Ro + (k : Int))).map
          (fun n => if (if 0 ≤ m ∧ m < (h : Int) ∧ 0 ≤ n ∧ n < (w : Int) then
            rd img (toU32 (n + m * (w : Int))) else 0) > 0
            then (if 0 ≤ m ∧ m < (h : Int) ∧ 0 ≤ n ∧ n < (w : Int) then
              rd img (toU32 (n + m * (w : Int))) else 0) else 0)).sum : Nat) : ℝ)) := by
    intro acc m s hacc
    apply foldl_fst_sum _ _ _ _ acc s hacc
    intro acc n s hacc
    by_cases hg : 0 ≤ m ∧ m < (h : Int) ∧ 0 ≤ n ∧ n < (w : Int)
    · simp only [if_pos hg]
      by_cases hp : rd img (toU32 (n + m * (w : Int))) > 0
      · simp only [if_pos hp]
        rw [hacc]
        simp [realOps, FVal.add]
      · simp only [if_neg hp]
        rw [hacc]
        simp
    · simp only [if_neg hg, Nat.lt_irrefl, if_false]
      rw [hacc]
      simp
  rw [foldl_fst_sum _ (fun m => (((List.range (2 * Ro + 1)).map
          (fun (k : Nat) => (x : Int) - Ro + (k : Int))).map
          (fun n => if (if 0 ≤ m ∧ m < (h : Int) ∧ 0 ≤ n ∧ n < (w : Int) then
            rd img (toU32 (n + m * (w : Int))) else 0) > 0
            then (if 0 ≤ m ∧ m < (h : Int) ∧ 0 ≤ n ∧ n < (w : Int) then
              rd img (toU32 (n + m * (w : Int))) else 0) else 0)).sum)
          (fun acc m s hacc => hinner acc m s hacc) _ _ 0 (by simp [realOps])]
  have hsum : (((List.range (2 * Ro + 1)).map (fun (k : Nat) => (y : Int) - Ro + (k : Int))).map
      (fun m => (((List.range (2 * Ro + 1)).map
          (fun (k : Nat) => (x : Int) - Ro + (k : Int))).map
          (fun n => if (if 0 ≤ m ∧ m < (h : Int) ∧ 0 ≤ n ∧ n < (w : Int) then
            rd img (toU32 (n + m * (w : Int))) else 0) > 0
            then (if 0 ≤ m ∧ m < (h : Int) ∧ 0 ≤ n ∧ n < (w : Int) then
              rd img (toU32 (n + m * (w : Int))) else 0) else 0)).sum)).sum
      = validSum img w h Ro x y := by
    unfold validSum
    rw [List.map_map]
    apply sum_map_congr
    intro dy _
    rw [Function.comp_apply, List.map_map]
    apply sum_map_congr
    intro dx _
    rw [Function.comp_apply, window_cell img w h Ro x y hwh dx dy]
  rw [hsum, zero_add]

end SimpleDepthEstimator

namespace SimpleDepthEstimator

/-- The fill division in exact arithmetic: the truncated mean when `denom` is not zero,
undefined (`0 / 0`) when it is. -/
theorem fill_division (S K : Nat) (hS : S ≤ 255 * K) :
    realOps.toU8 (realOps.div (FVal.fin ((S : Nat) : ℝ)) (realOps.ofInt (K : Int)))
      = if K = 0 then none else some (S / K) := by
  show FVal.toU8 (FVal.div (FVal.fin (S : ℝ)) (FVal.fin (((K : Int)) : ℝ))) = _
  rw [Int.cast_natCast]
  by_cases hK : K = 0
  · subst hK
    have hS0 : S = 0 := by omega
    subst hS0
    simp [FVal.div, FVal.toU8]
  · rw [if_neg hK]
    have hKr : (K : ℝ) ≠ 0 := by exact_mod_cast hK
    have hKpos : (0 : ℝ) < (K : ℝ) := by exact_mod_cast Nat.pos_of_ne_zero hK
    have hdiv : FVal.div (FVal.fin (S : ℝ)) (FVal.fin (K : ℝ)) = FVal.fin ((S : ℝ) / (K : ℝ)) := by
      show (if (K : ℝ) = 0 then _ else _) = _
      rw [if_neg hKr]
    rw [hdiv]
    have h0 : (0 : ℝ) ≤ (S : ℝ) / (K : ℝ) := div_nonneg (Nat.cast_nonneg _) (le_of_lt hKpos)
    have h1 : (S : ℝ) / (K : ℝ) < 256 := by
      rw [div_lt_iff₀ hKpos]
      have : (S : ℝ) ≤ 255 * (K : ℝ) := by exact_mod_cast hS
      linarith
    show (if -1 < (S : ℝ) / (K : ℝ) ∧ (S : ℝ) / (K : ℝ) < 256 then _ else _) = _
    rw [if_pos ⟨by linarith, h1⟩, Nat.floor_div_eq_div]

/-- The byte `occlusionFill` stores at a pixel of value `0`, in exact arithmetic. -/
theorem occlusionPixel_of_zero (img : List Nat) (w h Ro x y : Nat) (himg : IsImage img w h)
    (hR : Ro < 2 ^ 31) (hx : x < w) (hy : y < h) (hz : rd img (x + y * w) = 0) :
    occlusionPixel realOps img w h Ro (y : Int) (x : Int)
      = if validCount img w h Ro x y = 0 then none
        else some (validSum img w h Ro x y / validCount img w h Ro x y) := by
  have hidx := index_lt_of_pixel hx hy
  have e1 : ((x : Int) + (y : Int) * (w : Int)) = ((x + y * w : Nat) : Int) := by
    push_cast; ring
  have e2 : toU32 ((x : Int) + (y : Int) * (w : Int)) = x + y * w := by
    rw [e1, toU32_natCast (by have := himg.2.1; omega)]
  unfold occlusionPixel
  rw [e2, hz, if_neg (Nat.lt_irrefl 0)]
  simp only []
  rw [occlusionSums_fst img w h Ro x y himg.2.1 hR hx hy,
    occlusionSums_snd realOps img w h Ro x y himg.2.1 hR hx hy]
  exact fill_division _ _ (validSum_le img w h Ro x y himg.2.2)

end SimpleDepthEstimator

/-! ## Single precision: rounding -/

theorem roundNE_exact (D q : Nat) (hD : 0 < D) : roundNE (D * q) D = q := by
  unfold roundNE
  rw [Nat.mul_mod_right, Nat.mul_div_cancel_left q hD]
  simp [hD]

theorem roundNE_err (n D : Nat) (hD : 0 < D) :
    2 * (D * roundNE n D) ≤ 2 * n + D ∧ 2 * n ≤ 2 * (D * roundNE n D) + D := by
  have h1 := Nat.div_add_mod n D
  have h2 := Nat.mod_lt n hD
  unfold roundNE
  split_ifs <;> (try simp only [Nat.mul_add, Nat.mul_one]) <;> constructor <;> omega

theorem two_pow_log2Fuel_le (fuel n : Nat) (hn : 0 < n) : 2 ^ log2Fuel fuel n ≤ n := by
  induction fuel generalizing n with
  | zero => simpa [log2Fuel] using hn
  | succ fuel ih =>
    unfold log2Fuel
    split_ifs with h
    · simpa using hn
    · have := ih (n / 2) (by omega)
      rw [pow_succ]
      omega

theorem ilog2_lt (n k : Nat) (h : n < 2 ^ k) (hk : 0 < k) : ilog2 n < k := by
  rcases Nat.eq_zero_or_pos n with h0 | h0
  · subst h0
    simpa [ilog2, log2Fuel] using hk
  · have := two_pow_log2Fuel_le n n h0
    exact (Nat.pow_lt_pow_iff_right (by norm_num : 1 < 2)).1 (lt_of_le_of_lt this h)

theorem roundGrid_exact (d k j : Nat) (hd : 0 < d) (hk : k < 2 ^ 24) :
    roundGrid (d * (k * 2 ^ j)) d = k * 2 ^ j := by
  unfold roundGrid
  rw [Nat.mul_div_cancel_left _ hd]
  have he : ilog2 (k * 2 ^ j) - 23 ≤ j := by
    have : k * 2 ^ j < 2 ^ (24 + j) := by
      rw [pow_add]
      exact Nat.mul_lt_mul_of_lt_of_le hk le_rfl (by positivity)
    have := ilog2_lt _ _ this (by omega)
    omega
  obtain ⟨t, ht⟩ : ∃ t, ilog2 (k * 2 ^ j) - 23 = t := ⟨_, rfl⟩
  rw [ht] at he ⊢
  obtain ⟨s, rfl⟩ : ∃ s, j = t + s := ⟨j - t, by omega⟩
  have e : d * (k * 2 ^ (t + s)) = d * 2 ^ t * (k * 2 ^ s) := by rw [pow_add]; ring
  rw [e, roundNE_exact _ _ (by positivity), pow_add]
  ring

theorem roundGrid_err (n d : Nat) (hd : 0 < d) (hn : n < d * 2 ^ 157) :
    d * roundGrid n d ≤ n + d * 2 ^ 132 ∧ n ≤ d * roundGrid n d + d * 2 ^ 132 := by
  unfold roundGrid
  have hq : n / d < 2 ^ 157 := Nat.div_lt_of_lt_mul hn
  have he := ilog2_lt _ _ hq (by norm_num)
  obtain ⟨t, ht⟩ : ∃ t, ilog2 (n / d) - 23 = t := ⟨_, rfl⟩
  rw [ht]
  have ht133 : t ≤ 133 := by omega
  have hu : 2 ^ t ≤ 2 ^ 133 := Nat.pow_le_pow_right (by norm_num) ht133
  have h := roundNE_err n (d * 2 ^ t) (by positivity)
  have e : d * (roundNE n (d * 2 ^ t) * 2 ^ t) = d * 2 ^ t * roundNE n (d * 2 ^ t) := by ring
  rw [e]
  have hdu : d * 2 ^ t ≤ d * 2 ^ 133 := Nat.mul_le_mul_left d hu
  have e2 : d * 2 ^ 133 = 2 * (d * 2 ^ 132) := by ring
  constructor <;> omega

theorem roundGrid_zero (d : Nat) : roundGrid 0 d = 0 := by
  simp [roundGrid, roundNE, ilog2, log2Fuel]

/-- The binary32 square root from the integer square root of the scaled argument. -/
theorem sqrtGrid_of_root (a q : Nat)
    (h1 : q * q ≤ a * 2 ^ 149 / (2 ^ (ilog2 (a * 2 ^ 149) / 2 - 23)
      * 2 ^ (ilog2 (a * 2 ^ 149) / 2 - 23)))
    (h2 : a * 2 ^ 149 / (2 ^ (ilog2 (a * 2 ^ 149) / 2 - 23)
      * 2 ^ (ilog2 (a * 2 ^ 149) / 2 - 23)) < (q + 1) * (q + 1)) :
    sqrtGrid a =
      if 4 * (a * 2 ^ 149) < (2 * q + 1) ^ 2 * (2 ^ (ilog2 (a * 2 ^ 149) / 2 - 23)
          * 2 ^ (ilog2 (a * 2 ^ 149) / 2 - 23))
        then q * 2 ^ (ilog2 (a * 2 ^ 149) / 2 - 23)
      else if (2 * q + 1) ^ 2 * (2 ^ (ilog2 (a * 2 ^ 149) / 2 - 23)
          * 2 ^ (ilog2 (a * 2 ^ 149) / 2 - 23)) < 4 * (a * 2 ^ 149)
        then (q + 1) * 2 ^ (ilog2 (a * 2 ^ 149) / 2 - 23)
      else if q % 2 = 0 then q * 2 ^ (ilog2 (a * 2 ^ 149) / 2 - 23)
        else (q + 1) * 2 ^ (ilog2 (a * 2 ^ 149) / 2 - 23) := by
  have hq := Nat.eq_sqrt.2 ⟨h1, h2⟩
  unfold sqrtGrid
  simp only []
  rw [← hq]

theorem sqrtGrid_zero : sqrtGrid 0 = 0 := by
  rw [sqrtGrid_of_root 0 0 (by decide) (by decide)]
  decide

namespace F32

theorem rnd_natCast (n d : Nat) (h : roundGrid n d < 2 ^ 128 * 2 ^ 149) :
    rnd (n : Int) d = fin ((roundGrid n d : Nat) : Int) := by
  unfold rnd
  rw [Int.natAbs_ofNat, if_pos h]
  rcases Nat.eq_zero_or_pos n with h0 | h0
  · subst h0
    simp [roundGrid_zero]
  · rw [Int.sign_eq_one_of_pos (by exact_mod_cast h0), one_mul]

/-- Rounding of a value below `256`: the result is finite and within `2 ^ (-17)` of the
value. -/
theorem rnd_small (n d : Nat) (hd : 0 < d) (hn : n < d * 2 ^ 157) :
    ∃ r : Nat, rnd (n : Int) d = fin (r : Int) ∧
      d * r ≤ n + d * 2 ^ 132 ∧ n ≤ d * r + d * 2 ^ 132 := by
  obtain ⟨h1, h2⟩ := roundGrid_err n d hd hn
  refine ⟨roundGrid n d, rnd_natCast n d ?_, h1, h2⟩
  have : d * roundGrid n d < d * (2 ^ 128 * 2 ^ 149) := by
    have e : d * (2 ^ 128 * 2 ^ 149) =
        d * 2 ^ 157 + d * 2 ^ 132 + d * (2 ^ 128 * 2 ^ 149 - 2 ^ 157 - 2 ^ 132) := by
      rw [← Nat.mul_add, ← Nat.mul_add]
      norm_num
    have : 0 < d * (2 ^ 128 * 2 ^ 149 - 2 ^ 157 - 2 ^ 132) :=
      Nat.mul_pos hd (by norm_num)
    omega
  exact Nat.lt_of_mul_lt_mul_left this

/-- Rounding of a value with at most 24 significant bits is exact. -/
theorem rnd_exact (d k j : Nat) (hd : 0 < d) (hk : k < 2 ^ 24) (hj : j ≤ 253) :
    rnd ((d * (k * 2 ^ j) : Nat) : Int) d = fin ((k * 2 ^ j : Nat) : Int) := by
  have h := roundGrid_exact d k j hd hk
  rw [rnd_natCast, h]
  rw [h]
  calc k * 2 ^ j < 2 ^ 24 * 2 ^ j := Nat.mul_lt_mul_of_lt_of_le hk le_rfl (by positivity)
    _ ≤ 2 ^ 24 * 2 ^ 253 := Nat.mul_le_mul_left _ (Nat.pow_le_pow_right (by norm_num) hj)
    _ = 2 ^ 128 * 2 ^ 149 := by norm_num

theorem ofInt_natCast (v : Nat) (hv : v < 2 ^ 24) :
    ofInt (v : Int) = fin ((v * 2 ^ 149 : Nat) : Int) := by
  have h := rnd_exact 1 v 149 (by norm_num) hv (by norm_num)
  rw [one_mul] at h
  unfold ofInt
  rw [← h]
  push_cast
  rfl

theorem lit_2126 : lit 2126 10000 = fin ((891709 * 2 ^ 127 : Nat) : Int) := by decide!

theorem lit_7152 : lit 7152 10000 = fin ((11999065 * 2 ^ 125 : Nat) : Int) := by decide!

theorem lit_722 : lit 722 10000 = fin ((1211315 * 2 ^ 125 : Nat) : Int) := by decide!

theorem mul_fin (a b : Nat) : mul (fin (a : Int)) (fin (b : Int)) = rnd ((a * b : Nat) : Int) (2 ^ 149) := by
  unfold mul
  push_cast
  rfl

theorem add_fin (a b : Nat) : add (fin (a : Int)) (fin (b : Int)) = rnd ((a + b : Nat) : Int) 1 := by
  unfold add
  push_cast
  rfl

theorem toUnsigned_fin (bits k : Nat) (h : k < 2 ^ bits * 2 ^ 149) :
    toUnsigned bits (fin (k : Int)) = some (k / 2 ^ 149) := by
  show (if -((2 ^ 149 : Nat) : Int) < (k : Int) ∧ (k : Int) < ((2 ^ bits * 2 ^ 149 : Nat) : Int)
    then some ((k : Int).toNat / 2 ^ 149) else none) = _
  rw [if_pos ⟨by have : (0 : Int) ≤ (k : Int) := Int.natCast_nonneg k
                 have : (0 : Int) < ((2 ^ 149 : Nat) : Int) := by positivity
                 omega, by exact_mod_cast h⟩]
  simp

theorem sqrt_zero : sqrt (fin 0) = fin 0 := by
  show (if (0 : Int) < 0 then nan else fin ((sqrtGrid (0 : Int).toNat : Nat) : Int)) = _
  rw [if_neg (lt_irrefl 0), Int.toNat_zero, sqrtGrid_zero]
  rfl

end F32

/-! ## Colour conversion -/

/-- The sum of `makeImgGrey` in binary32: a finite value within `5 * 2 ^ (-17)` of the value
that exact arithmetic gives with the same three literals. -/
theorem f32_luma (r g b : Nat) (hr : r < 256) (hg : g < 256) (hb : b < 256) :
    ∃ S : Nat,
      F32.add (F32.add (F32.mul (F32.ofInt (r : Int)) (F32.lit 2126 10000))
        (F32.mul (F32.ofInt (g : Int)) (F32.lit 7152 10000)))
        (F32.mul (F32.ofInt (b : Int)) (F32.lit 722 10000)) = F32.fin (S : Int) ∧
      r * (891709 * 2 ^ 127) + g * (11999065 * 2 ^ 125) + b * (1211315 * 2 ^ 125)
        ≤ S + 5 * 2 ^ 132 ∧
      S ≤ r * (891709 * 2 ^ 127) + g * (11999065 * 2 ^ 125) + b * (1211315 * 2 ^ 125)
        + 5 * 2 ^ 132 := by
  rw [F32.ofInt_natCast r (by omega), F32.ofInt_natCast g (by omega),
    F32.ofInt_natCast b (by omega), F32.lit_2126, F32.lit_7152, F32.lit_722,
    F32.mul_fin, F32.mul_fin, F32.mul_fin]
  obtain ⟨A, hA, hA1, hA2⟩ := F32.rnd_small (r * 2 ^ 149 * (891709 * 2 ^ 127)) (2 ^ 149)
    (by norm_num) (by omega)
  obtain ⟨B, hB, hB1, hB2⟩ := F32.rnd_small (g * 2 ^ 149 * (11999065 * 2 ^ 125)) (2 ^ 149)
    (by norm_num) (by omega)
  obtain ⟨C, hC, hC1, hC2⟩ := F32.rnd_small (b * 2 ^ 149 * (1211315 * 2 ^ 125)) (2 ^ 149)
    (by norm_num) (by omega)
  rw [hA, hB, hC, F32.add_fin]
  obtain ⟨S1, hS1, hS11, hS12⟩ := F32.rnd_small (A + B) 1 (by norm_num) (by omega)
  rw [hS1, F32.add_fin]
  obtain ⟨S, hS, hS01, hS02⟩ := F32.rnd_small (S1 + C) 1 (by norm_num) (by omega)
  exact ⟨S, hS, by omega, by omega⟩

/-- Truncation of a value that is within `6 * 2 ^ (-17)` of the weighted sum taken with the
three binary32 literals: the floor of the decimal weighted sum, unless that sum is an
integer, where it may be one less. -/
theorem luma_floor (r g b S : Nat) (hr : r < 256) (hg : g < 256) (hb : b < 256)
    (h1 : r * (891709 * 2 ^ 127) + g * (11999065 * 2 ^ 125) + b * (1211315 * 2 ^ 125)
      ≤ S + 6 * 2 ^ 132)
    (h2 : S ≤ r * (891709 * 2 ^ 127) + g * (11999065 * 2 ^ 125) + b * (1211315 * 2 ^ 125)
      + 6 * 2 ^ 132) :
    S / 2 ^ 149 ≤ 255 ∧
    (S / 2 ^ 149 = (2126 * r + 7152 * g + 722 * b) / 10000 ∨
      ((2126 * r + 7152 * g + 722 * b) % 10000 = 0 ∧
        S / 2 ^ 149 + 1 = (2126 * r + 7152 * g + 722 * b) / 10000)) := by
  omega

theorem forLt_zero (N : Nat) : forLt 0 N = List.range N := by
  simp [forLt, List.range_eq_range']

/-- The four stores of one pixel of the RGBA conversion. -/
theorem rd_set4 (out : List Nat) (k v p : Nat) (hk : k + 3 < out.length) :
    rd ((((out.set k v).set (k + 1) v).set (k + 2) v).set (k + 3) 255) p =
      if p = k ∨ p = k + 1 ∨ p = k + 2 then v else if p = k + 3 then 255 else rd out p := by
  simp only [rd_set, List.length_set]
  split_ifs <;> first | rfl | omega

/-- The loop of `makeImgRGBA` over the first `n` pixels. -/
theorem rgba_loop (img out : List Nat) (n : Nat) (hn : 4 * n ≤ out.length)
    (h32 : 4 * n < 2 ^ 32) :
    ((List.range n).foldl (fun out i =>
      (((out.set (u32 (i * 4)) (rd img i)).set (u32 (u32 (i * 4) + 1)) (rd img i)).set
        (u32 (u32 (i * 4) + 2)) (rd img i)).set (u32 (u32 (i * 4) + 3)) 255) out).length
      = out.length ∧
    ∀ p, rd ((List.range n).foldl (fun out i =>
      (((out.set (u32 (i * 4)) (rd img i)).set (u32 (u32 (i * 4) + 1)) (rd img i)).set
        (u32 (u32 (i * 4) + 2)) (rd img i)).set (u32 (u32 (i * 4) + 3)) 255) out) p =
      if p < 4 * n then (if p % 4 = 3 then 255 else rd img (p / 4)) else rd out p := by
  induction n with
  | zero => simp
  | succ n ih =>
    rw [List.range_succ, List.foldl_append]
    obtain ⟨hlen, hrd⟩ := ih (by omega) (by omega)
    generalize (List.range n).foldl (fun out i =>
      (((out.set (u32 (i * 4)) (rd img i)).set (u32 (u32 (i * 4) + 1)) (rd img i)).set
        (u32 (u32 (i * 4) + 2)) (rd img i)).set (u32 (u32 (i * 4) + 3)) 255) out = S at hlen hrd
    simp only [List.foldl_cons, List.foldl_nil]
    rw [u32_of_lt (by omega : n * 4 < 2 ^ 32), u32_of_lt (by omega : n * 4 + 1 < 2 ^ 32),
      u32_of_lt (by omega : n * 4 + 2 < 2 ^ 32), u32_of_lt (by omega : n * 4 + 3 < 2 ^ 32)]
    refine ⟨by simp only [List.length_set]; exact hlen, ?_⟩
    intro p
    rw [rd_set4 S (n * 4) (rd img n) p (by omega), hrd p]
    by_cases h1 : p < 4 * n
    · have a : ¬(p = n * 4 ∨ p = n * 4 + 1 ∨ p = n * 4 + 2) := by omega
      have b : ¬(p = n * 4 + 3) := by omega
      have c : p < 4 * (n + 1) := by omega
      rw [if_neg a, if_neg b, if_pos h1, if_pos c]
    · rw [if_neg h1]
      by_cases h2 : p < 4 * (n + 1)
      · rw [if_pos h2]
        by_cases h3 : p = n * 4 + 3
        · have a : ¬(p = n * 4 ∨ p = n * 4 + 1 ∨ p = n * 4 + 2) := by omega
          have c : p % 4 = 3 := by omega
          rw [if_neg a, if_pos h3, if_pos c]
        · have a : p = n * 4 ∨ p = n * 4 + 1 ∨ p = n * 4 + 2 := by omega
          have c : ¬(p % 4 = 3) := by omega
          have d : p / 4 = n := by omega
          rw [if_pos a, if_neg c, d]
      · have a : ¬(p = n * 4 ∨ p = n * 4 + 1 ∨ p = n * 4 + 2) := by omega
        have b : ¬(p = n * 4 + 3) := by omega
        rw [if_neg a, if_neg b, if_neg h2]

namespace F32

theorem rnd_zero (d : Nat) : rnd 0 d = fin 0 := by
  unfold rnd
  simp [roundGrid_zero]

theorem ofInt_zero : ofInt 0 = fin 0 := by
  unfold ofInt
  rw [zero_mul, rnd_zero]

theorem mul_zero_right (k : Int) : mul (fin k) (fin 0) = fin 0 := by
  show rnd (k * 0) (2 ^ 149) = fin 0
  rw [mul_zero, rnd_zero]

end F32

/-- The value of `makeImgGrey` at a pixel `(r, g, b)` in binary32. -/
theorem greyValue_f32 (img : List Nat) (i : Nat) (hpx : ∀ p ∈ img, p < 256)
    (hi : 4 * i + 3 < 2 ^ 32) :
    SimpleDepthEstimator.greyValue f32Ops f32Conv img i ≠ none ∧
    ∀ v, SimpleDepthEstimator.greyValue f32Ops f32Conv img i = some v →
      v ≤ 255 ∧
      (v = SimpleDepthEstimator.lumaNumer (rd img (4 * i)) (rd img (4 * i + 1))
          (rd img (4 * i + 2)) / 10000 ∨
        (SimpleDepthEstimator.lumaNumer (rd img (4 * i)) (rd img (4 * i + 1))
          (rd img (4 * i + 2)) % 10000 = 0 ∧
         v + 1 = SimpleDepthEstimator.lumaNumer (rd img (4 * i)) (rd img (4 * i + 1))
          (rd img (4 * i + 2)) / 10000)) := by
  have e0 : u32 (i * 4) = 4 * i := by rw [u32_of_lt (by omega)]; omega
  have e1 : u32 (4 * i + 1) = 4 * i + 1 := u32_of_lt (by omega)
  have e2 : u32 (4 * i + 2) = 4 * i + 2 := u32_of_lt (by omega)
  have hr := rd_lt hpx (4 * i)
  have hg := rd_lt hpx (4 * i + 1)
  have hb := rd_lt hpx (4 * i + 2)
  obtain ⟨S, hS, h1, h2⟩ := f32_luma _ _ _ hr hg hb
  have hval : SimpleDepthEstimator.greyValue f32Ops f32Conv img i = some (S / 2 ^ 149) := by
    unfold SimpleDepthEstimator.greyValue
    rw [e0, e1, e2]
    simp only [f32Ops, f32Conv]
    rw [hS, F32.toUnsigned_fin _ _ (by omega)]
  rw [hval]
  refine ⟨by simp, ?_⟩
  intro v hv
  have hv2 : v = S / 2 ^ 149 := (Option.some.inj hv).symm
  rw [hv2]
  unfold SimpleDepthEstimator.lumaNumer
  exact luma_floor _ _ _ S hr hg hb (by omega) (by omega)

/-- The byte of the `greyscale` kernel at a pixel `(r, g, b, a)` in binary32. -/
theorem greyscaleItem_f32 (img : List Nat) (w h m : Nat) (hpx : ∀ p ∈ img, p < 256)
    (hwh : w * h < 2 ^ 32) (hm : m < w * h) :
    ∃ v, CLDepthEstimator2.greyscaleItem f32Ops f32Conv img w h m = some (m, some v) ∧
      v ≤ 255 ∧
      (v = SimpleDepthEstimator.lumaNumer (rd img (4 * m)) (rd img (4 * m + 1))
          (rd img (4 * m + 2)) / 10000 ∨
        (SimpleDepthEstimator.lumaNumer (rd img (4 * m)) (rd img (4 * m + 1))
          (rd img (4 * m + 2)) % 10000 = 0 ∧
         v + 1 = SimpleDepthEstimator.lumaNumer (rd img (4 * m)) (rd img (4 * m + 1))
          (rd img (4 * m + 2)) / 10000)) := by
  have hr := rd_lt hpx (4 * m)
  have hg := rd_lt hpx (4 * m + 1)
  have hb := rd_lt hpx (4 * m + 2)
  have ha := rd_lt hpx (4 * m + 3)
  obtain ⟨S, hS, h1, h2⟩ := f32_luma _ _ _ hr hg hb
  obtain ⟨T, hT, hT1, hT2⟩ := F32.rnd_small (S + 0) 1 (by norm_num) (by omega)
  refine ⟨T / 2 ^ 149, ?_, ?_⟩
  · unfold CLDepthEstimator2.greyscaleItem
    rw [toU32_natCast (by omega), u32_of_lt hwh, if_pos hm]
    simp only [CLDepthEstimator2.dot, CLDepthEstimator2.float4At, f32Ops, f32Conv]
    rw [hS, F32.ofInt_zero, F32.ofInt_natCast _ (by omega : rd img (4 * m + 3) < 2 ^ 24),
      F32.mul_zero_right]
    have e : F32.add (F32.fin (S : Int)) (F32.fin 0) = F32.rnd ((S + 0 : Nat) : Int) 1 :=
      F32.add_fin S 0
    rw [e, hT, F32.toUnsigned_fin _ _ (by omega)]
  · unfold SimpleDepthEstimator.lumaNumer
    exact luma_floor _ _ _ T hr hg hb (by omega) (by omega)

theorem getElem?_makeImgGrey {F : Type} (ops : FloatOps F) (conv : FloatConv F)
    (img : List Nat) (w h i : Nat) (hwh : w * h < 2 ^ 32) (hi : i < w * h) :
    (SimpleDepthEstimator.makeImgGrey ops conv img w h)[i]?
      = some ((SimpleDepthEstimator.greyValue ops conv img i).map u8) := by
  unfold SimpleDepthEstimator.makeImgGrey
  rw [u32_of_lt hwh, forLt_zero, List.getElem?_map, List.getElem?_range hi]
  rfl

/-- C12 fails as stated: for the pixel `(0, 1, 0, 255)` the weighted sum is `0.7152`, which
rounds to `1`, while the loop of `makeImgGrey` and the `greyscale` kernel both store `0`: the
conversion of the sum to an integer truncates. -/
theorem greyscale_truncates :
    SimpleDepthEstimator.roundedLuma 0 1 0 = 1 ∧
    SimpleDepthEstimator.makeImgGrey f32Ops f32Conv [0, 1, 0, 255] 1 1 = [some 0] ∧
    CLDepthEstimator2.greyscaleItem f32Ops f32Conv [0, 1, 0, 255] 1 1 0 = some (0, some 0) := by
  decide!

/-- C12 (amended): in IEEE binary32, for every pixel `(R, G, B, A)` of an RGBA image whose
weighted sum `0.2126 R + 0.7152 G + 0.0722 B` is not an integer, the byte stored by
`makeImgGrey` and the byte stored by the `greyscale` kernel (its `dot` summed from left to
right) are the weighted sum truncated toward zero, `floor ((2126 R + 7152 G + 722 B) / 10000)`. -/
theorem greyscale_floor_of_sum (img : List Nat) (w h i : Nat) (himg : IsRGBA img w h)
    (hi : i < w * h)
    (hne : SimpleDepthEstimator.lumaNumer (rd img (4 * i)) (rd img (4 * i + 1))
      (rd img (4 * i + 2)) % 10000 ≠ 0) :
    (SimpleDepthEstimator.makeImgGrey f32Ops f32Conv img w h)[i]?
      = some (some (SimpleDepthEstimator.lumaNumer (rd img (4 * i)) (rd img (4 * i + 1))
          (rd img (4 * i + 2)) / 10000)) ∧
    CLDepthEstimator2.greyscaleItem f32Ops f32Conv img w h i
      = some (i, some (SimpleDepthEstimator.lumaNumer (rd img (4 * i)) (rd img (4 * i + 1))
          (rd img (4 * i + 2)) / 10000)) := by
  obtain ⟨_, hsz, hpx⟩ := himg
  constructor
  · rw [getElem?_makeImgGrey _ _ _ _ _ _ (by omega) hi]
    obtain ⟨hsome, hv⟩ := greyValue_f32 img i hpx (by omega)
    obtain ⟨v, hval⟩ := Option.ne_none_iff_exists'.1 hsome
    obtain ⟨h255, h | ⟨h, _⟩⟩ := hv v hval
    · rw [hval, Option.map_some', u8_of_lt (by omega), h]
    · exact absurd h hne
  · obtain ⟨v, hval, _, h | ⟨h, _⟩⟩ := greyscaleItem_f32 img w h i hpx (by omega) hi
    · rw [hval, h]
    · exact absurd h hne

theorem greyscale_floor_of_sum_witness :
    (SimpleDepthEstimator.makeImgGrey f32Ops f32Conv [10, 20, 30, 255] 1 1)[0]?
      = some (some (SimpleDepthEstimator.lumaNumer (rd [10, 20, 30, 255] (4 * 0))
          (rd [10, 20, 30, 255] (4 * 0 + 1)) (rd [10, 20, 30, 255] (4 * 0 + 2)) / 10000)) ∧
    CLDepthEstimator2.greyscaleItem f32Ops f32Conv [10, 20, 30, 255] 1 1 0
      = some (0, some (SimpleDepthEstimator.lumaNumer (rd [10, 20, 30, 255] (4 * 0))
          (rd [10, 20, 30, 255] (4 * 0 + 1)) (rd [10, 20, 30, 255] (4 * 0 + 2)) / 10000)) :=
  greyscale_floor_of_sum [10, 20, 30, 255] 1 1 0 (by decide) (by decide) (by decide)

/-- C13: in IEEE binary32, for every pixel of an RGBA image the value that `makeImgGrey`
converts to `unsigned int` is defined and at most `255`, so the store into the byte keeps
it, and the byte of the `greyscale` kernel is defined and at most `255`; the white pixel
`(255, 255, 255, 255)` gives `255` and the black pixel `(0, 0, 0, 255)` gives `0`. -/
theorem greyscale_in_range (img : List Nat) (w h i : Nat) (himg : IsRGBA img w h)
    (hi : i < w * h) :
    (∃ v, v ≤ 255 ∧ SimpleDepthEstimator.greyValue f32Ops f32Conv img i = some v ∧
      (SimpleDepthEstimator.makeImgGrey f32Ops f32Conv img w h)[i]? = some (some v)) ∧
    (∃ v, v ≤ 255 ∧
      CLDepthEstimator2.greyscaleItem f32Ops f32Conv img w h i = some (i, some v)) ∧
    SimpleDepthEstimator.makeImgGrey f32Ops f32Conv [255, 255, 255, 255] 1 1 = [some 255] ∧
    SimpleDepthEstimator.makeImgGrey f32Ops f32Conv [0, 0, 0, 255] 1 1 = [some 0] ∧
    CLDepthEstimator2.greyscaleItem f32Ops f32Conv [255, 255, 255, 255] 1 1 0
      = some (0, some 255) ∧
    CLDepthEstimator2.greyscaleItem f32Ops f32Conv [0, 0, 0, 255] 1 1 0 = some (0, some 0) := by
  obtain ⟨_, hsz, hpx⟩ := himg
  refine ⟨?_, ?_, by decide!, by decide!, by decide!, by decide!⟩
  · obtain ⟨hsome, hv⟩ := greyValue_f32 img i hpx (by omega)
    obtain ⟨v, hval⟩ := Option.ne_none_iff_exists'.1 hsome
    refine ⟨v, (hv v hval).1, hval, ?_⟩
    rw [getElem?_makeImgGrey _ _ _ _ _ _ (by omega) hi, hval, Option.map_some',
      u8_of_lt (by have := (hv v hval).1; omega)]
  · obtain ⟨v, hval, h255, _⟩ := greyscaleItem_f32 img w h i hpx (by omega) hi
    exact ⟨v, h255, hval⟩

theorem greyscale_in_range_witness :
    (∃ v, v ≤ 255 ∧
      SimpleDepthEstimator.greyValue f32Ops f32Conv [200, 100, 50, 255, 255, 0, 255, 0] 1
        = some v ∧
      (SimpleDepthEstimator.makeImgGrey f32Ops f32Conv [200, 100, 50, 255, 255, 0, 255, 0] 2 1)[1]?
        = some (some v)) ∧
    (∃ v, v ≤ 255 ∧
      CLDepthEstimator2.greyscaleItem f32Ops f32Conv [200, 100, 50, 255, 255, 0, 255, 0] 2 1 1
        = some (1, some v)) :=
  ⟨(greyscale_in_range [200, 100, 50, 255, 255, 0, 255, 0] 2 1 1 (by decide) (by decide)).1,
    (greyscale_in_range [200, 100, 50, 255, 255, 0, 255, 0] 2 1 1 (by decide) (by decide)).2.1⟩

/-- C14: for every `w × h` single-channel image and every output buffer of `4 * w * h` bytes
(an RGBA image of the program), `makeImgRGBA` leaves a buffer of `4 * w * h` bytes whose bytes
`4 i .. 4 i + 3` are `(img[i], img[i], img[i], 255)` for every pixel `i < w * h`; work-item `i`
of the `rgba` kernel stores these four bytes and changes no other byte. -/
theorem rgba_bytes (img out : List Nat) (w h i : Nat) (hout : out.length = 4 * (w * h))
    (hsz : 4 * (w * h) < 2 ^ 31) (hi : i < w * h) :
    (SimpleDepthEstimator.makeImgRGBA img w h out).length = 4 * (w * h) ∧
    rd (SimpleDepthEstimator.makeImgRGBA img w h out) (4 * i) = rd img i ∧
    rd (SimpleDepthEstimator.makeImgRGBA img w h out) (4 * i + 1) = rd img i ∧
    rd (SimpleDepthEstimator.makeImgRGBA img w h out) (4 * i + 2) = rd img i ∧
    rd (SimpleDepthEstimator.makeImgRGBA img w h out) (4 * i + 3) = 255 ∧
    (CLDepthEstimator2.rgbaItem img w h out i).length = 4 * (w * h) ∧
    rd (CLDepthEstimator2.rgbaItem img w h out i) (4 * i) = rd img i ∧
    rd (CLDepthEstimator2.rgbaItem img w h out i) (4 * i + 1) = rd img i ∧
    rd (CLDepthEstimator2.rgbaItem img w h out i) (4 * i + 2) = rd img i ∧
    rd (CLDepthEstimator2.rgbaItem img w h out i) (4 * i + 3) = 255 ∧
    ∀ p, p / 4 ≠ i → rd (CLDepthEstimator2.rgbaItem img w h out i) p = rd out p := by
  have hloop := rgba_loop img out (w * h) (by omega) (by omega)
  have hcpu : SimpleDepthEstimator.makeImgRGBA img w h out
      = (List.range (w * h)).foldl (fun out i =>
        (((out.set (u32 (i * 4)) (rd img i)).set (u32 (u32 (i * 4) + 1)) (rd img i)).set
          (u32 (u32 (i * 4) + 2)) (rd img i)).set (u32 (u32 (i * 4) + 3)) 255) out := by
    unfold SimpleDepthEstimator.makeImgRGBA
    rw [u32_of_lt (by omega), forLt_zero]
  have hker : CLDepthEstimator2.rgbaItem img w h out i
      = (((out.set (i * 4) (rd img i)).set (i * 4 + 1) (rd img i)).set (i * 4 + 2)
          (rd img i)).set (i * 4 + 3) 255 := by
    unfold CLDepthEstimator2.rgbaItem
    have e : toU32 ((i : Int) * 4) = i * 4 := by
      have := toU32_natCast (n := i * 4) (by omega)
      rw [← this]
      push_cast
      rfl
    rw [toU32_natCast (by omega), u32_of_lt (by omega), if_pos hi, e,
      u32_of_lt (by omega : i * 4 + 1 < 2 ^ 32), u32_of_lt (by omega : i * 4 + 2 < 2 ^ 32),
      u32_of_lt (by omega : i * 4 + 3 < 2 ^ 32)]
  rw [hcpu, hker]
  obtain ⟨hlen, hrd⟩ := hloop
  have h4 := fun p => rd_set4 out (i * 4) (rd img i) p (by omega)
  refine ⟨by rw [hlen, hout], ?_, ?_, ?_, ?_, by simp only [List.length_set]; exact hout,
    ?_, ?_, ?_, ?_, ?_⟩
  · rw [hrd, if_pos (by omega), if_neg (by omega)]
    congr 1
    omega
  · rw [hrd, if_pos (by omega), if_neg (by omega)]
    congr 1
    omega
  · rw [hrd, if_pos (by omega), if_neg (by omega)]
    congr 1
    omega
  · rw [hrd, if_pos (by omega), if_pos (by omega)]
  · rw [h4, if_pos (by omega)]
  · rw [h4, if_pos (by omega)]
  · rw [h4, if_pos (by omega)]
  · rw [h4, if_neg (by omega), if_pos (by omega)]
  · intro p hp
    rw [h4, if_neg (by omega), if_neg (by omega)]

theorem rgba_bytes_witness :
    (SimpleDepthEstimator.makeImgRGBA [7, 9] 2 1 [0, 0, 0, 0, 0, 0, 0, 0]).length = 4 * (2 * 1) ∧
    rd (SimpleDepthEstimator.makeImgRGBA [7, 9] 2 1 [0, 0, 0, 0, 0, 0, 0, 0]) (4 * 1)
      = rd [7, 9] 1 ∧
    rd (SimpleDepthEstimator.makeImgRGBA [7, 9] 2 1 [0, 0, 0, 0, 0, 0, 0, 0]) (4 * 1 + 3) = 255 ∧
    rd (CLDepthEstimator2.rgbaItem [7, 9] 2 1 [0, 0, 0, 0, 0, 0, 0, 0] 1) (4 * 1) = rd [7, 9] 1 :=
  have h := rgba_bytes [7, 9] [0, 0, 0, 0, 0, 0, 0, 0] 2 1 1 (by decide) (by decide) (by decide)
  ⟨h.1, h.2.1, h.2.2.2.2.1, h.2.2.2.2.2.2.1⟩

/-- C15 fails on the code. The one-pixel grey image `[13]`: `makeImgRGBA` and the `rgba` kernel
give the pixel `(13, 13, 13, 255)`; in IEEE binary32 the sum
`13 * 0.2126f + 13 * 0.7152f + 13 * 0.0722f` of `makeImgGrey` (and of the `greyscale` kernel,
its `dot` summed from left to right) is just below `13`, and its truncation stores `12`. -/
theorem greyscale_of_rgba_13 :
    SimpleDepthEstimator.makeImgRGBA [13] 1 1 [0, 0, 0, 0] = [13, 13, 13, 255] ∧
    SimpleDepthEstimator.makeImgGrey f32Ops f32Conv
      (SimpleDepthEstimator.makeImgRGBA [13] 1 1 [0, 0, 0, 0]) 1 1 = [some 12] ∧
    CLDepthEstimator2.rgbaItem [13] 1 1 [0, 0, 0, 0] 0 = [13, 13, 13, 255] ∧
    CLDepthEstimator2.greyscaleItem f32Ops f32Conv
      (CLDepthEstimator2.rgbaItem [13] 1 1 [0, 0, 0, 0] 0) 1 1 0 = some (0, some 12) := by
  decide!

/-! ## Work sizes -/

/-- C17 fails on the code. The host computes `ceil` of a quotient that is already an integer
(`(width*height)/local[0]` divides two integers), so every global work size is the greatest
multiple of the work-group size that is `≤` the extent, not the least one that is `≥` it: for
a `10 × 10` image the one-dimensional stages get `64` work-items for `100` pixels and the
two-dimensional stages `8 × 8` for `10 × 10`, where rounding up gives `128` and `16 × 16`. -/
theorem dispatch_rounds_down :
    (∀ w h, CLDepthEstimator2.makeImgGreyGlobal w h ≤ u32 (w * h) ∧
      u32 (w * h) < CLDepthEstimator2.makeImgGreyGlobal w h + 64 ∧
      64 ∣ CLDepthEstimator2.makeImgGreyGlobal w h) ∧
    (∀ w h, (CLDepthEstimator2.filterImgGlobal w h).1 ≤ w ∧
      w < (CLDepthEstimator2.filterImgGlobal w h).1 + 8 ∧
      8 ∣ (CLDepthEstimator2.filterImgGlobal w h).1 ∧
      (CLDepthEstimator2.filterImgGlobal w h).2 ≤ h ∧
      h < (CLDepthEstimator2.filterImgGlobal w h).2 + 8 ∧
      8 ∣ (CLDepthEstimator2.filterImgGlobal w h).2) ∧
    (∀ w h F, (CLDepthEstimator2.downsampleImgGlobal w h F).1 ≤ w / F ∧
      (CLDepthEstimator2.downsampleImgGlobal w h F).2 ≤ h / F) ∧
    CLDepthEstimator2.makeImgGreyGlobal 10 10 = 64 ∧
    CLDepthEstimator2.roundUp 64 (10 * 10) = 128 ∧
    CLDepthEstimator2.filterImgGlobal 10 10 = (8, 8) ∧
    CLDepthEstimator2.roundUp 8 10 = 16 ∧
    CLDepthEstimator2.downsampleImgGlobal 40 40 4 = (8, 8) := by
  refine ⟨?_, ?_, ?_, by decide, by decide, by decide, by decide, by decide⟩
  · intro w h
    unfold CLDepthEstimator2.makeImgGreyGlobal CLDepthEstimator2.LOCAL_SIZE
    refine ⟨by omega, by omega, Dvd.intro_left _ rfl⟩
  · intro w h
    unfold CLDepthEstimator2.filterImgGlobal CLDepthEstimator2.LOCAL_SIZE_X
      CLDepthEstimator2.LOCAL_SIZE_Y
    refine ⟨by simp only; omega, by simp only; omega, Dvd.intro_left _ rfl, by simp only; omega,
      by simp only; omega, Dvd.intro_left _ rfl⟩
  · intro w h F
    unfold CLDepthEstimator2.downsampleImgGlobal CLDepthEstimator2.LOCAL_SIZE_X
      CLDepthEstimator2.LOCAL_SIZE_Y
    exact ⟨Nat.div_mul_le_self _ _, Nat.div_mul_le_self _ _⟩

/-! ## The `downsample` kernel -/

namespace F32

theorem lit_0625 : lit 625 10000 = fin ((2 ^ 145 : Nat) : Int) := by decide!

theorem ofInt_zero_grid (j : Nat) : ofInt 0 = fin ((0 * 2 ^ j : Nat) : Int) := by
  rw [ofInt_zero, Nat.zero_mul]
  rfl

/-- A sum of two multiples of `2 ^ j` units that has at most 24 significant bits is exact. -/
theorem add_grid (a b j : Nat) (h : a + b < 2 ^ 24) (hj : j ≤ 253) :
    add (fin ((a * 2 ^ j : Nat) : Int)) (fin ((b * 2 ^ j : Nat) : Int))
      = fin (((a + b) * 2 ^ j : Nat) : Int) := by
  rw [add_fin]
  have e : a * 2 ^ j + b * 2 ^ j = 1 * ((a + b) * 2 ^ j) := by ring
  rw [e, rnd_exact 1 (a + b) j (by norm_num) h hj]

/-- The product of an integer below `2 ^ 24` and `0.0625f` is exact. -/
theorem mul_0625 (v : Nat) (hv : v < 2 ^ 24) :
    mul (ofInt (v : Int)) (lit 625 10000) = fin ((v * 2 ^ 145 : Nat) : Int) := by
  rw [ofInt_natCast v hv, lit_0625, mul_fin]
  have e : v * 2 ^ 149 * 2 ^ 145 = 2 ^ 149 * (v * 2 ^ 145) := by ring
  rw [e, rnd_exact (2 ^ 149) v 145 (by norm_num) hv (by norm_num)]

theorem toU8_sixteenths (t : Nat) (ht : t < 4096) :
    toUnsigned 8 (fin ((t * 2 ^ 145 : Nat) : Int)) = some (t / 16) := by
  rw [toUnsigned_fin _ _ (by omega)]
  congr 1
  omega

end F32

/-- The `dot` of four bytes with `0.0625f` in binary32: their sum in sixteenths, exactly. -/
theorem dot_0625 (img : List Nat) (k : Nat) (hpx : ∀ p ∈ img, p < 256) :
    CLDepthEstimator2.dot f32Ops (CLDepthEstimator2.float4At f32Ops img k)
      (f32Conv.lit 625 10000, f32Conv.lit 625 10000, f32Conv.lit 625 10000,
        f32Conv.lit 625 10000)
      = F32.fin (((rd img (4 * k) + rd img (4 * k + 1) + rd img (4 * k + 2)
          + rd img (4 * k + 3)) * 2 ^ 145 : Nat) : Int) := by
  have h0 := rd_lt hpx (4 * k)
  have h1 := rd_lt hpx (4 * k + 1)
  have h2 := rd_lt hpx (4 * k + 2)
  have h3 := rd_lt hpx (4 * k + 3)
  simp only [CLDepthEstimator2.dot, CLDepthEstimator2.float4At, f32Ops, f32Conv]
  rw [F32.mul_0625 _ (by omega), F32.mul_0625 _ (by omega), F32.mul_0625 _ (by omega),
    F32.mul_0625 _ (by omega), F32.add_grid _ _ _ (by omega) (by norm_num),
    F32.add_grid _ _ _ (by omega) (by norm_num), F32.add_grid _ _ _ (by omega) (by norm_num)]

/-- The store of work-item `(m, n)` of the `downsample` kernel in binary32, when the scratch
cells it reads back hold what it stored: the sum of the sixteen bytes it read, row `4 n + i`
through the `uchar4` of index `m + (4 n + i) * (width / 4)`, divided by `16` and truncated. -/
theorem downsampleItem_f32 (temp : Nat → F32 × F32 × F32 × F32) (img : List Nat)
    (w h F m n lm ln : Nat) (hpx : ∀ p ∈ img, p < 256)
    (hwh : w * h < 2 ^ 31) (hm : m < w / 4) (hn : n < h / 4)
    (hown : ∀ s ∈ CLDepthEstimator2.downsampleStage f32Ops img w h m n lm ln, temp s.1 = s.2) :
    CLDepthEstimator2.downsampleItem f32Ops f32Conv temp w h F m n lm ln
      = some (m + n * (w / 4),
          some ((((List.range 4).map (fun i =>
            ((List.range 4).map (fun c =>
              rd img (4 * (m + (n * 4 + i) * (w / 4)) + c))).sum)).sum) / 16)) := by
  have hq : (w / 4) * h ≤ w * h := Nat.mul_le_mul_right h (Nat.div_le_self w 4)
  have hrow : ∀ i, i < 4 → m + (n * 4 + i) * (w / 4) < (w / 4) * h := by
    intro i hi
    have h1 : n * 4 + i + 1 ≤ h := by omega
    calc m + (n * 4 + i) * (w / 4) < (w / 4) + (n * 4 + i) * (w / 4) := by omega
      _ = (n * 4 + i + 1) * (w / 4) := by ring
      _ ≤ h * (w / 4) := Nat.mul_le_mul_right _ h1
      _ = (w / 4) * h := Nat.mul_comm _ _
  have hidx : ∀ i : Nat, i < 4 →
      toU32 ((m : Int) + ((n : Int) * 4 + (i : Int)) * ((w / 4 : Nat) : Int))
        = m + (n * 4 + i) * (w / 4) := by
    intro i hi
    have := toU32_natCast (n := (m + (n * 4 + i) * (w / 4) : Nat)) (by have := hrow i hi; omega)
    rw [← this]
    push_cast
    rfl
  have hout : toU32 ((m : Int) + (n : Int) * ((w / 4 : Nat) : Int)) = m + n * (w / 4) := by
    have h0 := hrow 0 (by norm_num)
    have hle : m + n * (w / 4) ≤ m + (n * 4 + 0) * (w / 4) :=
      Nat.add_le_add_left (Nat.mul_le_mul_right _ (by omega)) m
    have := toU32_natCast (n := (m + n * (w / 4) : Nat)) (by omega)
    rw [← this]
    push_cast
    rfl
  have hfor : forLt 0 4 = [0, 1, 2, 3] := by decide
  obtain ⟨hw31, hh31⟩ := SimpleDepthEstimator.dims_lt_of_pixel (x := m) (y := n) hwh (by omega) (by omega)
  have hcell : ∀ i : Nat, i < 4 → temp (CLDepthEstimator2.downsampleScratch lm ln i)
      = CLDepthEstimator2.float4At f32Ops img (m + (n * 4 + i) * (w / 4)) := by
    intro i hi
    have hmem : (CLDepthEstimator2.downsampleScratch lm ln i,
        CLDepthEstimator2.float4At f32Ops img (m + (n * 4 + i) * (w / 4)))
        ∈ CLDepthEstimator2.downsampleStage f32Ops img w h m n lm ln := by
      unfold CLDepthEstimator2.downsampleStage
      rw [toU32_natCast (n := m) (by omega), toU32_natCast (n := n) (by omega),
        if_pos ⟨hm, hn⟩, List.mem_map]
      refine ⟨i, ?_, by rw [hidx i hi]⟩
      rw [hfor]
      have h4 : i = 0 ∨ i = 1 ∨ i = 2 ∨ i = 3 := by omega
      rcases h4 with e | e | e | e <;> subst e <;> simp
    exact hown _ hmem
  unfold CLDepthEstimator2.downsampleItem
  rw [toU32_natCast (n := m) (by omega), toU32_natCast (n := n) (by omega), if_pos ⟨hm, hn⟩,
    hout, hfor]
  simp only [List.foldl_cons, List.foldl_nil]
  rw [hcell 0 (by norm_num), hcell 1 (by norm_num), hcell 2 (by norm_num),
    hcell 3 (by norm_num)]
  simp only [dot_0625 img _ hpx]
  simp only [f32Ops]
  have hb : ∀ k, rd img (4 * k) + rd img (4 * k + 1) + rd img (4 * k + 2)
      + rd img (4 * k + 3) < 1024 := by
    intro k
    have h0 := rd_lt hpx (4 * k)
    have h1 := rd_lt hpx (4 * k + 1)
    have h2 := rd_lt hpx (4 * k + 2)
    have h3 := rd_lt hpx (4 * k + 3)
    omega
  have b0 := hb (m + (n * 4 + 0) * (w / 4))
  have b1 := hb (m + (n * 4 + 1) * (w / 4))
  have b2 := hb (m + (n * 4 + 2) * (w / 4))
  have b3 := hb (m + (n * 4 + 3) * (w / 4))
  rw [F32.ofInt_zero_grid 145, F32.add_grid _ _ _ (by omega) (by norm_num),
    F32.add_grid _ _ _ (by omega) (by norm_num), F32.add_grid _ _ _ (by omega) (by norm_num),
    F32.add_grid _ _ _ (by omega) (by norm_num), F32.toU8_sixteenths _ (by omega)]
  simp [List.range_succ]
  omega

/-- For `factor = 4` and a width that is a multiple of `4` the bytes read by work-item
`(m, n)` of the `downsample` kernel are the `4 × 4` block of the CPU loop. -/
theorem downsample_block_sum (img : List Nat) (w m n : Nat) (hw : w % 4 = 0) :
    ((List.range 4).map (fun i =>
      ((List.range 4).map (fun c => rd img (4 * (m + (n * 4 + i) * (w / 4)) + c))).sum)).sum
      = SimpleDepthEstimator.blockSum img w 4 n m := by
  unfold SimpleDepthEstimator.blockSum
  apply congrArg
  apply List.map_congr_left
  intro i _
  apply congrArg
  apply List.map_congr_left
  intro c _
  congr 1
  obtain ⟨q, hq⟩ : ∃ q, w = 4 * q := ⟨w / 4, by omega⟩
  subst hq
  rw [Nat.mul_div_cancel_left _ (by norm_num : 0 < 4)]
  ring

/-- C18 fails as stated: with `factor = 2` on the `4 × 4` image `1, 2, ..., 16` the CPU
reference writes the four means `3, 5, 11, 13` of the `2 × 2` blocks, while the kernel has a
single work-item that stores anything, `(0, 0)` (so that the scratch it reads back holds its
own four stores), and it stores `8`, the mean of all sixteen pixels: the kernel averages
`4 × 4` blocks whatever `factor` is. -/
theorem downsample_kernel_ignores_factor :
    SimpleDepthEstimator.downsampleImg [1, 2, 3, 4, 5, 6, 7, 8, 9, 10, 11, 12, 13, 14, 15, 16]
      4 4 2 = [3, 5, 11, 13] ∧
    CLDepthEstimator2.downsampleItem f32Ops f32Conv
      (CLDepthEstimator2.storeAll (fun _ => CLDepthEstimator2.float4At f32Ops [] 0)
        (CLDepthEstimator2.downsampleStage f32Ops
          [1, 2, 3, 4, 5, 6, 7, 8, 9, 10, 11, 12, 13, 14, 15, 16] 4 4 0 0 0 0))
      4 4 2 0 0 0 0 = some (0, some 8) ∧
    (∀ m, m < 8 → ∀ n, n < 8 → (m, n) ≠ (0, 0) →
      CLDepthEstimator2.downsampleStage f32Ops
        [1, 2, 3, 4, 5, 6, 7, 8, 9, 10, 11, 12, 13, 14, 15, 16] 4 4 m n m n = [] ∧
      CLDepthEstimator2.downsampleItem f32Ops f32Conv
        (CLDepthEstimator2.storeAll (fun _ => CLDepthEstimator2.float4At f32Ops [] 0)
          (CLDepthEstimator2.downsampleStage f32Ops
            [1, 2, 3, 4, 5, 6, 7, 8, 9, 10, 11, 12, 13, 14, 15, 16] 4 4 0 0 0 0))
        4 4 2 m n m n = none) := by
  refine ⟨by decide!, by decide!, ?_⟩
  intro m hm n hn hne
  have hout : ¬ (m < 4 / 4 ∧ n < 4 / 4) := by
    rintro ⟨h1, h2⟩
    apply hne
    have e1 : m = 0 := by omega
    have e2 : n = 0 := by omega
    rw [e1, e2]
  constructor
  · unfold CLDepthEstimator2.downsampleStage
    rw [toU32_natCast (n := m) (by omega), toU32_natCast (n := n) (by omega), if_neg hout]
  · unfold CLDepthEstimator2.downsampleItem
    rw [toU32_natCast (n := m) (by omega), toU32_natCast (n := n) (by omega), if_neg hout]

/-- C18 (amended): in IEEE binary32, whatever value is passed as `factor`, for every `w × h`
greyscale image with `w` a multiple of `4`, a work-item `(m, n)` of the `downsample` kernel
with `m < w / 4` and `n < h / 4` whose four scratch cells hold what it stored when it reads
them back stores at index `m + n * (w / 4)` the truncated mean of the `4 × 4` input block
`(m, n)`, the byte that `SimpleDepthEstimator::downsampleImg` writes there for `factor = 4`; a
work-item outside that range stores nothing, whatever the scratch holds. -/
theorem downsample_kernel_factor_four (temp : Nat → F32 × F32 × F32 × F32) (img : List Nat)
    (w h F m n lm ln : Nat)
    (himg : IsImage img w h) (hw : w % 4 = 0) (hm : m < w / 4) (hn : n < h / 4)
    (hown : ∀ s ∈ CLDepthEstimator2.downsampleStage f32Ops img w h m n lm ln, temp s.1 = s.2) :
    CLDepthEstimator2.downsampleItem f32Ops f32Conv temp w h F m n lm ln
      = some (m + n * (w / 4), some (SimpleDepthEstimator.blockSum img w 4 n m / (4 * 4))) ∧
    (SimpleDepthEstimator.downsampleImg img w h 4)[m + n * (w / 4)]?
      = some (SimpleDepthEstimator.blockSum img w 4 n m / (4 * 4)) ∧
    ∀ (temp1 : Nat → F32 × F32 × F32 × F32) (m1 n1 lm1 ln1 : Nat), m1 < 2 ^ 32 → n1 < 2 ^ 32 →
      ¬ (m1 < w / 4 ∧ n1 < h / 4) →
      CLDepthEstimator2.downsampleItem f32Ops f32Conv temp1 w h F m1 n1 lm1 ln1 = none := by
  obtain ⟨_, hwh, hpx⟩ := himg
  have hb := SimpleDepthEstimator.blockSum_le img w 4 n m hpx
  refine ⟨?_, ?_, ?_⟩
  · rw [downsampleItem_f32 temp img w h F m n lm ln hpx hwh hm hn hown,
      downsample_block_sum img w m n hw]
  · unfold SimpleDepthEstimator.downsampleImg
    rw [getElem?_raster _ _ _ n m hn hm,
      SimpleDepthEstimator.downsamplePixel_eq img w h 4 n m (by omega) hn hm,
      u32_of_lt (by omega), u32_of_lt (by norm_num), u8_of_lt]
    have : SimpleDepthEstimator.blockSum img w 4 n m / (4 * 4) ≤ 255 := by omega
    omega
  · intro temp1 m1 n1 lm1 ln1 h1 h2 hout
    unfold CLDepthEstimator2.downsampleItem
    rw [toU32_natCast h1, toU32_natCast h2, if_neg hout]

theorem downsample_kernel_factor_four_witness :
    (∀ s ∈ CLDepthEstimator2.downsampleStage f32Ops
        [1, 2, 3, 4, 5, 6, 7, 8, 9, 10, 11, 12, 13, 14, 15, 16] 4 4 0 0 0 0,
      CLDepthEstimator2.storeAll (fun _ => CLDepthEstimator2.float4At f32Ops [] 0)
        (CLDepthEstimator2.downsampleStage f32Ops
          [1, 2, 3, 4, 5, 6, 7, 8, 9, 10, 11, 12, 13, 14, 15, 16] 4 4 0 0 0 0) s.1 = s.2) ∧
    CLDepthEstimator2.downsampleItem f32Ops f32Conv
      (CLDepthEstimator2.storeAll (fun _ => CLDepthEstimator2.float4At f32Ops [] 0)
        (CLDepthEstimator2.downsampleStage f32Ops
          [1, 2, 3, 4, 5, 6, 7, 8, 9, 10, 11, 12, 13, 14, 15, 16] 4 4 0 0 0 0))
      4 4 4 0 0 0 0
      = some (0 + 0 * (4 / 4), some (SimpleDepthEstimator.blockSum
          [1, 2, 3, 4, 5, 6, 7, 8, 9, 10, 11, 12, 13, 14, 15, 16] 4 4 0 0 / (4 * 4))) ∧
    (SimpleDepthEstimator.downsampleImg [1, 2, 3, 4, 5, 6, 7, 8, 9, 10, 11, 12, 13, 14, 15, 16]
      4 4 4)[0 + 0 * (4 / 4)]?
      = some (SimpleDepthEstimator.blockSum
          [1, 2, 3, 4, 5, 6, 7, 8, 9, 10, 11, 12, 13, 14, 15, 16] 4 4 0 0 / (4 * 4)) :=
  have hown : ∀ s ∈ CLDepthEstimator2.downsampleStage f32Ops
        [1, 2, 3, 4, 5, 6, 7, 8, 9, 10, 11, 12, 13, 14, 15, 16] 4 4 0 0 0 0,
      CLDepthEstimator2.storeAll (fun _ => CLDepthEstimator2.float4At f32Ops [] 0)
        (CLDepthEstimator2.downsampleStage f32Ops
          [1, 2, 3, 4, 5, 6, 7, 8, 9, 10, 11, 12, 13, 14, 15, 16] 4 4 0 0 0 0) s.1 = s.2 := by
    decide!
  have h := downsample_kernel_factor_four
    (CLDepthEstimator2.storeAll (fun _ => CLDepthEstimator2.float4At f32Ops [] 0)
      (CLDepthEstimator2.downsampleStage f32Ops
        [1, 2, 3, 4, 5, 6, 7, 8, 9, 10, 11, 12, 13, 14, 15, 16] 4 4 0 0 0 0))
    [1, 2, 3, 4, 5, 6, 7, 8, 9, 10, 11, 12, 13, 14, 15, 16] 4 4 4 0 0 0 0 (by decide)
    (by decide) (by decide) (by decide) hown
  ⟨hown, h.1, h.2.1⟩

/-! ## The `filter` kernel -/

namespace F32

theorem div_fin (a b : Nat) (hb : 0 < b) :
    div (fin (a : Int)) (fin (b : Int)) = rnd ((a * 2 ^ 149 : Nat) : Int) b := by
  have hb0 : (b : Int) ≠ 0 := by exact_mod_cast hb.ne'
  show (if (b : Int) = 0 then (if (a : Int) = 0 then nan else inf (decide ((a : Int) < 0)))
    else rnd ((a : Int) * ((2 ^ 149 : Nat) : Int) * (b : Int).sign) (b : Int).natAbs) = _
  rw [if_neg hb0, Int.sign_eq_one_of_pos (by exact_mod_cast hb), mul_one, Int.natAbs_ofNat]
  push_cast
  rfl

theorem mul_nine : mul (ofInt (4 * 2 + 1)) (ofInt (4 * 2 + 1)) = fin ((81 * 2 ^ 149 : Nat) : Int) := by
  decide!

/-- The quotient of an integer `S ≤ 255 * 81` by `81.0f`, truncated: `floor (S / 81)`. -/
theorem toU8_div81 (S : Nat) (hS : S ≤ 255 * 81) :
    toUnsigned 8 (div (fin ((S * 2 ^ 149 : Nat) : Int)) (mul (ofInt (4 * 2 + 1)) (ofInt (4 * 2 + 1))))
      = some (S / 81) := by
  rw [mul_nine, div_fin _ _ (by norm_num)]
  by_cases h : S % 81 = 0
  · obtain ⟨q, hq⟩ : ∃ q, S = 81 * q := ⟨S / 81, by omega⟩
    subst hq
    have e : 81 * q * 2 ^ 149 * 2 ^ 149 = 81 * 2 ^ 149 * (q * 2 ^ 149) := by ring
    rw [e, rnd_exact _ _ _ (by norm_num) (by omega) (by norm_num),
      toUnsigned_fin _ _ (by omega)]
    congr 1
    omega
  · obtain ⟨r, hr, h1, h2⟩ := rnd_small (S * 2 ^ 149 * 2 ^ 149) (81 * 2 ^ 149) (by norm_num)
      (by omega)
    rw [hr, toUnsigned_fin _ _ (by omega)]
    congr 1
    omega

end F32

/-- A loop that adds an integer `g a` to a binary32 accumulator for every `a` of `l` is exact
as long as the sum stays below `2 ^ 24`. -/
theorem foldl_f32_nat {α : Type} (step : F32 → α → F32) (g : α → Nat) (l : List α)
    (hstep : ∀ a ∈ l, ∀ s : Nat, s + g a < 2 ^ 24 →
      step (F32.fin ((s * 2 ^ 149 : Nat) : Int)) a = F32.fin (((s + g a) * 2 ^ 149 : Nat) : Int))
    (s : Nat) (hs : s + (l.map g).sum < 2 ^ 24) :
    l.foldl step (F32.fin ((s * 2 ^ 149 : Nat) : Int))
      = F32.fin (((s + (l.map g).sum) * 2 ^ 149 : Nat) : Int) := by
  induction l generalizing s with
  | nil => simp
  | cons a l ih =>
    simp only [List.map_cons, List.sum_cons] at hs
    rw [List.foldl_cons, hstep a (List.mem_cons_self a l) s (by omega),
      ih (fun b hb => hstep b (List.mem_cons_of_mem a hb)) (s + g a) (by omega)]
    simp only [List.map_cons, List.sum_cons]
    congr 3
    omega

theorem forIncl_four :
    forIncl (-4) 4 = (List.range (2 * 4 + 1)).map (fun (k : Nat) => (k : Int) - 4) := by
  decide

/-- The reduction loop of the `filter` kernel over a tile that holds the zero-padded pixels:
the window sum of radius `4`, exactly. -/
theorem filter_tile_sum (temp : Nat → F32) (img : List Nat) (w h gm gn lm ln : Nat)
    (hpx : ∀ p ∈ img, p < 256) (htile : CLDepthEstimator2.TileHolds f32Ops temp img w h gm gn)
    (hlm : lm < 8) (hln : ln < 8) :
    (forIncl (-4) 4).foldl (fun val i =>
      (forIncl (-4) 4).foldl (fun val j =>
        f32Ops.add val (temp (((lm : Int) + 4 + j) + ((ln : Int) + 4 + i) * 16).toNat)) val)
      (f32Ops.ofInt 0)
      = F32.fin ((SimpleDepthEstimator.windowSum img w h 4 (8 * gm + lm) (8 * gn + ln)
          * 2 ^ 149 : Nat) : Int) := by
  have hws := SimpleDepthEstimator.windowSum_le img w h 4 (8 * gm + lm) (8 * gn + ln) hpx
  unfold SimpleDepthEstimator.windowSum at hws ⊢
  rw [forIncl_four, List.foldl_map]
  have h0 : f32Ops.ofInt 0 = F32.fin ((0 * 2 ^ 149 : Nat) : Int) := F32.ofInt_zero_grid 149
  rw [h0, foldl_f32_nat _ (fun (dy : Nat) => ((List.range (2 * 4 + 1)).map (fun (dx : Nat) =>
      SimpleDepthEstimator.pixelAt img w h (((8 * gm + lm : Nat) : Int) + (dx : Int) - ((4 : Nat) : Int))
        (((8 * gn + ln : Nat) : Int) + (dy : Int) - ((4 : Nat) : Int)))).sum) _ ?_ 0 (by omega),
    Nat.zero_add]
  intro dy hdy s hs
  have hdy9 : dy < 9 := List.mem_range.1 hdy
  rw [List.foldl_map, foldl_f32_nat _ (fun (dx : Nat) =>
      SimpleDepthEstimator.pixelAt img w h (((8 * gm + lm : Nat) : Int) + (dx : Int) - ((4 : Nat) : Int))
        (((8 * gn + ln : Nat) : Int) + (dy : Int) - ((4 : Nat) : Int))) _ ?_ s hs]
  intro dx hdx t ht
  have hdx9 : dx < 9 := List.mem_range.1 hdx
  have hidx : (((lm : Int) + 4 + ((dx : Int) - 4)) + ((ln : Int) + 4 + ((dy : Int) - 4)) * 16).toNat
      = (lm + dx) + (ln + dy) * 16 := by omega
  have hcell := htile (lm + dx) (by omega) (ln + dy) (by omega)
  have hx : (((8 * gm + (lm + dx) : Nat) : Int) - 4)
      = ((8 * gm + lm : Nat) : Int) + (dx : Int) - ((4 : Nat) : Int) := by push_cast; ring
  have hy : (((8 * gn + (ln + dy) : Nat) : Int) - 4)
      = ((8 * gn + ln : Nat) : Int) + (dy : Int) - ((4 : Nat) : Int) := by push_cast; ring
  rw [hx, hy] at hcell
  show f32Ops.add _ (temp _) = _
  rw [hidx, hcell]
  show F32.add _ (F32.ofInt _) = _
  have hp := SimpleDepthEstimator.pixelAt_lt img w h
    (((8 * gm + lm : Nat) : Int) + (dx : Int) - ((4 : Nat) : Int))
    (((8 * gn + ln : Nat) : Int) + (dy : Int) - ((4 : Nat) : Int)) hpx
  rw [F32.ofInt_natCast _ (by omega), F32.add_grid _ _ _ ht (by norm_num)]

theorem f32Ops_toU8 : f32Ops.toU8 = F32.toUnsigned 8 := rfl

theorem f32Ops_div : f32Ops.div = F32.div := rfl

theorem f32Ops_mul : f32Ops.mul = F32.mul := rfl

theorem f32Ops_add : f32Ops.add = F32.add := rfl

theorem f32Ops_ofInt : f32Ops.ofInt = F32.ofInt := rfl

theorem getElem?_filterImg (img : List Nat) (w h R x y : Nat) (hwh : w * h < 2 ^ 31)
    (hx : x < w) (hy : y < h) :
    (SimpleDepthEstimator.filterImg img w h R)[x + y * w]?
      = some (SimpleDepthEstimator.filterPixel img w h R (y : Int) (x : Int)) := by
  obtain ⟨hw31, hh31⟩ := SimpleDepthEstimator.dims_lt_of_pixel hwh hx hy
  unfold SimpleDepthEstimator.filterImg
  rw [i32_of_lt hw31, i32_of_lt hh31, Int.toNat_ofNat, Int.toNat_ofNat,
    getElem?_raster _ _ _ y x hy hx]

/-- The byte of `filterImg` when the accumulator cannot wrap: the truncated window mean. -/
theorem filterPixel_small (img : List Nat) (w h R x y : Nat) (hwh : w * h < 2 ^ 31)
    (hpx : ∀ p ∈ img, p < 256) (hR : 255 * ((2 * R + 1) * (2 * R + 1)) < 2 ^ 32)
    (hx : x < w) (hy : y < h) :
    SimpleDepthEstimator.filterPixel img w h R (y : Int) (x : Int)
      = SimpleDepthEstimator.windowSum img w h R x y / ((2 * R + 1) * (2 * R + 1)) := by
  have hS := SimpleDepthEstimator.windowSum_le img w h R x y hpx
  have hR31 : R < 2 ^ 31 := by nlinarith
  have hd : u32 (R * 2 + 1) = 2 * R + 1 := by rw [u32_of_lt (by omega)]; ring
  have hdd : u32 ((2 * R + 1) * (2 * R + 1)) = (2 * R + 1) * (2 * R + 1) :=
    u32_of_lt (by omega)
  have hpos : 0 < (2 * R + 1) * (2 * R + 1) := Nat.mul_pos (by omega) (by omega)
  rw [SimpleDepthEstimator.filterPixel_eq img w h R x y hwh hR31 hx hy, hd, hdd,
    u32_of_lt (n := SimpleDepthEstimator.windowSum img w h R x y) (by omega)]
  have hq : SimpleDepthEstimator.windowSum img w h R x y / ((2 * R + 1) * (2 * R + 1)) < 256 := by
    apply Nat.div_lt_of_lt_mul
    omega
  rw [u8_of_lt hq]

/-- The store of a work-item of the `filter` kernel over a tile that holds the zero-padded
pixels, in binary32: the truncated mean of the window of radius `4`. -/
theorem filterItem_f32 (temp : Nat → F32) (img : List Nat) (w h R gm gn lm ln : Nat)
    (hwh : w * h < 2 ^ 31) (hpx : ∀ p ∈ img, p < 256)
    (htile : CLDepthEstimator2.TileHolds f32Ops temp img w h gm gn)
    (hlm : lm < 8) (hln : ln < 8) (hm : 8 * gm + lm < w) (hn : 8 * gn + ln < h) :
    CLDepthEstimator2.filterItem f32Ops temp w h R gm gn lm ln
      = some ((8 * gm + lm) + (8 * gn + ln) * w,
          some (SimpleDepthEstimator.windowSum img w h 4 (8 * gm + lm) (8 * gn + ln) / 81)) := by
  obtain ⟨hw31, hh31⟩ := SimpleDepthEstimator.dims_lt_of_pixel hwh hm hn
  have hidx := SimpleDepthEstimator.index_lt_of_pixel hm hn
  have hS := SimpleDepthEstimator.windowSum_le img w h 4 (8 * gm + lm) (8 * gn + ln) hpx
  have hout : toU32 (((8 * gm + lm : Nat) : Int) + ((8 * gn + ln : Nat) : Int) * (w : Int))
      = (8 * gm + lm) + (8 * gn + ln) * w := by
    have := toU32_natCast (n := ((8 * gm + lm) + (8 * gn + ln) * w : Nat)) (by omega)
    rw [← this]
    push_cast
    rfl
  unfold CLDepthEstimator2.filterItem CLDepthEstimator2.LOCAL_SIZE_X
    CLDepthEstimator2.LOCAL_SIZE_Y
  rw [toU32_natCast (n := 8 * gm + lm) (by omega), toU32_natCast (n := 8 * gn + ln) (by omega),
    if_pos ⟨hm, hn⟩, hout, filter_tile_sum temp img w h gm gn lm ln hpx htile hlm hln]
  rw [f32Ops_toU8, f32Ops_div, f32Ops_mul, f32Ops_ofInt, F32.toU8_div81 _ (by omega)]

theorem tileHolds_tileOf {F : Type} (ops : FloatOps F) (img : List Nat) (w h gm gn : Nat) :
    CLDepthEstimator2.TileHolds ops (CLDepthEstimator2.tileOf ops img w h gm gn) img w h
      gm gn := by
  intro lx hlx ly _
  unfold CLDepthEstimator2.tileOf
  have h1 : (lx + ly * 16) % 16 = lx := by omega
  have h2 : (lx + ly * 16) / 16 = ly := by omega
  rw [h1, h2]

/-- C19 fails as stated: with `radius = 0` on the one-pixel image `[200]` the CPU reference
copies the pixel (`200`), while the kernel, over a tile that holds the zero-padded pixels,
stores `floor (200 / 81) = 2`: its window is `9 × 9` and its divisor `81` whatever `radius`
is. -/
theorem filter_kernel_ignores_radius :
    SimpleDepthEstimator.filterImg [200] 1 1 0 = [200] ∧
    CLDepthEstimator2.TileHolds f32Ops (CLDepthEstimator2.tileOf f32Ops [200] 1 1 0 0)
      [200] 1 1 0 0 ∧
    CLDepthEstimator2.filterItem f32Ops (CLDepthEstimator2.tileOf f32Ops [200] 1 1 0 0)
      1 1 0 0 0 0 0 = some (0, some 2) :=
  ⟨by decide, tileHolds_tileOf f32Ops [200] 1 1 0 0, by decide!⟩

/-- C19 (amended): in IEEE binary32, whatever value is passed as `radius`, for every `w × h`
image and every work-group whose local tile holds the zero-padded source pixels, the work-item
of pixel `(x, y) = (8 gm + lm, 8 gn + ln)` of the `filter` kernel stores at index `x + y * w`
the value `floor (S / 81)`, `S` the sum of the in-image pixels of the `9 × 9` window centred on
`(x, y)`: the byte that `SimpleDepthEstimator::filterImg` writes there for `radius = 4`. -/
theorem filter_kernel_radius_four (temp : Nat → F32) (img : List Nat)
    (w h R gm gn lm ln : Nat) (himg : IsImage img w h)
    (htile : CLDepthEstimator2.TileHolds f32Ops temp img w h gm gn)
    (hlm : lm < 8) (hln : ln < 8) (hm : 8 * gm + lm < w) (hn : 8 * gn + ln < h) :
    CLDepthEstimator2.filterItem f32Ops temp w h R gm gn lm ln
      = some ((8 * gm + lm) + (8 * gn + ln) * w,
          some (SimpleDepthEstimator.windowSum img w h 4 (8 * gm + lm) (8 * gn + ln)
            / ((2 * 4 + 1) * (2 * 4 + 1)))) ∧
    (SimpleDepthEstimator.filterImg img w h 4)[(8 * gm + lm) + (8 * gn + ln) * w]?
      = some (SimpleDepthEstimator.windowSum img w h 4 (8 * gm + lm) (8 * gn + ln)
          / ((2 * 4 + 1) * (2 * 4 + 1))) := by
  obtain ⟨_, hwh, hpx⟩ := himg
  constructor
  · exact filterItem_f32 temp img w h R gm gn lm ln hwh hpx htile hlm hln hm hn
  · rw [getElem?_filterImg img w h 4 _ _ hwh hm hn,
      filterPixel_small img w h 4 _ _ hwh hpx (by norm_num) hm hn]

theorem filter_kernel_radius_four_witness :
    CLDepthEstimator2.filterItem f32Ops
        (CLDepthEstimator2.tileOf f32Ops [90, 90, 90, 90, 90, 90] 3 2 0 0) 3 2 1 0 0 1 1
      = some ((8 * 0 + 1) + (8 * 0 + 1) * 3,
          some (SimpleDepthEstimator.windowSum [90, 90, 90, 90, 90, 90] 3 2 4 (8 * 0 + 1)
            (8 * 0 + 1) / ((2 * 4 + 1) * (2 * 4 + 1)))) ∧
    (SimpleDepthEstimator.filterImg [90, 90, 90, 90, 90, 90] 3 2 4)[(8 * 0 + 1) + (8 * 0 + 1) * 3]?
      = some (SimpleDepthEstimator.windowSum [90, 90, 90, 90, 90, 90] 3 2 4 (8 * 0 + 1)
          (8 * 0 + 1) / ((2 * 4 + 1) * (2 * 4 + 1))) :=
  filter_kernel_radius_four (CLDepthEstimator2.tileOf f32Ops [90, 90, 90, 90, 90, 90] 3 2 0 0)
    [90, 90, 90, 90, 90, 90] 3 2 1 0 0 1 1 (by decide)
    (tileHolds_tileOf f32Ops [90, 90, 90, 90, 90, 90] 3 2 0 0) (by decide) (by decide)
    (by decide) (by decide)

/-! ## The box filter on a constant image -/

theorem pixelAt_replicate_le (w h v : Nat) (x y : Int) :
    SimpleDepthEstimator.pixelAt (List.replicate (w * h) v) w h x y ≤ v := by
  unfold SimpleDepthEstimator.pixelAt
  split_ifs with hc
  · rw [rd_replicate]
    have hxn : x.toNat < w := by omega
    have hyn : y.toNat < h := by omega
    exact SimpleDepthEstimator.index_lt_of_pixel hxn hyn
  · exact Nat.zero_le v

theorem pixelAt_outside (img : List Nat) (w h : Nat) (x y : Int)
    (hout : x < 0 ∨ (w : Int) ≤ x ∨ y < 0 ∨ (h : Int) ≤ y) :
    SimpleDepthEstimator.pixelAt img w h x y = 0 := by
  unfold SimpleDepthEstimator.pixelAt
  rw [if_neg (by omega)]

/-- A sum of `n + 1` terms that are at most `c`, one of which is `0`, is at most `n * c`. -/
theorem sum_range_zero_le (f : Nat → Nat) (n k c : Nat) (hk : k < n + 1) (h0 : f k = 0)
    (hle : ∀ i, f i ≤ c) : ((List.range (n + 1)).map f).sum ≤ n * c := by
  induction n with
  | zero =>
    have : k = 0 := by omega
    subst this
    simp [List.range_succ, h0]
  | succ n ih =>
    rw [List.range_succ, List.map_append, List.sum_append]
    simp only [List.map_cons, List.map_nil, List.sum_cons, List.sum_nil, Nat.add_zero]
    by_cases hkn : k = n + 1
    · subst hkn
      have h1 := sum_map_le (List.range (n + 1)) f c (fun a _ => hle a)
      rw [List.length_range] at h1
      omega
    · have h1 := ih (by omega)
      have h2 := hle (n + 1)
      have e : (n + 1) * c = n * c + c := by ring
      omega

/-- On a constant image a window that sticks out of the image misses at least one of its
`2R + 1` rows or columns. -/
theorem windowSum_replicate_border (w h R x y v : Nat)
    (hb : x < R ∨ w ≤ x + R ∨ y < R ∨ h ≤ y + R) :
    SimpleDepthEstimator.windowSum (List.replicate (w * h) v) w h R x y
      ≤ 2 * R * ((2 * R + 1) * v) := by
  unfold SimpleDepthEstimator.windowSum
  have hcol : ∀ dx0, dx0 < 2 * R + 1 →
      ((x : Int) + (dx0 : Int) - (R : Int) < 0 ∨ (w : Int) ≤ (x : Int) + (dx0 : Int) - (R : Int)) →
      ((List.range (2 * R + 1)).map (fun (dy : Nat) =>
        ((List.range (2 * R + 1)).map (fun (dx : Nat) =>
          SimpleDepthEstimator.pixelAt (List.replicate (w * h) v) w h
            ((x : Int) + (dx : Int) - (R : Int)) ((y : Int) + (dy : Int) - (R : Int)))).sum)).sum
        ≤ 2 * R * ((2 * R + 1) * v) := by
    intro dx0 hdx0 hout
    have hrow : ∀ dy ∈ List.range (2 * R + 1),
        ((List.range (2 * R + 1)).map (fun (dx : Nat) =>
          SimpleDepthEstimator.pixelAt (List.replicate (w * h) v) w h
            ((x : Int) + (dx : Int) - (R : Int)) ((y : Int) + (dy : Int) - (R : Int)))).sum
          ≤ 2 * R * v := by
      intro dy _
      exact sum_range_zero_le _ (2 * R) dx0 v hdx0
        (pixelAt_outside _ w h _ _ (by omega)) (fun i => pixelAt_replicate_le w h v _ _)
    have h1 := sum_map_le (List.range (2 * R + 1)) _ (2 * R * v) hrow
    rw [List.length_range] at h1
    have e : (2 * R + 1) * (2 * R * v) = 2 * R * ((2 * R + 1) * v) := by ring
    omega
  have hrowout : ∀ dy0, dy0 < 2 * R + 1 →
      ((y : Int) + (dy0 : Int) - (R : Int) < 0 ∨ (h : Int) ≤ (y : Int) + (dy0 : Int) - (R : Int)) →
      ((List.range (2 * R + 1)).map (fun (dy : Nat) =>
        ((List.range (2 * R + 1)).map (fun (dx : Nat) =>
          SimpleDepthEstimator.pixelAt (List.replicate (w * h) v) w h
            ((x : Int) + (dx : Int) - (R : Int)) ((y : Int) + (dy : Int) - (R : Int)))).sum)).sum
        ≤ 2 * R * ((2 * R + 1) * v) := by
    intro dy0 hdy0 hout
    apply sum_range_zero_le _ (2 * R) dy0 ((2 * R + 1) * v) hdy0
    · show ((List.range (2 * R + 1)).map (fun (dx : Nat) =>
        SimpleDepthEstimator.pixelAt (List.replicate (w * h) v) w h
          ((x : Int) + (dx : Int) - (R : Int)) ((y : Int) + (dy0 : Int) - (R : Int)))).sum = 0
      rw [sum_map_congr _ _ (fun _ => 0)
        (fun dx _ => pixelAt_outside _ w h _ _ (by omega))]
      simp
    · intro dy
      have h1 := sum_map_le (List.range (2 * R + 1)) (fun (dx : Nat) =>
        SimpleDepthEstimator.pixelAt (List.replicate (w * h) v) w h
          ((x : Int) + (dx : Int) - (R : Int)) ((y : Int) + (dy : Int) - (R : Int))) v
        (fun a _ => pixelAt_replicate_le w h v _ _)
      rw [List.length_range] at h1
      exact h1
  rcases hb with hb | hb | hb | hb
  · exact hcol 0 (by omega) (Or.inl (by omega))
  · exact hcol (2 * R) (by omega) (Or.inr (by omega))
  · exact hrowout 0 (by omega) (Or.inl (by omega))
  · exact hrowout (2 * R) (by omega) (Or.inr (by omega))

/-- A truncated mean over `d` cells of a sum below `d * v` is below `v`. -/
theorem div_lt_of_border (S R v : Nat) (hv : 1 ≤ v)
    (hS : S ≤ 2 * R * ((2 * R + 1) * v)) : S / ((2 * R + 1) * (2 * R + 1)) < v := by
  apply Nat.div_lt_of_lt_mul
  have e : (2 * R + 1) * (2 * R + 1) * v = 2 * R * ((2 * R + 1) * v) + (2 * R + 1) * v := by ring
  have : 0 < (2 * R + 1) * v := Nat.mul_pos (by omega) hv
  omega

/-- C16 fails as stated, twice. On the `3 × 3` image of value `v = 0` with `R = 1` every border
pixel gets `0`, which is not strictly below `v`. On the `4105 × 4105` image of value `255`
with `R = 2052` the centre pixel `(2052, 2052)` is at distance `R` from all four edges, yet the
`uint32_t` accumulator wraps (`255 * 4105 ^ 2 > 2 ^ 32`) and the pixel gets `0`, not `255`. -/
theorem filter_constant_image_fails :
    SimpleDepthEstimator.filterImg (List.replicate (3 * 3) 0) 3 3 1 = List.replicate (3 * 3) 0 ∧
    (SimpleDepthEstimator.filterImg (List.replicate (4105 * 4105) 255) 4105 4105
      2052)[2052 + 2052 * 4105]? = some 0 := by
  constructor
  · decide
  · rw [getElem?_filterImg _ 4105 4105 2052 2052 2052 (by norm_num) (by norm_num) (by norm_num),
      SimpleDepthEstimator.filterPixel_eq _ 4105 4105 2052 2052 2052 (by norm_num) (by norm_num)
        (by norm_num) (by norm_num),
      SimpleDepthEstimator.windowSum_replicate_interior 4105 4105 2052 2052 2052 255 (by decide)
        (by decide) (by decide) (by decide)]
    rfl

/-- C16 (amended): on a constant `w × h` image of value `v ≤ 255`, at least `2R + 1` wide and
high, `filterImg` gives a pixel at distance `≥ R` from all four edges exactly `v` when
`v * (2R+1)^2 < 2 ^ 32` (always so for `R ≤ 2051`), gives a pixel closer than `R` to some edge
a value strictly below `v` when `v ≥ 1`, and gives every pixel `0` when `v = 0`. The `filter`
kernel (IEEE binary32, tile holding the zero-padded pixels) does the same with `4` in the
place of `R`, whatever radius it is passed. -/
theorem filter_constant_image (w h R x y v : Nat) (hv : v < 256) (hwh : w * h < 2 ^ 31)
    (hw : 2 * R + 1 ≤ w) (hh : 2 * R + 1 ≤ h) (hx : x < w) (hy : y < h) :
    ((R ≤ x ∧ x + R < w ∧ R ≤ y ∧ y + R < h) → v * ((2 * R + 1) * (2 * R + 1)) < 2 ^ 32 →
      (SimpleDepthEstimator.filterImg (List.replicate (w * h) v) w h R)[x + y * w]? = some v) ∧
    (¬ (R ≤ x ∧ x + R < w ∧ R ≤ y ∧ y + R < h) → 1 ≤ v →
      ∃ b, (SimpleDepthEstimator.filterImg (List.replicate (w * h) v) w h R)[x + y * w]?
        = some b ∧ b < v) ∧
    (v = 0 →
      (SimpleDepthEstimator.filterImg (List.replicate (w * h) v) w h R)[x + y * w]? = some 0) ∧
    (∀ (temp : Nat → F32) (radius gm gn lm ln : Nat),
      CLDepthEstimator2.TileHolds f32Ops temp (List.replicate (w * h) v) w h gm gn →
      lm < 8 → ln < 8 → x = 8 * gm + lm → y = 8 * gn + ln →
      ∃ b, CLDepthEstimator2.filterItem f32Ops temp w h radius gm gn lm ln
          = some (x + y * w, some b) ∧
        ((4 ≤ x ∧ x + 4 < w ∧ 4 ≤ y ∧ y + 4 < h) → b = v) ∧
        (¬ (4 ≤ x ∧ x + 4 < w ∧ 4 ≤ y ∧ y + 4 < h) → 1 ≤ v → b < v)) := by
  have hdd : (2 * R + 1) * (2 * R + 1) ≤ w * h := Nat.mul_le_mul hw hh
  have hpos : 0 < (2 * R + 1) * (2 * R + 1) := Nat.mul_pos (by omega) (by omega)
  obtain ⟨hw31, hh31⟩ := SimpleDepthEstimator.dims_lt_of_pixel hwh hx hy
  have hpix : SimpleDepthEstimator.filterPixel (List.replicate (w * h) v) w h R (y : Int) (x : Int)
      = u8 (u32 (SimpleDepthEstimator.windowSum (List.replicate (w * h) v) w h R x y)
          / ((2 * R + 1) * (2 * R + 1))) := by
    rw [SimpleDepthEstimator.filterPixel_eq _ w h R x y hwh (by omega) hx hy,
      u32_of_lt (by omega : R * 2 + 1 < 2 ^ 32),
      u32_of_lt (by rw [Nat.mul_comm R 2]; omega : (R * 2 + 1) * (R * 2 + 1) < 2 ^ 32),
      Nat.mul_comm R 2]
  have hle : ∀ S : Nat, u32 S ≤ S := fun S => Nat.mod_le _ _
  rw [getElem?_filterImg _ w h R x y hwh hx hy, hpix]
  refine ⟨?_, ?_, ?_, ?_⟩
  · rintro ⟨h1, h2, h3, h4⟩ hS
    rw [SimpleDepthEstimator.windowSum_replicate_interior w h R x y v h1 h2 h3 h4,
      u32_of_lt (by rw [Nat.mul_comm]; exact hS), Nat.mul_div_cancel_left _ hpos, u8_of_lt hv]
  · intro hnot hv1
    have hS := windowSum_replicate_border w h R x y v (by omega)
    have hq := div_lt_of_border _ R v hv1
      (le_trans (hle (SimpleDepthEstimator.windowSum (List.replicate (w * h) v) w h R x y)) hS)
    exact ⟨_, rfl, by rw [u8_of_lt (by omega)]; exact hq⟩
  · intro hv0
    subst hv0
    have hS : SimpleDepthEstimator.windowSum (List.replicate (w * h) 0) w h R x y = 0 := by
      unfold SimpleDepthEstimator.windowSum
      rw [sum_map_congr _ _ (fun _ => 0) (fun dy _ => by
        rw [sum_map_congr _ _ (fun _ => 0)
          (fun dx _ => Nat.le_zero.1 (pixelAt_replicate_le w h 0 _ _))]
        simp)]
      simp
    rw [hS]
    simp [u32, u8]
  · intro temp radius gm gn lm ln htile hlm hln hxe hye
    have hpx : ∀ p ∈ List.replicate (w * h) v, p < 256 := by
      intro p hp
      rw [List.eq_of_mem_replicate hp]
      exact hv
    subst hxe hye
    rw [filterItem_f32 temp _ w h radius gm gn lm ln hwh hpx htile hlm hln hx hy]
    refine ⟨_, rfl, ?_, ?_⟩
    · rintro ⟨h1, h2, h3, h4⟩
      rw [SimpleDepthEstimator.windowSum_replicate_interior w h 4 _ _ v h1 h2 h3 h4]
      omega
    · intro hnot hv1
      have hS := windowSum_replicate_border w h 4 (8 * gm + lm) (8 * gn + ln) v (by omega)
      exact div_lt_of_border _ 4 v hv1 hS

theorem filter_constant_image_witness :
    (SimpleDepthEstimator.filterImg (List.replicate (3 * 3) 9) 3 3 1)[1 + 1 * 3]? = some 9 ∧
    ∃ b, (SimpleDepthEstimator.filterImg (List.replicate (3 * 3) 9) 3 3 1)[0 + 1 * 3]? = some b ∧
      b < 9 :=
  ⟨(filter_constant_image 3 3 1 1 1 9 (by decide) (by decide) (by decide) (by decide)
      (by decide) (by decide)).1 (by decide) (by decide),
    (filter_constant_image 3 3 1 0 1 9 (by decide) (by decide) (by decide) (by decide)
      (by decide) (by decide)).2.1 (by decide) (by decide)⟩

/-! ## Occlusion fill in binary32 -/

theorem foldl_invariant_mem {α β : Type} (P : β → Prop) (step : β → α → β) (l : List α)
    (init : β) (h0 : P init) (hs : ∀ b, ∀ a ∈ l, P b → P (step b a)) : P (l.foldl step init) := by
  induction l generalizing init with
  | nil => exact h0
  | cons a l ih =>
    exact ih _ (hs _ a (List.mem_cons_self a l) h0)
      (fun b c hc hb => hs b c (List.mem_cons_of_mem a hc) hb)

theorem roundNE_scale (a b c : Nat) (hc : 0 < c) :
    roundNE (a * c) (b * c) = roundNE a b := by
  unfold roundNE
  have h1 : a * c / (b * c) = a / b := Nat.mul_div_mul_right a b hc
  have h2 : a * c % (b * c) = a % b * c := Nat.mul_mod_mul_right c a b
  rw [h1, h2]
  have e1 : (2 * (a % b * c) < b * c) ↔ (2 * (a % b) < b) := by
    rw [show 2 * (a % b * c) = (2 * (a % b)) * c by ring]
    exact Nat.mul_lt_mul_right hc
  have e2 : (b * c < 2 * (a % b * c)) ↔ (b < 2 * (a % b)) := by
    rw [show 2 * (a % b * c) = (2 * (a % b)) * c by ring]
    exact Nat.mul_lt_mul_right hc
  simp only [e1, e2]

theorem ilog2_zero : ilog2 0 = 0 := by
  simp [ilog2, log2Fuel]

/-- The binary32 quotient of two integers `S < 2 ^ 24` and `1 ≤ k < 2 ^ 24`, in units, lies in
the unit interval that holds `S / k`: the rounding does not reach the next integer. -/
theorem roundGrid_quotient (S k : Nat) (hk : 0 < k) (hk24 : k < 2 ^ 24) (hS : S < 2 ^ 24) :
    S / k * 2 ^ 149 ≤ roundGrid (S * 2 ^ 149 * 2 ^ 149) (k * 2 ^ 149) ∧
    roundGrid (S * 2 ^ 149 * 2 ^ 149) (k * 2 ^ 149) < (S / k + 1) * 2 ^ 149 := by
  have hkS : k * (S / k) ≤ S := Nat.mul_div_le S k
  have hSk : S < k * (S / k + 1) := Nat.lt_mul_div_succ S hk
  unfold roundGrid
  have hv : S * 2 ^ 149 * 2 ^ 149 / (k * 2 ^ 149) = S * 2 ^ 149 / k :=
    Nat.mul_div_mul_right _ _ (by positivity)
  rw [hv]
  obtain ⟨e, he⟩ : ∃ e, ilog2 (S * 2 ^ 149 / k) = e := ⟨_, rfl⟩
  rw [he]
  obtain ⟨t, ht⟩ : ∃ t, e - 23 = t := ⟨_, rfl⟩
  rw [ht]
  have hkt : k * 2 ^ t < 2 ^ 150 := by
    rcases Nat.lt_or_ge e 23 with h23 | h23
    · have : t = 0 := by omega
      subst this
      have : (2 : Nat) ^ 24 < 2 ^ 150 := by norm_num
      simpa using lt_trans hk24 this
    · have hvpos : 0 < S * 2 ^ 149 / k := by
        rcases Nat.eq_zero_or_pos (S * 2 ^ 149 / k) with hz | hz
        · rw [hz, ilog2_zero] at he
          omega
        · exact hz
      have h2e : 2 ^ e ≤ S * 2 ^ 149 / k := by
        rw [← he]
        exact two_pow_log2Fuel_le _ _ hvpos
      have h3 : k * 2 ^ e ≤ S * 2 ^ 149 :=
        le_trans (Nat.mul_le_mul_left k h2e) (Nat.mul_div_le _ _)
      have h4 : S * 2 ^ 149 < 2 ^ 24 * 2 ^ 149 :=
        Nat.mul_lt_mul_of_lt_of_le hS le_rfl (by positivity)
      have h5 : (2 : Nat) ^ e = 2 ^ t * 2 ^ 23 := by
        rw [← pow_add]
        congr 1
        omega
      have h6 : k * 2 ^ t * 2 ^ 23 < 2 ^ 150 * 2 ^ 23 := by
        calc k * 2 ^ t * 2 ^ 23 = k * 2 ^ e := by rw [h5]; ring
          _ ≤ S * 2 ^ 149 := h3
          _ < 2 ^ 24 * 2 ^ 149 := h4
          _ = 2 ^ 150 * 2 ^ 23 := by norm_num
      exact Nat.lt_of_mul_lt_mul_right h6
  have ht150 : t < 150 := by
    have h1 : 2 ^ t ≤ k * 2 ^ t := Nat.le_mul_of_pos_left _ hk
    exact (Nat.pow_lt_pow_iff_right (by norm_num : 1 < 2)).1 (lt_of_le_of_lt h1 hkt)
  obtain ⟨g, hg⟩ : ∃ g, 149 = g + t := ⟨149 - t, by omega⟩
  have hG : (2 : Nat) ^ 149 = 2 ^ g * 2 ^ t := by rw [← pow_add, ← hg]
  have hk2G : k < 2 * 2 ^ g := by
    have : k * 2 ^ t < (2 * 2 ^ g) * 2 ^ t := by
      calc k * 2 ^ t < 2 ^ 150 := hkt
        _ = 2 * 2 ^ 149 := by norm_num
        _ = (2 * 2 ^ g) * 2 ^ t := by rw [hG]; ring
    exact Nat.lt_of_mul_lt_mul_right this
  have hn : S * 2 ^ 149 * 2 ^ 149 = (S * 2 ^ g) * (2 ^ 149 * 2 ^ t) := by
    rw [hG]; ring
  have hD : k * 2 ^ 149 * 2 ^ t = k * (2 ^ 149 * 2 ^ t) := by ring
  rw [hn, hD, roundNE_scale _ _ _ (by positivity)]
  obtain ⟨rn, hrn⟩ : ∃ rn, roundNE (S * 2 ^ g) k = rn := ⟨_, rfl⟩
  have herr := roundNE_err (S * 2 ^ g) k hk
  rw [hrn] at herr ⊢
  obtain ⟨herr1, herr2⟩ := herr
  have hlow : S / k * 2 ^ g ≤ rn := by
    by_contra hc
    have h1 : rn + 1 ≤ S / k * 2 ^ g := by omega
    have h2 : k * (rn + 1) ≤ k * (S / k * 2 ^ g) := Nat.mul_le_mul_left k h1
    have h3 : k * (S / k * 2 ^ g) ≤ S * 2 ^ g := by
      rw [← Nat.mul_assoc]
      exact Nat.mul_le_mul_right _ hkS
    have h4 : k * (rn + 1) = k * rn + k := Nat.mul_succ k rn
    omega
  have hup : rn < (S / k + 1) * 2 ^ g := by
    by_contra hc
    have h1 : (S / k + 1) * 2 ^ g ≤ rn := by omega
    have h2 : k * ((S / k + 1) * 2 ^ g) ≤ k * rn := Nat.mul_le_mul_left k h1
    have h3 : (S + 1) * 2 ^ g ≤ k * ((S / k + 1) * 2 ^ g) := by
      rw [← Nat.mul_assoc]
      exact Nat.mul_le_mul_right _ hSk
    have h4 : (S + 1) * 2 ^ g = S * 2 ^ g + 2 ^ g := Nat.succ_mul S (2 ^ g)
    omega
  constructor
  · calc S / k * 2 ^ 149 = (S / k * 2 ^ g) * 2 ^ t := by rw [hG]; ring
      _ ≤ rn * 2 ^ t := Nat.mul_le_mul_right _ hlow
  · calc rn * 2 ^ t < ((S / k + 1) * 2 ^ g) * 2 ^ t :=
        Nat.mul_lt_mul_of_lt_of_le hup le_rfl (by positivity)
      _ = (S / k + 1) * 2 ^ 149 := by rw [hG]; ring

namespace F32

/-- The quotient of two integers `S < 2 ^ 24` and `1 ≤ k < 2 ^ 24` in binary32, converted to
`unsigned char`: `floor (S / k)` when that is below `256`. -/
theorem toU8_quotient (S k : Nat) (hk : 0 < k) (hk24 : k < 2 ^ 24) (hS : S < 2 ^ 24)
    (hq : S / k < 256) :
    toUnsigned 8 (div (fin ((S * 2 ^ 149 : Nat) : Int)) (ofInt (k : Int))) = some (S / k) := by
  obtain ⟨h1, h2⟩ := roundGrid_quotient S k hk hk24 hS
  rw [ofInt_natCast k hk24, div_fin _ _ (by positivity), rnd_natCast _ _ (by omega),
    toUnsigned_fin _ _ (by omega)]
  congr 1
  omega

end F32

theorem foldl_fst_f32 {α β : Type} (step : F32 × β → α → F32 × β) (g : α → Nat) (l : List α)
    (hstep : ∀ acc, ∀ a ∈ l, ∀ s : Nat, acc.1 = F32.fin ((s * 2 ^ 149 : Nat) : Int) →
      s + g a < 2 ^ 24 → (step acc a).1 = F32.fin (((s + g a) * 2 ^ 149 : Nat) : Int))
    (acc : F32 × β) (s : Nat) (h : acc.1 = F32.fin ((s * 2 ^ 149 : Nat) : Int))
    (hs : s + (l.map g).sum < 2 ^ 24) :
    (l.foldl step acc).1 = F32.fin (((s + (l.map g).sum) * 2 ^ 149 : Nat) : Int) := by
  induction l generalizing acc s with
  | nil => simpa using h
  | cons a l ih =>
    simp only [List.map_cons, List.sum_cons] at hs
    rw [List.foldl_cons, ih (fun acc b hb => hstep acc b (List.mem_cons_of_mem a hb)) _ (s + g a)
      (hstep acc a (List.mem_cons_self a l) s h (by omega)) (by omega)]
    simp only [List.map_cons, List.sum_cons]
    congr 3
    omega

namespace SimpleDepthEstimator

/-- Every valid pixel has a value of at least `1`. -/
theorem validCount_le_validSum (img : List Nat) (w h Ro x y : Nat) :
    validCount img w h Ro x y ≤ validSum img w h Ro x y := by
  unfold validSum validCount
  apply sum_map_le_sum_map
  intro dy _
  apply sum_map_le_sum_map
  intro dx _
  split
  · rename_i hp
    exact hp
  · exact Nat.le_refl 0

/-- The accumulator `numer` of `occlusionFill` ends, in binary32, on the sum of the valid
pixels of the window as long as that sum is below `2 ^ 24`. -/
theorem occlusionSums_fst_f32 (img : List Nat) (w h Ro x y : Nat)
    (hwh : w * h < 2 ^ 31) (hpx : ∀ p ∈ img, p < 256) (hR : Ro < 2 ^ 31) (hx : x < w)
    (hy : y < h) (hS : validSum img w h Ro x y < 2 ^ 24) :
    (occlusionSums f32Ops img w h Ro (y : Int) (x : Int)).1
      = F32.fin ((validSum img w h Ro x y * 2 ^ 149 : Nat) : Int) := by
  obtain ⟨hw31, hh31⟩ := dims_lt_of_pixel hwh hx hy
  have hsum : (((List.range (2 * Ro + 1)).map (fun (k : Nat) => (y : Int) - Ro + (k : Int))).map
      (fun m => (((List.range (2 * Ro + 1)).map
          (fun (k : Nat) => (x : Int) - Ro + (k : Int))).map
          (fun n => if (if 0 ≤ m ∧ m < (h : Int) ∧ 0 ≤ n ∧ n < (w : Int) then
            rd img (toU32 (n + m * (w : Int))) else 0) > 0
            then (if 0 ≤ m ∧ m < (h : Int) ∧ 0 ≤ n ∧ n < (w : Int) then
              rd img (toU32 (n + m * (w : Int))) else 0) else 0)).sum)).sum
      = validSum img w h Ro x y := by
    unfold validSum
    rw [List.map_map]
    apply sum_map_congr
    intro dy _
    rw [Function.comp_apply, List.map_map]
    apply sum_map_congr
    intro dx _
    rw [Function.comp_apply, window_cell img w h Ro x y hwh dx dy]
  unfold occlusionSums
  simp only [i32_of_lt hR, i32_of_lt hw31, i32_of_lt hh31, forIncl_window]
  have hinner : ∀ (acc : F32 × Nat) (m : Int) (s : Nat),
      acc.1 = F32.fin ((s * 2 ^ 149 : Nat) : Int) →
      s + (((List.range (2 * Ro + 1)).map
          (fun (k : Nat) => (x : Int) - Ro + (k : Int))).map
          (fun n => if (if 0 ≤ m ∧ m < (h : Int) ∧ 0 ≤ n ∧ n < (w : Int) then
            rd img (toU32 (n + m * (w : Int))) else 0) > 0
            then (if 0 ≤ m ∧ m < (h : Int) ∧ 0 ≤ n ∧ n < (w : Int) then
              rd img (toU32 (n + m * (w : Int))) else 0) else 0)).sum < 2 ^ 24 →
      (List.foldl (fun (acc : F32 × Nat) (n : Int) =>
          if 0 ≤ m ∧ m < (h : Int) ∧ 0 ≤ n ∧ n < (w : Int) then
            if rd img (toU32 (n + m * (w : Int))) > 0 then
              (f32Ops.add acc.1 (f32Ops.ofInt (rd img (toU32 (n + m * (w : Int))) : Int)),
                u32 (acc.2 + 1))
            else acc
          else acc) acc
        ((List.range (2 * Ro + 1)).map (fun (k : Nat) => (x : Int) - Ro + (k : Int)))).1
      = F32.fin (((s + (((List.range (2 * Ro + 1)).map
          (fun (k : Nat) => (x : Int) - Ro + (k : Int))).map
          (fun n => if (if 0 ≤ m ∧ m < (h : Int) ∧ 0 ≤ n ∧ n < (w : Int) then
            rd img (toU32 (n + m * (w : Int))) else 0) > 0
            then (if 0 ≤ m ∧ m < (h : Int) ∧ 0 ≤ n ∧ n < (w : Int) then
              rd img (toU32 (n + m * (w : Int))) else 0) else 0)).sum) * 2 ^ 149 : Nat) : Int) := by
    intro acc m s hacc hb
    apply foldl_fst_f32 _ _ _ _ acc s hacc hb
    intro acc n _ s hacc hb
    by_cases hg : 0 ≤ m ∧ m < (h : Int) ∧ 0 ≤ n ∧ n < (w : Int)
    · simp only [if_pos hg] at hb ⊢
      by_cases hp : rd img (toU32 (n + m * (w : Int))) > 0
      · simp only [if_pos hp] at hb ⊢
        show F32.add acc.1 (F32.ofInt _) = _
        have h256 := rd_lt hpx (toU32 (n + m * (w : Int)))
        rw [hacc, F32.ofInt_natCast _ (by omega), F32.add_grid _ _ _ hb (by norm_num)]
      · simp only [if_neg hp, Nat.add_zero]
        exact hacc
    · simp only [if_neg hg, Nat.lt_irrefl, if_false, Nat.add_zero]
      exact hacc
  have h0 : (f32Ops.ofInt 0, 0).1 = F32.fin ((0 * 2 ^ 149 : Nat) : Int) :=
    F32.ofInt_zero_grid 149
  rw [foldl_fst_f32 _ (fun m => (((List.range (2 * Ro + 1)).map
          (fun (k : Nat) => (x : Int) - Ro + (k : Int))).map
          (fun n => if (if 0 ≤ m ∧ m < (h : Int) ∧ 0 ≤ n ∧ n < (w : Int) then
            rd img (toU32 (n + m * (w : Int))) else 0) > 0
            then (if 0 ≤ m ∧ m < (h : Int) ∧ 0 ≤ n ∧ n < (w : Int) then
              rd img (toU32 (n + m * (w : Int))) else 0) else 0)).sum)
          _ (fun acc m _ s hacc hb => hinner acc m s hacc hb) _ 0 h0 (by rw [hsum]; omega),
    hsum, Nat.zero_add]

/-- Without a valid pixel in the window the loops of `occlusionFill` leave `numer` and `denom`
as they were set, whatever the floating-point arithmetic. -/
theorem occlusionSums_of_no_valid {F : Type} (ops : FloatOps F) (img : List Nat)
    (w h Ro x y : Nat) (hwh : w * h < 2 ^ 31) (hR : Ro < 2 ^ 31) (hx : x < w) (hy : y < h)
    (hno : ∀ dx dy : Nat, dx < 2 * Ro + 1 → dy < 2 * Ro + 1 →
      pixelAt img w h ((x : Int) + (dx : Int) - (Ro : Int))
        ((y : Int) + (dy : Int) - (Ro : Int)) = 0) :
    occlusionSums ops img w h Ro (y : Int) (x : Int) = (ops.ofInt 0, 0) := by
  obtain ⟨hw31, hh31⟩ := dims_lt_of_pixel hwh hx hy
  unfold occlusionSums
  simp only [i32_of_lt hR, i32_of_lt hw31, i32_of_lt hh31, forIncl_window]
  apply foldl_invariant_mem (fun acc => acc = (ops.ofInt 0, 0))
  · rfl
  · intro acc m hm hacc
    obtain ⟨dy, hdy, rfl⟩ := List.mem_map.1 hm
    apply foldl_invariant_mem (fun acc => acc = (ops.ofInt 0, 0))
    · exact hacc
    · intro acc n hn hacc
      obtain ⟨dx, hdx, rfl⟩ := List.mem_map.1 hn
      have hcell := window_cell img w h Ro x y hwh dx dy
      rw [hno dx dy (List.mem_range.1 hdx) (List.mem_range.1 hdy)] at hcell
      by_cases hg : 0 ≤ (y : Int) - Ro + (dy : Int) ∧ (y : Int) - Ro + (dy : Int) < (h : Int) ∧
          0 ≤ (x : Int) - Ro + (dx : Int) ∧ (x : Int) - Ro + (dx : Int) < (w : Int)
      · rw [if_pos hg] at hcell
        simp only [if_pos hg, hcell, Nat.lt_irrefl, if_false]
        exact hacc
      · simp only [if_neg hg]
        exact hacc

/-- The window of radius `Ro` holds at most `(2 Ro + 1) ^ 2` valid pixels. -/
theorem validCount_le_window (img : List Nat) (w h Ro x y : Nat) :
    validCount img w h Ro x y ≤ (2 * Ro + 1) * (2 * Ro + 1) := by
  unfold validCount
  have hrow : ∀ dy ∈ List.range (2 * Ro + 1),
      ((List.range (2 * Ro + 1)).map (fun (dx : Nat) =>
        if pixelAt img w h ((x : Int) + (dx : Int) - (Ro : Int))
            ((y : Int) + (dy : Int) - (Ro : Int)) > 0 then 1 else 0)).sum ≤ 2 * Ro + 1 := by
    intro dy _
    have := sum_map_le (List.range (2 * Ro + 1)) (fun (dx : Nat) =>
        if pixelAt img w h ((x : Int) + (dx : Int) - (Ro : Int))
            ((y : Int) + (dy : Int) - (Ro : Int)) > 0 then 1 else 0) 1
        (fun a _ => by show (if _ then 1 else 0) ≤ 1; split <;> omega)
    simpa using this
  have := sum_map_le (List.range (2 * Ro + 1)) (fun (dy : Nat) =>
      ((List.range (2 * Ro + 1)).map (fun (dx : Nat) =>
        if pixelAt img w h ((x : Int) + (dx : Int) - (Ro : Int))
            ((y : Int) + (dy : Int) - (Ro : Int)) > 0 then 1 else 0)).sum) (2 * Ro + 1) hrow
  simpa using this

end SimpleDepthEstimator

namespace SimpleDepthEstimator

/-- A window of radius at most `127` sums to less than `2 ^ 24`. -/
theorem validSum_lt_of_radius (img : List Nat) (w h Ro x y : Nat) (hpx : ∀ p ∈ img, p < 256)
    (hRo : Ro ≤ 127) : validSum img w h Ro x y < 2 ^ 24 := by
  have h1 := validSum_le img w h Ro x y hpx
  have h2 := validCount_le_window img w h Ro x y
  have h3 : (2 * Ro + 1) * (2 * Ro + 1) ≤ 255 * 255 :=
    Nat.mul_le_mul (by omega) (by omega)
  omega

end SimpleDepthEstimator

/-- The window loops of `occlusionFill` use `float` operands only: the arithmetic of the CPU
reference computes what binary32 computes. -/
theorem occlusionSums_cpu (nanByte : Option Nat) (img : List Nat) (w h R : Nat) (i j : Int) :
    SimpleDepthEstimator.occlusionSums (cpuOps nanByte) img w h R i j
      = (CVal.f (SimpleDepthEstimator.occlusionSums f32Ops img w h R i j).1,
          (SimpleDepthEstimator.occlusionSums f32Ops img w h R i j).2) := by
  unfold SimpleDepthEstimator.occlusionSums
  apply foldl_rel (fun (a : CVal × Nat) (b : F32 × Nat) => a = (CVal.f b.1, b.2))
  · rfl
  · intro a b m hab
    apply foldl_rel (fun (a : CVal × Nat) (b : F32 × Nat) => a = (CVal.f b.1, b.2))
    · exact hab
    · intro a b n hab
      subst hab
      split_ifs <;> rfl

/-- Where the byte that `occlusionFill` stores is defined in binary32, the arithmetic of the
CPU reference stores the same byte. -/
theorem occlusionPixel_cpu_of_defined (nanByte : Option Nat) (img : List Nat) (w h R : Nat)
    (i j : Int) (v : Nat)
    (hv : SimpleDepthEstimator.occlusionPixel f32Ops img w h R i j = some v) :
    SimpleDepthEstimator.occlusionPixel (cpuOps nanByte) img w h R i j = some v := by
  unfold SimpleDepthEstimator.occlusionPixel at hv ⊢
  split_ifs at hv ⊢ with hc
  · exact hv
  · simp only [] at hv ⊢
    rw [occlusionSums_cpu]
    show (match F32.div (SimpleDepthEstimator.occlusionSums f32Ops img w h R i j).1
        (F32.ofInt ((SimpleDepthEstimator.occlusionSums f32Ops img w h R i j).2 : Int)) with
      | F32.nan => nanByte
      | x => F32.toUnsigned 8 x) = some v
    have hv2 : F32.toUnsigned 8
        (F32.div (SimpleDepthEstimator.occlusionSums f32Ops img w h R i j).1
          (F32.ofInt ((SimpleDepthEstimator.occlusionSums f32Ops img w h R i j).2 : Int)))
        = some v := hv
    generalize F32.div (SimpleDepthEstimator.occlusionSums f32Ops img w h R i j).1
      (F32.ofInt ((SimpleDepthEstimator.occlusionSums f32Ops img w h R i j).2 : Int)) = q at hv2 ⊢
    cases q with
    | nan => exact absurd hv2 (by simp [F32.toUnsigned])
    | inf s => exact hv2
    | fin k => exact hv2

/-- C9 (as amended): `SimpleDepthEstimator::occlusionFill` in the arithmetic of the code
(binary32; the stage uses `float` operands only): for every image, radius
`Ro` and pixel `p = (x, y)` with `x + Ro + 1 < 2 ^ 31` and `y + Ro + 1 < 2 ^ 31` (the window
bounds and counters fit `int32_t`) and `img[p] = 0` that has at least one in-image pixel of
value `> 0` inside its `(2Ro+1) × (2Ro+1)` window, whose valid pixels sum to `S < 2 ^ 24` (the
`float` accumulator `numer` is then exact; always so for `Ro ≤ 127`), `out[p] = floor (S / k)`,
`S` and `k` the sum and the count of the pixels of value `> 0` of the input image (not of the
output being filled) in that window. -/
theorem occlusionFill_mean_of_valid (nanByte : Option Nat) (img : List Nat) (w h Ro x y : Nat)
    (himg : IsImage img w h) (hRx : x + Ro + 1 < 2 ^ 31) (hRy : y + Ro + 1 < 2 ^ 31)
    (hx : x < w) (hy : y < h) (hz : rd img (x + y * w) = 0)
    (hv : ∃ dx dy : Nat, dx < 2 * Ro + 1 ∧ dy < 2 * Ro + 1 ∧
      SimpleDepthEstimator.pixelAt img w h ((x : Int) + (dx : Int) - (Ro : Int))
        ((y : Int) + (dy : Int) - (Ro : Int)) > 0)
    (hS : SimpleDepthEstimator.validSum img w h Ro x y < 2 ^ 24) :
    (SimpleDepthEstimator.occlusionFill f32Ops img w h Ro)[x + y * w]?
      = some (some (SimpleDepthEstimator.validSum img w h Ro x y
          / SimpleDepthEstimator.validCount img w h Ro x y)) ∧
    (SimpleDepthEstimator.occlusionFill (cpuOps nanByte) img w h Ro)[x + y * w]?
      = some (some (SimpleDepthEstimator.validSum img w h Ro x y
          / SimpleDepthEstimator.validCount img w h Ro x y)) ∧
    (Ro ≤ 127 → SimpleDepthEstimator.validSum img w h Ro x y < 2 ^ 24) := by
  obtain ⟨hw31, hh31⟩ := SimpleDepthEstimator.dims_lt_of_pixel himg.2.1 hx hy
  obtain ⟨hR, _⟩ : Ro < 2 ^ 31 ∧ Ro < 2 ^ 31 := ⟨by omega, by clear hRx; omega⟩
  have hk : SimpleDepthEstimator.validCount img w h Ro x y ≠ 0 := by
    intro h0
    obtain ⟨dx, dy, hdx, hdy, hp⟩ := hv
    rw [(SimpleDepthEstimator.validCount_eq_zero_iff img w h Ro x y).mp h0 dx dy hdx hdy] at hp
    exact absurd hp (Nat.lt_irrefl 0)
  have hkS := SimpleDepthEstimator.validCount_le_validSum img w h Ro x y
  have hSk := SimpleDepthEstimator.validSum_le img w h Ro x y himg.2.2
  have hidx := SimpleDepthEstimator.index_lt_of_pixel hx hy
  have e1 : ((x : Int) + (y : Int) * (w : Int)) = ((x + y * w : Nat) : Int) := by
    push_cast; ring
  have e2 : toU32 ((x : Int) + (y : Int) * (w : Int)) = x + y * w := by
    rw [e1, toU32_natCast (by have := himg.2.1; omega)]
  have hpix : SimpleDepthEstimator.occlusionPixel f32Ops img w h Ro (y : Int) (x : Int)
      = some (SimpleDepthEstimator.validSum img w h Ro x y
          / SimpleDepthEstimator.validCount img w h Ro x y) := ?_
  · refine ⟨?_, ?_,
      fun hRo => SimpleDepthEstimator.validSum_lt_of_radius img w h Ro x y himg.2.2 hRo⟩
    · unfold SimpleDepthEstimator.occlusionFill
      rw [i32_of_lt hw31, i32_of_lt hh31, Int.toNat_ofNat, Int.toNat_ofNat,
        getElem?_raster _ _ _ y x hy hx, hpix]
    · unfold SimpleDepthEstimator.occlusionFill
      rw [i32_of_lt hw31, i32_of_lt hh31, Int.toNat_ofNat, Int.toNat_ofNat,
        getElem?_raster _ _ _ y x hy hx,
        occlusionPixel_cpu_of_defined nanByte img w h Ro (y : Int) (x : Int) _ hpix]
  unfold SimpleDepthEstimator.occlusionPixel
  rw [e2, hz, if_neg (Nat.lt_irrefl 0)]
  simp only []
  rw [SimpleDepthEstimator.occlusionSums_fst_f32 img w h Ro x y himg.2.1 himg.2.2 hR hx hy hS,
    SimpleDepthEstimator.occlusionSums_snd f32Ops img w h Ro x y himg.2.1 hR hx hy]
  have hq : SimpleDepthEstimator.validSum img w h Ro x y
      / SimpleDepthEstimator.validCount img w h Ro x y < 256 := by
    apply Nat.div_lt_of_lt_mul
    have hpos : 0 < SimpleDepthEstimator.validCount img w h Ro x y := Nat.pos_of_ne_zero hk
    calc SimpleDepthEstimator.validSum img w h Ro x y
        ≤ 255 * SimpleDepthEstimator.validCount img w h Ro x y := hSk
      _ < SimpleDepthEstimator.validCount img w h Ro x y * 256 := by omega
  exact F32.toU8_quotient _ _ (Nat.pos_of_ne_zero hk) (by omega) hS hq

theorem occlusionFill_mean_of_valid_witness :
    (SimpleDepthEstimator.occlusionFill f32Ops [0, 5, 9, 0] 2 2 1)[0 + 0 * 2]?
      = some (some (SimpleDepthEstimator.validSum [0, 5, 9, 0] 2 2 1 0 0
          / SimpleDepthEstimator.validCount [0, 5, 9, 0] 2 2 1 0 0)) :=
  (occlusionFill_mean_of_valid none [0, 5, 9, 0] 2 2 1 0 0 (by decide) (by decide) (by decide)
    (by decide) (by decide) (by decide) ⟨2, 1, by decide, by decide, by decide⟩ (by decide)).1

/-- C10 (as amended): `SimpleDepthEstimator::occlusionFill`, for a radius `Ro` and a pixel
`p = (x, y)` with `x + Ro + 1 < 2 ^ 31` and `y + Ro + 1 < 2 ^ 31` (the window bounds and
counters fit `int32_t`) and `img[p] = 0`, whatever the floating-point arithmetic: the divisor
`denom` of the fill division is zero if and only if no in-image pixel inside the
`(2Ro+1) × (2Ro+1)` window of `p` has value `> 0`; and when it is zero `numer` is `0.0f` too,
so that the byte stored is the conversion of `0.0f / 0`, in binary32 a NaN, whose conversion
to `unsigned char` C leaves undefined. -/
theorem occlusionFill_denom_zero_iff {F : Type} (ops : FloatOps F) (img : List Nat)
    (w h Ro x y : Nat) (himg : IsImage img w h) (hRx : x + Ro + 1 < 2 ^ 31)
    (hRy : y + Ro + 1 < 2 ^ 31) (hx : x < w) (hy : y < h) (hz : rd img (x + y * w) = 0) :
    ((SimpleDepthEstimator.occlusionSums ops img w h Ro (y : Int) (x : Int)).2 = 0 ↔
      ∀ dx dy : Nat, dx < 2 * Ro + 1 → dy < 2 * Ro + 1 →
        SimpleDepthEstimator.pixelAt img w h ((x : Int) + (dx : Int) - (Ro : Int))
          ((y : Int) + (dy : Int) - (Ro : Int)) = 0) ∧
    ((SimpleDepthEstimator.occlusionSums ops img w h Ro (y : Int) (x : Int)).2 = 0 →
      SimpleDepthEstimator.occlusionSums ops img w h Ro (y : Int) (x : Int)
          = (ops.ofInt 0, 0) ∧
        SimpleDepthEstimator.occlusionPixel ops img w h Ro (y : Int) (x : Int)
          = ops.toU8 (ops.div (ops.ofInt 0) (ops.ofInt ((0 : Nat) : Int)))) ∧
    f32Ops.div (f32Ops.ofInt 0) (f32Ops.ofInt ((0 : Nat) : Int)) = F32.nan ∧
    f32Ops.toU8 F32.nan = none := by
  obtain ⟨hR, _⟩ : Ro < 2 ^ 31 ∧ Ro < 2 ^ 31 := ⟨by omega, by clear hRx; omega⟩
  have hiff : (SimpleDepthEstimator.occlusionSums ops img w h Ro (y : Int) (x : Int)).2 = 0 ↔
      ∀ dx dy : Nat, dx < 2 * Ro + 1 → dy < 2 * Ro + 1 →
        SimpleDepthEstimator.pixelAt img w h ((x : Int) + (dx : Int) - (Ro : Int))
          ((y : Int) + (dy : Int) - (Ro : Int)) = 0 := by
    rw [SimpleDepthEstimator.occlusionSums_snd ops img w h Ro x y himg.2.1 hR hx hy]
    exact SimpleDepthEstimator.validCount_eq_zero_iff img w h Ro x y
  refine ⟨hiff, ?_, by decide!, rfl⟩
  intro h0
  have hs := SimpleDepthEstimator.occlusionSums_of_no_valid ops img w h Ro x y himg.2.1 hR hx hy
    (hiff.1 h0)
  refine ⟨hs, ?_⟩
  have hidx := SimpleDepthEstimator.index_lt_of_pixel hx hy
  have e1 : ((x : Int) + (y : Int) * (w : Int)) = ((x + y * w : Nat) : Int) := by
    push_cast; ring
  have e2 : toU32 ((x : Int) + (y : Int) * (w : Int)) = x + y * w := by
    rw [e1, toU32_natCast (by have := himg.2.1; omega)]
  unfold SimpleDepthEstimator.occlusionPixel
  rw [e2, hz, if_neg (Nat.lt_irrefl 0)]
  simp only []
  rw [hs]

theorem occlusionFill_denom_zero_iff_witness :
    (SimpleDepthEstimator.occlusionSums intOps [0, 5, 9, 0] 2 2 1 ((0 : Nat) : Int)
        ((0 : Nat) : Int)).2 = 0 ↔
      ∀ dx dy : Nat, dx < 2 * 1 + 1 → dy < 2 * 1 + 1 →
        SimpleDepthEstimator.pixelAt [0, 5, 9, 0] 2 2 (((0 : Nat) : Int) + (dx : Int) - ((1 : Nat) : Int))
          (((0 : Nat) : Int) + (dy : Int) - ((1 : Nat) : Int)) = 0 :=
  (occlusionFill_denom_zero_iff intOps [0, 5, 9, 0] 2 2 1 0 0 (by decide) (by decide)
    (by decide) (by decide) (by decide) (by decide)).1

/-- C10 fails as stated: with `Ro = 4294967295` the cast `(int32_t) radius` is `-1` and the
window loops do nothing; on the `2 × 1` image `[0, 5]` the window of pixel `(0, 0)` holds
the valid pixel `(1, 0)`, yet `denom` ends at zero. -/
theorem occlusionFill_radius_cast_denom :
    IsImage [0, 5] 2 1 ∧ rd [0, 5] (0 + 0 * 2) = 0 ∧
    SimpleDepthEstimator.pixelAt [0, 5] 2 1
      (((0 : Nat) : Int) + ((4294967296 : Nat) : Int) - ((4294967295 : Nat) : Int))
      (((0 : Nat) : Int) + ((4294967295 : Nat) : Int) - ((4294967295 : Nat) : Int)) = 5 ∧
    i32 4294967295 = -1 ∧
    (SimpleDepthEstimator.occlusionSums intOps [0, 5] 2 1 4294967295 0 0).2 = 0 ∧
    (SimpleDepthEstimator.occlusionSums f32Ops [0, 5] 2 1 4294967295 0 0).2 = 0 :=
  ⟨by decide, by decide, by decide, by decide, by decide, by decide!⟩

/-! ## The `disparity` kernel next to the CPU reference -/

/-- The window loop of the kernels compares its `int` counter with a `uint` bound: started
below zero, at `c - radius` with `c < radius`, it does not run. -/
theorem forInclU_empty (c R : Nat) (hc : c < R) (hR : R < 2 ^ 31) :
    CLDepthEstimator2.forInclU (i32 (toU32 ((c : Int) - (R : Int)))) (toU32 ((c : Int) + (R : Int)))
      = [] := by
  have h1 : toU32 ((c : Int) - (R : Int)) = 2 ^ 32 + c - R := by
    unfold toU32
    omega
  have h2 : i32 (2 ^ 32 + c - R) = (c : Int) - (R : Int) := by
    unfold i32
    split_ifs <;> omega
  have h3 : toU32 ((c : Int) + (R : Int)) = c + R := by
    unfold toU32
    omega
  unfold CLDepthEstimator2.forInclU
  rw [h1, h2, h1, h3, if_neg (by omega)]

theorem foldl_id {α β : Type} (l : List α) (b : β) : l.foldl (fun acc _ => acc) b = b := by
  induction l with
  | nil => rfl
  | cons a l ih => exact ih

/-- In a work-item with `m < radius` or `n < radius` the window loops of the `disparity`
kernel do not run: the three sums stay `0`. -/
theorem kernel_sums_near_origin {F : Type} (ops : FloatOps F)
    (img_0 img_1 mean_0 mean_1 : List Nat) (w h R : Nat) (direction : Int) (m n d : Nat)
    (hR : R < 2 ^ 31) (hmn : m < R ∨ n < R) :
    CLDepthEstimator2.znccSums ops img_0 img_1 mean_0 mean_1 w h R direction (m : Int) (n : Int) d
      = (ops.ofInt 0, ops.ofInt 0, ops.ofInt 0) := by
  unfold CLDepthEstimator2.znccSums
  rcases hmn with hm | hn
  · rw [forInclU_empty m R hm hR]
    simp only [List.foldl_nil]
    exact foldl_id _ _
  · rw [forInclU_empty n R hn hR]
    rfl

/-- A scan all of whose candidates have a NaN correlation keeps its initial state. -/
theorem disparityScan_all_nan (stop : Nat → Bool) (zncc : Nat → FVal)
    (hnan : ∀ d, zncc d = FVal.nan) (k d : Nat) (s : FVal × Nat) :
    disparityScan realOps stop zncc k d s = s := by
  induction k generalizing d with
  | zero => rfl
  | succ k ih =>
    unfold disparityScan
    have hgt : realOps.gt (zncc d) s.1 = false := by
      rw [hnan d]
      exact FVal.gt_nan_left s.1
    by_cases hs : stop d = true
    · rw [if_pos hs]
    · rw [if_neg hs, hgt]
      exact ih (d + 1)

/-- In exact arithmetic the `disparity` kernel stores `0` in every work-item with
`m < radius` or `n < radius`: each candidate's correlation is `0 / 0`. -/
theorem kernel_zero_near_origin (img_0 img_1 mean_0 mean_1 : List Nat) (w h R D : Nat)
    (direction : Int) (m n : Nat) (hR : R < 2 ^ 31) (hmn : m < R ∨ n < R) :
    CLDepthEstimator2.disparityPixel realOps img_0 img_1 mean_0 mean_1 w h R D direction
      (m : Int) (n : Int) = 0 := by
  unfold CLDepthEstimator2.disparityPixel CLDepthEstimator2.disparityState
  rw [disparityScan_all_nan]
  intro d
  unfold CLDepthEstimator2.znccAt
  rw [kernel_sums_near_origin realOps _ _ _ _ w h R direction m n d hR hmn]
  rcases FVal.zncc_le_one 0 0 0 (le_refl 0) (le_refl 0) (by norm_num) with ⟨_, hz⟩ | ⟨hne, _⟩
  · simpa [realOps] using hz
  · exact absurd (by norm_num) hne

/-- The CPU reference on the rows `[0, 0, 9, 0]` and `[9, 0, 0, 0]` at pixel `(3, 0)`:
candidates `0` and `1` have a NaN correlation, candidate `2` has correlation `1`. -/
theorem cpu_example_disparity :
    SimpleDepthEstimator.calcDisparityPixel realOps [0, 0, 9, 0] [9, 0, 0, 0] [0, 1, 1, 1]
      [1, 1, 0, 0] 4 1 1 3 (-1) 0 3 = 2 := by
  have hsc : ∀ e, e < 3 → Scanned (SimpleDepthEstimator.scanStop 4 (-1) 3) 3 e := by
    intro e he
    refine ⟨he, ?_⟩
    intro e' he'
    have h3 : e' = 0 ∨ e' = 1 ∨ e' = 2 := by omega
    rcases h3 with h | h | h <;> subst h <;> decide
  have hw := (disparityScan_ends_on_winner realOps FVal.isNaN real_order
    (SimpleDepthEstimator.scanStop 4 (-1) 3)
    (SimpleDepthEstimator.znccAt realOps [0, 0, 9, 0] [9, 0, 0, 0] [0, 1, 1, 1] [1, 1, 0, 0]
      4 1 1 (-1) 0 3) 3 (by norm_num)).2
    ⟨2, hsc 2 (by norm_num), by
      rw [zncc_example_2]
      show FVal.gt (FVal.fin 1) (FVal.fin ((-1 : Int) : ℝ)) = true
      rw [FVal.gt_fin_fin]; simp⟩
  obtain ⟨⟨hlt, _⟩, hgt0, _, _⟩ := hw
  have hgt : FVal.gt (SimpleDepthEstimator.znccAt realOps [0, 0, 9, 0] [9, 0, 0, 0]
      [0, 1, 1, 1] [1, 1, 0, 0] 4 1 1 (-1) 0 3
      (disparityScan realOps (SimpleDepthEstimator.scanStop 4 (-1) 3)
          (SimpleDepthEstimator.znccAt realOps [0, 0, 9, 0] [9, 0, 0, 0] [0, 1, 1, 1]
            [1, 1, 0, 0] 4 1 1 (-1) 0 3) 3 0 (realOps.ofInt (-1), 0)).2)
      (realOps.ofInt (-1)) = true := hgt0
  have hpix : SimpleDepthEstimator.calcDisparityPixel realOps [0, 0, 9, 0] [9, 0, 0, 0]
      [0, 1, 1, 1] [1, 1, 0, 0] 4 1 1 3 (-1) 0 3
      = (disparityScan realOps (SimpleDepthEstimator.scanStop 4 (-1) 3)
          (SimpleDepthEstimator.znccAt realOps [0, 0, 9, 0] [9, 0, 0, 0] [0, 1, 1, 1]
            [1, 1, 0, 0] 4 1 1 (-1) 0 3) 3 0 (realOps.ofInt (-1), 0)).2 := rfl
  rw [hpix]
  generalize (disparityScan realOps (SimpleDepthEstimator.scanStop 4 (-1) 3)
          (SimpleDepthEstimator.znccAt realOps [0, 0, 9, 0] [9, 0, 0, 0] [0, 1, 1, 1]
            [1, 1, 0, 0] 4 1 1 (-1) 0 3) 3 0 (realOps.ofInt (-1), 0)).2 = ds at hlt hgt
  have h3 : ds = 0 ∨ ds = 1 ∨ ds = 2 := by omega
  rcases h3 with h | h | h
  · rw [h, zncc_example_0, FVal.gt_nan_left] at hgt
    exact Bool.noConfusion hgt
  · rw [h, zncc_example_1, FVal.gt_nan_left] at hgt
    exact Bool.noConfusion hgt
  · exact h

/-- In binary32 the `disparity` kernel stores `0` in every work-item with `m < radius` or
`n < radius`: the window loops do not run and each candidate's correlation is `0 / 0`. -/
theorem kernel_zero_near_origin_f32 (img_0 img_1 mean_0 mean_1 : List Nat) (w h R D : Nat)
    (direction : Int) (m n : Nat) (hR : R < 2 ^ 31) (hmn : m < R ∨ n < R) :
    CLDepthEstimator2.disparityPixel f32Ops img_0 img_1 mean_0 mean_1 w h R D direction
      (m : Int) (n : Int) = 0 := by
  have hz : ∀ d, CLDepthEstimator2.znccAt f32Ops img_0 img_1 mean_0 mean_1 w h R direction
      (m : Int) (n : Int) d = F32.nan := by
    intro d
    unfold CLDepthEstimator2.znccAt
    rw [kernel_sums_near_origin f32Ops _ _ _ _ w h R direction m n d hR hmn]
    have e0 : f32Ops.ofInt 0 = F32.fin 0 := by decide!
    have e1 : F32.mul (F32.fin 0) (F32.fin 0) = F32.fin 0 := by decide!
    have e2 : F32.div (F32.fin 0) (F32.fin 0) = F32.nan := rfl
    simp only []
    rw [e0]
    show F32.div (F32.fin 0) (F32.mul (F32.sqrt (F32.fin 0)) (F32.sqrt (F32.fin 0))) = F32.nan
    rw [F32.sqrt_zero, e1, e2]
  unfold CLDepthEstimator2.disparityPixel CLDepthEstimator2.disparityState
  rw [disparityScan_stable]
  intro e _
  rw [hz e]
  exact F32.gt_of_nan_left (f32Ops.ofInt (-1), 0).1

/-- C20 fails on the code. Left row `[0, 0, 9, 0]`, right row `[9, 0, 0, 0]`, their box means
for `R = 1`, `D = 3`, `direction = -1`, pixel `(x, y) = (3, 0)`, where `y < R`: the CPU
reference, whose loops run on `(int32_t)radius`, writes the disparity `2`; in the kernel the
test `i <= n + radius` of the row loop compares `(uint) i = 4294967295` with `1`, the loop
does not run, every correlation is `0 / 0` and work-item `(3, 0)` writes `0`. This is so in
exact arithmetic and in the arithmetic of the code alike. -/
theorem disparity_kernel_skips_window :
    SimpleDepthEstimator.filterImg [0, 0, 9, 0] 4 1 1 = [0, 1, 1, 1] ∧
    SimpleDepthEstimator.filterImg [9, 0, 0, 0] 4 1 1 = [1, 1, 0, 0] ∧
    (SimpleDepthEstimator.calcDisparity realOps [0, 0, 9, 0] [9, 0, 0, 0] [0, 1, 1, 1]
      [1, 1, 0, 0] 4 1 1 3 (-1))[3 + 0 * 4]? = some 2 ∧
    CLDepthEstimator2.disparityItem realOps [0, 0, 9, 0] [9, 0, 0, 0] [0, 1, 1, 1]
      [1, 1, 0, 0] 4 1 1 3 (-1) 3 0 = some (3, 0) ∧
    (SimpleDepthEstimator.calcDisparity (cpuOps none) [0, 0, 9, 0] [9, 0, 0, 0] [0, 1, 1, 1]
      [1, 1, 0, 0] 4 1 1 3 (-1))[3 + 0 * 4]? = some 2 ∧
    CLDepthEstimator2.disparityItem f32Ops [0, 0, 9, 0] [9, 0, 0, 0] [0, 1, 1, 1]
      [1, 1, 0, 0] 4 1 1 3 (-1) 3 0 = some (3, 0) := by
  refine ⟨by decide, by decide, ?_, ?_, ?_, ?_⟩
  · unfold SimpleDepthEstimator.calcDisparity
    rw [i32_of_lt (n := 4) (by norm_num), i32_of_lt (n := 1) (by norm_num), Int.toNat_ofNat,
      Int.toNat_ofNat, getElem?_raster _ _ _ 0 3 (by norm_num) (by norm_num)]
    exact congrArg some cpu_example_disparity
  · unfold CLDepthEstimator2.disparityItem
    rw [if_pos (by decide),
      kernel_zero_near_origin _ _ _ _ 4 1 1 3 (-1) 3 0 (by norm_num) (Or.inr (by norm_num))]
    rfl
  · unfold SimpleDepthEstimator.calcDisparity
    rw [i32_of_lt (n := 4) (by norm_num), i32_of_lt (n := 1) (by norm_num), Int.toNat_ofNat,
      Int.toNat_ofNat, getElem?_raster _ _ _ 0 3 (by norm_num) (by norm_num)]
    decide!
  · unfold CLDepthEstimator2.disparityItem
    rw [if_pos (by decide),
      kernel_zero_near_origin_f32 _ _ _ _ 4 1 1 3 (-1) 3 0 (by norm_num)
        (Or.inr (by norm_num))]
    rfl

/-! ## The disparity stage on two identical images, in the arithmetic of the code -/

/-- On two identical images the three accumulators of candidate `0` are computed from the
same operands: `numer`, `denom_0` and `denom_1` are the same value, whatever the
arithmetic. -/
theorem kernel_sums_identical {F : Type} (ops : FloatOps F) (img mean : List Nat) (w h R : Nat)
    (direction m n : Int) :
    ∃ s, CLDepthEstimator2.znccSums ops img img mean mean w h R direction m n 0
      = (s, s, s) := by
  unfold CLDepthEstimator2.znccSums
  simp only [Nat.cast_zero, mul_zero, add_zero]
  apply foldl_invariant (fun acc => ∃ s, acc = (s, s, s))
  · exact ⟨_, rfl⟩
  · intro acc i hacc
    apply foldl_invariant (fun acc => ∃ s, acc = (s, s, s))
    · exact hacc
    · intro acc j hacc
      obtain ⟨s, rfl⟩ := hacc
      split
      · exact ⟨_, rfl⟩
      · exact ⟨_, rfl⟩

/-- A scan that does not end on candidate `0` ends on a scanned candidate whose ZNCC is greater
than that of candidate `0`, unless the latter is NaN. -/
theorem scanWinner_zero_or_better {F : Type} (ops : FloatOps F) (isNaN : F → Bool)
    (stop : Nat → Bool) (zncc : Nat → F) (D dstar : Nat)
    (hw : ScanWinner ops isNaN stop zncc D dstar) :
    dstar = 0 ∨ (0 < dstar ∧ Scanned stop D dstar ∧
      ops.gt (zncc dstar) (ops.ofInt (-1)) = true ∧
      (isNaN (zncc 0) = true ∨ ops.gt (zncc dstar) (zncc 0) = true)) := by
  rcases Nat.eq_zero_or_pos dstar with h0 | hpos
  · exact Or.inl h0
  · right
    by_cases hex : ∃ e, Scanned stop D e ∧ ops.gt (zncc e) (ops.ofInt (-1)) = true
    · obtain ⟨hsc, hgt, _, hfirst⟩ := hw.2 hex
      have hsc0 : Scanned stop D 0 := ⟨by have := hsc.1; omega, fun e he => hsc.2 e (by omega)⟩
      exact ⟨hpos, hsc, hgt, hfirst 0 hsc0 hpos⟩
    · have hall : ∀ e, Scanned stop D e → ops.gt (zncc e) (ops.ofInt (-1)) = false := by
        intro e he
        by_contra hc
        exact hex ⟨e, he, by simpa using hc⟩
      have := hw.1 hall
      omega

/-- The store of an in-image work-item of the `disparity` kernel is the end of its scan. -/
theorem kernel_item_eq_scan {F : Type} (ops : FloatOps F) (img_0 img_1 mean_0 mean_1 : List Nat)
    (w h R D x y : Nat) (direction : Int) (himg : IsImage img_0 w h) (hx : x < w) (hy : y < h) :
    CLDepthEstimator2.disparityItem ops img_0 img_1 mean_0 mean_1 w h R D direction x y
      = some (x + y * w, (disparityScan ops (CLDepthEstimator2.scanStop w direction (x : Int))
          (CLDepthEstimator2.znccAt ops img_0 img_1 mean_0 mean_1 w h R direction (x : Int)
            (y : Int))
          D 0 (ops.ofInt (-1), 0)).2) := by
  obtain ⟨hw31, hh31⟩ := SimpleDepthEstimator.dims_lt_of_pixel himg.2.1 hx hy
  have hidx := SimpleDepthEstimator.index_lt_of_pixel hx hy
  unfold CLDepthEstimator2.disparityItem
  have e1 : ((x : Int) + (y : Int) * (w : Int)) = ((x + y * w : Nat) : Int) := by
    push_cast; ring
  rw [toU32_natCast (n := x) (by omega), toU32_natCast (n := y) (by omega),
    if_pos ⟨hx, hy⟩, e1, toU32_natCast (by have := himg.2.1; omega)]
  rfl

/-! ## Double precision: rounding -/

theorem lt_two_pow_log2Fuel (fuel n : Nat) (h : n < 2 ^ fuel) :
    n < 2 ^ (log2Fuel fuel n + 1) := by
  induction fuel generalizing n with
  | zero =>
    have : n = 0 := by simpa using h
    subst this
    simp [log2Fuel]
  | succ fuel ih =>
    unfold log2Fuel
    split_ifs with h2
    · simpa using h2
    · have h3 : n / 2 < 2 ^ fuel := by
        rw [pow_succ] at h
        omega
      have := ih (n / 2) h3
      rw [pow_succ]
      omega

theorem lt_two_pow_ilog2 (n : Nat) : n < 2 ^ (ilog2 n + 1) :=
  lt_two_pow_log2Fuel n n (Nat.lt_two_pow n)

theorem two_pow_ilog2_le (n : Nat) (hn : 0 < n) : 2 ^ ilog2 n ≤ n :=
  two_pow_log2Fuel_le n n hn

theorem le_ilog2 (n k : Nat) (h : 2 ^ k ≤ n) : k ≤ ilog2 n := by
  have h1 := lt_two_pow_ilog2 n
  have h2 : 2 ^ k < 2 ^ (ilog2 n + 1) := lt_of_le_of_lt h h1
  have := (Nat.pow_lt_pow_iff_right (by norm_num : 1 < 2)).1 h2
  omega

theorem isqrtBits_spec (b n r : Nat) (h1 : r * r ≤ n) (h2 : n < (r + 2 ^ b) * (r + 2 ^ b)) :
    isqrtBits b n r * isqrtBits b n r ≤ n ∧
      n < (isqrtBits b n r + 1) * (isqrtBits b n r + 1) := by
  induction b generalizing r with
  | zero => simpa [isqrtBits] using ⟨h1, h2⟩
  | succ b ih =>
    unfold isqrtBits
    split_ifs with h
    · apply ih _ h
      have e : r + 2 ^ b + 2 ^ b = r + 2 ^ (b + 1) := by rw [pow_succ]; omega
      rw [e]
      exact h2
    · exact ih _ h1 (by omega)

/-- The digit loop started with enough digits returns the integer square root. -/
theorem isqrtBits_root (n : Nat) :
    isqrtBits (ilog2 n / 2 + 1) n 0 * isqrtBits (ilog2 n / 2 + 1) n 0 ≤ n ∧
      n < (isqrtBits (ilog2 n / 2 + 1) n 0 + 1) * (isqrtBits (ilog2 n / 2 + 1) n 0 + 1) := by
  apply isqrtBits_spec _ _ _ (Nat.zero_le _)
  have h1 := lt_two_pow_ilog2 n
  have h2 : 2 ^ (ilog2 n + 1) ≤ 2 ^ (ilog2 n / 2 + 1) * 2 ^ (ilog2 n / 2 + 1) := by
    rw [← pow_add]
    exact Nat.pow_le_pow_right (by norm_num) (by omega)
  simp only [Nat.zero_add]
  omega

theorem roundGrid64_zero (d : Nat) : roundGrid64 0 d = 0 := by
  simp [roundGrid64, roundNE, ilog2, log2Fuel]

/-- Rounding to binary64 of a quotient of at least `2 ^ 52` units: the relative error is at
most `2 ^ (-53)`. -/
theorem roundGrid64_rel (n d : Nat) (hd : 0 < d) (h : 2 ^ 52 ≤ n / d) :
    2 ^ 53 * (d * roundGrid64 n d) ≤ (2 ^ 53 + 1) * n ∧
      (2 ^ 53 - 1) * n ≤ 2 ^ 53 * (d * roundGrid64 n d) := by
  unfold roundGrid64
  obtain ⟨t, ht⟩ : ∃ t, ilog2 (n / d) - 52 = t := ⟨_, rfl⟩
  rw [ht]
  have hpos : 0 < n / d := lt_of_lt_of_le (by norm_num) h
  have hs : 2 ^ t * 2 ^ 52 ≤ n / d := by
    rcases Nat.lt_or_ge (ilog2 (n / d)) 52 with hlt | hge
    · have : t = 0 := by omega
      subst this
      simpa using h
    · have : t + 52 = ilog2 (n / d) := by omega
      rw [← pow_add, this]
      exact two_pow_ilog2_le _ hpos
  have hD : d * 2 ^ t * 2 ^ 52 ≤ n := by
    calc d * 2 ^ t * 2 ^ 52 = d * (2 ^ t * 2 ^ 52) := by ring
      _ ≤ d * (n / d) := Nat.mul_le_mul_left d hs
      _ ≤ n := Nat.mul_div_le n d
  have hr := roundNE_err n (d * 2 ^ t) (by positivity)
  have e : d * (roundNE n (d * 2 ^ t) * 2 ^ t) = d * 2 ^ t * roundNE n (d * 2 ^ t) := by ring
  rw [e]
  generalize d * 2 ^ t * roundNE n (d * 2 ^ t) = X at hr ⊢
  generalize d * 2 ^ t = D at hr hD
  constructor <;> omega

/-- The binary64 square root of a value of at least `2 ^ (-970)`: the relative error is at most
`2 ^ (-53)`, stated on the squares. -/
theorem sqrtGrid64_bounds (A : Nat) (h : 2 ^ 104 ≤ A * 2 ^ 1074) :
    ((2 ^ 53 - 1) * sqrtGrid64 A) ^ 2 ≤ (2 ^ 53) ^ 2 * (A * 2 ^ 1074) ∧
      (2 ^ 53) ^ 2 * (A * 2 ^ 1074) ≤ ((2 ^ 53 + 1) * sqrtGrid64 A) ^ 2 := by
  unfold sqrtGrid64
  simp only []
  generalize A * 2 ^ 1074 = N at h ⊢
  have he : 104 ≤ ilog2 N := le_ilog2 N 104 h
  obtain ⟨t, ht⟩ : ∃ t, ilog2 N / 2 - 52 = t := ⟨_, rfl⟩
  rw [ht]
  have hu : 2 ^ t * 2 ^ t * 2 ^ 104 ≤ N := by
    rw [← pow_add, ← pow_add]
    have h1 : t + t + 104 ≤ ilog2 N := by omega
    exact le_trans (Nat.pow_le_pow_right (by norm_num) h1)
      (two_pow_ilog2_le N (lt_of_lt_of_le (by norm_num) h))
  have hupos : 0 < 2 ^ t * 2 ^ t := by positivity
  generalize 2 ^ t = u at hu hupos ⊢
  have hM : 2 ^ 104 ≤ N / (u * u) := by
    rw [Nat.le_div_iff_mul_le hupos]
    calc 2 ^ 104 * (u * u) = u * u * 2 ^ 104 := by ring
      _ ≤ N := hu
  obtain ⟨hq1, hq2⟩ := isqrtBits_root (N / (u * u))
  generalize isqrtBits (ilog2 (N / (u * u)) / 2 + 1) (N / (u * u)) 0 = q at hq1 hq2 ⊢
  have hq : 2 ^ 52 ≤ q := by
    by_contra hc
    have h1 : q + 1 ≤ 2 ^ 52 := by omega
    have h2 : (q + 1) * (q + 1) ≤ 2 ^ 52 * 2 ^ 52 := Nat.mul_le_mul h1 h1
    have e : (2 : Nat) ^ 52 * 2 ^ 52 = 2 ^ 104 := by norm_num
    omega
  have hN1 : q * q * (u * u) ≤ N :=
    le_trans (Nat.mul_le_mul_right _ hq1) (Nat.div_mul_le_self N (u * u))
  have hN2 : N < (q + 1) * (q + 1) * (u * u) := by
    have h1 : N < u * u * (N / (u * u) + 1) := Nat.lt_mul_div_succ N hupos
    have h2 : u * u * (N / (u * u) + 1) ≤ u * u * ((q + 1) * (q + 1)) :=
      Nat.mul_le_mul_left _ (by omega)
    calc N < u * u * (N / (u * u) + 1) := h1
      _ ≤ u * u * ((q + 1) * (q + 1)) := h2
      _ = (q + 1) * (q + 1) * (u * u) := by ring
  have caseA : 4 * N ≤ (2 * q + 1) ^ 2 * (u * u) →
      ((2 ^ 53 - 1) * (q * u)) ^ 2 ≤ (2 ^ 53) ^ 2 * N ∧
        (2 ^ 53) ^ 2 * N ≤ ((2 ^ 53 + 1) * (q * u)) ^ 2 := by
    intro h4
    constructor
    · calc ((2 ^ 53 - 1) * (q * u)) ^ 2 ≤ (2 ^ 53 * (q * u)) ^ 2 :=
          Nat.pow_le_pow_left (Nat.mul_le_mul_right _ (by norm_num)) 2
        _ = (2 ^ 53) ^ 2 * (q * q * (u * u)) := by ring
        _ ≤ (2 ^ 53) ^ 2 * N := Nat.mul_le_mul_left _ hN1
    · have h5 : 2 ^ 52 * (2 * q + 1) ≤ (2 ^ 53 + 1) * q := by omega
      calc (2 ^ 53) ^ 2 * N = 2 ^ 104 * (4 * N) := by ring
        _ ≤ 2 ^ 104 * ((2 * q + 1) ^ 2 * (u * u)) := Nat.mul_le_mul_left _ h4
        _ = (2 ^ 52 * (2 * q + 1) * u) ^ 2 := by ring
        _ ≤ ((2 ^ 53 + 1) * q * u) ^ 2 :=
          Nat.pow_le_pow_left (Nat.mul_le_mul_right _ h5) 2
        _ = ((2 ^ 53 + 1) * (q * u)) ^ 2 := by ring
  have caseB : (2 * q + 1) ^ 2 * (u * u) ≤ 4 * N →
      ((2 ^ 53 - 1) * ((q + 1) * u)) ^ 2 ≤ (2 ^ 53) ^ 2 * N ∧
        (2 ^ 53) ^ 2 * N ≤ ((2 ^ 53 + 1) * ((q + 1) * u)) ^ 2 := by
    intro h4
    constructor
    · have h5 : (2 ^ 53 - 1) * (q + 1) ≤ 2 ^ 52 * (2 * q + 1) := by omega
      calc ((2 ^ 53 - 1) * ((q + 1) * u)) ^ 2 = ((2 ^ 53 - 1) * (q + 1) * u) ^ 2 := by ring
        _ ≤ (2 ^ 52 * (2 * q + 1) * u) ^ 2 :=
          Nat.pow_le_pow_left (Nat.mul_le_mul_right _ h5) 2
        _ = 2 ^ 104 * ((2 * q + 1) ^ 2 * (u * u)) := by ring
        _ ≤ 2 ^ 104 * (4 * N) := Nat.mul_le_mul_left _ h4
        _ = (2 ^ 53) ^ 2 * N := by ring
    · calc (2 ^ 53) ^ 2 * N ≤ (2 ^ 53) ^ 2 * ((q + 1) * (q + 1) * (u * u)) :=
          Nat.mul_le_mul_left _ (le_of_lt hN2)
        _ = (2 ^ 53 * ((q + 1) * u)) ^ 2 := by ring
        _ ≤ ((2 ^ 53 + 1) * ((q + 1) * u)) ^ 2 :=
          Nat.pow_le_pow_left (Nat.mul_le_mul_right _ (by norm_num)) 2
  split_ifs with h1 h2 h3
  · exact caseA (le_of_lt h1)
  · exact caseB (le_of_lt h2)
  · exact caseA (by omega)
  · exact caseB (by omega)

theorem roundNE_le_succ_div (n D : Nat) : roundNE n D ≤ n / D + 1 := by
  unfold roundNE
  split_ifs <;> omega

/-- The product of three roundings above and one below, on the squares: the quotient
`a / (sqrt b * sqrt c)` with `a * a ≤ b * c` as the arithmetic computes it. -/
theorem quotient_chain_upper (K1 K K2 U Q P sb sc a b c : Nat) (hU : 0 < U) (hb : 0 < b)
    (hc : 0 < c) (h1 : K * (P * Q) ≤ K2 * (a * (U * U)))
    (h2 : K1 * (sb * sc) ≤ K * (U * P))
    (h3 : K ^ 2 * (b * (U * U)) ≤ (K2 * sb) ^ 2)
    (h4 : K ^ 2 * (c * (U * U)) ≤ (K2 * sc) ^ 2)
    (h5 : a * a ≤ b * c) :
    Q * (K1 * K ^ 2) ≤ K2 ^ 3 * U := by
  have hpos : 0 < b * c * (U * U) * (U * U) := by positivity
  have hsq : (Q * (K1 * K ^ 2)) ^ 2 ≤ (K2 ^ 3 * U) ^ 2 := by
    apply Nat.le_of_mul_le_mul_right _ hpos
    calc (Q * (K1 * K ^ 2)) ^ 2 * (b * c * (U * U) * (U * U))
        = (Q * K1) ^ 2 * ((K ^ 2 * (b * (U * U))) * (K ^ 2 * (c * (U * U)))) := by ring
      _ ≤ (Q * K1) ^ 2 * ((K2 * sb) ^ 2 * (K2 * sc) ^ 2) :=
          Nat.mul_le_mul_left _ (Nat.mul_le_mul h3 h4)
      _ = K2 ^ 4 * (Q * (K1 * (sb * sc))) ^ 2 := by ring
      _ ≤ K2 ^ 4 * (Q * (K * (U * P))) ^ 2 :=
          Nat.mul_le_mul_left _ (Nat.pow_le_pow_left (Nat.mul_le_mul_left _ h2) 2)
      _ = K2 ^ 4 * (U * U) * (K * (P * Q)) ^ 2 := by ring
      _ ≤ K2 ^ 4 * (U * U) * (K2 * (a * (U * U))) ^ 2 :=
          Nat.mul_le_mul_left _ (Nat.pow_le_pow_left h1 2)
      _ = K2 ^ 6 * (U * U) ^ 3 * (a * a) := by ring
      _ ≤ K2 ^ 6 * (U * U) ^ 3 * (b * c) := Nat.mul_le_mul_left _ h5
      _ = (K2 ^ 3 * U) ^ 2 * (b * c * (U * U) * (U * U)) := by ring
  exact (Nat.pow_le_pow_iff_left (by norm_num)).1 hsq

/-- The same product of roundings from below, for `a = b = c`. -/
theorem quotient_chain_lower (K1 K K2 U Q P sb sc S : Nat) (hU : 0 < U) (hS : 0 < S)
    (h1 : K1 * (S * (U * U)) ≤ K * (P * Q))
    (h2 : K * (U * P) ≤ K2 * (sb * sc))
    (h3 : (K1 * sb) ^ 2 ≤ K ^ 2 * (S * (U * U)))
    (h4 : (K1 * sc) ^ 2 ≤ K ^ 2 * (S * (U * U))) :
    K1 ^ 3 * U ≤ Q * (K2 * K ^ 2) := by
  have hpos : 0 < S * (U * U) := by positivity
  have h5 : K1 * sb * (K1 * sc) ≤ K ^ 2 * (S * (U * U)) := by
    apply (Nat.pow_le_pow_iff_left (by norm_num : 2 ≠ 0)).1
    calc (K1 * sb * (K1 * sc)) ^ 2 = (K1 * sb) ^ 2 * (K1 * sc) ^ 2 := by ring
      _ ≤ K ^ 2 * (S * (U * U)) * (K ^ 2 * (S * (U * U))) := Nat.mul_le_mul h3 h4
      _ = (K ^ 2 * (S * (U * U))) ^ 2 := by ring
  apply Nat.le_of_mul_le_mul_right _ hpos
  calc K1 ^ 3 * U * (S * (U * U)) = K1 ^ 2 * U * (K1 * (S * (U * U))) := by ring
    _ ≤ K1 ^ 2 * U * (K * (P * Q)) := Nat.mul_le_mul_left _ h1
    _ = K1 ^ 2 * Q * (K * (U * P)) := by ring
    _ ≤ K1 ^ 2 * Q * (K2 * (sb * sc)) := Nat.mul_le_mul_left _ h2
    _ = Q * K2 * (K1 * sb * (K1 * sc)) := by ring
    _ ≤ Q * K2 * (K ^ 2 * (S * (U * U))) := Nat.mul_le_mul_left _ h5
    _ = Q * (K2 * K ^ 2) * (S * (U * U)) := by ring

/-- Rounding to binary32 of a binary64 value `Q` (in units of `2 ^ (-1074)`) that is at most
`1 + 2 ^ (-24)`: the result is at most `1`, and it is `1` when `Q` is at least
`1 - 2 ^ (-25)`. -/
theorem roundGrid_near_one (Q : Nat) (h : Q * 2 ^ 24 ≤ 2 ^ 1074 * (2 ^ 24 + 1)) :
    roundGrid Q (2 ^ 925) ≤ 2 ^ 149 ∧
      (2 ^ 1074 * (2 ^ 25 - 1) ≤ Q * 2 ^ 25 → roundGrid Q (2 ^ 925) = 2 ^ 149) := by
  have hQ : Q / 2 ^ 925 < 2 ^ 150 := by
    apply Nat.div_lt_of_lt_mul
    omega
  have he := ilog2_lt _ _ hQ (by norm_num)
  have hup := lt_two_pow_ilog2 (Q / 2 ^ 925)
  unfold roundGrid
  rcases Nat.lt_or_ge (ilog2 (Q / 2 ^ 925)) 149 with hlt | hge
  · obtain ⟨t, ht⟩ : ∃ t, ilog2 (Q / 2 ^ 925) - 23 = t := ⟨_, rfl⟩
    rw [ht]
    have ht125 : t ≤ 125 := by omega
    have h1 : 2 ^ (ilog2 (Q / 2 ^ 925) + 1) ≤ 2 ^ (t + 24) :=
      Nat.pow_le_pow_right (by norm_num) (by omega)
    have h2 : Q / 2 ^ 925 < 2 ^ t * 2 ^ 24 := by
      rw [← pow_add]
      omega
    have h3 : Q / (2 ^ 925 * 2 ^ t) < 2 ^ 24 := by
      rw [← Nat.div_div_eq_div_mul]
      exact Nat.div_lt_of_lt_mul h2
    have h4 := roundNE_le_succ_div Q (2 ^ 925 * 2 ^ t)
    constructor
    · calc roundNE Q (2 ^ 925 * 2 ^ t) * 2 ^ t ≤ 2 ^ 24 * 2 ^ t :=
          Nat.mul_le_mul_right _ (by omega)
        _ ≤ 2 ^ 24 * 2 ^ 125 :=
          Nat.mul_le_mul_left _ (Nat.pow_le_pow_right (by norm_num) ht125)
        _ = 2 ^ 149 := by norm_num
    · intro hlow
      have h5 : 2 ^ 148 ≤ Q / 2 ^ 925 := by
        rw [Nat.le_div_iff_mul_le (by positivity)]
        omega
      have h6 := le_ilog2 _ _ h5
      have h7 : t = 125 := by omega
      subst h7
      have h8 : ilog2 (Q / 2 ^ 925) = 148 := by omega
      rw [h8] at hup
      have h9 : Q < 2 ^ 1074 := by
        have := Nat.lt_mul_of_div_lt hup (by positivity : 0 < 2 ^ 925)
        norm_num at this ⊢
        omega
      have h10 : roundNE Q (2 ^ 925 * 2 ^ 125) = 2 ^ 24 := by
        unfold roundNE
        norm_num
        split_ifs <;> omega
      rw [h10]
      norm_num
  · have h8 : ilog2 (Q / 2 ^ 925) = 149 := by omega
    rw [h8]
    have h5 := two_pow_ilog2_le (Q / 2 ^ 925) (by
      rcases Nat.eq_zero_or_pos (Q / 2 ^ 925) with h0 | h0
      · rw [h0] at hge
        simp [ilog2, log2Fuel] at hge
      · exact h0)
    rw [h8] at h5
    have h9 : 2 ^ 1074 ≤ Q := by
      have := (Nat.le_div_iff_mul_le (by positivity : 0 < 2 ^ 925)).1 h5
      norm_num at this ⊢
      omega
    have h10 : roundNE Q (2 ^ 925 * 2 ^ (149 - 23)) = 2 ^ 23 := by
      unfold roundNE
      norm_num
      split_ifs <;> omega
    rw [h10]
    norm_num

/-- The binary64 square root of a positive integer below `2 ^ 24`, in units of
`2 ^ (-1074)`. -/
theorem sqrtGrid64_int (b : Nat) (hb : 0 < b) (hb24 : b < 2 ^ 24) :
    ((2 ^ 53 - 1) * sqrtGrid64 (b * 2 ^ 1074)) ^ 2 ≤ (2 ^ 53) ^ 2 * (b * (2 ^ 1074 * 2 ^ 1074)) ∧
      (2 ^ 53) ^ 2 * (b * (2 ^ 1074 * 2 ^ 1074)) ≤ ((2 ^ 53 + 1) * sqrtGrid64 (b * 2 ^ 1074)) ^ 2 ∧
      2 ^ 1073 ≤ sqrtGrid64 (b * 2 ^ 1074) ∧ sqrtGrid64 (b * 2 ^ 1074) < 2 ^ 13 * 2 ^ 1074 := by
  have h0 : 2 ^ 104 ≤ b * 2 ^ 1074 * 2 ^ 1074 := by
    calc 2 ^ 104 ≤ 1 * 2 ^ 1074 * 2 ^ 1074 := by norm_num
      _ ≤ b * 2 ^ 1074 * 2 ^ 1074 :=
        Nat.mul_le_mul_right _ (Nat.mul_le_mul_right _ hb)
  obtain ⟨h1, h2⟩ := sqrtGrid64_bounds (b * 2 ^ 1074) h0
  have e : b * 2 ^ 1074 * 2 ^ 1074 = b * (2 ^ 1074 * 2 ^ 1074) := by ring
  rw [e] at h1 h2
  refine ⟨h1, h2, ?_, ?_⟩
  · have h3 : (2 ^ 53 * 2 ^ 1074) ^ 2 ≤ ((2 ^ 53 + 1) * sqrtGrid64 (b * 2 ^ 1074)) ^ 2 := by
      calc (2 ^ 53 * 2 ^ 1074) ^ 2 = (2 ^ 53) ^ 2 * (1 * (2 ^ 1074 * 2 ^ 1074)) := by ring
        _ ≤ (2 ^ 53) ^ 2 * (b * (2 ^ 1074 * 2 ^ 1074)) :=
          Nat.mul_le_mul_left _ (Nat.mul_le_mul_right _ hb)
        _ ≤ _ := h2
    have h4 := (Nat.pow_le_pow_iff_left (by norm_num)).1 h3
    omega
  · have h3 : ((2 ^ 53 - 1) * sqrtGrid64 (b * 2 ^ 1074)) ^ 2 < (2 ^ 53 * 2 ^ 12 * 2 ^ 1074) ^ 2 := by
      calc ((2 ^ 53 - 1) * sqrtGrid64 (b * 2 ^ 1074)) ^ 2
          ≤ (2 ^ 53) ^ 2 * (b * (2 ^ 1074 * 2 ^ 1074)) := h1
        _ < (2 ^ 53) ^ 2 * (2 ^ 24 * (2 ^ 1074 * 2 ^ 1074)) :=
          Nat.mul_lt_mul_of_pos_left (Nat.mul_lt_mul_of_pos_right hb24 (by positivity))
            (by positivity)
        _ = (2 ^ 53 * 2 ^ 12 * 2 ^ 1074) ^ 2 := by ring
    have h4 := (Nat.pow_lt_pow_iff_left (by norm_num)).1 h3
    omega

/-- The quotient `a / (sqrt b * sqrt c)` of the CPU reference for integers `b, c` in
`[1, 2 ^ 24)` and `a * a ≤ b * c`, in units: the product `P` of the two binary64 roots and the
binary64 quotient `Q` are finite, `Q` rounds to a binary32 value of at most `1`, and to `1`
when `a = b = c`. -/
theorem zncc_units (a b c : Nat) (hb : 0 < b) (hc : 0 < c) (hb24 : b < 2 ^ 24)
    (hc24 : c < 2 ^ 24) (ha : a * a ≤ b * c) :
    0 < roundGrid64 (sqrtGrid64 (b * 2 ^ 1074) * sqrtGrid64 (c * 2 ^ 1074)) (2 ^ 1074) ∧
    roundGrid64 (sqrtGrid64 (b * 2 ^ 1074) * sqrtGrid64 (c * 2 ^ 1074)) (2 ^ 1074)
      < 2 ^ 1024 * 2 ^ 1074 ∧
    roundGrid64 (a * (2 ^ 1074 * 2 ^ 1074))
      (roundGrid64 (sqrtGrid64 (b * 2 ^ 1074) * sqrtGrid64 (c * 2 ^ 1074)) (2 ^ 1074))
      < 2 ^ 1024 * 2 ^ 1074 ∧
    roundGrid (roundGrid64 (a * (2 ^ 1074 * 2 ^ 1074))
      (roundGrid64 (sqrtGrid64 (b * 2 ^ 1074) * sqrtGrid64 (c * 2 ^ 1074)) (2 ^ 1074)))
      (2 ^ 925) ≤ 2 ^ 149 ∧
    (a = b → b = c →
      roundGrid (roundGrid64 (a * (2 ^ 1074 * 2 ^ 1074))
        (roundGrid64 (sqrtGrid64 (b * 2 ^ 1074) * sqrtGrid64 (c * 2 ^ 1074)) (2 ^ 1074)))
        (2 ^ 925) = 2 ^ 149) := by
  obtain ⟨sb1, sb2, sb3, sb4⟩ := sqrtGrid64_int b hb hb24
  obtain ⟨sc1, sc2, sc3, sc4⟩ := sqrtGrid64_int c hc hc24
  generalize sqrtGrid64 (b * 2 ^ 1074) = sb at sb1 sb2 sb3 sb4 ⊢
  generalize sqrtGrid64 (c * 2 ^ 1074) = sc at sc1 sc2 sc3 sc4 ⊢
  have hprod1 : 2 ^ 1073 * 2 ^ 1073 ≤ sb * sc := Nat.mul_le_mul sb3 sc3
  have hprod2 : sb * sc < 2 ^ 13 * 2 ^ 1074 * (2 ^ 13 * 2 ^ 1074) :=
    Nat.mul_lt_mul'' sb4 sc4
  have hn : 2 ^ 52 ≤ sb * sc / 2 ^ 1074 := by
    rw [Nat.le_div_iff_mul_le (by positivity)]
    calc 2 ^ 52 * 2 ^ 1074 ≤ 2 ^ 1073 * 2 ^ 1073 := by norm_num
      _ ≤ sb * sc := hprod1
  obtain ⟨p1, p2⟩ := roundGrid64_rel (sb * sc) (2 ^ 1074) (by positivity) hn
  generalize roundGrid64 (sb * sc) (2 ^ 1074) = P at p1 p2 ⊢
  have hP0 : 0 < P := by
    rcases Nat.eq_zero_or_pos P with h0 | h0
    · subst h0
      have : 0 < sb * sc := lt_of_lt_of_le (by positivity) hprod1
      omega
    · exact h0
  have hP1 : P < 2 ^ 27 * 2 ^ 1074 := by
    generalize sb * sc = X at p1 p2 hprod1 hprod2
    norm_num at p1 hprod2 ⊢
    omega
  rcases Nat.eq_zero_or_pos a with ha0 | ha0
  · subst ha0
    rw [Nat.zero_mul, roundGrid64_zero, roundGrid_zero]
    refine ⟨hP0, ?_, by positivity, by positivity, ?_⟩
    · calc P < 2 ^ 27 * 2 ^ 1074 := hP1
        _ ≤ 2 ^ 1024 * 2 ^ 1074 := by norm_num
    · intro h
      omega
  · have hq : 2 ^ 52 ≤ a * (2 ^ 1074 * 2 ^ 1074) / P := by
      rw [Nat.le_div_iff_mul_le hP0]
      calc 2 ^ 52 * P ≤ 2 ^ 52 * (2 ^ 27 * 2 ^ 1074) := Nat.mul_le_mul_left _ (le_of_lt hP1)
        _ ≤ 1 * (2 ^ 1074 * 2 ^ 1074) := by norm_num
        _ ≤ a * (2 ^ 1074 * 2 ^ 1074) := Nat.mul_le_mul_right _ ha0
    obtain ⟨q1, q2⟩ := roundGrid64_rel (a * (2 ^ 1074 * 2 ^ 1074)) P hP0 hq
    generalize roundGrid64 (a * (2 ^ 1074 * 2 ^ 1074)) P = Q at q1 q2 ⊢
    have hup := quotient_chain_upper (2 ^ 53 - 1) (2 ^ 53) (2 ^ 53 + 1) (2 ^ 1074) Q P sb sc a b c
      (by positivity) hb hc q1 p2 sb2 sc2 ha
    have hQ : Q * 2 ^ 24 ≤ 2 ^ 1074 * (2 ^ 24 + 1) := by
      norm_num at hup ⊢
      omega
    obtain ⟨r1, r2⟩ := roundGrid_near_one Q hQ
    refine ⟨hP0, ?_, ?_, r1, ?_⟩
    · calc P < 2 ^ 27 * 2 ^ 1074 := hP1
        _ ≤ 2 ^ 1024 * 2 ^ 1074 := by norm_num
    · norm_num at hQ ⊢
      omega
    · intro hab hbc
      subst hab hbc
      apply r2
      have hlow := quotient_chain_lower (2 ^ 53 - 1) (2 ^ 53) (2 ^ 53 + 1) (2 ^ 1074) Q P sb sc
        a (by positivity) ha0 q2 p1 sb1 sc1
      norm_num at hlow ⊢
      omega

namespace F32

/-- Rounding of a signed value with at most 24 significant bits is exact. -/
theorem rnd_int_exact (d : Nat) (z : Int) (hd : 0 < d) (hz : z.natAbs < 2 ^ 24) :
    rnd ((d : Int) * (z * ((2 ^ 149 : Nat) : Int))) d = fin (z * ((2 ^ 149 : Nat) : Int)) := by
  have habs : ((d : Int) * (z * ((2 ^ 149 : Nat) : Int))).natAbs = d * (z.natAbs * 2 ^ 149) := by
    rw [Int.natAbs_mul, Int.natAbs_mul, Int.natAbs_ofNat, Int.natAbs_ofNat]
  have hsign : ((d : Int) * (z * ((2 ^ 149 : Nat) : Int))).sign = z.sign := by
    have h149 : (0 : Int) < ((2 ^ 149 : Nat) : Int) := Int.ofNat_pos.2 (by positivity)
    rw [Int.sign_mul, Int.sign_mul, Int.sign_eq_one_of_pos (Int.ofNat_pos.2 hd),
      Int.sign_eq_one_of_pos h149, one_mul, mul_one]
  have hg := roundGrid_exact d z.natAbs 149 hd hz
  unfold rnd
  rw [habs, hg, hsign, if_pos]
  · rw [Nat.cast_mul, ← mul_assoc, Int.sign_mul_natAbs]
  · calc z.natAbs * 2 ^ 149 < 2 ^ 24 * 2 ^ 149 :=
        Nat.mul_lt_mul_of_lt_of_le hz le_rfl (by positivity)
      _ ≤ 2 ^ 128 * 2 ^ 149 := by norm_num

theorem ofInt_int (z : Int) (hz : z.natAbs < 2 ^ 24) :
    ofInt z = fin (z * ((2 ^ 149 : Nat) : Int)) := by
  have h := rnd_int_exact 1 z (by norm_num) hz
  rw [Nat.cast_one, one_mul] at h
  exact h

theorem mul_int (x y : Int) (h : (x * y).natAbs < 2 ^ 24) :
    mul (fin (x * ((2 ^ 149 : Nat) : Int))) (fin (y * ((2 ^ 149 : Nat) : Int)))
      = fin (x * y * ((2 ^ 149 : Nat) : Int)) := by
  have e : x * ((2 ^ 149 : Nat) : Int) * (y * ((2 ^ 149 : Nat) : Int))
      = ((2 ^ 149 : Nat) : Int) * (x * y * ((2 ^ 149 : Nat) : Int)) := by ring
  show rnd (x * ((2 ^ 149 : Nat) : Int) * (y * ((2 ^ 149 : Nat) : Int))) (2 ^ 149) = _
  rw [e]
  exact rnd_int_exact (2 ^ 149) (x * y) (by positivity) h

theorem add_int (x y : Int) (h : (x + y).natAbs < 2 ^ 24) :
    add (fin (x * ((2 ^ 149 : Nat) : Int))) (fin (y * ((2 ^ 149 : Nat) : Int)))
      = fin ((x + y) * ((2 ^ 149 : Nat) : Int)) := by
  have e : x * ((2 ^ 149 : Nat) : Int) + y * ((2 ^ 149 : Nat) : Int)
      = ((1 : Nat) : Int) * ((x + y) * ((2 ^ 149 : Nat) : Int)) := by
    rw [Nat.cast_one]
    ring
  show rnd (x * ((2 ^ 149 : Nat) : Int) + y * ((2 ^ 149 : Nat) : Int)) 1 = _
  rw [e]
  exact rnd_int_exact 1 (x + y) (by norm_num) h

/-- A rounded value whose magnitude is at most a finite bound is finite and at most that
bound. -/
theorem rnd_le (z : Int) (d B : Nat) (h : roundGrid z.natAbs d ≤ B) (hB : B < 2 ^ 128 * 2 ^ 149) :
    ∃ k : Int, rnd z d = fin k ∧ k ≤ (B : Int) ∧
      (0 < z → k = ((roundGrid z.natAbs d : Nat) : Int)) := by
  refine ⟨z.sign * ((roundGrid z.natAbs d : Nat) : Int), ?_, ?_, ?_⟩
  · unfold rnd
    rw [if_pos (lt_of_le_of_lt h hB)]
  · have h1 : ((roundGrid z.natAbs d : Nat) : Int) ≤ (B : Int) := by exact_mod_cast h
    have h2 : (0 : Int) ≤ ((roundGrid z.natAbs d : Nat) : Int) := Int.natCast_nonneg _
    rcases lt_trichotomy z 0 with hs | hs | hs
    · rw [Int.sign_eq_neg_one_of_neg hs]
      omega
    · subst hs
      simp
    · rw [Int.sign_eq_one_of_pos hs]
      omega
  · intro hz
    rw [Int.sign_eq_one_of_pos hz, one_mul]

end F32

namespace F64

theorem rnd_fin (z : Int) (d : Nat) (h : roundGrid64 z.natAbs d < 2 ^ 1024 * 2 ^ 1074) :
    rnd z d = fin (z.sign * ((roundGrid64 z.natAbs d : Nat) : Int)) := by
  unfold rnd
  rw [if_pos h]

theorem rnd_of_nat (n d : Nat) (h : roundGrid64 n d < 2 ^ 1024 * 2 ^ 1074) :
    rnd (n : Int) d = fin ((roundGrid64 n d : Nat) : Int) := by
  rw [rnd_fin _ _ (by rw [Int.natAbs_ofNat]; exact h), Int.natAbs_ofNat]
  rcases Nat.eq_zero_or_pos n with h0 | h0
  · subst h0
    simp [roundGrid64_zero]
  · rw [Int.sign_eq_one_of_pos (by exact_mod_cast h0), one_mul]

/-- The binary64 square root of a `float` that holds an integer below `2 ^ 24`. -/
theorem sqrt_ofInt (b : Nat) (hb : b < 2 ^ 24) :
    sqrt (ofF32 (F32.ofInt (b : Int))) = fin ((sqrtGrid64 (b * 2 ^ 1074) : Nat) : Int) := by
  rw [F32.ofInt_int _ (by rw [Int.natAbs_ofNat]; exact hb)]
  have e : (b : Int) * ((2 ^ 149 : Nat) : Int) * ((2 ^ 925 : Nat) : Int)
      = ((b * 2 ^ 1074 : Nat) : Int) := by
    have e2 : (2 ^ 149 * 2 ^ 925 : Nat) = 2 ^ 1074 := by rw [← pow_add]
    rw [mul_assoc, ← Nat.cast_mul, e2, ← Nat.cast_mul]
  show (if (b : Int) * ((2 ^ 149 : Nat) : Int) * ((2 ^ 925 : Nat) : Int) < 0 then nan
    else fin ((sqrtGrid64 ((b : Int) * ((2 ^ 149 : Nat) : Int) * ((2 ^ 925 : Nat) : Int)).toNat
      : Nat) : Int)) = _
  rw [e, if_neg (not_lt.2 (Int.natCast_nonneg _)), Int.toNat_ofNat]

end F64

theorem sqrtGrid64_zero : sqrtGrid64 0 = 0 := by
  have e : isqrtBits 1 0 0 = 0 := by decide
  unfold sqrtGrid64
  simp only [Nat.zero_mul, ilog2_zero, Nat.zero_div, Nat.zero_sub, pow_zero, Nat.mul_one,
    Nat.zero_add, e]
  decide

/-- The value `numer / (sqrt(denom_0) * sqrt(denom_1))` of the CPU reference, stored in the
`float` `temp_zncc`, when the three accumulators hold integers `a`, `b`, `c` with `b` and `c`
below `2 ^ 24` and `a * a ≤ b * c`: NaN when `b` or `c` is `0`; otherwise a finite value of at
most `1`, which is `1` when `a = b = c`. -/
theorem cpu_zncc_value (nanByte : Option Nat) (a : Int) (b c : Nat) (hb24 : b < 2 ^ 24)
    (hc24 : c < 2 ^ 24) (ha : a * a ≤ (b : Int) * (c : Int)) :
    (b = 0 ∨ c = 0 →
      (cpuOps nanByte).div (CVal.f (F32.ofInt a))
        ((cpuOps nanByte).mul ((cpuOps nanByte).sqrt (CVal.f (F32.ofInt (b : Int))))
          ((cpuOps nanByte).sqrt (CVal.f (F32.ofInt (c : Int))))) = CVal.f F32.nan) ∧
    (0 < b → 0 < c → ∃ k : Int,
      (cpuOps nanByte).div (CVal.f (F32.ofInt a))
        ((cpuOps nanByte).mul ((cpuOps nanByte).sqrt (CVal.f (F32.ofInt (b : Int))))
          ((cpuOps nanByte).sqrt (CVal.f (F32.ofInt (c : Int))))) = CVal.f (F32.fin k) ∧
      k ≤ ((2 ^ 149 : Nat) : Int) ∧
      (a = (b : Int) → b = c → k = ((2 ^ 149 : Nat) : Int))) := by
  have hn : a.natAbs * a.natAbs ≤ b * c := by
    have h1 : ((a.natAbs * a.natAbs : Nat) : Int) = a * a := by
      rw [Nat.cast_mul, Int.natAbs_mul_self']
    have h2 : ((a.natAbs * a.natAbs : Nat) : Int) ≤ ((b * c : Nat) : Int) := by
      rw [h1, Nat.cast_mul]
      exact ha
    exact_mod_cast h2
  have ha24 : a.natAbs < 2 ^ 24 := by
    by_contra hc
    have h1 : 2 ^ 24 ≤ a.natAbs := by omega
    have h2 : 2 ^ 24 * 2 ^ 24 ≤ a.natAbs * a.natAbs := Nat.mul_le_mul h1 h1
    have h3 : b * c < 2 ^ 24 * 2 ^ 24 := Nat.mul_lt_mul'' hb24 hc24
    omega
  have hz : (cpuOps nanByte).div (CVal.f (F32.ofInt a))
      ((cpuOps nanByte).mul ((cpuOps nanByte).sqrt (CVal.f (F32.ofInt (b : Int))))
        ((cpuOps nanByte).sqrt (CVal.f (F32.ofInt (c : Int)))))
      = CVal.f (F64.toF32 (F64.div (F64.ofF32 (F32.ofInt a))
          (F64.mul (F64.sqrt (F64.ofF32 (F32.ofInt (b : Int))))
            (F64.sqrt (F64.ofF32 (F32.ofInt (c : Int))))))) := rfl
  rw [hz, F64.sqrt_ofInt b hb24, F64.sqrt_ofInt c hc24, F32.ofInt_int a ha24]
  have hmul : F64.mul (F64.fin ((sqrtGrid64 (b * 2 ^ 1074) : Nat) : Int))
      (F64.fin ((sqrtGrid64 (c * 2 ^ 1074) : Nat) : Int))
      = F64.rnd ((sqrtGrid64 (b * 2 ^ 1074) * sqrtGrid64 (c * 2 ^ 1074) : Nat) : Int)
          (2 ^ 1074) := by
    rw [Nat.cast_mul]
    rfl
  rw [hmul]
  constructor
  · intro h0
    have hprod : sqrtGrid64 (b * 2 ^ 1074) * sqrtGrid64 (c * 2 ^ 1074) = 0 := by
      rcases h0 with h0 | h0
      · subst h0
        rw [Nat.zero_mul, sqrtGrid64_zero, Nat.zero_mul]
      · subst h0
        rw [Nat.zero_mul, sqrtGrid64_zero, Nat.mul_zero]
    have ha0 : a = 0 := by
      have h1 : b * c = 0 := by
        rcases h0 with h0 | h0 <;> subst h0 <;> simp
      have h2 : a.natAbs * a.natAbs = 0 := by omega
      have h3 : a.natAbs = 0 := by
        rcases Nat.mul_eq_zero.1 h2 with h | h <;> exact h
      exact Int.natAbs_eq_zero.1 h3
    have h1 : F64.ofF32 (F32.fin 0) = F64.fin 0 := by
      show F64.fin ((0 : Int) * ((2 ^ 925 : Nat) : Int)) = _
      rw [zero_mul]
    have h2 : F64.div (F64.fin 0) (F64.fin ((0 : Nat) : Int)) = F64.nan := rfl
    rw [hprod, F64.rnd_of_nat _ _ (by rw [roundGrid64_zero]; positivity), roundGrid64_zero, ha0,
      zero_mul, h1, h2]
    rfl
  · intro hb hc
    obtain ⟨u1, u2, u3, u4, u5⟩ := zncc_units a.natAbs b c hb hc hb24 hc24 hn
    rw [F64.rnd_of_nat _ _ u2]
    generalize roundGrid64 (sqrtGrid64 (b * 2 ^ 1074) * sqrtGrid64 (c * 2 ^ 1074)) (2 ^ 1074)
      = P at u1 u2 u3 u4 u5 ⊢
    have hP : ((P : Nat) : Int) ≠ 0 := by
      have : (0 : Int) < ((P : Nat) : Int) := Int.ofNat_pos.2 u1
      omega
    have e2 : (2 ^ 149 * 2 ^ 925 : Nat) = 2 ^ 1074 := by rw [← pow_add]
    have hnum : a * ((2 ^ 149 : Nat) : Int) * ((2 ^ 925 : Nat) : Int) * ((2 ^ 1074 : Nat) : Int)
        * ((P : Nat) : Int).sign = a * ((2 ^ 1074 * 2 ^ 1074 : Nat) : Int) := by
      rw [Int.sign_eq_one_of_pos (Int.ofNat_pos.2 u1), mul_one, mul_assoc a, ← Nat.cast_mul, e2,
        mul_assoc, ← Nat.cast_mul]
    have hdiv : F64.div (F64.ofF32 (F32.fin (a * ((2 ^ 149 : Nat) : Int))))
        (F64.fin ((P : Nat) : Int))
        = F64.rnd (a * ((2 ^ 1074 * 2 ^ 1074 : Nat) : Int)) P := by
      show (if ((P : Nat) : Int) = 0 then
          (if a * ((2 ^ 149 : Nat) : Int) * ((2 ^ 925 : Nat) : Int) = 0 then F64.nan
            else F64.inf (decide (a * ((2 ^ 149 : Nat) : Int) * ((2 ^ 925 : Nat) : Int) < 0)))
        else F64.rnd (a * ((2 ^ 149 : Nat) : Int) * ((2 ^ 925 : Nat) : Int)
          * ((2 ^ 1074 : Nat) : Int) * ((P : Nat) : Int).sign) ((P : Nat) : Int).natAbs) = _
      rw [if_neg hP, hnum, Int.natAbs_ofNat]
    have habs : (a * ((2 ^ 1074 * 2 ^ 1074 : Nat) : Int)).natAbs
        = a.natAbs * (2 ^ 1074 * 2 ^ 1074) := by
      rw [Int.natAbs_mul, Int.natAbs_ofNat]
    rw [hdiv, F64.rnd_fin _ _ (by rw [habs]; exact u3), habs]
    generalize roundGrid64 (a.natAbs * (2 ^ 1074 * 2 ^ 1074)) P = Q at u3 u4 u5 ⊢
    show ∃ k : Int, CVal.f (F32.rnd ((a * ((2 ^ 1074 * 2 ^ 1074 : Nat) : Int)).sign
        * ((Q : Nat) : Int)) (2 ^ 925)) = CVal.f (F32.fin k) ∧ _
    have hle : roundGrid ((a * ((2 ^ 1074 * 2 ^ 1074 : Nat) : Int)).sign
        * ((Q : Nat) : Int)).natAbs (2 ^ 925) ≤ 2 ^ 149 := by
      rw [Int.natAbs_mul, Int.natAbs_ofNat]
      rcases Nat.eq_zero_or_pos (a * ((2 ^ 1074 * 2 ^ 1074 : Nat) : Int)).sign.natAbs
        with h0 | h0
      · rw [h0, Nat.zero_mul, roundGrid_zero]
        positivity
      · have h1 : (a * ((2 ^ 1074 * 2 ^ 1074 : Nat) : Int)).sign.natAbs = 1 := by
          have := Int.natAbs_sign (a * ((2 ^ 1074 * 2 ^ 1074 : Nat) : Int))
          split_ifs at this <;> omega
        rw [h1, Nat.one_mul]
        exact u4
    obtain ⟨k, hk1, hk2, hk3⟩ := F32.rnd_le _ (2 ^ 925) (2 ^ 149) hle (by norm_num)
    refine ⟨k, by rw [hk1], hk2, ?_⟩
    intro hab hbc
    have hapos : 0 < a := by
      rw [hab]
      exact Int.ofNat_pos.2 hb
    have hQ := u5 (by rw [hab, Int.natAbs_ofNat]) hbc
    have hQ0 : 0 < Q := by
      rcases Nat.eq_zero_or_pos Q with h0 | h0
      · rw [h0, roundGrid_zero] at hQ
        exact absurd hQ (by positivity)
      · exact h0
    have hs : (a * ((2 ^ 1074 * 2 ^ 1074 : Nat) : Int)).sign = 1 :=
      Int.sign_eq_one_of_pos (mul_pos hapos (Int.ofNat_pos.2 (by positivity)))
    rw [hs, one_mul] at hk3
    rw [hk3 (Int.ofNat_pos.2 hQ0), Int.natAbs_ofNat, hQ]

/-! ## The window sums of the CPU reference are exact for radii up to 7 -/

/-- Two loops over the same list whose bodies keep a relation that spends at most `M` of a
budget `B` in each iteration. -/
theorem foldl_rel_budget {α β γ : Type} (Rel : Nat → β → γ → Prop) (M B : Nat)
    (f : β → α → β) (g : γ → α → γ)
    (hs : ∀ k b c a, Rel k b c → k + M ≤ B → Rel (k + M) (f b a) (g c a))
    (l : List α) (k : Nat) (b : β) (c : γ) (h0 : Rel k b c) (hB : k + l.length * M ≤ B) :
    Rel (k + l.length * M) (l.foldl f b) (l.foldl g c) := by
  induction l generalizing k b c with
  | nil => simpa using h0
  | cons a l ih =>
    rw [List.length_cons] at hB ⊢
    have e : k + (l.length + 1) * M = k + M + l.length * M := by ring
    rw [e] at hB ⊢
    exact ih (k + M) _ _ (hs k b c a h0 (by omega)) hB

theorem exactSums_mono {k k2 : Nat} {acc : CVal × CVal × CVal} {r : FVal × FVal × FVal}
    (h : ExactSums k acc r) (hk : k ≤ k2) : ExactSums k2 acc r := by
  obtain ⟨a, b, c, h1, h2, ha, hb, hc⟩ := h
  exact ⟨a, b, c, h1, h2, by omega, by omega, by omega⟩

/-- One `float` accumulation `acc += x * y` of integers, while the sum stays below
`2 ^ 24`. -/
theorem cpu_add_mul (nanByte : Option Nat) (a x y : Int) (hx : x.natAbs ≤ 255)
    (hy : y.natAbs ≤ 255) (ha : a.natAbs + 65025 < 2 ^ 24) :
    (cpuOps nanByte).add (CVal.f (F32.ofInt a))
        ((cpuOps nanByte).mul ((cpuOps nanByte).ofInt x) ((cpuOps nanByte).ofInt y))
      = CVal.f (F32.ofInt (a + x * y)) ∧ (a + x * y).natAbs ≤ a.natAbs + 65025 := by
  have hxy : (x * y).natAbs ≤ 65025 := by
    rw [Int.natAbs_mul]
    calc x.natAbs * y.natAbs ≤ 255 * 255 := Nat.mul_le_mul hx hy
      _ = 65025 := by norm_num
  have hsum : (a + x * y).natAbs ≤ a.natAbs + 65025 :=
    le_trans (Int.natAbs_add_le _ _) (by omega)
  refine ⟨?_, hsum⟩
  show CVal.f (F32.add (F32.ofInt a) (F32.mul (F32.ofInt x) (F32.ofInt y))) = _
  rw [F32.ofInt_int a (by omega), F32.ofInt_int x (by omega), F32.ofInt_int y (by omega),
    F32.mul_int x y (by omega), F32.add_int a (x * y) (by omega),
    F32.ofInt_int (a + x * y) (by omega)]

theorem real_add_mul (a x y : Int) :
    realOps.add (FVal.fin (a : ℝ)) (realOps.mul (realOps.ofInt x) (realOps.ofInt y))
      = FVal.fin ((a + x * y : Int) : ℝ) := by
  show FVal.fin ((a : ℝ) + (x : ℝ) * (y : ℝ)) = _
  push_cast
  rfl

theorem exactSums_step (nanByte : Option Nat) (k : Nat) (acc : CVal × CVal × CVal)
    (r : FVal × FVal × FVal) (x y : Int) (hx : x.natAbs ≤ 255) (hy : y.natAbs ≤ 255)
    (h : ExactSums k acc r) (hk : k + 65025 < 2 ^ 24) :
    ExactSums (k + 65025)
      ((cpuOps nanByte).add acc.1
          ((cpuOps nanByte).mul ((cpuOps nanByte).ofInt x) ((cpuOps nanByte).ofInt y)),
        (cpuOps nanByte).add acc.2.1
          ((cpuOps nanByte).mul ((cpuOps nanByte).ofInt x) ((cpuOps nanByte).ofInt x)),
        (cpuOps nanByte).add acc.2.2
          ((cpuOps nanByte).mul ((cpuOps nanByte).ofInt y) ((cpuOps nanByte).ofInt y)))
      (realOps.add r.1 (realOps.mul (realOps.ofInt x) (realOps.ofInt y)),
        realOps.add r.2.1 (realOps.mul (realOps.ofInt x) (realOps.ofInt x)),
        realOps.add r.2.2 (realOps.mul (realOps.ofInt y) (realOps.ofInt y))) := by
  obtain ⟨a, b, c, rfl, rfl, ha, hb, hc⟩ := h
  obtain ⟨e1, b1⟩ := cpu_add_mul nanByte a x y hx hy (by omega)
  obtain ⟨e2, b2⟩ := cpu_add_mul nanByte b x x hx hx (by omega)
  obtain ⟨e3, b3⟩ := cpu_add_mul nanByte c y y hy hy (by omega)
  refine ⟨a + x * y, b + x * x, c + y * y, ?_, ?_, by omega, by omega, by omega⟩
  · show (_, _, _) = _
    rw [e1, e2, e3]
  · show (_, _, _) = _
    rw [real_add_mul, real_add_mul, real_add_mul]

theorem length_forIncl_window (c : Int) (R : Nat) :
    (forIncl (c - R) (c + R)).length = 2 * R + 1 := by
  rw [forIncl_window, List.length_map, List.length_range]

/-- The window sums of `calcDisparity` in the arithmetic of the CPU reference, for a radius
of at most `7` and bytes below `256`: the `float` accumulators hold the exact integer sums,
which stay below `2 ^ 24`. -/
theorem cpu_sums_hold_integers (nanByte : Option Nat) (img_0 img_1 mean_0 mean_1 : List Nat)
    (w h R : Nat) (direction i j : Int) (d : Nat) (hR : R ≤ 7)
    (h0 : ∀ p ∈ img_0, p < 256) (h1 : ∀ p ∈ img_1, p < 256)
    (hm0 : ∀ p ∈ mean_0, p < 256) (hm1 : ∀ p ∈ mean_1, p < 256) :
    ExactSums (2 ^ 24 - 1)
      (SimpleDepthEstimator.znccSums (cpuOps nanByte) img_0 img_1 mean_0 mean_1 w h R
        direction i j d)
      (SimpleDepthEstimator.znccSums realOps img_0 img_1 mean_0 mean_1 w h R
        direction i j d) := by
  unfold SimpleDepthEstimator.znccSums
  rw [i32_of_lt (n := R) (by omega)]
  have hinit : ExactSums 0
      ((cpuOps nanByte).ofInt 0, (cpuOps nanByte).ofInt 0, (cpuOps nanByte).ofInt 0)
      (realOps.ofInt 0, realOps.ofInt 0, realOps.ofInt 0) :=
    ⟨0, 0, 0, rfl, by simp [realOps], by simp, by simp, by simp⟩
  have hbudget : 0 + (2 * R + 1) * ((2 * R + 1) * 65025) ≤ 2 ^ 24 - 1 := by
    have h1 : 2 * R + 1 ≤ 15 := by omega
    calc 0 + (2 * R + 1) * ((2 * R + 1) * 65025) ≤ 0 + 15 * (15 * 65025) := by
          apply Nat.add_le_add_left
          exact Nat.mul_le_mul h1 (Nat.mul_le_mul_right _ h1)
      _ ≤ 2 ^ 24 - 1 := by norm_num
  have hlen1 := length_forIncl_window i R
  have hlen2 := length_forIncl_window j R
  refine exactSums_mono (foldl_rel_budget ExactSums ((2 * R + 1) * 65025) (2 ^ 24 - 1) _ _ ?_
    (forIncl (i - R) (i + R)) 0 _ _ hinit (by rw [hlen1]; exact hbudget))
    (by rw [hlen1]; exact hbudget)
  intro k acc r m hacc hk
  show ExactSums (k + (2 * R + 1) * 65025) (List.foldl _ acc (forIncl (j - R) (j + R)))
    (List.foldl _ r (forIncl (j - R) (j + R)))
  rw [← hlen2]
  refine foldl_rel_budget ExactSums 65025 (2 ^ 24 - 1) _ _ ?_ _ k acc r hacc
    (by rw [hlen2]; exact hk)
  intro k acc r n hacc hk
  split_ifs with hc
  · exact exactSums_step nanByte k acc r _ _
      (by have := rd_lt h0 (toU32 (n + m * (w : Int)))
          have := rd_lt hm0 (toU32 (j + i * (w : Int)))
          omega)
      (by have := rd_lt h1 (toU32 (n + m * (w : Int) + direction * d))
          have := rd_lt hm1 (toU32 (j + i * (w : Int) + direction * d))
          omega)
      hacc (by omega)
  · exact exactSums_mono hacc (by omega)

/-- The accumulators of a window of the CPU reference, radius at most `7`: integers `a`, `b`,
`c` with `b, c` in `[0, 2 ^ 24)` and `a * a ≤ b * c`, the same in the arithmetic of the code as
in exact arithmetic. -/
theorem cpu_sums_ints (nanByte : Option Nat) (img_0 img_1 mean_0 mean_1 : List Nat)
    (w h R : Nat) (direction i j : Int) (d : Nat) (hR : R ≤ 7)
    (h0 : ∀ p ∈ img_0, p < 256) (h1 : ∀ p ∈ img_1, p < 256)
    (hm0 : ∀ p ∈ mean_0, p < 256) (hm1 : ∀ p ∈ mean_1, p < 256) :
    ∃ (a : Int) (b c : Nat),
      SimpleDepthEstimator.znccSums (cpuOps nanByte) img_0 img_1 mean_0 mean_1 w h R
          direction i j d
        = (CVal.f (F32.ofInt a), CVal.f (F32.ofInt (b : Int)), CVal.f (F32.ofInt (c : Int))) ∧
      SimpleDepthEstimator.znccSums realOps img_0 img_1 mean_0 mean_1 w h R direction i j d
        = (FVal.fin (a : ℝ), FVal.fin ((b : Int) : ℝ), FVal.fin ((c : Int) : ℝ)) ∧
      b < 2 ^ 24 ∧ c < 2 ^ 24 ∧ a * a ≤ (b : Int) * (c : Int) := by
  obtain ⟨a, b, c, hcpu, hreal, _, hb, hc⟩ :=
    cpu_sums_hold_integers nanByte img_0 img_1 mean_0 mean_1 w h R direction i j d hR h0 h1
      hm0 hm1
  obtain ⟨a2, b2, c2, hreal2, hb0, hc0, habc⟩ :=
    cpu_cauchySchwarz img_0 img_1 mean_0 mean_1 w h R direction i j d
  rw [hreal] at hreal2
  have ea : (a : ℝ) = a2 := FVal.fin.inj (congrArg Prod.fst hreal2)
  have eb : (b : ℝ) = b2 := FVal.fin.inj (congrArg (fun t => t.2.1) hreal2)
  have ec : (c : ℝ) = c2 := FVal.fin.inj (congrArg (fun t => t.2.2) hreal2)
  rw [← ea, ← eb, ← ec] at habc
  rw [← eb] at hb0
  rw [← ec] at hc0
  have hb1 : (0 : Int) ≤ b := by exact_mod_cast hb0
  have hc1 : (0 : Int) ≤ c := by exact_mod_cast hc0
  have habc1 : a * a ≤ b * c := by exact_mod_cast habc
  refine ⟨a, b.toNat, c.toNat, ?_, ?_, by omega, by omega, ?_⟩
  · rw [Int.toNat_of_nonneg hb1, Int.toNat_of_nonneg hc1]
    exact hcpu
  · rw [Int.toNat_of_nonneg hb1, Int.toNat_of_nonneg hc1]
    exact hreal
  · rw [Int.toNat_of_nonneg hb1, Int.toNat_of_nonneg hc1]
    exact habc1

/-- Every candidate of the CPU reference, radius at most `7`, has a ZNCC that is NaN or at most
`1`. -/
theorem cpu_zncc_le_one (nanByte : Option Nat) (img_0 img_1 mean_0 mean_1 : List Nat)
    (w h R : Nat) (direction i j : Int) (d : Nat) (hR : R ≤ 7)
    (h0 : ∀ p ∈ img_0, p < 256) (h1 : ∀ p ∈ img_1, p < 256)
    (hm0 : ∀ p ∈ mean_0, p < 256) (hm1 : ∀ p ∈ mean_1, p < 256) :
    SimpleDepthEstimator.znccAt (cpuOps nanByte) img_0 img_1 mean_0 mean_1 w h R direction i j d
        = CVal.f F32.nan ∨
      ∃ k : Int, k ≤ ((2 ^ 149 : Nat) : Int) ∧
        SimpleDepthEstimator.znccAt (cpuOps nanByte) img_0 img_1 mean_0 mean_1 w h R direction
          i j d = CVal.f (F32.fin k) := by
  obtain ⟨a, b, c, hcpu, _, hb, hc, habc⟩ :=
    cpu_sums_ints nanByte img_0 img_1 mean_0 mean_1 w h R direction i j d hR h0 h1 hm0 hm1
  obtain ⟨hnan, hfin⟩ := cpu_zncc_value nanByte a b c hb hc habc
  unfold SimpleDepthEstimator.znccAt
  rw [hcpu]
  rcases Nat.eq_zero_or_pos b with hb0 | hb0
  · exact Or.inl (hnan (Or.inl hb0))
  · rcases Nat.eq_zero_or_pos c with hc0 | hc0
    · exact Or.inl (hnan (Or.inr hc0))
    · obtain ⟨k, hk, hle, _⟩ := hfin hb0 hc0
      exact Or.inr ⟨k, hle, hk⟩

/-- On two identical images candidate `0` of the CPU reference, radius at most `7`, has the
ZNCC `1`, unless its window has no variance: then every candidate has the ZNCC NaN. -/
theorem cpu_zncc_zero_is_one (nanByte : Option Nat) (img mean : List Nat)
    (w h R : Nat) (direction i j : Int) (hR : R ≤ 7)
    (h0 : ∀ p ∈ img, p < 256) (hm0 : ∀ p ∈ mean, p < 256) :
    SimpleDepthEstimator.znccAt (cpuOps nanByte) img img mean mean w h R direction i j 0
        = CVal.f (F32.fin ((2 ^ 149 : Nat) : Int)) ∨
      ∀ d, SimpleDepthEstimator.znccAt (cpuOps nanByte) img img mean mean w h R direction i j d
        = CVal.f F32.nan := by
  obtain ⟨a, b, c, hcpu, hreal, hb, hc, habc⟩ :=
    cpu_sums_ints nanByte img img mean mean w h R direction i j 0 hR h0 h0 hm0 hm0
  obtain ⟨s, hs, _⟩ := cpu_sameSums img mean w h R direction i j
  rw [hreal] at hs
  have ea : (a : ℝ) = s := FVal.fin.inj (congrArg Prod.fst hs)
  have eb : ((b : Int) : ℝ) = s := FVal.fin.inj (congrArg (fun t => t.2.1) hs)
  have ec : ((c : Int) : ℝ) = s := FVal.fin.inj (congrArg (fun t => t.2.2) hs)
  have hab : a = (b : Int) := by exact_mod_cast ea.trans eb.symm
  have hbc : b = c := by
    have : (b : Int) = (c : Int) := by exact_mod_cast eb.trans ec.symm
    exact_mod_cast this
  rcases Nat.eq_zero_or_pos b with hb0 | hb0
  · right
    intro d
    obtain ⟨a2, b2, c2, hcpu2, hreal2, hb2, hc2, habc2⟩ :=
      cpu_sums_ints nanByte img img mean mean w h R direction i j d hR h0 h0 hm0 hm0
    obtain ⟨x, x0, hx, hx0, hxpos, hle⟩ := cpu_denom0Le img img mean mean w h R direction i j d
    rw [hreal2] at hx
    rw [hreal] at hx0
    have e1 : ((b2 : Int) : ℝ) = x := FVal.fin.inj hx
    have e2 : ((b : Int) : ℝ) = x0 := FVal.fin.inj hx0
    have hb20 : b2 = 0 := by
      rw [← e1, ← e2, hb0] at hle
      have h3 : (b2 : Int) ≤ 0 := by exact_mod_cast hle
      omega
    unfold SimpleDepthEstimator.znccAt
    rw [hcpu2]
    exact (cpu_zncc_value nanByte a2 b2 c2 hb2 hc2 habc2).1 (Or.inl hb20)
  · left
    obtain ⟨k, hk, _, hone⟩ := (cpu_zncc_value nanByte a b c hb hc habc).2 hb0 (by omega)
    unfold SimpleDepthEstimator.znccAt
    rw [hcpu, hk, hone hab hbc]

theorem cpu_gt_nan_left (nanByte : Option Nat) (b : CVal) :
    (cpuOps nanByte).gt (CVal.f F32.nan) b = false :=
  F32.gt_of_nan_left b.toF

theorem cpu_ofInt_neg_one (nanByte : Option Nat) :
    (cpuOps nanByte).ofInt (-1) = CVal.f (F32.fin (-1 * ((2 ^ 149 : Nat) : Int))) := by
  show CVal.f (F32.ofInt (-1)) = _
  rw [F32.ofInt_int (-1) (by decide)]

theorem cpu_gt_fin_fin (nanByte : Option Nat) (x y : Int) :
    (cpuOps nanByte).gt (CVal.f (F32.fin x)) (CVal.f (F32.fin y)) = decide (y < x) := rfl

/-- No candidate of the CPU reference beats a candidate `0` whose ZNCC is `1` or NaN along
with all the others. -/
theorem cpu_gt_first_false (nanByte : Option Nat) (zncc : Nat → CVal)
    (hall : ∀ d, zncc d = CVal.f F32.nan ∨
      ∃ k : Int, k ≤ ((2 ^ 149 : Nat) : Int) ∧ zncc d = CVal.f (F32.fin k))
    (h0 : zncc 0 = CVal.f (F32.fin ((2 ^ 149 : Nat) : Int)) ∨ ∀ d, zncc d = CVal.f F32.nan)
    (d : Nat) : (cpuOps nanByte).gt (zncc d) (zncc 0) = false := by
  rcases h0 with h1 | hnan
  · rw [h1]
    rcases hall d with hn | ⟨k, hk, hv⟩
    · rw [hn, cpu_gt_nan_left]
    · rw [hv, cpu_gt_fin_fin]
      exact decide_eq_false (by omega)
  · rw [hnan d, cpu_gt_nan_left]

theorem disparityScan_identical_cpu (nanByte : Option Nat) (stop : Nat → Bool)
    (zncc : Nat → CVal) (D : Nat)
    (hall : ∀ d, zncc d = CVal.f F32.nan ∨
      ∃ k : Int, k ≤ ((2 ^ 149 : Nat) : Int) ∧ zncc d = CVal.f (F32.fin k))
    (h0 : zncc 0 = CVal.f (F32.fin ((2 ^ 149 : Nat) : Int)) ∨ ∀ d, zncc d = CVal.f F32.nan) :
    (disparityScan (cpuOps nanByte) stop zncc D 0 ((cpuOps nanByte).ofInt (-1), 0)).2 = 0 := by
  cases D with
  | zero => rfl
  | succ k =>
    unfold disparityScan
    split
    · rfl
    · by_cases hgt : (cpuOps nanByte).gt (zncc 0) ((cpuOps nanByte).ofInt (-1), 0).1 = true
      · rw [if_pos hgt, disparityScan_stable]
        · rfl
        · intro e _
          exact cpu_gt_first_false nanByte zncc hall h0 e
      · rw [if_neg hgt]
        rcases h0 with h1 | hnan
        · exfalso
          apply hgt
          rw [h1]
          dsimp only
          rw [cpu_ofInt_neg_one, cpu_gt_fin_fin]
          exact decide_eq_true (by omega)
        · rw [disparityScan_stable]
          intro e _
          rw [hnan e]
          exact cpu_gt_nan_left nanByte _

/-- On two identical images of bytes the CPU reference, with a window radius of at most `7`,
leaves disparity `0` at every pixel. -/
theorem cpu_identical_zero_of_radius (nanByte : Option Nat) (img mean : List Nat)
    (w h R D : Nat) (direction i j : Int) (hR : R ≤ 7)
    (h0 : ∀ p ∈ img, p < 256) (hm0 : ∀ p ∈ mean, p < 256) :
    SimpleDepthEstimator.calcDisparityPixel (cpuOps nanByte) img img mean mean w h R D
      direction i j = 0 :=
  disparityScan_identical_cpu nanByte _ _ _
    (fun d => cpu_zncc_le_one nanByte img img mean mean w h R direction i j d hR h0 h0 hm0 hm0)
    (cpu_zncc_zero_is_one nanByte img mean w h R direction i j hR h0 hm0)

/-- On two identical images the three accumulators of candidate `0` of the CPU reference are
computed from the same operands, whatever the arithmetic. -/
theorem cpu_sums_identical {F : Type} (ops : FloatOps F) (img mean : List Nat) (w h R : Nat)
    (direction i j : Int) :
    ∃ s, SimpleDepthEstimator.znccSums ops img img mean mean w h R direction i j 0
      = (s, s, s) := by
  unfold SimpleDepthEstimator.znccSums
  simp only [Nat.cast_zero, mul_zero, add_zero]
  apply foldl_invariant (fun acc => ∃ s, acc = (s, s, s))
  · exact ⟨_, rfl⟩
  · intro acc m hacc
    apply foldl_invariant (fun acc => ∃ s, acc = (s, s, s))
    · exact hacc
    · intro acc n hacc
      obtain ⟨s, rfl⟩ := hacc
      split
      · exact ⟨_, rfl⟩
      · exact ⟨_, rfl⟩

/-- The byte stored at an in-image pixel by `calcDisparity` is the end of its scan. -/
theorem cpu_pixel_eq_scan {F : Type} (ops : FloatOps F) (img_0 img_1 mean_0 mean_1 : List Nat)
    (w h R D x y : Nat) (direction : Int) (hD : D ≤ 255) (himg : IsImage img_0 w h)
    (hx : x < w) (hy : y < h) :
    (SimpleDepthEstimator.calcDisparity ops img_0 img_1 mean_0 mean_1 w h R D
        direction)[x + y * w]?
      = some (disparityScan ops (SimpleDepthEstimator.scanStop w direction (x : Int))
          (SimpleDepthEstimator.znccAt ops img_0 img_1 mean_0 mean_1 w h R direction (y : Int)
            (x : Int))
          D 0 (ops.ofInt (-1), 0)).2 := by
  obtain ⟨hw31, hh31⟩ := SimpleDepthEstimator.dims_lt_of_pixel himg.2.1 hx hy
  unfold SimpleDepthEstimator.calcDisparity
  rw [i32_of_lt hw31, i32_of_lt hh31, Int.toNat_ofNat, Int.toNat_ofNat,
    getElem?_raster _ _ _ y x hy hx]
  unfold SimpleDepthEstimator.calcDisparityPixel SimpleDepthEstimator.calcDisparityState
  rw [i32_of_lt (n := D) (by omega), Int.toNat_ofNat]

/-- C4 (as amended): the disparity stage with `direction = -1` on two identical images of bytes
(`img_0 = img_1`, `mean_0 = mean_1`), `D ≤ 255`, in the arithmetic of the code, at every pixel
`(x, y)`, interior or not.
The CPU reference (`float` sums; the two roots, their product and the quotient in `double`, the
quotient rounded to `float`), with a window radius `R ≤ 7`, for which the sums are exact,
writes `0`: candidate `0` has the ZNCC `1`, unless its window has no variance, in which case
every candidate has the ZNCC NaN, and no candidate has a ZNCC strictly greater than that of
candidate `0`.
The CPU reference for every `R`, and the work-item of the OpenCL kernel (everything in
binary32) for every `R`: candidate `0` has `numer = denom_0 = denom_1`, one value `S`, so that
its ZNCC is `S / (sqrt(S) * sqrt(S))` as the arithmetic rounds it, and the output is `0`, or
else a candidate `d` with `0 < d < D`, `d ≤ x`, whose computed ZNCC is greater than `-1` and
strictly greater than that of candidate `0`, unless the latter is NaN. -/
theorem disparity_identical (nanByte : Option Nat) (img mean : List Nat) (w h R D x y : Nat)
    (hD : D ≤ 255) (himg : IsImage img w h) (hmean : IsImage mean w h) (hx : x < w)
    (hy : y < h) :
    (R ≤ 7 →
      (SimpleDepthEstimator.calcDisparity (cpuOps nanByte) img img mean mean w h R D
          (-1))[x + y * w]? = some 0 ∧
      (SimpleDepthEstimator.znccAt (cpuOps nanByte) img img mean mean w h R (-1) (y : Int)
          (x : Int) 0 = CVal.f (F32.fin ((2 ^ 149 : Nat) : Int)) ∨
        ∀ d, SimpleDepthEstimator.znccAt (cpuOps nanByte) img img mean mean w h R (-1) (y : Int)
          (x : Int) d = CVal.f F32.nan) ∧
      (∀ d, (cpuOps nanByte).gt
        (SimpleDepthEstimator.znccAt (cpuOps nanByte) img img mean mean w h R (-1) (y : Int)
          (x : Int) d)
        (SimpleDepthEstimator.znccAt (cpuOps nanByte) img img mean mean w h R (-1) (y : Int)
          (x : Int) 0) = false)) ∧
    ((∃ s, SimpleDepthEstimator.znccSums (cpuOps nanByte) img img mean mean w h R (-1) (y : Int)
        (x : Int) 0 = (s, s, s)) ∧
      ((SimpleDepthEstimator.calcDisparity (cpuOps nanByte) img img mean mean w h R D
          (-1))[x + y * w]? = some 0 ∨
        ∃ d, (SimpleDepthEstimator.calcDisparity (cpuOps nanByte) img img mean mean w h R D
            (-1))[x + y * w]? = some d ∧ 0 < d ∧ d < D ∧ d ≤ x ∧
          (cpuOps nanByte).gt (SimpleDepthEstimator.znccAt (cpuOps nanByte) img img mean mean
            w h R (-1) (y : Int) (x : Int) d) ((cpuOps nanByte).ofInt (-1)) = true ∧
          (F32.isNaN (SimpleDepthEstimator.znccAt (cpuOps nanByte) img img mean mean w h R (-1)
              (y : Int) (x : Int) 0).toF = true ∨
            (cpuOps nanByte).gt
              (SimpleDepthEstimator.znccAt (cpuOps nanByte) img img mean mean w h R (-1)
                (y : Int) (x : Int) d)
              (SimpleDepthEstimator.znccAt (cpuOps nanByte) img img mean mean w h R (-1)
                (y : Int) (x : Int) 0) = true))) ∧
    ((∃ s, CLDepthEstimator2.znccSums f32Ops img img mean mean w h R (-1) (x : Int) (y : Int) 0
        = (s, s, s)) ∧
      (CLDepthEstimator2.disparityItem f32Ops img img mean mean w h R D (-1) x y
          = some (x + y * w, 0) ∨
        ∃ d, CLDepthEstimator2.disparityItem f32Ops img img mean mean w h R D (-1) x y
            = some (x + y * w, d) ∧ 0 < d ∧ d < D ∧ d ≤ x ∧
          f32Ops.gt (CLDepthEstimator2.znccAt f32Ops img img mean mean w h R (-1) (x : Int)
            (y : Int) d) (f32Ops.ofInt (-1)) = true ∧
          (F32.isNaN (CLDepthEstimator2.znccAt f32Ops img img mean mean w h R (-1) (x : Int)
              (y : Int) 0) = true ∨
            f32Ops.gt (CLDepthEstimator2.znccAt f32Ops img img mean mean w h R (-1) (x : Int)
                (y : Int) d)
              (CLDepthEstimator2.znccAt f32Ops img img mean mean w h R (-1) (x : Int)
                (y : Int) 0) = true))) := by
  obtain ⟨hw31, hh31⟩ := SimpleDepthEstimator.dims_lt_of_pixel himg.2.1 hx hy
  refine ⟨fun hR => ⟨?_, ?_, ?_⟩, ⟨cpu_sums_identical (cpuOps nanByte) img mean w h R (-1) y x, ?_⟩,
    ⟨kernel_sums_identical f32Ops img mean w h R (-1) x y, ?_⟩⟩
  · unfold SimpleDepthEstimator.calcDisparity
    rw [i32_of_lt hw31, i32_of_lt hh31, Int.toNat_ofNat, Int.toNat_ofNat,
      getElem?_raster _ _ _ y x hy hx,
      cpu_identical_zero_of_radius nanByte img mean w h R D (-1) y x hR himg.2.2 hmean.2.2]
  · exact cpu_zncc_zero_is_one nanByte img mean w h R (-1) y x hR himg.2.2 hmean.2.2
  · exact cpu_gt_first_false nanByte _
      (fun d => cpu_zncc_le_one nanByte img img mean mean w h R (-1) y x d hR himg.2.2
        himg.2.2 hmean.2.2 hmean.2.2)
      (cpu_zncc_zero_is_one nanByte img mean w h R (-1) y x hR himg.2.2 hmean.2.2)
  · have hcpu := disparityScan_ends_on_winner (cpuOps nanByte) (fun a => F32.isNaN a.toF)
      (cpu_order nanByte) (SimpleDepthEstimator.scanStop w (-1) (x : Int))
      (SimpleDepthEstimator.znccAt (cpuOps nanByte) img img mean mean w h R (-1) (y : Int)
        (x : Int)) D (by omega)
    rw [cpu_pixel_eq_scan (cpuOps nanByte) img img mean mean w h R D x y (-1) hD himg hx hy]
    rcases scanWinner_zero_or_better (cpuOps nanByte) (fun a => F32.isNaN a.toF) _ _ D _ hcpu
      with h0 | ⟨hpos, hsc, hgt, hbet⟩
    · left; rw [h0]
    · right
      have hin := (cpu_scanned_iff w D x (-1) (Or.inr rfl) hw31 hx _).1 hsc
      exact ⟨_, rfl, hpos, hin.1, by omega, hgt, hbet⟩
  · have hker := disparityScan_ends_on_winner f32Ops F32.isNaN f32_order
      (CLDepthEstimator2.scanStop w (-1) (x : Int))
      (CLDepthEstimator2.znccAt f32Ops img img mean mean w h R (-1) (x : Int) (y : Int)) D
      (by omega)
    rw [kernel_item_eq_scan f32Ops img img mean mean w h R D x y (-1) himg hx hy]
    rcases scanWinner_zero_or_better f32Ops F32.isNaN _ _ D _ hker with
      h0 | ⟨hpos, hsc, hgt, hbet⟩
    · left; rw [h0]
    · right
      have hin := (kernel_scanned_iff w D x (-1) (Or.inr rfl) hw31 hx _).1 hsc
      exact ⟨_, rfl, hpos, hin.1, by omega, hgt, hbet⟩

theorem disparity_identical_witness :
    IsImage [1, 2, 3, 4, 1, 2, 3, 4, 1, 2, 3, 4] 4 3 ∧
    IsImage [0, 1, 2, 1, 1, 2, 3, 2, 0, 1, 2, 1] 4 3 ∧
    (SimpleDepthEstimator.calcDisparity (cpuOps none) [1, 2, 3, 4, 1, 2, 3, 4, 1, 2, 3, 4]
      [1, 2, 3, 4, 1, 2, 3, 4, 1, 2, 3, 4] [0, 1, 2, 1, 1, 2, 3, 2, 0, 1, 2, 1]
      [0, 1, 2, 1, 1, 2, 3, 2, 0, 1, 2, 1] 4 3 1 2 (-1))[1 + 1 * 4]? = some 0 :=
  ⟨by decide, by decide, ((disparity_identical none
    [1, 2, 3, 4, 1, 2, 3, 4, 1, 2, 3, 4] [0, 1, 2, 1, 1, 2, 3, 2, 0, 1, 2, 1] 4 3 1 2 1 1
    (by decide) (by decide) (by decide) (by decide) (by decide)).1 (by decide)).1⟩

namespace F32

theorem sqrt_six : sqrt (fin ((6 * 2 ^ 149 : Nat) : Int))
    = fin ((1748014355460432142234340848083140293259427840 : Nat) : Int) := by
  show (if ((6 * 2 ^ 149 : Nat) : Int) < 0 then nan
    else fin (sqrtGrid ((6 * 2 ^ 149 : Nat) : Int).toNat : Nat)) = _
  rw [if_neg (not_lt.2 (Int.ofNat_nonneg _)), Int.toNat_ofNat,
    sqrtGrid_of_root (6 * 2 ^ 149) 10273904 (by decide!) (by decide!)]
  decide!

theorem sqrt_three : sqrt (fin ((3 * 2 ^ 149 : Nat) : Int))
    = fin ((1236032737191485200049696010451709767377223680 : Nat) : Int) := by
  show (if ((3 * 2 ^ 149 : Nat) : Int) < 0 then nan
    else fin (sqrtGrid ((3 * 2 ^ 149 : Nat) : Int).toNat : Nat)) = _
  rw [if_neg (not_lt.2 (Int.ofNat_nonneg _)), Int.toNat_ofNat,
    sqrtGrid_of_root (3 * 2 ^ 149) 14529495 (by decide!) (by decide!)]
  decide!

end F32

/-- The ZNCC of a candidate from its three accumulators, in the kernel. -/
theorem kernel_znccAt_of_sums {F : Type} (ops : FloatOps F) (img_0 img_1 mean_0 mean_1 : List Nat)
    (w h R : Nat) (direction m n : Int) (d : Nat) (a b c : F)
    (hs : CLDepthEstimator2.znccSums ops img_0 img_1 mean_0 mean_1 w h R direction m n d
      = (a, b, c)) :
    CLDepthEstimator2.znccAt ops img_0 img_1 mean_0 mean_1 w h R direction m n d
      = ops.div a (ops.mul (ops.sqrt b) (ops.sqrt c)) := by
  unfold CLDepthEstimator2.znccAt
  rw [hs]

theorem f32_div_of_roots (a b c rb rc : F32) (hb : F32.sqrt b = rb) (hc : F32.sqrt c = rc) :
    f32Ops.div a (f32Ops.mul (f32Ops.sqrt b) (f32Ops.sqrt c)) = F32.div a (F32.mul rb rc) := by
  subst hb hc
  rfl

theorem kernel_ramp_sums_zero :
    CLDepthEstimator2.znccSums f32Ops [1, 2, 3, 4, 1, 2, 3, 4, 1, 2, 3, 4]
      [1, 2, 3, 4, 1, 2, 3, 4, 1, 2, 3, 4] [0, 1, 2, 1, 1, 2, 3, 2, 0, 1, 2, 1]
      [0, 1, 2, 1, 1, 2, 3, 2, 0, 1, 2, 1] 4 3 1 (-1) ((1 : Nat) : Int) ((1 : Nat) : Int) 0
      = (F32.fin ((6 * 2 ^ 149 : Nat) : Int), F32.fin ((6 * 2 ^ 149 : Nat) : Int),
          F32.fin ((6 * 2 ^ 149 : Nat) : Int)) := by decide!

theorem kernel_ramp_sums_one :
    CLDepthEstimator2.znccSums f32Ops [1, 2, 3, 4, 1, 2, 3, 4, 1, 2, 3, 4]
      [1, 2, 3, 4, 1, 2, 3, 4, 1, 2, 3, 4] [0, 1, 2, 1, 1, 2, 3, 2, 0, 1, 2, 1]
      [0, 1, 2, 1, 1, 2, 3, 2, 0, 1, 2, 1] 4 3 1 (-1) ((1 : Nat) : Int) ((1 : Nat) : Int) 1
      = (F32.fin ((3 * 2 ^ 149 : Nat) : Int), F32.fin ((3 * 2 ^ 149 : Nat) : Int),
          F32.fin ((3 * 2 ^ 149 : Nat) : Int)) := by decide!

theorem f32_ramp_quotient_zero :
    F32.div (F32.fin ((6 * 2 ^ 149 : Nat) : Int))
      (F32.mul (F32.fin ((1748014355460432142234340848083140293259427840 : Nat) : Int))
        (F32.fin ((1748014355460432142234340848083140293259427840 : Nat) : Int)))
      = F32.fin ((16777215 * 2 ^ 125 : Nat) : Int) := by decide!

theorem f32_ramp_quotient_one :
    F32.div (F32.fin ((3 * 2 ^ 149 : Nat) : Int))
      (F32.mul (F32.fin ((1236032737191485200049696010451709767377223680 : Nat) : Int))
        (F32.fin ((1236032737191485200049696010451709767377223680 : Nat) : Int)))
      = F32.fin ((2 ^ 149 : Nat) : Int) := by decide!

/-- The computed ZNCC of candidates `0` and `1` at pixel `(1, 1)` of the ramp image in the
kernel: `6 / (sqrt 6 * sqrt 6)` is rounded to the value below `1`, `3 / (sqrt 3 * sqrt 3)` to
`1`. -/
theorem kernel_ramp_zncc :
    CLDepthEstimator2.znccAt f32Ops [1, 2, 3, 4, 1, 2, 3, 4, 1, 2, 3, 4]
        [1, 2, 3, 4, 1, 2, 3, 4, 1, 2, 3, 4] [0, 1, 2, 1, 1, 2, 3, 2, 0, 1, 2, 1]
        [0, 1, 2, 1, 1, 2, 3, 2, 0, 1, 2, 1] 4 3 1 (-1) ((1 : Nat) : Int) ((1 : Nat) : Int) 0
      = F32.fin ((16777215 * 2 ^ 125 : Nat) : Int) ∧
    CLDepthEstimator2.znccAt f32Ops [1, 2, 3, 4, 1, 2, 3, 4, 1, 2, 3, 4]
        [1, 2, 3, 4, 1, 2, 3, 4, 1, 2, 3, 4] [0, 1, 2, 1, 1, 2, 3, 2, 0, 1, 2, 1]
        [0, 1, 2, 1, 1, 2, 3, 2, 0, 1, 2, 1] 4 3 1 (-1) ((1 : Nat) : Int) ((1 : Nat) : Int) 1
      = F32.fin ((2 ^ 149 : Nat) : Int) :=
  ⟨(kernel_znccAt_of_sums f32Ops _ _ _ _ _ _ _ _ _ _ _ _ _ _ kernel_ramp_sums_zero).trans
      ((f32_div_of_roots _ _ _ _ _ F32.sqrt_six F32.sqrt_six).trans f32_ramp_quotient_zero),
    (kernel_znccAt_of_sums f32Ops _ _ _ _ _ _ _ _ _ _ _ _ _ _ kernel_ramp_sums_one).trans
      ((f32_div_of_roots _ _ _ _ _ F32.sqrt_three F32.sqrt_three).trans f32_ramp_quotient_one)⟩

/-- A scan of two candidates, neither stopped, both above the initial value and the second
strictly above the first, ends on the second. -/
theorem disparityScan_two_second {F : Type} (ops : FloatOps F) (stop : Nat → Bool)
    (zncc : Nat → F) (s0 : F) (h0 : stop 0 = false) (h1 : stop 1 = false)
    (ha : ops.gt (zncc 0) s0 = true) (hb : ops.gt (zncc 1) (zncc 0) = true) :
    (disparityScan ops stop zncc 2 0 (s0, 0)).2 = 1 := by
  simp [disparityScan, h0, h1, ha, hb, u8]

/-- C4 fails as stated. The `4 × 3` image with rows `1, 2, 3, 4`, its box means for `R = 1`,
`D = 2`, `direction = -1`, both images the same, interior pixel `(1, 1)`: the kernel computes
in binary32 the ZNCC `6 / (sqrt 6 * sqrt 6)` of candidate `0`, which is rounded to the value
just below `1`, and the ZNCC `3 / (sqrt 3 * sqrt 3)` of candidate `1`, which is rounded to
`1`; candidate `1` is strictly greater and work-item `(1, 1)` stores `1`. The CPU reference,
whose roots, product and quotient are computed in binary64, stores `0` there. -/
theorem identical_images_kernel_rounding :
    SimpleDepthEstimator.filterImg [1, 2, 3, 4, 1, 2, 3, 4, 1, 2, 3, 4] 4 3 1
      = [0, 1, 2, 1, 1, 2, 3, 2, 0, 1, 2, 1] ∧
    f32Ops.gt
      (CLDepthEstimator2.znccAt f32Ops [1, 2, 3, 4, 1, 2, 3, 4, 1, 2, 3, 4]
        [1, 2, 3, 4, 1, 2, 3, 4, 1, 2, 3, 4] [0, 1, 2, 1, 1, 2, 3, 2, 0, 1, 2, 1]
        [0, 1, 2, 1, 1, 2, 3, 2, 0, 1, 2, 1] 4 3 1 (-1) ((1 : Nat) : Int) ((1 : Nat) : Int) 1)
      (CLDepthEstimator2.znccAt f32Ops [1, 2, 3, 4, 1, 2, 3, 4, 1, 2, 3, 4]
        [1, 2, 3, 4, 1, 2, 3, 4, 1, 2, 3, 4] [0, 1, 2, 1, 1, 2, 3, 2, 0, 1, 2, 1]
        [0, 1, 2, 1, 1, 2, 3, 2, 0, 1, 2, 1] 4 3 1 (-1) ((1 : Nat) : Int) ((1 : Nat) : Int) 0)
      = true ∧
    CLDepthEstimator2.disparityItem f32Ops [1, 2, 3, 4, 1, 2, 3, 4, 1, 2, 3, 4]
      [1, 2, 3, 4, 1, 2, 3, 4, 1, 2, 3, 4] [0, 1, 2, 1, 1, 2, 3, 2, 0, 1, 2, 1]
      [0, 1, 2, 1, 1, 2, 3, 2, 0, 1, 2, 1] 4 3 1 2 (-1) 1 1 = some (5, 1) ∧
    (SimpleDepthEstimator.calcDisparity (cpuOps none) [1, 2, 3, 4, 1, 2, 3, 4, 1, 2, 3, 4]
      [1, 2, 3, 4, 1, 2, 3, 4, 1, 2, 3, 4] [0, 1, 2, 1, 1, 2, 3, 2, 0, 1, 2, 1]
      [0, 1, 2, 1, 1, 2, 3, 2, 0, 1, 2, 1] 4 3 1 2 (-1))[1 + 1 * 4]? = some 0 := by
  obtain ⟨hz0, hz1⟩ := kernel_ramp_zncc
  refine ⟨by decide, ?_, ?_, by decide!⟩
  · rw [hz1, hz0]
    decide!
  · have ha : f32Ops.gt
        (CLDepthEstimator2.znccAt f32Ops [1, 2, 3, 4, 1, 2, 3, 4, 1, 2, 3, 4]
          [1, 2, 3, 4, 1, 2, 3, 4, 1, 2, 3, 4] [0, 1, 2, 1, 1, 2, 3, 2, 0, 1, 2, 1]
          [0, 1, 2, 1, 1, 2, 3, 2, 0, 1, 2, 1] 4 3 1 (-1) ((1 : Nat) : Int) ((1 : Nat) : Int) 0)
        (f32Ops.ofInt (-1)) = true := by
      rw [hz0]
      decide!
    have hb : f32Ops.gt
        (CLDepthEstimator2.znccAt f32Ops [1, 2, 3, 4, 1, 2, 3, 4, 1, 2, 3, 4]
          [1, 2, 3, 4, 1, 2, 3, 4, 1, 2, 3, 4] [0, 1, 2, 1, 1, 2, 3, 2, 0, 1, 2, 1]
          [0, 1, 2, 1, 1, 2, 3, 2, 0, 1, 2, 1] 4 3 1 (-1) ((1 : Nat) : Int) ((1 : Nat) : Int) 1)
        (CLDepthEstimator2.znccAt f32Ops [1, 2, 3, 4, 1, 2, 3, 4, 1, 2, 3, 4]
          [1, 2, 3, 4, 1, 2, 3, 4, 1, 2, 3, 4] [0, 1, 2, 1, 1, 2, 3, 2, 0, 1, 2, 1]
          [0, 1, 2, 1, 1, 2, 3, 2, 0, 1, 2, 1] 4 3 1 (-1) ((1 : Nat) : Int) ((1 : Nat) : Int) 0)
        = true := by
      rw [hz0, hz1]
      decide!
    rw [kernel_item_eq_scan f32Ops _ _ _ _ 4 3 1 2 1 1 (-1) (by decide) (by decide) (by decide),
      disparityScan_two_second f32Ops _ _ _ (by decide) (by decide) ha hb]

/-! ## Occlusion fill: a window whose sum does not fit the 24 bits of `numer` -/

theorem mem_forIncl {lo hi a : Int} (h : a ∈ forIncl lo hi) : lo ≤ a ∧ a ≤ hi := by
  unfold forIncl at h
  obtain ⟨k, hk, rfl⟩ := List.mem_map.1 h
  have := List.mem_range.1 hk
  omega

theorem length_forIncl (lo hi : Int) : (forIncl lo hi).length = (hi + 1 - lo).toNat := by
  unfold forIncl
  rw [List.length_map, List.length_range]

/-- The counter values up to `hi`, split at `c`. -/
theorem forIncl_split (lo c hi : Int) (h1 : lo ≤ c) (h2 : c ≤ hi) :
    forIncl lo hi = forIncl lo (c - 1) ++ c :: forIncl (c + 1) hi := by
  unfold forIncl
  obtain ⟨A, hA⟩ : ∃ A : Nat, (c - 1 + 1 - lo).toNat = A := ⟨_, rfl⟩
  obtain ⟨B, hB⟩ : ∃ B : Nat, (hi + 1 - (c + 1)).toNat = B := ⟨_, rfl⟩
  have hN : (hi + 1 - lo).toNat = A + (1 + B) := by omega
  have hc : c = lo + (A : Int) := by omega
  rw [hA, hB, hN, List.range_add, List.range_add, List.map_append, List.map_map, List.map_append,
    List.map_map]
  congr 1
  have e1 : List.map ((fun (k : Nat) => lo + (k : Int)) ∘ fun x => A + x) (List.range 1)
      = [c] := by
    rw [show List.range 1 = [0] from rfl]
    show [lo + ((A + 0 : Nat) : Int)] = [c]
    rw [Nat.add_zero, ← hc]
  have e2 : List.map (((fun (k : Nat) => lo + (k : Int)) ∘ fun x => A + x) ∘ fun x => 1 + x)
      (List.range B) = List.map (fun (k : Nat) => c + 1 + (k : Int)) (List.range B) := by
    apply List.map_congr_left
    intro k _
    simp only [Function.comp]
    push_cast
    omega
  rw [e1, e2]
  rfl

theorem foldl_const_step {α β : Type} (h : β → β) (l : List α) (s : β) :
    l.foldl (fun acc _ => h acc) s = h^[l.length] s := by
  induction l generalizing s with
  | nil => rfl
  | cons a l ih =>
    rw [List.foldl_cons, ih, List.length_cons, Function.iterate_succ_apply]

namespace F32

/-- An addition of `253` to a multiple of `4` between `2 ^ 24` and `2 ^ 25`, where binary32
values are `2` apart: the sum is odd, a tie, and is rounded to the multiple of `4` below. -/
theorem add_253_tie (v : Nat) (h4 : v % 4 = 0) (h1 : 2 ^ 24 ≤ v) (h2 : v + 253 < 2 ^ 25) :
    add (fin ((v * 2 ^ 149 : Nat) : Int)) (ofInt 253)
      = fin (((v + 252) * 2 ^ 149 : Nat) : Int) := by
  have e0 : ofInt 253 = fin ((253 * 2 ^ 149 : Nat) : Int) := ofInt_natCast 253 (by norm_num)
  have hlog : ilog2 ((v * 2 ^ 149 + 253 * 2 ^ 149) / 1) = 173 := by
    rw [Nat.div_one]
    have hlo := le_ilog2 (v * 2 ^ 149 + 253 * 2 ^ 149) 173 (by omega)
    have hhi := ilog2_lt (v * 2 ^ 149 + 253 * 2 ^ 149) 174 (by omega) (by norm_num)
    omega
  have hne : roundNE (v * 2 ^ 149 + 253 * 2 ^ 149) (1 * 2 ^ (173 - 23)) = (v + 252) / 2 := by
    unfold roundNE
    split_ifs <;> omega
  have hg : roundGrid (v * 2 ^ 149 + 253 * 2 ^ 149) 1 = (v + 252) * 2 ^ 149 := by
    unfold roundGrid
    rw [hlog, hne]
    omega
  rw [e0, add_fin, rnd_natCast _ _ (by rw [hg]; omega), hg]

end F32

/-- The `float` accumulator `numer` of `occlusionFill` over `67080` pixels of value `253`: exact
up to `66314` pixels (the sum `16777442` is even); the next addition is a tie that goes up,
and each one after that a tie that goes down, to `16970476` where the sum is `16971240`. -/
theorem numer_of_253 (step : F32 × Nat → F32 × Nat)
    (hstep : ∀ acc, step acc = (F32.add acc.1 (F32.ofInt 253), u32 (acc.2 + 1))) :
    step^[67080] (F32.ofInt 0, 0) = (F32.fin ((16970476 * 2 ^ 149 : Nat) : Int), 67080) := by
  have p1 : ∀ k : Nat, 253 * k < 2 ^ 24 →
      step^[k] (F32.ofInt 0, 0) = (F32.ofInt ((253 * k : Nat) : Int), k) := by
    intro k
    induction k with
    | zero => intro _; rfl
    | succ k ih =>
      intro hk
      rw [Function.iterate_succ_apply', ih (by omega), hstep]
      have e1 : F32.add (F32.ofInt ((253 * k : Nat) : Int)) (F32.ofInt 253)
          = F32.ofInt ((253 * (k + 1) : Nat) : Int) := by
        rw [F32.ofInt_int _ (by rw [Int.natAbs_ofNat]; omega), F32.ofInt_int 253 (by decide),
          F32.add_int _ _ (by omega), F32.ofInt_int _ (by rw [Int.natAbs_ofNat]; omega)]
        congr 2
      have e2 : u32 (k + 1) = k + 1 := u32_of_lt (by omega)
      rw [e1, e2]
  have p2 : ∀ (k v t : Nat), v % 4 = 0 → 2 ^ 24 ≤ v → v + 252 * k + 256 ≤ 2 ^ 25 →
      t + k < 2 ^ 32 →
      step^[k] (F32.fin ((v * 2 ^ 149 : Nat) : Int), t)
        = (F32.fin (((v + 252 * k) * 2 ^ 149 : Nat) : Int), t + k) := by
    intro k
    induction k with
    | zero => intro v t _ _ _ _; rfl
    | succ k ih =>
      intro v t h4 h1 h2 ht
      rw [Function.iterate_succ_apply, hstep, F32.add_253_tie v h4 h1 (by omega),
        u32_of_lt (by omega), ih (v + 252) (t + 1) (by omega) (by omega) (by omega) (by omega)]
      have e1 : v + 252 + 252 * k = v + 252 * (k + 1) := by ring
      have e2 : t + 1 + k = t + (k + 1) := by ring
      rw [e1, e2]
  have s1 : F32.add (F32.ofInt ((253 * 66313 : Nat) : Int)) (F32.ofInt 253)
      = F32.fin ((16777442 * 2 ^ 149 : Nat) : Int) := by decide!
  have s2 : F32.add (F32.fin ((16777442 * 2 ^ 149 : Nat) : Int)) (F32.ofInt 253)
      = F32.fin ((16777696 * 2 ^ 149 : Nat) : Int) := by decide!
  have q1 : step^[66314] (F32.ofInt 0, 0)
      = (F32.fin ((16777442 * 2 ^ 149 : Nat) : Int), 66314) := by
    rw [Function.iterate_succ_apply', p1 66313 (by norm_num), hstep]
    dsimp only
    rw [s1, u32_of_lt (by norm_num)]
  have q2 : step^[66315] (F32.ofInt 0, 0)
      = (F32.fin ((16777696 * 2 ^ 149 : Nat) : Int), 66315) := by
    rw [Function.iterate_succ_apply', q1, hstep]
    dsimp only
    rw [s2, u32_of_lt (by norm_num)]
  have e : (67080 : Nat) = 765 + 66315 := by norm_num
  rw [e, Function.iterate_add_apply, q2,
    p2 765 16777696 66315 (by norm_num) (by norm_num) (by norm_num) (by norm_num)]

/-- The reads of the row of `67081` pixels that are `253` but for the pixel `33540`. -/
theorem rd_row_253 (k : Nat) (hk : k < 67081) :
    rd ((List.replicate 67081 253).set 33540 0) k = if k = 33540 then 0 else 253 := by
  rw [rd_set, List.length_replicate, rd_replicate 253 hk]
  split_ifs <;> first | rfl | omega

/-- C9 fails as stated where the claim puts no bound on the image or the radius. One way is
the cast of the radius: with `Ro = 4294967295` the cast `(int32_t) radius` is `-1`, the window
loops run from `i + 1` to `i - 1` and do nothing; on the `2 × 1` image `[0, 5]` pixel `(0, 0)`
has the valid pixel `(1, 0)` in its window, yet `numer / denom` is `0.0f / 0`, a NaN, and the
byte stored is its conversion to `unsigned char`, undefined in C, not `floor (5 / 1)`. The
other is the `float` accumulator: on the row of `67081` pixels that are all `253` but for
pixel `33540`, which is `0`, with `Ro = 33540`, the window of that pixel holds `67080` valid
pixels, all `253`, whose sum `16971240` is above `2 ^ 24`; `numer` ends at `16970476`, and the
byte stored is `252`, where `floor (S / k)` is `253`. -/
theorem occlusionFill_radius_cast_undefined :
    (IsImage [0, 5] 2 1 ∧ rd [0, 5] (0 + 0 * 2) = 0 ∧
      SimpleDepthEstimator.pixelAt [0, 5] 2 1
        (((0 : Nat) : Int) + ((4294967296 : Nat) : Int) - ((4294967295 : Nat) : Int))
        (((0 : Nat) : Int) + ((4294967295 : Nat) : Int) - ((4294967295 : Nat) : Int)) = 5 ∧
      SimpleDepthEstimator.occlusionSums f32Ops [0, 5] 2 1 4294967295 0 0
        = (f32Ops.ofInt 0, 0) ∧
      f32Ops.div (f32Ops.ofInt 0) (f32Ops.ofInt ((0 : Nat) : Int)) = F32.nan ∧
      (SimpleDepthEstimator.occlusionFill f32Ops [0, 5] 2 1 4294967295)[0 + 0 * 2]?
        = some none) ∧
    (IsImage ((List.replicate 67081 253).set 33540 0) 67081 1 ∧
      (∀ k, k < 67081 →
        rd ((List.replicate 67081 253).set 33540 0) k = if k = 33540 then 0 else 253) ∧
      SimpleDepthEstimator.occlusionSums f32Ops ((List.replicate 67081 253).set 33540 0)
        67081 1 33540 ((0 : Nat) : Int) ((33540 : Nat) : Int)
        = (F32.fin ((16970476 * 2 ^ 149 : Nat) : Int), 67080) ∧
      253 * 67080 = 16971240 ∧ 16971240 / 67080 = 253 ∧
      (SimpleDepthEstimator.occlusionFill f32Ops ((List.replicate 67081 253).set 33540 0)
        67081 1 33540)[33540 + 0 * 67081]? = some (some 252)) := by
  have himg : IsImage ((List.replicate 67081 253).set 33540 0) 67081 1 := by
    refine ⟨by rw [List.length_set, List.length_replicate], by norm_num, ?_⟩
    intro p hp
    rcases List.mem_or_eq_of_mem_set hp with h | h
    · rw [List.eq_of_mem_replicate h]
      norm_num
    · rw [h]
      norm_num
  have hsums : SimpleDepthEstimator.occlusionSums f32Ops
      ((List.replicate 67081 253).set 33540 0) 67081 1 33540 ((0 : Nat) : Int)
      ((33540 : Nat) : Int) = (F32.fin ((16970476 * 2 ^ 149 : Nat) : Int), 67080) := by
    have hrow : ∀ acc : F32 × Nat,
        (forIncl (((33540 : Nat) : Int) - i32 33540) (((33540 : Nat) : Int) + i32 33540)).foldl
          (fun acc n =>
            if 0 ≤ (0 : Int) ∧ (0 : Int) < i32 1 ∧ 0 ≤ n ∧ n < i32 67081 then
              if rd ((List.replicate 67081 253).set 33540 0)
                  (toU32 (n + (0 : Int) * ((67081 : Nat) : Int))) > 0 then
                (f32Ops.add acc.1 (f32Ops.ofInt (rd ((List.replicate 67081 253).set 33540 0)
                  (toU32 (n + (0 : Int) * ((67081 : Nat) : Int))) : Int)), u32 (acc.2 + 1))
              else acc
            else acc) acc
        = (fun acc : F32 × Nat => (F32.add acc.1 (F32.ofInt 253), u32 (acc.2 + 1)))^[67080]
            acc := by
      intro acc
      have e1 : i32 33540 = 33540 := by decide
      have e2 : i32 67081 = 67081 := by decide
      have e3 : i32 1 = 1 := by decide
      rw [e1, e2, e3]
      have hvalid : ∀ (l : List Int), (∀ n ∈ l, 0 ≤ n ∧ n < 67081 ∧ n ≠ 33540) →
          ∀ acc : F32 × Nat, l.foldl (fun acc n =>
            if 0 ≤ (0 : Int) ∧ (0 : Int) < 1 ∧ 0 ≤ n ∧ n < 67081 then
              if rd ((List.replicate 67081 253).set 33540 0)
                  (toU32 (n + (0 : Int) * ((67081 : Nat) : Int))) > 0 then
                (f32Ops.add acc.1 (f32Ops.ofInt (rd ((List.replicate 67081 253).set 33540 0)
                  (toU32 (n + (0 : Int) * ((67081 : Nat) : Int))) : Int)), u32 (acc.2 + 1))
              else acc
            else acc) acc
          = (fun acc : F32 × Nat => (F32.add acc.1 (F32.ofInt 253), u32 (acc.2 + 1)))^[l.length]
              acc := by
        intro l hl acc
        rw [← foldl_const_step]
        apply List.foldl_ext
        intro a n hn
        obtain ⟨h0, h1, h2⟩ := hl n hn
        have e4 : toU32 (n + (0 : Int) * ((67081 : Nat) : Int)) = n.toNat := by
          unfold toU32
          rw [zero_mul, add_zero, Int.emod_eq_of_lt h0 (by omega)]
        rw [if_pos ⟨le_refl _, by norm_num, h0, h1⟩, e4, rd_row_253 _ (by omega),
          if_neg (show ¬ n.toNat = 33540 by omega), if_pos (by norm_num), Nat.cast_ofNat]
        simp only [f32Ops]
      have hsplit := forIncl_split (((33540 : Nat) : Int) - 33540) 33540
        (((33540 : Nat) : Int) + 33540) (by norm_num) (by norm_num)
      rw [hsplit, List.foldl_append, List.foldl_cons,
        hvalid _ (fun n hn => by have := mem_forIncl hn; omega)]
      have ec : ∀ s : F32 × Nat,
          (if 0 ≤ (0 : Int) ∧ (0 : Int) < 1 ∧ 0 ≤ (33540 : Int) ∧ (33540 : Int) < 67081 then
            if rd ((List.replicate 67081 253).set 33540 0)
                (toU32 ((33540 : Int) + (0 : Int) * ((67081 : Nat) : Int))) > 0 then
              (f32Ops.add s.1 (f32Ops.ofInt (rd ((List.replicate 67081 253).set 33540 0)
                (toU32 ((33540 : Int) + (0 : Int) * ((67081 : Nat) : Int))) : Int)),
                u32 (s.2 + 1))
            else s
          else s) = s := by
        intro s
        have e4 : toU32 ((33540 : Int) + (0 : Int) * ((67081 : Nat) : Int)) = 33540 := by decide
        rw [e4, rd_row_253 _ (by norm_num), if_pos rfl]
        simp
      rw [ec, hvalid _ (fun n hn => by have := mem_forIncl hn; omega), length_forIncl,
        length_forIncl, ← Function.iterate_add_apply]
      rfl
    unfold SimpleDepthEstimator.occlusionSums
    have e1 : i32 33540 = 33540 := by decide
    have houter := forIncl_split (((0 : Nat) : Int) - 33540) 0 (((0 : Nat) : Int) + 33540)
      (by norm_num) (by norm_num)
    have hskip : ∀ (l : List Int), (∀ m ∈ l, m ≠ 0) → ∀ acc : F32 × Nat,
        l.foldl (fun acc m =>
          (forIncl (((33540 : Nat) : Int) - i32 33540) (((33540 : Nat) : Int) + i32 33540)).foldl
            (fun acc n =>
              if 0 ≤ m ∧ m < i32 1 ∧ 0 ≤ n ∧ n < i32 67081 then
                if rd ((List.replicate 67081 253).set 33540 0)
                    (toU32 (n + m * ((67081 : Nat) : Int))) > 0 then
                  (f32Ops.add acc.1 (f32Ops.ofInt (rd ((List.replicate 67081 253).set 33540 0)
                    (toU32 (n + m * ((67081 : Nat) : Int))) : Int)), u32 (acc.2 + 1))
                else acc
              else acc) acc) acc = acc := by
      intro l hl acc
      have e3 : i32 1 = 1 := by decide
      rw [List.foldl_ext _ (fun acc _ => acc) acc (fun a m hm => by
        rw [List.foldl_ext _ (fun acc _ => acc) a (fun b n _ => by
          rw [e3, if_neg (by have := hl m hm; omega)])]
        exact foldl_id _ _)]
      exact foldl_id _ _
    rw [e1] at hskip hrow ⊢
    rw [houter, List.foldl_append, List.foldl_cons,
      hskip _ (fun m hm => by have := mem_forIncl hm; omega),
      hskip _ (fun m hm => by have := mem_forIncl hm; omega)]
    rw [hrow]
    exact numer_of_253 _ (fun _ => rfl)
  refine ⟨⟨by decide, by decide, by decide, by decide!, by decide!, by decide!⟩,
    himg, rd_row_253, hsums, by norm_num, by norm_num, ?_⟩
  unfold SimpleDepthEstimator.occlusionFill
  have e2 : (i32 67081).toNat = 67081 := by decide
  have e3 : (i32 1).toNat = 1 := by decide
  rw [e2, e3, getElem?_raster _ _ _ 0 33540 (by norm_num) (by norm_num)]
  unfold SimpleDepthEstimator.occlusionPixel
  have e4 : toU32 (((33540 : Nat) : Int) + ((0 : Nat) : Int) * ((67081 : Nat) : Int)) = 33540 := by
    decide
  rw [e4, rd_row_253 _ (by norm_num), if_pos rfl, if_neg (by norm_num)]
  simp only []
  rw [hsums]
  decide!

/-! ## The whole pipeline on two identical constant images -/

/-- In a work-item with `m < radius` or `n < radius` the window loops of the `occlusion`
kernel do not run: `numer` and `denom` stay `0`. -/
theorem kernel_occlusion_near_origin {F : Type} (ops : FloatOps F) (img : List Nat)
    (w h R m n : Nat) (hR : R < 2 ^ 31) (hmn : m < R ∨ n < R) :
    CLDepthEstimator2.occlusionSums ops img w h R (m : Int) (n : Int) = (ops.ofInt 0, 0) := by
  unfold CLDepthEstimator2.occlusionSums
  rcases hmn with hm | hn
  · rw [forInclU_empty m R hm hR]
    simp only [List.foldl_nil]
    exact foldl_id _ _
  · rw [forInclU_empty n R hn hR]
    rfl

/-- C21 fails on the code. The `2 × 1` image `[0, 5]` with `Ro = 1`, pixel `(0, 0)`, where
`x < Ro` and `y < Ro`: the pixel is `0` and has the valid pixel `(1, 0)` in its window. The CPU
reference counts `denom = 1`, sums `numer = 5` and stores `5`. In the kernel the tests
`i <= n + radius` and `j <= m + radius` compare `(uint) -1 = 4294967295` with `1`, the
loops do not run, `denom` and `numer` stay `0` and the byte stored is the conversion of
`0.0f / 0`, which is undefined. This is so in exact arithmetic and in binary32 alike. -/
theorem occlusion_kernel_skips_window :
    IsImage [0, 5] 2 1 ∧ rd [0, 5] (0 + 0 * 2) = 0 ∧
    SimpleDepthEstimator.pixelAt [0, 5] 2 1 1 0 = 5 ∧
    (SimpleDepthEstimator.occlusionSums realOps [0, 5] 2 1 1 0 0).2 = 1 ∧
    (SimpleDepthEstimator.occlusionSums realOps [0, 5] 2 1 1 0 0).1 = FVal.fin 5 ∧
    (SimpleDepthEstimator.occlusionFill realOps [0, 5] 2 1 1)[0 + 0 * 2]? = some (some 5) ∧
    CLDepthEstimator2.occlusionSums realOps [0, 5] 2 1 1 0 0 = (realOps.ofInt 0, 0) ∧
    CLDepthEstimator2.occlusionItem realOps [0, 5] 2 1 1 0 0 = some (0, none) ∧
    SimpleDepthEstimator.occlusionSums f32Ops [0, 5] 2 1 1 0 0 = (f32Ops.ofInt 5, 1) ∧
    (SimpleDepthEstimator.occlusionFill f32Ops [0, 5] 2 1 1)[0 + 0 * 2]? = some (some 5) ∧
    CLDepthEstimator2.occlusionSums f32Ops [0, 5] 2 1 1 0 0 = (f32Ops.ofInt 0, 0) ∧
    CLDepthEstimator2.occlusionItem f32Ops [0, 5] 2 1 1 0 0 = some (0, none) := by
  have himg : IsImage [0, 5] 2 1 := by decide
  have hcnt : SimpleDepthEstimator.validCount [0, 5] 2 1 1 0 0 = 1 := by decide
  have hsum : SimpleDepthEstimator.validSum [0, 5] 2 1 1 0 0 = 5 := by decide
  have hk := kernel_occlusion_near_origin realOps [0, 5] 2 1 1 0 0 (by norm_num)
    (Or.inl (by norm_num))
  refine ⟨himg, by decide, by decide, ?_, ?_, ?_, hk, ?_, by decide!, by decide!, by decide!,
    by decide!⟩
  · have := SimpleDepthEstimator.occlusionSums_snd realOps [0, 5] 2 1 1 0 0 (by norm_num)
      (by norm_num) (by norm_num) (by norm_num)
    rw [hcnt] at this
    exact this
  · have := SimpleDepthEstimator.occlusionSums_fst [0, 5] 2 1 1 0 0 (by norm_num)
      (by norm_num) (by norm_num) (by norm_num)
    rw [hsum] at this
    simpa using this
  · unfold SimpleDepthEstimator.occlusionFill
    rw [i32_of_lt (n := 2) (by norm_num), i32_of_lt (n := 1) (by norm_num), Int.toNat_ofNat,
      Int.toNat_ofNat, getElem?_raster _ _ _ 0 0 (by norm_num) (by norm_num)]
    have hp := SimpleDepthEstimator.occlusionPixel_of_zero [0, 5] 2 1 1 0 0 himg (by norm_num)
      (by norm_num) (by norm_num) (by decide)
    rw [hcnt, hsum] at hp
    exact congrArg some hp
  · unfold CLDepthEstimator2.occlusionItem
    rw [if_pos (by decide), if_neg (by decide)]
    simp only []
    have hk' : CLDepthEstimator2.occlusionSums realOps [0, 5] 2 1 1 ((0 : Nat) : Int)
        ((0 : Nat) : Int) = (realOps.ofInt 0, 0) := hk
    rw [hk']
    simp [realOps, FVal.div, FVal.toU8, toU32]

/-! ## The disparity scan stays inside the image row -/

/-- The scan leaves either the disparity it started with or a candidate that it reached
without a `break`. -/
theorem disparityScan_snd_scanned {F : Type} (ops : FloatOps F) (stop : Nat → Bool)
    (zncc : Nat → F) (k d : Nat) (s : F × Nat) :
    (disparityScan ops stop zncc k d s).2 = s.2 ∨
      ∃ e, d ≤ e ∧ e < d + k ∧ (∀ e1, d ≤ e1 → e1 ≤ e → stop e1 = false) ∧
        (disparityScan ops stop zncc k d s).2 = u8 e := by
  induction k generalizing d s with
  | zero => left; rfl
  | succ k ih =>
    unfold disparityScan
    by_cases hs : stop d = true
    · rw [if_pos hs]; left; rfl
    · rw [if_neg hs]
      have hsd : stop d = false := by simpa using hs
      have hext : ∀ e, d + 1 ≤ e → (∀ e1, d + 1 ≤ e1 → e1 ≤ e → stop e1 = false) →
          ∀ e1, d ≤ e1 → e1 ≤ e → stop e1 = false := by
        intro e _ h e1 h1 h2
        by_cases he : e1 = d
        · rw [he]; exact hsd
        · exact h e1 (by omega) h2
      split
      · rcases ih (d + 1) (zncc d, u8 d) with h | ⟨e, h1, h2, h3, h4⟩
        · right
          refine ⟨d, le_refl _, by omega, ?_, h⟩
          intro e1 h5 h6
          have : e1 = d := by omega
          rw [this]; exact hsd
        · right; exact ⟨e, by omega, by omega, hext e h1 h3, h4⟩
      · rcases ih (d + 1) s with h | ⟨e, h1, h2, h3, h4⟩
        · left; exact h
        · right; exact ⟨e, by omega, by omega, hext e h1 h3, h4⟩

/-- The output of a scan started at candidate `0` with disparity `0` is at most a scanned
candidate, or `0`. -/
theorem disparityScan_le_scanned {F : Type} (ops : FloatOps F) (stop : Nat → Bool)
    (zncc : Nat → F) (D : Nat) (top : F) :
    (disparityScan ops stop zncc D 0 (top, 0)).2 = 0 ∨
      ∃ e, Scanned stop D e ∧ (disparityScan ops stop zncc D 0 (top, 0)).2 ≤ e := by
  rcases disparityScan_snd_scanned ops stop zncc D 0 (top, 0) with h | ⟨e, _, h2, h3, h4⟩
  · left; exact h
  · right
    refine ⟨e, ⟨by omega, fun e1 he1 => h3 e1 (Nat.zero_le _) he1⟩, ?_⟩
    rw [h4]
    exact Nat.mod_le _ _

/-- An output that is `0` or at most a candidate inside the row is inside the row. -/
theorem inside_of_le_scanned (w x dstar : Nat) (direction : Int)
    (hdir : direction = 1 ∨ direction = -1) (hx : x < w)
    (h : dstar = 0 ∨ ∃ e : Nat, (0 ≤ (x : Int) + direction * e ∧ (x : Int) + direction * e < w) ∧
      dstar ≤ e) :
    0 ≤ (x : Int) + direction * dstar ∧ (x : Int) + direction * dstar < w := by
  rcases h with h | ⟨e, ⟨h1, h2⟩, h3⟩
  · subst h
    simp
    exact hx
  · rcases hdir with hd | hd <;> subst hd <;> constructor <;> omega

theorem i32_range (n : Nat) : -(2 ^ 31 : Int) ≤ i32 n ∧ i32 n < 2 ^ 31 := by
  unfold i32
  split_ifs <;> constructor <;> omega

/-- A counter of a kernel window loop that is not negative is below `2 ^ 32`. -/
theorem forInclU_mem_lt (lo : Int) (hi : Nat) (z : Int) (hlo : -(2 ^ 31 : Int) ≤ lo)
    (hlo2 : lo < 2 ^ 31) (hhi : hi < 2 ^ 32) (hz : z ∈ CLDepthEstimator2.forInclU lo hi)
    (h0 : 0 ≤ z) : z < 2 ^ 32 := by
  unfold CLDepthEstimator2.forInclU at hz
  split_ifs at hz with hc
  · obtain ⟨k, hk, rfl⟩ := List.mem_map.1 hz
    have hk1 := List.mem_range.1 hk
    unfold toU32 at hc hk1
    omega
  · cases hz

/-- Every read of the CPU window loops for a candidate inside the row is inside the image,
the read of `mean_1` in the row of the pixel. -/
theorem cpu_reads_in_row (w h R x y d : Nat) (direction : Int) (hwh : w * h < 2 ^ 31)
    (hx : x < w) (hy : y < h)
    (hin : 0 ≤ (x : Int) + direction * d ∧ (x : Int) + direction * d < w)
    (p : Nat × Nat)
    (hp : p ∈ SimpleDepthEstimator.znccReads w h R direction (y : Int) (x : Int) d) :
    (∃ c r : Nat, c < w ∧ r < h ∧ p.1 = c + r * w) ∧ (∃ c : Nat, c < w ∧ p.2 = c + y * w) := by
  obtain ⟨hw31, hh31⟩ := SimpleDepthEstimator.dims_lt_of_pixel hwh hx hy
  unfold SimpleDepthEstimator.znccReads at hp
  rw [i32_of_lt hw31, i32_of_lt hh31] at hp
  obtain ⟨m, _, hp⟩ := List.mem_flatMap.1 hp
  obtain ⟨n, _, hp⟩ := List.mem_filterMap.1 hp
  split_ifs at hp with hg
  obtain ⟨g1, g2, g3, g4, _, _⟩ := hg
  have hp' := (Option.some.inj hp).symm
  subst hp'
  have e1 : n + m * (w : Int) + direction * d = (n + direction * d) + m * (w : Int) := by ring
  have e2 : (x : Int) + (y : Int) * (w : Int) + direction * d
      = ((x : Int) + direction * d) + (y : Int) * (w : Int) := by ring
  refine ⟨⟨(n + direction * d).toNat, m.toNat, by omega, by omega, ?_⟩,
    ⟨((x : Int) + direction * d).toNat, by omega, ?_⟩⟩
  · show toU32 (n + m * (w : Int) + direction * d) = _
    rw [e1, SimpleDepthEstimator.toU32_index hwh g3 g4 g1 g2]
  · show toU32 ((x : Int) + (y : Int) * (w : Int) + direction * d) = _
    rw [e2, SimpleDepthEstimator.toU32_index hwh hin.1 hin.2 (by omega) (by omega)]
    simp

/-- Every read of the kernel window loops for a candidate inside the row is inside the
image, the read of `mean_1` in the row of the pixel. -/
theorem kernel_reads_in_row (w h R x y d : Nat) (direction : Int) (hwh : w * h < 2 ^ 31)
    (hx : x < w) (hy : y < h) (hdir : direction = 1 ∨ direction = -1)
    (hin : 0 ≤ (x : Int) + direction * d ∧ (x : Int) + direction * d < w)
    (p : Nat × Nat)
    (hp : p ∈ CLDepthEstimator2.znccReads w h R direction (x : Int) (y : Int) d) :
    (∃ c r : Nat, c < w ∧ r < h ∧ p.1 = c + r * w) ∧ (∃ c : Nat, c < w ∧ p.2 = c + y * w) := by
  obtain ⟨hw31, hh31⟩ := SimpleDepthEstimator.dims_lt_of_pixel hwh hx hy
  unfold CLDepthEstimator2.znccReads at hp
  obtain ⟨i, hi, hp⟩ := List.mem_flatMap.1 hp
  obtain ⟨j, hj, hp⟩ := List.mem_filterMap.1 hp
  split_ifs at hp with hg
  obtain ⟨g1, g2, g3, g4, g5, g6⟩ := hg
  have hp' := (Option.some.inj hp).symm
  subst hp'
  have hi32 := forInclU_mem_lt _ _ i (i32_range _).1 (i32_range _).2
    (by unfold toU32; omega) hi g1
  have hj32 := forInclU_mem_lt _ _ j (i32_range _).1 (i32_range _).2
    (by unfold toU32; omega) hj g5
  have hiu := toU32_of_nonneg_lt g1 hi32
  have hju := toU32_of_nonneg_lt g5 hj32
  have hd : (d : Int) < 2 ^ 31 := by
    rcases hdir with hd | hd <;> subst hd <;> omega
  have hjd32 : j + direction * d < 2 ^ 32 := by
    rcases hdir with hd | hd <;> subst hd <;> omega
  have hjdu := toU32_of_nonneg_lt g3 hjd32
  have e1 : j + i * (w : Int) + direction * d = (j + direction * d) + i * (w : Int) := by ring
  have e2 : (x : Int) + (y : Int) * (w : Int) + direction * d
      = ((x : Int) + direction * d) + (y : Int) * (w : Int) := by ring
  refine ⟨⟨(j + direction * d).toNat, i.toNat, by omega, by omega, ?_⟩,
    ⟨((x : Int) + direction * d).toNat, by omega, ?_⟩⟩
  · show toU32 (j + i * (w : Int) + direction * d) = _
    rw [e1, SimpleDepthEstimator.toU32_index hwh g3 (by omega) g1 (by omega)]
  · show toU32 ((x : Int) + (y : Int) * (w : Int) + direction * d) = _
    rw [e2, SimpleDepthEstimator.toU32_index hwh hin.1 hin.2 (by omega) (by omega)]
    simp

/-- C22: for every pixel `(x, y)` of a `w × h` image, every `D` and `direction` in
`{-1, +1}`, whatever the floating-point arithmetic: the candidates the scan goes through are
the `d < D` before the first one with `x + direction * d` outside `[0, w)`; the output `d*` of
the CPU reference and of the kernel satisfies `0 ≤ x + direction * d* < w`; and for every
candidate the scan goes through, every index read from `img_1` is `c + r * w` with `c < w` and
`r < h`, and every index read from `mean_1` is `c + y * w` with `c < w`. -/
theorem disparity_scan_in_row {F : Type} (ops : FloatOps F)
    (img_0 img_1 mean_0 mean_1 : List Nat) (w h R D x y : Nat) (direction : Int)
    (hwh : w * h < 2 ^ 31) (hx : x < w) (hy : y < h)
    (hdir : direction = 1 ∨ direction = -1) :
    (∀ d, Scanned (SimpleDepthEstimator.scanStop w direction (x : Int)) (i32 D).toNat d ↔
      d < (i32 D).toNat ∧ 0 ≤ (x : Int) + direction * d ∧ (x : Int) + direction * d < w) ∧
    (0 ≤ (x : Int) + direction * (SimpleDepthEstimator.calcDisparityPixel ops img_0 img_1
        mean_0 mean_1 w h R D direction (y : Int) (x : Int) : Nat) ∧
      (x : Int) + direction * (SimpleDepthEstimator.calcDisparityPixel ops img_0 img_1
        mean_0 mean_1 w h R D direction (y : Int) (x : Int) : Nat) < w) ∧
    (∀ d, Scanned (SimpleDepthEstimator.scanStop w direction (x : Int)) (i32 D).toNat d →
      ∀ p ∈ SimpleDepthEstimator.znccReads w h R direction (y : Int) (x : Int) d,
        (∃ c r : Nat, c < w ∧ r < h ∧ p.1 = c + r * w) ∧ (∃ c : Nat, c < w ∧ p.2 = c + y * w)) ∧
    (∀ d, Scanned (CLDepthEstimator2.scanStop w direction (x : Int)) D d ↔
      d < D ∧ 0 ≤ (x : Int) + direction * d ∧ (x : Int) + direction * d < w) ∧
    (0 ≤ (x : Int) + direction * (CLDepthEstimator2.disparityPixel ops img_0 img_1
        mean_0 mean_1 w h R D direction (x : Int) (y : Int) : Nat) ∧
      (x : Int) + direction * (CLDepthEstimator2.disparityPixel ops img_0 img_1
        mean_0 mean_1 w h R D direction (x : Int) (y : Int) : Nat) < w) ∧
    (∀ d, Scanned (CLDepthEstimator2.scanStop w direction (x : Int)) D d →
      ∀ p ∈ CLDepthEstimator2.znccReads w h R direction (x : Int) (y : Int) d,
        (∃ c r : Nat, c < w ∧ r < h ∧ p.1 = c + r * w) ∧ (∃ c : Nat, c < w ∧ p.2 = c + y * w)) := by
  obtain ⟨hw31, hh31⟩ := SimpleDepthEstimator.dims_lt_of_pixel hwh hx hy
  have hcpu := cpu_scanned_iff w (i32 D).toNat x direction hdir hw31 hx
  have hker := kernel_scanned_iff w D x direction hdir hw31 hx
  refine ⟨hcpu, ?_, ?_, hker, ?_, ?_⟩
  · apply inside_of_le_scanned w x _ direction hdir hx
    unfold SimpleDepthEstimator.calcDisparityPixel SimpleDepthEstimator.calcDisparityState
    rcases disparityScan_le_scanned ops (SimpleDepthEstimator.scanStop w direction (x : Int))
      (SimpleDepthEstimator.znccAt ops img_0 img_1 mean_0 mean_1 w h R direction (y : Int)
        (x : Int)) (i32 D).toNat (ops.ofInt (-1)) with h0 | ⟨e, he, hle⟩
    · left; exact h0
    · right; exact ⟨e, ((hcpu e).1 he).2, hle⟩
  · intro d hd p hp
    exact cpu_reads_in_row w h R x y d direction hwh hx hy ((hcpu d).1 hd).2 p hp
  · apply inside_of_le_scanned w x _ direction hdir hx
    unfold CLDepthEstimator2.disparityPixel CLDepthEstimator2.disparityState
    rcases disparityScan_le_scanned ops (CLDepthEstimator2.scanStop w direction (x : Int))
      (CLDepthEstimator2.znccAt ops img_0 img_1 mean_0 mean_1 w h R direction (x : Int)
        (y : Int)) D (ops.ofInt (-1)) with h0 | ⟨e, he, hle⟩
    · left; exact h0
    · right; exact ⟨e, ((hker e).1 he).2, hle⟩
  · intro d hd p hp
    exact kernel_reads_in_row w h R x y d direction hwh hx hy hdir ((hker d).1 hd).2 p hp

theorem disparity_scan_in_row_witness :
    0 ≤ ((2 : Nat) : Int) + (-1) * (SimpleDepthEstimator.calcDisparityPixel intOps
        [1, 2, 3, 4, 5, 6] [2, 3, 4, 5, 6, 7] [3, 3, 3, 3, 3, 3] [4, 4, 4, 4, 4, 4] 3 2 1 3 (-1)
        ((1 : Nat) : Int) ((2 : Nat) : Int) : Nat) ∧
    ((2 : Nat) : Int) + (-1) * (SimpleDepthEstimator.calcDisparityPixel intOps
        [1, 2, 3, 4, 5, 6] [2, 3, 4, 5, 6, 7] [3, 3, 3, 3, 3, 3] [4, 4, 4, 4, 4, 4] 3 2 1 3 (-1)
        ((1 : Nat) : Int) ((2 : Nat) : Int) : Nat) < (3 : Nat) :=
  (disparity_scan_in_row intOps [1, 2, 3, 4, 5, 6] [2, 3, 4, 5, 6, 7] [3, 3, 3, 3, 3, 3]
    [4, 4, 4, 4, 4, 4] 3 2 1 3 2 1 (-1) (by decide) (by decide) (by decide) (by decide)).2.1

/-! ## Local memory of the `filter` and `downsample` kernels -/

/-- C26 fails on the code. In the work-group `(0, 0)` of an `8 × 8` image the work-item with
local id `(0, 7)` stores at the tile indices `224, 225, 226` (`ly = 14`), `240, 241, 242`
(`ly = 15`) and `256, 257, 258` (`ly = 2 * 7 + 2 = 16`): the last three are not below `256`,
the number of floats allocated for the tile. The work-item `(7, 7)` reaches `16 + 16 * 16 =
272`. -/
theorem filter_stage_leaves_tile :
    CLDepthEstimator2.filterTileFloats = 256 ∧
    (CLDepthEstimator2.filterStage f32Ops (List.replicate (8 * 8) 0) 8 8 0 0 0 7).map Prod.fst
      = [224, 225, 226, 240, 241, 242, 256, 257, 258] ∧
    (CLDepthEstimator2.filterStage f32Ops (List.replicate (8 * 8) 0) 8 8 0 0 7 7).map Prod.fst
      = [238, 239, 240, 254, 255, 256, 270, 271, 272] ∧
    ¬ (∀ lm, lm < 8 → ∀ ln, ln < 8 →
      ∀ k ∈ (CLDepthEstimator2.filterStage f32Ops (List.replicate (8 * 8) 0) 8 8 0 0 lm ln).map
        Prod.fst, k < CLDepthEstimator2.filterTileFloats) := by
  have h1 : (CLDepthEstimator2.filterStage f32Ops (List.replicate (8 * 8) 0) 8 8 0 0 0 7).map
      Prod.fst = [224, 225, 226, 240, 241, 242, 256, 257, 258] := by decide!
  refine ⟨rfl, h1, by decide!, ?_⟩
  intro h
  have := h 0 (by norm_num) 7 (by norm_num) 256 (by rw [h1]; decide)
  exact absurd this (by decide)

/-- C27 fails on the code. The `16 × 16` image of value `1`, work-group `(0, 0)`, all of whose
`64` work-items are inside the image. The work-item with local id `(7, 2)` stores the pixel
`(12, 0)`, a `1`, at `lx + ly * 16 = 16 + 4 * 16 = 80`; the work-item `(0, 2)` stores the zero
of the padding for `(-4, 1)` at `0 + 5 * 16 = 80`. The two stores hit the same cell with
different values, so the cell `(lx, ly) = (0, 5)` holds the zero-padded pixel `(-4, 1)` only
if the second store comes last. -/
theorem filter_stage_conflict :
    (80, f32Ops.ofInt 1) ∈ CLDepthEstimator2.filterStage f32Ops (List.replicate (16 * 16) 1)
      16 16 0 0 7 2 ∧
    (80, f32Ops.ofInt 0) ∈ CLDepthEstimator2.filterStage f32Ops (List.replicate (16 * 16) 1)
      16 16 0 0 0 2 ∧
    f32Ops.ofInt 1 ≠ f32Ops.ofInt 0 ∧
    CLDepthEstimator2.tileOf f32Ops (List.replicate (16 * 16) 1) 16 16 0 0 80 = f32Ops.ofInt 0 ∧
    (∀ lm, lm < 8 → ∀ ln, ln < 8 →
      CLDepthEstimator2.filterStage f32Ops (List.replicate (16 * 16) 1) 16 16 0 0 lm ln ≠ []) := by
  refine ⟨by decide!, by decide!, by decide!, by decide!, by decide!⟩

/-- C28 fails on the code. The work-items with local ids `(2, 0)` and `(0, 1)` both use the
scratch cells `8, 9, 10, 11`. On the `32 × 32` image whose pixel `(x, y)` is `y`, in
work-group `(0, 0)`, the first stores the pixels `(8..11, 0)`, all `0`, in cell `8` and the
second the pixels `(0..3, 4)`, all `4`; the allocation has room for `4` private cells in each
of the `64` work-items. -/
theorem downsample_scratch_collides :
    CLDepthEstimator2.downsampleScratchCells = 64 * 4 ∧
    CLDepthEstimator2.downsampleScratch 2 0 0 = CLDepthEstimator2.downsampleScratch 0 1 0 ∧
    (CLDepthEstimator2.downsampleStage f32Ops ((List.range (32 * 32)).map (fun k => k / 32))
      32 32 2 0 2 0).map Prod.fst = [8, 9, 10, 11] ∧
    (CLDepthEstimator2.downsampleStage f32Ops ((List.range (32 * 32)).map (fun k => k / 32))
      32 32 0 1 0 1).map Prod.fst = [8, 9, 10, 11] ∧
    (8, (f32Ops.ofInt 0, f32Ops.ofInt 0, f32Ops.ofInt 0, f32Ops.ofInt 0)) ∈
      CLDepthEstimator2.downsampleStage f32Ops ((List.range (32 * 32)).map (fun k => k / 32))
        32 32 2 0 2 0 ∧
    (8, (f32Ops.ofInt 4, f32Ops.ofInt 4, f32Ops.ofInt 4, f32Ops.ofInt 4)) ∈
      CLDepthEstimator2.downsampleStage f32Ops ((List.range (32 * 32)).map (fun k => k / 32))
        32 32 0 1 0 1 ∧
    f32Ops.ofInt 4 ≠ f32Ops.ofInt 0 := by
  refine ⟨by decide, by decide, by decide!, by decide!, by decide!, by decide!, by decide!⟩

/-! ## The output buffer of `createDepthMap` -/

/-- From a downsample factor of two on, the stores of `makeImgRGBA` stay inside the
`w * h` bytes of `grey[1]`. -/
theorem SimpleDepthEstimator.outputStores_fit (F w h : Nat) (hF : 2 ≤ F) (hF32 : F < 2 ^ 32)
    (hw : w < 2 ^ 32) (hh : h < 2 ^ 32) (hwh : w * h < 2 ^ 32) :
    ∀ k ∈ SimpleDepthEstimator.outputStores F w h, k < SimpleDepthEstimator.greyBytes w h := by
  intro k hk
  have e1 : u32 w = w := Nat.mod_eq_of_lt hw
  have e2 : u32 h = h := Nat.mod_eq_of_lt hh
  have e3 : u32 F = F := Nat.mod_eq_of_lt hF32
  have a1 : w / F ≤ w / 2 := Nat.div_le_div_left hF (by norm_num)
  have a2 : h / F ≤ h / 2 := Nat.div_le_div_left hF (by norm_num)
  have a3 : (w / F) * (h / F) ≤ (w / 2) * (h / 2) := Nat.mul_le_mul a1 a2
  have a4 : 2 * (w / 2) ≤ w := Nat.mul_div_le w 2
  have a5 : 2 * (h / 2) ≤ h := Nat.mul_div_le h 2
  have a6 : (2 * (w / 2)) * (2 * (h / 2)) ≤ w * h := Nat.mul_le_mul a4 a5
  have a7 : 4 * ((w / 2) * (h / 2)) = (2 * (w / 2)) * (2 * (h / 2)) := by ring
  have a8 : 4 * ((w / F) * (h / F)) ≤ w * h := by omega
  have e4 : u32 ((w / F) * (h / F)) = (w / F) * (h / F) := Nat.mod_eq_of_lt (by omega)
  simp only [SimpleDepthEstimator.outputStores, SimpleDepthEstimator.makeImgRGBAStores, e1,
    e2, e3, e4, forLt, List.mem_flatMap, List.mem_range', Nat.sub_zero] at hk
  obtain ⟨i, ⟨j, hj, rfl⟩, hk⟩ := hk
  have hi : 4 * (0 + 1 * j) + 3 < w * h := by omega
  have e5 : u32 ((0 + 1 * j) * 4) = (0 + 1 * j) * 4 := Nat.mod_eq_of_lt (by omega)
  have e6 : ∀ c, c ≤ 3 → u32 ((0 + 1 * j) * 4 + c) = (0 + 1 * j) * 4 + c :=
    fun c hc => Nat.mod_eq_of_lt (by omega)
  rw [e5, e6 1 (by norm_num), e6 2 (by norm_num), e6 3 (by norm_num)] at hk
  have e7 : SimpleDepthEstimator.greyBytes w h = w * h := Nat.mod_eq_of_lt hwh
  rw [e7]
  simp only [List.mem_cons, List.mem_singleton, List.not_mem_nil, or_false] at hk
  omega

/-- Claim C25, evaluated at downsample factor `1` on `2 × 2` inputs: `grey[1]` holds `4`
bytes, `makeImgRGBA` stores to the indices `0 .. 15` (so do the work-items of the `rgba`
kernel) and `writeImage` reads `16` bytes; twelve of the stores lie past the end of the
buffer. -/
theorem output_buffer_overrun_factor_one :
    SimpleDepthEstimator.greyBytes 2 2 = 4 ∧ CLDepthEstimator2.greyBytes 2 2 = 4 ∧
    SimpleDepthEstimator.outputStores 1 2 2 =
      [0, 1, 2, 3, 4, 5, 6, 7, 8, 9, 10, 11, 12, 13, 14, 15] ∧
    (forLt 0 4).flatMap (CLDepthEstimator2.rgbaItemStores (2 / 1) (2 / 1)) =
      [0, 1, 2, 3, 4, 5, 6, 7, 8, 9, 10, 11, 12, 13, 14, 15] ∧
    CLDepthEstimator2.writeImageLen (2 / 1) (2 / 1) = 16 ∧
    ¬ (∀ k ∈ SimpleDepthEstimator.outputStores 1 2 2, k < SimpleDepthEstimator.greyBytes 2 2) ∧
    ((SimpleDepthEstimator.outputStores 1 2 2).filter
      (fun k => decide (SimpleDepthEstimator.greyBytes 2 2 ≤ k))).length = 12 := by
  refine ⟨by decide, by decide, by decide, by decide, by decide, ?_, by decide⟩
  intro hall
  exact absurd (hall 15 (by decide)) (by decide)

/-! ## Host calls of `CLDepthEstimator2::createDepthMap` -/

/-- Claim C23: in the host calls of `createDepthMap`, every command that reads a buffer
written by an earlier command of the other queue is submitted after a `clFinish` of both
queues that follows the writer. The filters are the calls 18 and 21, the disparity passes the
calls 24 and 25 (each reading `down` and `mean` of the other queue) and `crosscheck` the call
28 (on queue 0, reading `grey[1]` written on queue 1); both queues are finished between every
filter and every disparity pass, and between every disparity pass and `crosscheck`; these
are the only submissions of the three kernels. -/
theorem cross_queue_reads_after_finish :
    CLDepthEstimator2.Host.CrossQueueOrdered CLDepthEstimator2.Host.createDepthMap ∧
    (∀ j, j < 2 → CLDepthEstimator2.Host.callAt CLDepthEstimator2.Host.createDepthMap
        (18 + 3 * j) =
      CLDepthEstimator2.Host.Call.enqueueNDRangeKernel j CLDepthEstimator2.Host.Kernel.filter
        [CLDepthEstimator2.Host.Mem.down j] [CLDepthEstimator2.Host.Mem.mean j] (2 + j * 3)) ∧
    (∀ i, i < 2 → CLDepthEstimator2.Host.callAt CLDepthEstimator2.Host.createDepthMap (24 + i) =
      CLDepthEstimator2.Host.Call.enqueueNDRangeKernel i
        CLDepthEstimator2.Host.Kernel.disparity
        [CLDepthEstimator2.Host.Mem.down i, CLDepthEstimator2.Host.Mem.down (1 - i),
          CLDepthEstimator2.Host.Mem.mean i, CLDepthEstimator2.Host.Mem.mean (1 - i)]
        [CLDepthEstimator2.Host.Mem.grey i] (6 + i)) ∧
    CLDepthEstimator2.Host.callAt CLDepthEstimator2.Host.createDepthMap 28 =
      CLDepthEstimator2.Host.Call.enqueueNDRangeKernel 0
        CLDepthEstimator2.Host.Kernel.crosscheck
        [CLDepthEstimator2.Host.Mem.grey 0, CLDepthEstimator2.Host.Mem.grey 1]
        [CLDepthEstimator2.Host.Mem.grey 0] 8 ∧
    (∀ i, i < 2 → ∀ j, j < 2 → ∀ k, k < 2 → CLDepthEstimator2.Host.FinishedBetween
      CLDepthEstimator2.Host.createDepthMap (18 + 3 * j) (24 + i) k) ∧
    (∀ i, i < 2 → ∀ k, k < 2 → CLDepthEstimator2.Host.FinishedBetween
      CLDepthEstimator2.Host.createDepthMap (24 + i) 28 k) ∧
    CLDepthEstimator2.Host.createDepthMap.filterMap (fun c => match c with
      | CLDepthEstimator2.Host.Call.enqueueNDRangeKernel _ k _ _ _ => some k
      | _ => none) =
      [CLDepthEstimator2.Host.Kernel.greyscale, CLDepthEstimator2.Host.Kernel.downsample,
        CLDepthEstimator2.Host.Kernel.filter, CLDepthEstimator2.Host.Kernel.greyscale,
        CLDepthEstimator2.Host.Kernel.downsample, CLDepthEstimator2.Host.Kernel.filter,
        CLDepthEstimator2.Host.Kernel.disparity, CLDepthEstimator2.Host.Kernel.disparity,
        CLDepthEstimator2.Host.Kernel.crosscheck, CLDepthEstimator2.Host.Kernel.occlusion,
        CLDepthEstimator2.Host.Kernel.rgba] := by
  refine ⟨by decide, by decide, by decide, by decide, by decide, by decide, by decide⟩

/-- The events of `createDepthMap` are the eleven created by its kernel submissions, and the
host calls release none of them: the claim that each is released exactly once fails. -/
theorem events_not_released :
    CLDepthEstimator2.Host.eventsCreated CLDepthEstimator2.Host.createDepthMap =
      [0, 1, 2, 3, 4, 5, 6, 7, 8, 9, 10] ∧
    CLDepthEstimator2.Host.createDepthMap.count (CLDepthEstimator2.Host.Call.releaseEvent 0)
      = 0 ∧
    ¬ ((∀ m ∈ CLDepthEstimator2.Host.created CLDepthEstimator2.Host.createDepthMap,
        CLDepthEstimator2.Host.createDepthMap.count
          (CLDepthEstimator2.Host.Call.releaseMemObject m) = 1) ∧
      ∀ e ∈ CLDepthEstimator2.Host.eventsCreated CLDepthEstimator2.Host.createDepthMap,
        CLDepthEstimator2.Host.createDepthMap.count
          (CLDepthEstimator2.Host.Call.releaseEvent e) = 1) := by
  refine ⟨by decide, by decide, ?_⟩
  rintro ⟨-, hev⟩
  exact absurd (hev 0 (by decide)) (by decide)

/-- Claim C24, amended: `createDepthMap` creates eleven device buffers (the staging buffer
and the image of each `loadImage`, two `grey`, two `down`, two `mean`, the staging buffer of
`writeImage`), each once, and releases each exactly once; the creation is the first and the
release the last host call that names the buffer. Its kernel submissions create the events
`0 .. 10`, and no host call releases an event. -/
theorem buffers_released_once :
    CLDepthEstimator2.Host.created CLDepthEstimator2.Host.createDepthMap =
      [CLDepthEstimator2.Host.Mem.staging 0, CLDepthEstimator2.Host.Mem.img 0,
        CLDepthEstimator2.Host.Mem.staging 1, CLDepthEstimator2.Host.Mem.img 1,
        CLDepthEstimator2.Host.Mem.grey 0, CLDepthEstimator2.Host.Mem.grey 1,
        CLDepthEstimator2.Host.Mem.down 0, CLDepthEstimator2.Host.Mem.down 1,
        CLDepthEstimator2.Host.Mem.mean 0, CLDepthEstimator2.Host.Mem.mean 1,
        CLDepthEstimator2.Host.Mem.staging 2] ∧
    (∀ m ∈ CLDepthEstimator2.Host.created CLDepthEstimator2.Host.createDepthMap,
      CLDepthEstimator2.Host.createDepthMap.count
        (CLDepthEstimator2.Host.Call.createBuffer m) = 1 ∧
      CLDepthEstimator2.Host.createDepthMap.count
        (CLDepthEstimator2.Host.Call.releaseMemObject m) = 1 ∧
      (CLDepthEstimator2.Host.usesOf CLDepthEstimator2.Host.createDepthMap m).head? =
        some (CLDepthEstimator2.Host.createDepthMap.indexOf
          (CLDepthEstimator2.Host.Call.createBuffer m)) ∧
      (CLDepthEstimator2.Host.usesOf CLDepthEstimator2.Host.createDepthMap m).getLast? =
        some (CLDepthEstimator2.Host.createDepthMap.indexOf
          (CLDepthEstimator2.Host.Call.releaseMemObject m)) ∧
      CLDepthEstimator2.Host.createDepthMap.indexOf
          (CLDepthEstimator2.Host.Call.releaseMemObject m) <
        CLDepthEstimator2.Host.createDepthMap.length) ∧
    CLDepthEstimator2.Host.eventsCreated CLDepthEstimator2.Host.createDepthMap =
      List.range 11 ∧
    (∀ c ∈ CLDepthEstimator2.Host.createDepthMap, ∀ e ∈
      CLDepthEstimator2.Host.eventsCreated CLDepthEstimator2.Host.createDepthMap,
      c ≠ CLDepthEstimator2.Host.Call.releaseEvent e) := by
  refine ⟨by decide, by decide, by decide, by decide⟩
